import Mathlib

/-!
# AxonCache: the Go binding and its native library

A shallow embedding of `axoncache.go` (the reader and writer wrappers) and of
the parts of `internal/core` they call, followed by a model of the native
library and by the theorems.

* Go `string` and `[]byte` values are byte sequences; both are embedded as
  Lean `String` (one character per byte), so `[]byte(s)` and `string(b)` are
  the identity and `len` is `String.length`.
* Go `int`, `int8`, `int64` and C `int` values are embedded as `Int`.
* A Go method with a pointer receiver becomes a function that takes the
  receiver and returns the updated receiver alongside its results; the file
  system and the clock are passed explicitly.
* The native library behind cgo is not part of the Go sources.  Its entry
  points are passed to every wrapper as a record of functions over an
  abstract native object state (`ReaderCApi`, `WriterCApi`), so that what is
  proved of a wrapper holds for every native library.  Where a statement is
  about the native library itself, the library is modelled from the
  specification (`specReaderApi`, `specWriterApi`).
* The downloader and the cleanup of `internal/core` run on a `Host`: the
  file system, the paths a directory listing can show, the log of file
  effects, the coming values of `rand.Uint32()` and the requests sent.  The
  HTTP client (`CoreDownloader`) and the zstd decoder, the two hashes and
  `Fallocate` (`Codec`) are parameters.
-/

namespace AxonCache

/-! ## Go values -/

/-- Error values of the package.  `ErrNotFound` and `ErrUnInitialized` are the
two package-level sentinels; `plain` is a value built by `errors.New` or
`fmt.Errorf`; the last two are the pointer types `*OffSetBitsError` and
`*KeySpaceIsFullError` with their fields. -/
inductive GoError where
  | ErrNotFound
  | ErrUnInitialized
  | plain (msg : String)
  | OffSetBitsError (Err : String) (OffsetBits : Int)
  | KeySpaceIsFullError (Err : String)
deriving DecidableEq, Repr

/-- Method `Error` of each error value. -/
def GoError.Error : GoError → String
  | .ErrNotFound => "Key was not found"
  | .ErrUnInitialized => "No AxonCache file is loaded"
  | .plain msg => msg
  | .OffSetBitsError e _ => "✋ offset bits error: " ++ e
  | .KeySpaceIsFullError e => "✋ keyspace is full error: " ++ e

/-- A Go slice: `nil`, or a (possibly empty) allocated sequence.  The zero
value of a slice type is `nil`; the literal `[]T{}` is `mk []`. -/
inductive GoSlice (α : Type) where
  | nil
  | mk (elems : List α)
deriving DecidableEq, Repr

/-- Length of a Go slice (`len`). -/
def GoSlice.len {α : Type} : GoSlice α → Nat
  | .nil => 0
  | .mk l => l.length

/-- An IEEE-754 binary64 value, kept as its bit pattern (`0` is `+0.0`). -/
structure Float64 where
  bits : Nat
deriving DecidableEq, Repr

/-- An IEEE-754 binary32 value, kept as its bit pattern. -/
structure Float32 where
  bits : Nat
deriving DecidableEq, Repr

/-- Result of a call that returns `(value, error)`, or does not return
because the runtime panics (index out of range, nil native handle). -/
inductive Outcome (α : Type) where
  | ret (val : α) (err : Option GoError)
  | panic
deriving DecidableEq, Repr

/-! ## `strconv.ParseInt(s, 10, 64)` and `fmt.Sprint` of an `int64` -/

/-- The two failure kinds of `strconv`: `ErrSyntax` and `ErrRange`. -/
inductive NumErr where
  | syntaxErr
  | rangeErr
deriving DecidableEq, Repr

/-- Result of a `strconv` parse: the value, or the failure kind. -/
inductive Parsed (α : Type) where
  | ok (val : α)
  | error (e : NumErr)
deriving DecidableEq, Repr

/-- Value of a decimal digit byte; `none` for every other byte (letters have
a digit value of at least ten, which base 10 rejects as well). -/
def digitVal (c : Char) : Option Nat :=
  if 48 ≤ c.toNat ∧ c.toNat ≤ 57 then some (c.toNat - 48) else none

/-- The digit loop of `strconv.ParseUint` for base 10 and 64 bits. -/
def parseUintLoop : List Char → Nat → Parsed Nat
  | [], n => .ok n
  | c :: cs, n =>
    match digitVal c with
    | none => .error .syntaxErr
    | some d =>
      if n ≥ (2 ^ 64 - 1) / 10 + 1 then .error .rangeErr
      else if n * 10 + d > 2 ^ 64 - 1 then .error .rangeErr
      else parseUintLoop cs (n * 10 + d)

/-- Base 10, 64 bit `strconv.ParseUint`. -/
def ParseUint (s : List Char) : Parsed Nat :=
  match s with
  | [] => .error .syntaxErr
  | _ => parseUintLoop s 0

/-- Base 10, 64 bit `strconv.ParseInt` on the bytes of `s`. -/
def ParseIntChars (s : List Char) : Parsed Int :=
  match s with
  | [] => .error .syntaxErr
  | c :: cs =>
    let neg := c = '-'
    let rest := if c = '+' ∨ c = '-' then cs else c :: cs
    match ParseUint rest with
    | .error e => .error e
    | .ok un =>
      if ¬ neg ∧ un ≥ 2 ^ 63 then .error .rangeErr
      else if neg ∧ un > 2 ^ 63 then .error .rangeErr
      else .ok (if neg then - (un : Int) else (un : Int))

/-- Call `strconv.ParseInt(s, 10, 64)`. -/
def ParseInt (s : String) : Parsed Int :=
  ParseIntChars s.data

/-- One digit of the constant `lowerhex` of `strconv`. -/
def lowerhex (d : Nat) : Char :=
  if d < 10 then Char.ofNat (48 + d) else Char.ofNat (87 + d)

/-- Function `appendEscapedRune` of `strconv` as `Quote` calls it: the
double quote and the backslash get a backslash, a control character gets its
escape (`\a`, `\b`, `\f`, `\n`, `\r`, `\t`, `\v`, else `\x` and two hexadecimal
digits), and every other character is kept.  A character above 127 is taken
to be printable. -/
def escapedRune (r : Char) : List Char :=
  if r = '"' ∨ r = '\\' then ['\\', r]
  else if 32 ≤ r.toNat ∧ r.toNat ≠ 127 then [r]
  else if r.toNat = 7 then ['\\', 'a']
  else if r.toNat = 8 then ['\\', 'b']
  else if r.toNat = 12 then ['\\', 'f']
  else if r.toNat = 10 then ['\\', 'n']
  else if r.toNat = 13 then ['\\', 'r']
  else if r.toNat = 9 then ['\\', 't']
  else if r.toNat = 11 then ['\\', 'v']
  else ['\\', 'x', lowerhex (r.toNat / 16), lowerhex (r.toNat % 16)]

/-- Call `strconv.Quote(s)`. -/
def Quote (s : String) : String :=
  String.mk ('"' :: (s.data.map escapedRune).flatten ++ ['"'])

/-- Text of a `*strconv.NumError` of `ParseInt`. -/
def NumErr.Error (e : NumErr) (num : String) : String :=
  "strconv.ParseInt: parsing " ++ Quote num ++ ": " ++
    (match e with
     | .syntaxErr => "invalid syntax"
     | .rangeErr => "value out of range")

/-- Decimal digits of a natural number, most significant first, appended in
front of `acc`; `fuel` bounds the number of digits. -/
def decimalDigits : Nat → Nat → List Char → List Char
  | 0, _, acc => acc
  | fuel + 1, n, acc =>
    let acc1 := Char.ofNat (48 + n % 10) :: acc
    if n / 10 = 0 then acc1 else decimalDigits fuel (n / 10) acc1

/-- Rendering of an integer by `fmt.Sprint` and by the verb `%d`. -/
def FormatInt (i : Int) : String :=
  match i with
  | .ofNat n => String.mk (decimalDigits (n + 1) n [])
  | .negSucc n => String.mk ('-' :: decimalDigits (n + 2) (n + 1) [])

/-! ## Artifact data model and the file system -/

/-- Modelled from the spec: a data-arena record (section 3, "Data arena"):
key bytes, value bytes and the one-byte value-type tag.  `next` is the
displacement to the next record of the same bucket, used by the
bucket-chain variant only (section 4.3). -/
structure Record where
  key : String
  value : String
  valueType : Int
  next : Option Nat
deriving DecidableEq, Repr

/-- Modelled from the spec: a non-empty slot-array entry (section 3, "Slot
array"): an offset into the data arena and a fingerprint.  The empty,
all-zero entry is `none` in `Artifact.slots`. -/
structure SlotEntry where
  offset : Nat
  fingerprint : Nat
deriving DecidableEq, Repr

/-- Modelled from the spec: the header fields that the operations use
(section 3, "Header"). -/
structure Header where
  cacheType : Int
  numSlots : Nat
  offsetBits : Nat
deriving DecidableEq, Repr

/-- Modelled from the spec: the four sections of an artifact (section 3).
The arena keeps each record with the byte offset at which it starts. -/
structure Artifact where
  header : Header
  slots : List (Option SlotEntry)
  arena : List (Nat × Record)
  pool : List (String × Int)
deriving DecidableEq, Repr

/-- Content of a file: text (every file the Go code writes or reads itself)
or a cache artifact written by the native library. -/
inductive FileData where
  | text (s : String)
  | artifact (a : Artifact)
deriving DecidableEq, Repr

/-- The file system: the content of each path, and the paths at which no
file can be created or replaced (missing folder, permissions). -/
structure FS where
  files : String → Option FileData
  denied : String → Bool

/-- Call `os.WriteFile(path, data, 0644)`.  A failing write is taken to fail
when the file is opened, before anything is changed. -/
def WriteFile (fs : FS) (path : String) (data : String) : Option GoError × FS :=
  if fs.denied path then (some (.plain ("open " ++ path ++ ": permission denied")), fs)
  else (none, { fs with files := fun p => if p = path then some (.text data) else fs.files p })

/-- Call `os.Rename(oldpath, newpath)`. -/
def Rename (fs : FS) (oldpath newpath : String) : Option GoError × FS :=
  match fs.files oldpath with
  | none =>
    (some (.plain ("rename " ++ oldpath ++ " " ++ newpath ++ ": no such file or directory")), fs)
  | some d =>
    if fs.denied newpath then
      (some (.plain ("rename " ++ oldpath ++ " " ++ newpath ++ ": permission denied")), fs)
    else
      (none, { fs with files := fun p =>
        if p = newpath then some d else if p = oldpath then none else fs.files p })

/-! ## Properties files (`internal/core/properties.go`) -/

/-- Go type `Properties = map[string]string`, as the list of its entries
(keys are distinct). -/
abbrev Properties := List (String × String)

/-- Map assignment `properties[key] = value`. -/
def mapSet (p : Properties) (key value : String) : Properties :=
  (p.filter fun e => e.1 ≠ key) ++ [(key, value)]

/-- Map read `properties[key]`, the empty string for a missing key. -/
def mapGet (p : Properties) (key : String) : String :=
  match p.find? fun e => e.1 = key with
  | some e => e.2
  | none => ""

/-- Byte-wise `a <= b` on strings. -/
def bytesLe : List Char → List Char → Bool
  | [], _ => true
  | _ :: _, [] => false
  | a :: as, b :: bs =>
    if a.toNat < b.toNat then true
    else if a.toNat = b.toNat then bytesLe as bs
    else false

/-- Insert `x` into an ascending list. -/
def insertSorted (x : String) : List String → List String
  | [] => [x]
  | y :: ys => if bytesLe x.data y.data then x :: y :: ys else y :: insertSorted x ys

/-- Call `sort.Strings(keys)`. -/
def sortStrings (keys : List String) : List String :=
  keys.foldr insertSorted []

/-- Function `SerializeProperties`. -/
def SerializeProperties (properties : Properties) : String :=
  (sortStrings (properties.map Prod.fst)).foldl
    (fun content key => content ++ (key ++ "=" ++ mapGet properties key ++ "\n")) ""

/-- Function `WriteStringToFile` of `file_utils.go`; `rand` is the value of
`rand.Uint32()`. -/
def WriteStringToFile (fs : FS) (rand : Nat) (path text : String) : Option GoError × FS :=
  let tempFile := path ++ ".tmp." ++ FormatInt rand
  match WriteFile fs tempFile text with
  | (some e, fs1) => (some e, fs1)
  | (none, fs1) => Rename fs1 tempFile path

/-- Function `WritePropertiesFile`. -/
def WritePropertiesFile (fs : FS) (rand : Nat) (properties : Properties) (path : String) :
    Option GoError × FS :=
  WriteStringToFile fs rand path (SerializeProperties properties)

/-! ## Reader -/

/-- Result of a native getter with an `isExists` out-parameter. -/
structure Lookup (α : Type) where
  isExists : Int
  val : α

/-- The cgo entry points used by `CacheReader`, over native object state
`H`.  `Initialize` returns the C return code and the native object after the
call; the lookup functions do not change the native object. -/
structure ReaderCApi (H : Type) where
  Initialize : H → String → String → String → Int → Int × H
  ContainsKey : H → String → Int
  GetKey : H → String → Lookup String
  GetKeyType : H → String → Option String
  GetBool : H → String → Lookup Int
  GetInteger : H → String → Lookup Int
  GetLong : H → String → Lookup Int
  GetDouble : H → String → Lookup Float64
  GetVector : H → String → Option (List String)
  GetFloatVector : H → String → Option (List Float32)

/-- The method set of `CacheReaderInterface`, which is all an update callback
can use: `GetKey`. -/
abbrev CacheReaderInterface := String → Outcome String

/-- Go type `UpdateCallback func(CacheReaderInterface) error`. -/
abbrev UpdateCallback := CacheReaderInterface → Option GoError

/-- Go struct `CacheReader`.  `Handle` is `none` for a nil pointer.  `Stop`
is the state of the channel: `true` once it has been closed. -/
structure CacheReader (H : Type) where
  Handle : Option H
  TaskName : String
  DestinationFolder : String
  BaseUrls : String
  MostRecentFileTimestamp : Int
  Timestamp : String
  IsPreloadMemoryEnabled : Int
  UpdatePeriod : Nat
  StopClosed : Bool
  UpdateCallback : Option UpdateCallback

namespace CacheReader

variable {H : Type}

/-- Method `isInitialized`. -/
def isInitialized (c : CacheReader H) : Bool :=
  decide (c.MostRecentFileTimestamp > 0)

/-- Common shape of the typed getters after the initialisation guard:
`&k[0]` panics on an empty key, and the native call needs a live handle. -/
def withKey {α : Type} (c : CacheReader H) (key : String) (f : H → Outcome α) : Outcome α :=
  if key.length = 0 then .panic
  else
    match c.Handle with
    | none => .panic
    | some h => f h

/-- Method `ContainsKey`. -/
def ContainsKey (api : ReaderCApi H) (c : CacheReader H) (key : String) : Outcome Bool :=
  if ¬ c.isInitialized then .ret false (some .ErrUnInitialized)
  else withKey c key fun h => .ret (decide (api.ContainsKey h key ≠ 0)) none

/-- Method `GetKey`. -/
def GetKey (api : ReaderCApi H) (c : CacheReader H) (key : String) : Outcome String :=
  if ¬ c.isInitialized then .ret "" (some .ErrUnInitialized)
  else withKey c key fun h =>
    let r := api.GetKey h key
    if r.isExists = 0 then .ret "" (some .ErrNotFound) else .ret r.val none

/-- Method `GetKeyType`. -/
def GetKeyType (api : ReaderCApi H) (c : CacheReader H) (key : String) : Outcome String :=
  if ¬ c.isInitialized then .ret "" (some .ErrUnInitialized)
  else withKey c key fun h =>
    match api.GetKeyType h key with
    | none => .ret "" (some .ErrNotFound)
    | some s => .ret s none

/-- Method `GetBool`. -/
def GetBool (api : ReaderCApi H) (c : CacheReader H) (key : String) : Outcome Bool :=
  if ¬ c.isInitialized then .ret false (some .ErrUnInitialized)
  else withKey c key fun h =>
    let r := api.GetBool h key
    if r.isExists = 0 then .ret false (some .ErrNotFound) else .ret (decide (r.val ≠ 0)) none

/-- Method `GetInt`. -/
def GetInt (api : ReaderCApi H) (c : CacheReader H) (key : String) : Outcome Int :=
  if ¬ c.isInitialized then .ret 0 (some .ErrUnInitialized)
  else withKey c key fun h =>
    let r := api.GetInteger h key
    if r.isExists = 0 then .ret 0 (some .ErrNotFound) else .ret r.val none

/-- Method `GetLong`. -/
def GetLong (api : ReaderCApi H) (c : CacheReader H) (key : String) : Outcome Int :=
  if ¬ c.isInitialized then .ret 0 (some .ErrUnInitialized)
  else withKey c key fun h =>
    let r := api.GetLong h key
    if r.isExists = 0 then .ret 0 (some .ErrNotFound) else .ret r.val none

/-- Method `GetDouble`. -/
def GetDouble (api : ReaderCApi H) (c : CacheReader H) (key : String) : Outcome Float64 :=
  if ¬ c.isInitialized then .ret ⟨0⟩ (some .ErrUnInitialized)
  else withKey c key fun h =>
    let r := api.GetDouble h key
    if r.isExists = 0 then .ret ⟨0⟩ (some .ErrNotFound) else .ret r.val none

/-- Method `GetVector`. -/
def GetVector (api : ReaderCApi H) (c : CacheReader H) (key : String) :
    Outcome (GoSlice String) :=
  if ¬ c.isInitialized then .ret (.mk []) (some .ErrUnInitialized)
  else withKey c key fun h =>
    match api.GetVector h key with
    | none => .ret (.mk []) (some .ErrNotFound)
    | some l => .ret (.mk l) none

/-- Method `GetVectorFloat`. -/
def GetVectorFloat (api : ReaderCApi H) (c : CacheReader H) (key : String) :
    Outcome (GoSlice Float32) :=
  if ¬ c.isInitialized then .ret (.mk []) (some .ErrUnInitialized)
  else withKey c key fun h =>
    match api.GetFloatVector h key with
    | none => .ret (.mk []) (some .ErrNotFound)
    | some l => .ret (.mk l) none

end CacheReader

/-- What a call of `Update` leaves behind: the returned error (`none` is
`nil`), the receiver after the call, and the receiver as it was at each
invocation of the update callback, in order. -/
structure UpdateResult (H : Type) where
  err : Option GoError
  reader : CacheReader H
  calls : List (CacheReader H)

/-- Method `CacheReader.Update`. -/
def CacheReader.Update {H : Type} (api : ReaderCApi H) (c : CacheReader H)
    (timestamp : String) : UpdateResult H :=
  match c.Handle with
  | none => ⟨some (.plain "C handle is nil"), c, []⟩
  | some h =>
    match ParseInt timestamp with
    | .error e =>
      ⟨some (.plain ("Cannot convert timestamp " ++ timestamp ++ " to int, " ++
          e.Error timestamp)), c, []⟩
    | .ok mostRecentFileTimestamp =>
      let r := api.Initialize h c.TaskName c.DestinationFolder timestamp
        c.IsPreloadMemoryEnabled
      let c1 := { c with Handle := some r.2 }
      if r.1 ≠ 0 then
        ⟨some (.plain ("Error initializing reader, error code: " ++ FormatInt r.1)), c1, []⟩
      else
        let c2 := { c1 with MostRecentFileTimestamp := mostRecentFileTimestamp }
        match c.UpdateCallback with
        | none => ⟨none, c2, []⟩
        | some cb =>
          match cb (c2.GetKey api) with
          | some (e : GoError) =>
            ⟨some (.plain ("Error calling update callback: " ++ e.Error)), c2, [c2]⟩
          | none => ⟨none, c2, [c2]⟩

/-- What a call of `Delete` leaves behind: the receiver, and whether closing
the `Stop` channel panicked (it does when the channel is already closed). -/
structure DeleteResult (H : Type) where
  reader : CacheReader H
  panicked : Bool

/-- Method `CacheReader.Delete`. -/
def CacheReader.Delete {H : Type} (c : CacheReader H) : DeleteResult H :=
  let c1 := { c with MostRecentFileTimestamp := 0 }
  let c2 := { c1 with Handle := none }
  if c.StopClosed then ⟨c2, true⟩ else ⟨{ c2 with StopClosed := true }, false⟩

/-! ## Writer -/

/-- The cgo entry points used by `CacheWriter`, over native object state
`W`.  Each returns the C return code and the native object after the call.
`Initialize` reads the settings file; `FinishCacheCreation` writes the cache
file.  The value passed to `InsertKey` is `none` for the nil pointer. -/
structure WriterCApi (W : Type) where
  NewHandle : W
  Initialize : FS → W → String → String → Nat → Int × W
  InsertKey : W → String → Option String → Int → Int × W
  AddDuplicateValue : W → String → Int → W
  FinishAddDuplicateValues : W → Int × W
  FinishCacheCreation : FS → W → Int × W × FS

/-- Go struct `CacheWriterOptions`. -/
structure CacheWriterOptions where
  TaskName : String
  DestinationFolder : String
  SettingsLocation : String
  NumberOfKeySlots : Nat
  GenerateTimestampFile : Bool
  RenameCacheFile : Bool
  CacheType : Int
  OffsetBits : Int

/-- Go struct `CacheWriter`. -/
structure CacheWriter (W : Type) where
  Handle : Option W
  TaskName : String
  DestinationFolder : String
  GenerateTimestampFile : Bool
  RenameCacheFile : Bool
  OffsetBits : Int
  IsInitialized : Bool

/-- Results of `NewCacheWriter`: the writer, the error, the file system. -/
structure NewWriterResult (W : Type) where
  writer : CacheWriter W
  err : Option GoError
  fs : FS

/-- Default substitution of `NewCacheWriter` for the cache type. -/
def effectiveCacheType (options : CacheWriterOptions) : Int :=
  if options.CacheType = 0 then 5 else options.CacheType

/-- Default substitution of `NewCacheWriter` for the offset bits. -/
def effectiveOffsetBits (options : CacheWriterOptions) : Int :=
  if options.OffsetBits = 0 then 35 else options.OffsetBits

/-- The settings step of `NewCacheWriter`: with no settings location given,
a properties file is written to `<dest>/<task>.properties` (its write error
is dropped) and that path is used.  Returns the settings location and the
file system; `rand` feeds the temporary name of the properties file. -/
def prepareSettings (fs : FS) (rand : Nat) (options : CacheWriterOptions) : String × FS :=
  if options.SettingsLocation.length = 0 then
    let generated := options.DestinationFolder ++ "/" ++ options.TaskName ++ ".properties"
    let ccacheProperties : Properties :=
      mapSet (mapSet (mapSet [] "ccache.destination_folder" options.DestinationFolder)
        "ccache.type" (FormatInt (effectiveCacheType options)))
        "ccache.offset.bits" (FormatInt (effectiveOffsetBits options))
    (generated, (WritePropertiesFile fs rand ccacheProperties generated).2)
  else (options.SettingsLocation, fs)

/-- The call `C.CacheWriter_Initialize(...)` as `NewCacheWriter` makes it. -/
def nativeInitialize {W : Type} (api : WriterCApi W) (fs : FS) (rand : Nat)
    (options : CacheWriterOptions) : Int × W :=
  api.Initialize (prepareSettings fs rand options).2 api.NewHandle options.TaskName
    (prepareSettings fs rand options).1 options.NumberOfKeySlots

/-- Function `NewCacheWriter`. -/
def NewCacheWriter {W : Type} (api : WriterCApi W) (fs : FS) (rand : Nat)
    (options : CacheWriterOptions) : NewWriterResult W :=
  let alcacheWriter : CacheWriter W :=
    { Handle := some api.NewHandle
      TaskName := options.TaskName
      DestinationFolder := options.DestinationFolder
      GenerateTimestampFile := options.GenerateTimestampFile
      RenameCacheFile := options.RenameCacheFile
      OffsetBits := effectiveOffsetBits options
      IsInitialized := false }
  let fs1 := (prepareSettings fs rand options).2
  let r := nativeInitialize api fs rand options
  if r.1 ≠ 0 then
    ⟨{ alcacheWriter with Handle := some r.2 },
      some (.plain ("Error initializing writer, error code: " ++ FormatInt r.1)), fs1⟩
  else
    ⟨{ alcacheWriter with Handle := some r.2, IsInitialized := true }, none, fs1⟩

namespace CacheWriter

variable {W : Type}

/-- Method `isInitialized`. -/
def isInitialized (c : CacheWriter W) : Bool :=
  c.IsInitialized

/-- Method `InsertKey`: the returned value is the receiver after the call. -/
def InsertKey (api : WriterCApi W) (c : CacheWriter W) (k v : String) (keyType : Int) :
    Outcome (CacheWriter W) :=
  if ¬ c.isInitialized then .ret c (some .ErrUnInitialized)
  else if k.length = 0 then .ret c (some (.plain "Empty key"))
  else
    match c.Handle with
    | none => .panic
    | some h =>
      let r := if v.length = 0 then api.InsertKey h k none keyType
               else api.InsertKey h k (some v) keyType
      let c1 := { c with Handle := some r.2 }
      if r.1 ≠ 0 then
        let err := "Error inserting key \x27" ++ k ++ "\x27 : error code " ++ FormatInt r.1
        if r.1 = 2 then .ret c1 (some (.OffSetBitsError err c.OffsetBits))
        else if r.1 = 3 then .ret c1 (some (.KeySpaceIsFullError err))
        else .ret c1 (some (.plain err))
      else .ret c1 none

/-- Method `AddDuplicateValue`. -/
def AddDuplicateValue (api : WriterCApi W) (c : CacheWriter W) (value : String)
    (queryType : Int) : Outcome (CacheWriter W) :=
  match c.Handle with
  | none => .panic
  | some h => .ret { c with Handle := some (api.AddDuplicateValue h value queryType) } none

/-- Method `FinishAddDuplicateValues`. -/
def FinishAddDuplicateValues (api : WriterCApi W) (c : CacheWriter W) :
    Outcome (CacheWriter W) :=
  if ¬ c.isInitialized then .ret c (some .ErrUnInitialized)
  else
    match c.Handle with
    | none => .panic
    | some h =>
      let r := api.FinishAddDuplicateValues h
      let c1 := { c with Handle := some r.2 }
      if r.1 ≠ 0 then .ret c1 (some (.plain "Error setting duplicate values"))
      else .ret c1 none

end CacheWriter

/-- What `FinishCacheCreation` returns and leaves behind: the returned
string, the receiver, the file system at return, and the file system after
each effect on it, in the order the effects happen. -/
structure FinishState (W : Type) where
  timestamp : String
  writer : CacheWriter W
  fs : FS
  trace : List FS

/-- Path of the timestamp file, `<dest>/<task>.cache.timestamp.latest`. -/
def latestPath (dest task : String) : String :=
  dest ++ "/" ++ task ++ ".cache.timestamp.latest"

/-- Path of the cache file as the native library writes it,
`<dest>/<task>.cache`. -/
def cacheWithoutTimestamp (dest task : String) : String :=
  dest ++ "/" ++ task ++ ".cache"

/-- Path of the published cache file, `<dest>/<task>.<timestamp>.cache`. -/
def cacheWithTimestamp (dest task timestamp : String) : String :=
  dest ++ "/" ++ task ++ "." ++ timestamp ++ ".cache"

/-- Method `CacheWriter.FinishCacheCreation`; `now` is
`time.Now().UnixMilli()`. -/
def CacheWriter.FinishCacheCreation {W : Type} (api : WriterCApi W) (c : CacheWriter W)
    (fs : FS) (now : Int) : Outcome (FinishState W) :=
  if ¬ c.isInitialized then .ret ⟨"", c, fs, []⟩ (some .ErrUnInitialized)
  else
    match c.Handle with
    | none => .panic
    | some h =>
      let r := api.FinishCacheCreation fs h
      let c1 := { c with Handle := some r.2.1 }
      let fs1 := r.2.2
      if r.1 ≠ 0 then
        .ret ⟨"", c1, fs1, [fs1]⟩
          (some (.plain ("error finishing cache creation: " ++ FormatInt r.1)))
      else
        let timestamp := FormatInt now
        let w := if c.GenerateTimestampFile then
            WriteFile fs1 (latestPath c.DestinationFolder c.TaskName) timestamp
          else (none, fs1)
        let trace2 := if c.GenerateTimestampFile then [fs1, w.2] else [fs1]
        match w.1 with
        | some e =>
          .ret ⟨timestamp, c1, w.2, trace2⟩
            (some (.plain ("error writing timestamp file : " ++ e.Error)))
        | none =>
          if c.RenameCacheFile then
            let m := Rename w.2 (cacheWithoutTimestamp c.DestinationFolder c.TaskName)
              (cacheWithTimestamp c.DestinationFolder c.TaskName timestamp)
            match m.1 with
            | some e =>
              .ret ⟨timestamp, c1, m.2, trace2 ++ [m.2]⟩
                (some (.plain ("error renaming file : " ++ e.Error)))
            | none => .ret ⟨timestamp, c1, m.2, trace2 ++ [m.2]⟩ none
          else .ret ⟨timestamp, c1, w.2, trace2⟩ none

/-! ## The native library, modelled from the specification

The C++ library behind the cgo calls is not among the Go sources.  This
section models it from the specification (sections 3, 4.1, 4.2, 4.3, 6 and
8) so that the Go wrappers can be run end to end. -/

/-- Modelled from the spec: what the specification leaves open about the
native library.  `hash` is the fixed-seed 64-bit hash of section 4.1,
`fingerprintBits` the width of the fingerprint taken from its upper bits,
`lengthBytes` the width of the key-length and value-length prefixes of an
arena record, and the `decode` functions turn stored value bytes into the
typed results of the getters. -/
structure NativeParams where
  hash : String → Nat
  fingerprintBits : Nat
  lengthBytes : Nat
  decodeBool : String → Int
  decodeInt : String → Int
  decodeLong : String → Int
  decodeDouble : String → Float64
  decodeVector : String → List String
  decodeFloats : String → List Float32

namespace NativeParams

/-- Modelled from the spec: the 64-bit hash value of a key (section 4.1). -/
def hash64 (p : NativeParams) (key : String) : Nat :=
  p.hash key % 2 ^ 64

/-- Modelled from the spec: slot selection, `h mod S` (section 4.1). -/
def slotOf (p : NativeParams) (key : String) (numSlots : Nat) : Nat :=
  p.hash64 key % numSlots

/-- Modelled from the spec: the fingerprint, the upper bits of the hash
(section 4.1). -/
def fingerprint (p : NativeParams) (key : String) : Nat :=
  p.hash64 key / 2 ^ (64 - p.fingerprintBits)

/-- Modelled from the spec: bytes of an arena record (section 3): key
length, key bytes, value length, value bytes and a one-byte type tag. -/
def recordBytes (p : NativeParams) (key value : String) : Nat :=
  p.lengthBytes + key.length + p.lengthBytes + value.length + 1

end NativeParams

/-- Modelled from the spec: the arena record that starts at a byte offset. -/
def recordAt (arena : List (Nat × Record)) (offset : Nat) : Option Record :=
  match arena.find? fun e => e.1 = offset with
  | some e => some e.2
  | none => none

/-- Modelled from the spec: a slot matches a key when its fingerprint
matches and the key bytes of its record equal the query (section 4.3). -/
def slotMatches (p : NativeParams) (arena : List (Nat × Record)) (e : SlotEntry)
    (key : String) : Bool :=
  e.fingerprint = p.fingerprint key &&
    match recordAt arena e.offset with
    | some r => r.key = key
    | none => false

/-- Modelled from the spec: the three ways the probe of section 4.3 ends: at
the slot holding the key, at the first empty slot, or with the probe budget
exhausted. -/
inductive Probe where
  | found (i : Nat)
  | vacant (i : Nat)
  | exhausted
deriving DecidableEq, Repr

/-- Modelled from the spec: the linear probe of section 4.3, from slot `i`
with step 1 for at most `n` slots, until a slot that matches the key, an
empty slot, or the end of the budget. -/
def probe (p : NativeParams) (slots : List (Option SlotEntry)) (arena : List (Nat × Record))
    (key : String) : Nat → Nat → Probe
  | _, 0 => .exhausted
  | i, n + 1 =>
    match slots.getD i none with
    | none => .vacant i
    | some e =>
      if slotMatches p arena e key then .found i
      else probe p slots arena key ((i + 1) % slots.length) n

/-- Modelled from the spec: the state of the native writer (section 4.2):
the task and destination it writes to, the artifact under construction, the
number of arena bytes written, whether the duplicate pool is sealed, and the
key of the latest `insert`, by which a consecutive duplicate is
recognised (`none` before the first one). -/
structure Builder where
  task : String
  destination : String
  art : Artifact
  arenaBytes : Nat
  poolSealed : Bool
  lastKey : Option String
deriving DecidableEq, Repr

/-- Modelled from the spec: the builder right after `open` (section 4.2):
`S` empty slots, empty arena and pool. -/
def Builder.fresh (task destination : String) (cacheType : Int) (offsetBits numSlots : Nat) :
    Builder where
  task := task
  destination := destination
  art := ⟨⟨cacheType, numSlots, offsetBits⟩, List.replicate numSlots none, [], []⟩
  arenaBytes := 0
  poolSealed := false
  lastKey := none

/-- Modelled from the spec: the builder after a record has been written at
the end of the data arena and slot `i` set to refer to it (sections 3 and
4.2). -/
def Builder.place (p : NativeParams) (b : Builder) (i : Nat) (r : Record) : Builder :=
  { b with
    art := { b.art with
      slots := b.art.slots.set i (some ⟨b.arenaBytes, p.fingerprint r.key⟩)
      arena := b.art.arena ++ [(b.arenaBytes, r)] }
    arenaBytes := b.arenaBytes + p.recordBytes r.key r.value }

/-- Modelled from the spec: the part of `insert` of section 4.2 that writes
a record, with the return codes the Go wrapper distinguishes (0 success, 2
offset bits exhausted, 3 keyspace full).  A key that is already present keeps
its slot, which is made to refer to the new record (a non-consecutive
duplicate overwrites in place: last write wins within the same slot).  In the
bucket-chain variant the new record becomes the head of its bucket and links
to the previous head. -/
def Builder.store (p : NativeParams) (b : Builder) (key v : String) (valueType : Int) :
    Int × Builder :=
  if b.arenaBytes + p.recordBytes key v > 2 ^ b.art.header.offsetBits then (2, b)
  else if b.art.slots.length = 0 then (3, b)
  else if b.art.header.cacheType = 2 then
    let i := p.slotOf key b.art.slots.length
    (0, b.place p i ⟨key, v, valueType, (b.art.slots.getD i none).map fun e => e.offset⟩)
  else
    match probe p b.art.slots b.art.arena key (p.slotOf key b.art.slots.length)
        b.art.slots.length with
    | .found i => (0, b.place p i ⟨key, v, valueType, none⟩)
    | .vacant i => (0, b.place p i ⟨key, v, valueType, none⟩)
    | .exhausted => (3, b)

/-- Modelled from the spec: `insert(key, value, type)` of section 4.2, with
the return codes the Go wrapper distinguishes (1 stands for every failure
other than those of `Builder.store`).  An empty key is an error.  A key equal
to the key of the insert right before it is a consecutive duplicate and is
collapsed: nothing is written and the first write stays (first write wins).
An empty value of a type other than String (tag 0) is skipped.  Every
other insert writes a record.  The specification does not say whether a
skipped or failed insert counts as the insert before a duplicate; as in the
producer of `cmd/cache_creator.go`, which notes the previous key before the
empty-value rule and before the write, every insert with a non-empty key
counts. -/
def Builder.insert (p : NativeParams) (b : Builder) (key : String) (value : Option String)
    (valueType : Int) : Int × Builder :=
  let v := value.getD ""
  if key.length = 0 then (1, b)
  else if b.lastKey = some key then (0, b)
  else if v.length = 0 ∧ valueType ≠ 0 then (0, { b with lastKey := some key })
  else Builder.store p { b with lastKey := some key } key v valueType

/-- Split a byte string at every occurrence of a separator byte. -/
def splitBytes (sep : Char) : List Char → List (List Char)
  | [] => [[]]
  | c :: cs =>
    if c = sep then [] :: splitBytes sep cs
    else
      match splitBytes sep cs with
      | [] => [[c]]
      | t :: ts => (c :: t) :: ts

/-- Modelled from the spec: a settings file is a sequence of properties
lines `key=value` (section 6); a line that is not of that form is ignored,
and a later line overrides an earlier one with the same key. -/
def readSettings (content : String) : Properties :=
  (splitBytes '\n' content.data).foldl
    (fun props line =>
      match splitBytes '=' line with
      | [k, v] => mapSet props (String.mk k) (String.mk v)
      | _ => props)
    []

/-- Modelled from the spec: an integer setting, with its default when the key
is absent; `none` when the value is not a decimal integer. -/
def intSetting (props : Properties) (key : String) (dflt : Int) : Option Int :=
  match props.find? fun e => e.1 = key with
  | none => some dflt
  | some e =>
    match ParseInt e.2 with
    | .ok n => some n
    | .error _ => none

/-- Modelled from the spec: `open` of section 4.2 as the native
`Initialize` sees it: the settings come from the properties file
(`ccache.destination_folder`, `ccache.type` with default 5,
`ccache.offset.bits` with default 35, section 6), and the call fails when the
settings are unreadable, `b < 16`, `b > 38` or `S = 0`. -/
def specInitialize (fs : FS) (h : Option Builder) (task settings : String) (numSlots : Nat) :
    Int × Option Builder :=
  match fs.files settings with
  | some (.text content) =>
    let props := readSettings content
    match intSetting props "ccache.type" 5, intSetting props "ccache.offset.bits" 35 with
    | some t, some b =>
      if b < 16 ∨ b > 38 ∨ numSlots = 0 then (1, h)
      else (0, some (Builder.fresh task (mapGet props "ccache.destination_folder") t
        b.toNat numSlots))
    | _, _ => (1, h)
  | _ => (1, h)

/-- The file system with `data` stored at `path`. -/
def FS.put (fs : FS) (path : String) (data : FileData) : FS :=
  { fs with files := fun q => if q = path then some data else fs.files q }

/-- Modelled from the spec: the native writer (section 4.2).  Its state is
the builder, absent until `Initialize` has succeeded.  `FinishCacheCreation`
puts the artifact at `<destination>/<task>.cache`. -/
def specWriterApi (p : NativeParams) : WriterCApi (Option Builder) where
  NewHandle := none
  Initialize := specInitialize
  InsertKey := fun h key value valueType =>
    match h with
    | none => (1, none)
    | some b => ((b.insert p key value valueType).1, some (b.insert p key value valueType).2)
  AddDuplicateValue := fun h value valueType =>
    match h with
    | none => none
    | some b =>
      if b.poolSealed then some b
      else some { b with art := { b.art with pool := b.art.pool ++ [(value, valueType)] } }
  FinishAddDuplicateValues := fun h =>
    match h with
    | none => (1, none)
    | some b => (0, some { b with poolSealed := true })
  FinishCacheCreation := fun fs h =>
    match h with
    | none => (1, none, fs)
    | some b =>
      if fs.denied (cacheWithoutTimestamp b.destination b.task) then (1, h, fs)
      else
        (0, h, fs.put (cacheWithoutTimestamp b.destination b.task) (.artifact b.art))

/-- The reader as `Update` leaves it once the native load has succeeded. -/
def CacheReader.loadedAt {H : Type} (c : CacheReader H) (h : H) (n : Int) : CacheReader H :=
  { c with Handle := some h, MostRecentFileTimestamp := n }

/-- The writer with its native object replaced, as every call into the
native library leaves it. -/
def CacheWriter.withHandle {W : Type} (c : CacheWriter W) (h : W) : CacheWriter W :=
  { c with Handle := some h }

/-! ## Sample inputs -/

/-- A native reader whose `Initialize` returns the given code for every
timestamp, and in which no key exists. -/
def constReaderApi (code : Int) : ReaderCApi Unit where
  Initialize := fun _ _ _ _ _ => (code, ())
  ContainsKey := fun _ _ => 0
  GetKey := fun _ _ => ⟨0, ""⟩
  GetKeyType := fun _ _ => none
  GetBool := fun _ _ => ⟨0, 0⟩
  GetInteger := fun _ _ => ⟨0, 0⟩
  GetLong := fun _ _ => ⟨0, 0⟩
  GetDouble := fun _ _ => ⟨0, ⟨0⟩⟩
  GetVector := fun _ _ => none
  GetFloatVector := fun _ _ => none

/-- A reader of task `test_cache` in folder `test_data`, with the given
loaded timestamp and update callback. -/
def sampleReader (ts : Int) (cb : Option UpdateCallback) : CacheReader Unit where
  Handle := some ()
  TaskName := "test_cache"
  DestinationFolder := "test_data"
  BaseUrls := ""
  MostRecentFileTimestamp := ts
  Timestamp := ""
  IsPreloadMemoryEnabled := 0
  UpdatePeriod := 1000
  StopClosed := false
  UpdateCallback := cb

/-- An update callback that always reports an error. -/
def failingCallback : UpdateCallback :=
  fun _ => some (.plain "callback failed")

/-- An artifact with a single empty slot and nothing stored. -/
def emptyArtifact : Artifact where
  header := ⟨5, 1, 35⟩
  slots := [none]
  arena := []
  pool := []

/-- A native writer whose `Initialize` and `InsertKey` return the given codes
and whose `FinishCacheCreation` returns 0 after writing an empty artifact to
the path `out`. -/
def constWriterApi (initCode insertCode : Int) (out : String) : WriterCApi Unit where
  NewHandle := ()
  Initialize := fun _ _ _ _ _ => (initCode, ())
  InsertKey := fun _ _ _ _ => (insertCode, ())
  AddDuplicateValue := fun _ _ _ => ()
  FinishAddDuplicateValues := fun _ => (0, ())
  FinishCacheCreation := fun fs _ =>
    (0, (), { fs with files := fun p =>
      if p = out then some (.artifact emptyArtifact) else fs.files p })

/-- A file system with no file, in which every path can be written. -/
def emptyFS : FS where
  files := fun _ => none
  denied := fun _ => false

/-- The options of `TestCacheWriterGenerateTimestampFile`, in folder
`/tmp/d`, with the given offset bits. -/
def sampleOptions (offsetBits : Int) : CacheWriterOptions where
  TaskName := "super_cache"
  DestinationFolder := "/tmp/d"
  SettingsLocation := ""
  NumberOfKeySlots := 10000
  GenerateTimestampFile := true
  RenameCacheFile := true
  CacheType := 0
  OffsetBits := offsetBits

/-- An initialised writer of task `super_cache` in folder `/tmp/d` that
generates the timestamp file and renames the cache file. -/
def sampleWriter : CacheWriter Unit where
  Handle := some ()
  TaskName := "super_cache"
  DestinationFolder := "/tmp/d"
  GenerateTimestampFile := true
  RenameCacheFile := true
  OffsetBits := 35
  IsInitialized := true

/-- A choice of the parameters the specification leaves open: the hash is
the sum of the key bytes, fingerprints are 8 bits wide, lengths take 2 bytes,
booleans are stored as the text `true`, integers in decimal. -/
def sampleParams : NativeParams where
  hash := fun key => key.data.foldl (fun acc ch => acc + ch.toNat) 0
  fingerprintBits := 8
  lengthBytes := 2
  decodeBool := fun v => if v = "true" then 1 else 0
  decodeInt := fun v =>
    match ParseInt v with
    | .ok n => n
    | .error _ => 0
  decodeLong := fun v =>
    match ParseInt v with
    | .ok n => n
    | .error _ => 0
  decodeDouble := fun _ => ⟨0⟩
  decodeVector := fun v => [v]
  decodeFloats := fun _ => []

/-- Call `strings.HasPrefix(s, p)`. -/
def hasPrefix (s p : String) : Bool :=
  p.data.isPrefixOf s.data

/-- Call `strings.HasSuffix(s, suffix)`. -/
def hasSuffix (s suffix : String) : Bool :=
  suffix.data.reverse.isPrefixOf s.data.reverse

/-- Call `strings.TrimSuffix(s, suffix)`. -/
def trimSuffix (s suffix : String) : String :=
  if hasSuffix s suffix then String.mk (s.data.take (s.data.length - suffix.data.length))
  else s

/-- Call `strings.Split(s, sep)` for a one-byte separator. -/
def splitOn (s : String) (sep : Char) : List String :=
  (splitBytes sep s.data).map String.mk

/-- The part of a byte string from its last dot on, when that dot comes
after the last slash; empty otherwise.  `rev` is the string reversed and
`acc` the bytes already passed. -/
def extScan : List Char → List Char → List Char
  | [], _ => []
  | c :: rev, acc =>
    if c = '/' then []
    else if c = '.' then c :: acc
    else extScan rev (c :: acc)

/-- Call `filepath.Ext(path)` (separator `/`). -/
def pathExt (path : String) : String :=
  String.mk (extScan path.data.reverse [])

/-- Remove trailing slashes. -/
def stripTrailingSlashes (path : List Char) : List Char :=
  (path.reverse.dropWhile fun c => c = '/').reverse

/-- Call `path.Base(p)`. -/
def pathBase (p : String) : String :=
  if p.data = [] then "."
  else
    match (splitBytes '/' (stripTrailingSlashes p.data)).getLast? with
    | some e => if e = [] then "/" else String.mk e
    | none => "/"

/-- The element loop of `path.Clean`: `stack` holds the elements kept so
far, innermost first. -/
def cleanElems (rooted : Bool) : List (List Char) → List (List Char) → List (List Char)
  | stack, [] => stack
  | stack, e :: es =>
    if e = [] ∨ e = ['.'] then cleanElems rooted stack es
    else if e = ['.', '.'] then
      match stack with
      | top :: rest =>
        if top = ['.', '.'] then cleanElems rooted (e :: stack) es
        else cleanElems rooted rest es
      | [] => if rooted then cleanElems rooted [] es else cleanElems rooted [e] es
    else cleanElems rooted (e :: stack) es

/-- Join path elements with `/`. -/
def joinSlash : List (List Char) → List Char
  | [] => []
  | [e] => e
  | e :: es => e ++ '/' :: joinSlash es

/-- Call `path.Clean(p)`. -/
def pathClean (p : String) : String :=
  if p.data = [] then "."
  else
    let rooted := decide (p.data.head? = some '/')
    let body := joinSlash (cleanElems rooted [] (splitBytes '/' p.data)).reverse
    if rooted then String.mk ('/' :: body)
    else if body = [] then "."
    else String.mk body

/-- Whether a path begins with a slash. -/
def isRooted (p : String) : Bool :=
  decide (p.data.head? = some '/')

/-- The elements that `path.Clean(p)` keeps, innermost first, with whether
the path is rooted: what a path names when there are no symbolic links. -/
def pathElems (p : String) : Bool × List (List Char) :=
  (isRooted p, cleanElems (isRooted p) [] (splitBytes '/' p.data))

/-- Call `filepath.Join(dir, name)` for a non-empty `name`: the two are
joined with a slash, unless `dir` is empty, and the result is cleaned. -/
def pathJoin (dir name : String) : String :=
  if dir.data = [] then pathClean name else pathClean (dir ++ "/" ++ name)

/-- The directory part of `path.Split(p)`: everything up to and including
the last slash.  `rev` is the path reversed. -/
def dirPart : List Char → List Char
  | [] => []
  | c :: rev => if c = '/' then (c :: rev).reverse else dirPart rev

/-- Call `path.Dir(p)`. -/
def pathDir (p : String) : String :=
  pathClean (String.mk (dirPart p.data.reverse))

/-- One lowercase hexadecimal digit. -/
def hexDigit (d : Nat) : Char :=
  if d < 10 then Char.ofNat (48 + d) else Char.ofNat (87 + d)

/-- Hexadecimal digits of a natural number, most significant first, in
front of `acc`; `fuel` bounds the number of digits. -/
def hexDigits : Nat → Nat → List Char → List Char
  | 0, _, acc => acc
  | fuel + 1, n, acc =>
    let acc1 := hexDigit (n % 16) :: acc
    if n / 16 = 0 then acc1 else hexDigits fuel (n / 16) acc1

/-- Rendering of an unsigned integer by the verb `%x`: lowercase
hexadecimal without padding. -/
def FormatHex (n : Nat) : String :=
  String.mk (hexDigits (n + 1) n [])


/-! ## The local machine as `internal/core` uses it -/

/-- One effect on the local file system. -/
inductive FileEvent where
  | create (path : String)
  | write (path : String)
  | rename (oldpath newpath : String)
  | remove (path : String)
deriving DecidableEq, Repr

/-- The machine the code runs on: the file system, the paths that directory
listings can show (every path that had a file at the start or was touched
since), the effects performed on files so far, oldest first, the values the
next calls of `rand.Uint32()` return, and the URLs requested so far, oldest
first.

Two paths name the same file when `path.Clean` gives the same for both: the
machine has no symbolic links, and a relative path is not identified with
an absolute one.  An operation looks a path up, and asks for permission,
under its cleaned form, and a change of a file shows under every path that
names it. -/
structure Host where
  fs : FS
  known : List String
  log : List FileEvent
  seeds : List Nat
  requests : List String

namespace Host

/-- The machine after an operation left the file system `fs1`, touched
`paths` and performed `events`. -/
def after (h : Host) (fs1 : FS) (paths : List String) (events : List FileEvent) : Host :=
  { h with fs := fs1, known := h.known ++ paths, log := h.log ++ events }

/-- Call `rand.Uint32()`: the value, and the machine with that value used. -/
def nextRand (h : Host) : Nat × Host :=
  (h.seeds.headD 0, { h with seeds := h.seeds.tail })

/-- The file system in which every path that names the same file as `path`
shows `data` (`none`: no file). -/
def store (h : Host) (path : String) (data : Option FileData) : FS :=
  { h.fs with files := fun q => if pathClean q = pathClean path then data else h.fs.files q }

/-- Call `os.Stat(path)`, reduced to whether the file exists. -/
def fileExists (h : Host) (path : String) : Bool :=
  (h.fs.files (pathClean path)).isSome

/-- Call `os.ReadFile(path)`: the bytes of a text file; a missing file is
an error, and so is (in this model) a file that holds a native artifact,
whose bytes are not modelled. -/
def readFile (h : Host) (path : String) : Option String :=
  match h.fs.files (pathClean path) with
  | some (.text s) => some s
  | _ => none

/-- Call `os.Create(path)`: the file is created or truncated. -/
def createFile (h : Host) (path : String) : Option GoError × Host :=
  if h.fs.denied (pathClean path) then
    (some (.plain ("open " ++ path ++ ": permission denied")), h)
  else (none, h.after (h.store path (some (.text ""))) [path] [.create path])

/-- Data written through an open file and flushed. -/
def writeOpenFile (h : Host) (path data : String) : Host :=
  h.after (h.store path (some (.text data))) [path] [.write path]

/-- Call `os.WriteFile(path, data, 0644)`.  A failing write is taken to
fail when the file is opened, before anything is changed. -/
def writeFile (h : Host) (path data : String) : Option GoError × Host :=
  if h.fs.denied (pathClean path) then
    (some (.plain ("open " ++ path ++ ": permission denied")), h)
  else (none, h.after (h.store path (some (.text data))) [path] [.write path])

/-- Call `os.Rename(oldpath, newpath)`. -/
def rename (h : Host) (oldpath newpath : String) : Option GoError × Host :=
  match h.fs.files (pathClean oldpath) with
  | none =>
    (some (.plain ("rename " ++ oldpath ++ " " ++ newpath ++ ": no such file or directory")), h)
  | some d =>
    if h.fs.denied (pathClean newpath) then
      (some (.plain ("rename " ++ oldpath ++ " " ++ newpath ++ ": permission denied")), h)
    else
      (none, h.after
        { h.fs with files := fun q =>
            if pathClean q = pathClean newpath then some d
            else if pathClean q = pathClean oldpath then none
            else h.fs.files q }
        [newpath] [.rename oldpath newpath])

/-- Call `os.Remove(path)`. -/
def remove (h : Host) (path : String) : Option GoError × Host :=
  match h.fs.files (pathClean path) with
  | none => (some (.plain ("remove " ++ path ++ ": no such file or directory")), h)
  | some _ =>
    if h.fs.denied (pathClean path) then
      (some (.plain ("remove " ++ path ++ ": permission denied")), h)
    else (none, h.after (h.store path none) [] [.remove path])

/-- Function `WriteStringToFile` of `file_utils.go` on the local machine:
the text goes to `<path>.tmp.<rand>`, which is then renamed to `path`. -/
def WriteStringToFile (h : Host) (path text : String) : Option GoError × Host :=
  let seeded := h.nextRand
  let tempFile := path ++ ".tmp." ++ FormatInt seeded.1
  match seeded.2.writeFile tempFile text with
  | (some e, h1) => (some e, h1)
  | (none, h1) => h1.rename tempFile path

/-- Function `WritePropertiesFile` on the local machine. -/
def WritePropertiesFile (h : Host) (properties : Properties) (path : String) :
    Option GoError × Host :=
  h.WriteStringToFile path (SerializeProperties properties)

end Host

/-! ## Pattern matching of file names (`path/filepath`, Unix) -/

/-- Value `filepath.ErrBadPattern`. -/
def ErrBadPattern : GoError :=
  .plain "syntax error in pattern"

/-- The scan of `scanChunk` from the first byte that is not a leading star:
the chunk, which ends before the first star outside a character class, and
the rest of the pattern.  `acc` holds the bytes passed, last first. -/
def scanChunkFrom : Bool → List Char → List Char → List Char × List Char
  | _, [], acc => (acc.reverse, [])
  | inrange, c :: cs, acc =>
    if c = '\\' then
      match cs with
      | [] => (('\\' :: acc).reverse, [])
      | e :: rest => scanChunkFrom inrange rest (e :: '\\' :: acc)
    else if c = '[' then scanChunkFrom true cs (c :: acc)
    else if c = ']' then scanChunkFrom false cs (c :: acc)
    else if c = '*' ∧ inrange = false then (acc.reverse, c :: cs)
    else scanChunkFrom inrange cs (c :: acc)

/-- Function `scanChunk`: whether the pattern begins with stars, the chunk
after them, and the rest of the pattern. -/
def scanChunk (pattern : List Char) : Bool × List Char × List Char :=
  let body := pattern.dropWhile fun c => c = '*'
  (decide (pattern.head? = some '*'), scanChunkFrom false body [])

/-- Function `getEsc`: the next, possibly escaped, character of a character
class and the chunk after it; `none` for `ErrBadPattern`. -/
def getEsc (chunk : List Char) : Option (Char × List Char) :=
  match chunk with
  | [] => none
  | c :: cs =>
    if c = '-' ∨ c = ']' then none
    else
      match (if c = '\\' then cs else c :: cs) with
      | [] => none
      | r :: nchunk => if nchunk = [] then none else some (r, nchunk)

/-- The loop of `matchChunk` over the ranges of a character class, after
the opening bracket and the negation sign: whether `r` is in one of the
ranges, and the chunk after the closing bracket; `none` for
`ErrBadPattern`.  Every round passes at least one byte of the chunk, which
bounds the rounds by `fuel`. -/
def classRanges : Nat → List Char → Char → Bool → Nat → Option (Bool × List Char)
  | 0, _, _, _, _ => none
  | fuel + 1, chunk, r, found, nrange =>
    if chunk.head? = some ']' ∧ nrange > 0 then some (found, chunk.tail)
    else
      match getEsc chunk with
      | none => none
      | some (lo, chunk1) =>
        if chunk1.head? = some '-' then
          match getEsc chunk1.tail with
          | none => none
          | some (hi, chunk2) =>
            classRanges fuel chunk2 r
              (found || (decide (lo.toNat ≤ r.toNat) && decide (r.toNat ≤ hi.toNat))) (nrange + 1)
        else
          classRanges fuel chunk1 r
            (found || (decide (lo.toNat ≤ r.toNat) && decide (r.toNat ≤ lo.toNat))) (nrange + 1)

/-- The loop of `matchChunk`: `failed` records that the match has failed,
after which the chunk is only checked for being well formed.  The result is
`none` for `ErrBadPattern`, `some none` when the chunk does not match the
beginning of `s`, and `some (some rest)` when it does, with the rest of
`s`.  Every round passes at least one byte of the chunk, which bounds the
rounds by `fuel`. -/
def matchChunkLoop : Nat → List Char → List Char → Bool → Option (Option (List Char))
  | _, [], s, failed => some (if failed then none else some s)
  | 0, _ :: _, _, _ => none
  | fuel + 1, c :: chunk, s, failed0 =>
    let failed := failed0 || s.isEmpty
    if c = '[' then
      let r := if failed then Char.ofNat 0 else s.headD (Char.ofNat 0)
      let s1 := if failed then s else s.tail
      let negated := decide (chunk.head? = some '^')
      let chunk1 := if negated then chunk.tail else chunk
      match classRanges (chunk1.length + 1) chunk1 r false 0 with
      | none => none
      | some (found, chunk2) => matchChunkLoop fuel chunk2 s1 (failed || (found == negated))
    else if c = '?' then
      matchChunkLoop fuel chunk (if failed then s else s.tail)
        (failed || decide (s.head? = some '/'))
    else if c = '\\' then
      match chunk with
      | [] => none
      | e :: chunk1 =>
        matchChunkLoop fuel chunk1 (if failed then s else s.tail)
          (failed || decide (s.head? ≠ some e))
    else
      matchChunkLoop fuel chunk (if failed then s else s.tail)
        (failed || decide (s.head? ≠ some c))

/-- Function `matchChunk`. -/
def matchChunk (chunk s : List Char) : Option (Option (List Char)) :=
  matchChunkLoop chunk.length chunk s false

/-- The loop of `Match` that looks for a match of the chunk after a star,
skipping one more byte of the name at a time and never a slash: `none` for
`ErrBadPattern`, `some none` when the loop ends without a match, and
`some (some t)` when the chunk matches with `t` left of the name.
`lastChunk` tells that the pattern ends with the chunk. -/
def skipSearch (chunk : List Char) (lastChunk : Bool) : List Char → Option (Option (List Char))
  | [] => some none
  | c :: rest =>
    if c = '/' then some none
    else
      match matchChunk chunk rest with
      | none => none
      | some (some t) =>
        if lastChunk ∧ t ≠ [] then skipSearch chunk lastChunk rest else some (some t)
      | some none => skipSearch chunk lastChunk rest

/-- The last loop of `Match`: whether the rest of the pattern is well
formed. -/
def validChunks : Nat → List Char → Bool
  | _, [] => true
  | 0, _ :: _ => false
  | fuel + 1, c :: cs =>
    match matchChunk (scanChunk (c :: cs)).2.1 [] with
    | none => false
    | some _ => validChunks fuel (scanChunk (c :: cs)).2.2

/-- The loop of `Match`: `none` for `ErrBadPattern`.  Every round passes at
least one byte of the pattern, which bounds the rounds by `fuel`. -/
def matchLoop : Nat → List Char → List Char → Option Bool
  | _, [], name => some name.isEmpty
  | 0, _ :: _, _ => none
  | fuel + 1, c :: cs, name =>
    let star := (scanChunk (c :: cs)).1
    let chunk := (scanChunk (c :: cs)).2.1
    let pattern := (scanChunk (c :: cs)).2.2
    if star ∧ chunk = [] then some (!name.contains '/')
    else
      match matchChunk chunk name with
      | none => none
      | some (some t) =>
        if t = [] ∨ pattern ≠ [] then matchLoop fuel pattern t
        else
          match (if star then skipSearch chunk (decide (pattern = [])) name else some none) with
          | none => none
          | some (some t1) => matchLoop fuel pattern t1
          | some none => if validChunks pattern.length pattern then some false else none
      | some none =>
        match (if star then skipSearch chunk (decide (pattern = [])) name else some none) with
        | none => none
        | some (some t1) => matchLoop fuel pattern t1
        | some none => if validChunks pattern.length pattern then some false else none

/-- Call `filepath.Match(pattern, name)`: whether the whole name matches the
pattern, in which `*` stands for any run of bytes other than `/`, `?` for
one byte other than `/`, `[...]` for one byte of a class and a backslash
makes the next byte literal; `none` for `ErrBadPattern`.  A character of a
string stands for one byte. -/
def Match (pattern name : List Char) : Option Bool :=
  matchLoop pattern.length pattern name

/-- Function `hasMeta`. -/
def hasMeta (path : String) : Bool :=
  path.data.any fun c => c = '*' || c = '?' || c = '[' || c = '\\'

/-- Function `cleanGlobPath`. -/
def cleanGlobPath (path : String) : String :=
  if path = "" then "."
  else if path = "/" then path
  else String.mk path.data.dropLast

/-- Remove repeated entries, keeping the first of each. -/
def dedupStrings : List String → List String
  | [] => []
  | x :: xs => x :: (dedupStrings xs).filter fun y => y ≠ x

/-- The name under which a file at `path` shows in the listing of the
directory `dir`: the element of the path right below the elements of the
directory, when the path lies in or beneath it. -/
def nameIn (dir path : String) : Option String :=
  if (pathElems path).1 = (pathElems dir).1 ∧
      (pathElems dir).2.reverse.isPrefixOf (pathElems path).2.reverse then
    match ((pathElems path).2.reverse.drop (pathElems dir).2.length).head? with
    | some n => if n = ['.', '.'] then none else some (String.mk n)
    | none => none
  else none

/-- The names that `Readdirnames` gives for a directory, sorted: the names
of the files in it and of the directories in it that hold a file.  A path
beneath which there is no file gives no name, as does a directory that
cannot be opened. -/
def Host.namesIn (h : Host) (dir : String) : List String :=
  sortStrings (dedupStrings
    (h.known.filterMap fun q => if h.fileExists q then nameIn dir q else none))

/-- The loop of the function `glob` over the sorted names of a directory:
the joined paths of the names that match are appended to `found`, until a
call of `Match` fails. -/
def globNames (dir : String) (pattern : List Char) :
    List String → List String → List String × Option GoError
  | [], found => (found, none)
  | n :: names, found =>
    match Match pattern n.data with
    | none => (found, some ErrBadPattern)
    | some true => globNames dir pattern names (found ++ [pathJoin dir n])
    | some false => globNames dir pattern names found

/-- Function `glob` of `path/filepath`: the files of the directory `dir`
whose name matches `pattern`, appended to `found`. -/
def Host.globDir (h : Host) (dir pattern : String) (found : List String) :
    List String × Option GoError :=
  globNames dir pattern.data (h.namesIn dir) found

/-- The loop of `globWithLimit` over the directories that match the
directory part of the pattern. -/
def Host.globEach (h : Host) (pattern : String) :
    List String → List String → List String × Option GoError
  | [], found => (found, none)
  | d :: ds, found =>
    match h.globDir d pattern found with
    | (found1, some err) => (found1, some err)
    | (found1, none) => h.globEach pattern ds found1

/-- Call `os.Lstat(path)`, reduced to whether it succeeds: the path is not
empty and names a file, or a directory (the root, the working directory, or
a path beneath which there is a file). -/
def Host.lstat (h : Host) (path : String) : Bool :=
  path.length != 0 &&
    (h.fileExists path || (pathElems path).2.isEmpty || !(h.namesIn path).isEmpty)

/-- Function `globWithLimit`; `left` is 10000 minus the depth. -/
def Host.globWithLimit (h : Host) : Nat → String → List String × Option GoError
  | 0, _ => ([], some ErrBadPattern)
  | left + 1, pattern =>
    match Match pattern.data [] with
    | none => ([], some ErrBadPattern)
    | some _ =>
      if hasMeta pattern = false then
        if h.lstat pattern then ([pattern], none) else ([], none)
      else
        let dir := cleanGlobPath (String.mk (dirPart pattern.data.reverse))
        let file := String.mk (pattern.data.drop (dirPart pattern.data.reverse).length)
        if hasMeta dir = false then h.globDir dir file []
        else if dir = pattern then ([], some ErrBadPattern)
        else
          match h.globWithLimit left dir with
          | (_, some err) => ([], some err)
          | (dirs, none) => h.globEach file dirs []

/-- Call `filepath.Glob(pattern)`. -/
def Host.glob (h : Host) (pattern : String) : List String × Option GoError :=
  h.globWithLimit 10000 pattern

/-- Go interface `StorageHandler`, over the local machine: `Glob` and
`Remove` (`CopyFile` is not used by the functions modelled here). -/
structure StorageHandler where
  Glob : Host → String → List String × Option GoError
  Remove : Host → String → Option GoError × Host

/-- Go type `LocalFStorageHandler`. -/
def LocalFStorageHandler : StorageHandler where
  Glob := Host.glob
  Remove := Host.remove


/-! ## Remote files and properties (`internal/core`) -/

/-- An `io.Reader` read to its end: the bytes it delivers, and the error
that ends it (`none` for a plain end of file). -/
structure BodyReader where
  data : String
  err : Option GoError
deriving DecidableEq, Repr

/-- What the code uses of an `*http.Response`: the status code, the
`Content-Length` header and the body. -/
structure Response where
  StatusCode : Int
  ContentLength : String
  Body : BodyReader
deriving DecidableEq, Repr

/-- Result of `Get(url)`: a transport error or a response. -/
inductive HttpResult where
  | failed (err : GoError)
  | ok (resp : Response)
deriving DecidableEq, Repr

/-- Go interface `CoreDownloader`: the answer to `Get(url)`, given the URLs
requested before. -/
abbrev CoreDownloader := List String → String → HttpResult

/-- Call `client.Get(url)`. -/
def Host.get (h : Host) (client : CoreDownloader) (url : String) : HttpResult × Host :=
  (client h.requests url, { h with requests := h.requests ++ [url] })

/-- The external libraries and system calls used while decompressing: the
zstd decoder (`none` for a corrupt stream), the two 64-bit hashes, and
`syscall.Fallocate` on a fresh file (`none` on success). -/
structure Codec where
  zstdDecode : String → Option String
  xxh64 : String → Nat
  xxh3 : String → Nat
  fallocate : Int → Option GoError

/-- Drop one trailing carriage return, as `bufio.ScanLines` does. -/
def dropCR (line : List Char) : List Char :=
  if line.getLast? = some '\r' then line.dropLast else line

/-- Call `strings.Trim(s, " ")`. -/
def trimSpaces (s : List Char) : List Char :=
  ((s.dropWhile fun c => c = ' ').reverse.dropWhile fun c => c = ' ').reverse

/-- The loop of `loadProperties` over the lines that `bufio.Scanner` cuts
at `\n`.  A line of more than 65535 bytes does not fit the buffer of the
scanner, which then stops with `bufio.ErrTooLong`. -/
def loadLines : List (List Char) → Properties → Properties × Option GoError
  | [], properties => (properties, none)
  | raw :: rest, properties =>
    if raw.length > 65535 then (properties, some (.plain "bufio.Scanner: token too long"))
    else
      let line := trimSpaces (dropCR raw)
      if line.head? = some '#' ∨ line.length = 0 then loadLines rest properties
      else
        match splitBytes '=' line with
        | [key, value] => loadLines rest (mapSet properties (String.mk key) (String.mk value))
        | _ => loadLines rest properties

/-- Function `loadProperties`: the scanner error is the error of a too
long line, else the error that ended the reader. -/
def loadProperties (reader : BodyReader) : Properties × Option GoError :=
  match loadLines (splitBytes '\n' reader.data.data) [] with
  | (properties, some e) => (properties, some e)
  | (properties, none) => (properties, reader.err)

/-- Function `GetStringProperty`. -/
def GetStringProperty (properties : Properties) (key defaultValue : String) : String :=
  match properties.find? fun e => e.1 = key with
  | some entry => entry.2
  | none => defaultValue


/-! ## The downloader (`internal/core/download.go`) -/

/-- Go type `DownloadReason`. -/
inductive DownloadReason where
  | UpToDate
  | NoTimestamp
  | MissingLatestTimestamp
  | MissingRemoteInputs
  | MissingLocalInputs
  | EmptyRemoteInputs
  | EmptyLocalInputs
  | SimilarRemoteAndLocalInputs
  | DifferentRemoteAndLocalInputs
  | NotEnoughFiles
deriving DecidableEq, Repr

/-- Go struct `DownloadStats`, without the durations, speeds and
human-readable sizes. -/
structure DownloadStats where
  Timestamp : String := ""
  DownloadMethod : String := ""
  DecompressedSizeInBytes : Int := 0
  DecompressedPath : String := ""
  BaseUrl : String := ""
  TotalBytesWrittenToDisk : Int := 0
  SavedFiles : List String := []
deriving DecidableEq, Repr

/-- Go struct `RemoteSettings`. -/
structure RemoteSettings where
  compressionMethod : String := ""
  checksumExtension : String := ""
  downloadMethod : String := ""
  cacheProducer : String := ""
  cacheType : Int := 0
deriving DecidableEq, Repr

/-- Go struct `Downloader`, without the logger and the memory mapping
bookkeeping. -/
structure Downloader where
  Basename : String
  BasenameNoExt : String
  DestinationFolder : String
  AllUrls : String
  DownloadMethod : String
  RemoteSettings : RemoteSettings
  HttpClient : CoreDownloader
  HttpClientNoTimeout : CoreDownloader
  DefaultCompressionMethod : String
  DefaultChecksumExtension : String
  MMapFileAfterDownload : Bool

/-- Go struct `DownloaderOptions` (the timeout is not modelled). -/
structure DownloaderOptions where
  Basename : String
  DestinationFolder : String
  AllUrls : String

/-- Function `buildBaseUrlList`. -/
def buildBaseUrlList (allUrls : String) : List String :=
  ((splitOn allUrls ',').filter fun baseUrl => baseUrl.length > 0).map fun baseUrl =>
    if hasPrefix baseUrl "file://" then baseUrl
    else if hasPrefix baseUrl "gs://" then baseUrl
    else "http://" ++ baseUrl

/-- Function `NewDownloader`.  The two clients that `MakeHttpClient` builds
differ in their timeout only; both are the transport `net`. -/
def NewDownloader (net : CoreDownloader) (downloaderOptions : DownloaderOptions) : Downloader where
  Basename := downloaderOptions.Basename
  BasenameNoExt := (splitOn downloaderOptions.Basename '.').headD ""
  DestinationFolder := downloaderOptions.DestinationFolder
  AllUrls := downloaderOptions.AllUrls
  DownloadMethod := "http"
  RemoteSettings := {}
  HttpClient := net
  HttpClientNoTimeout := net
  DefaultCompressionMethod := "zst"
  DefaultChecksumExtension := "xxh3"
  MMapFileAfterDownload := true

/-- The text `Non 200 response status code, <code>`. -/
def non200 (code : Int) : GoError :=
  .plain ("Non 200 response status code, " ++ FormatInt code)

/-- The part of the loop body of `GetBaseUrlAndTimestamp` between the
request and the comparison: the timestamp read from one answer, `none` in
each of the cases that `continue`. -/
def probedTimestamp : HttpResult → Option Int
  | .failed _ => none
  | .ok resp =>
    if resp.StatusCode ≠ 200 then none
    else
      match resp.Body.err with
      | some _ => none
      | none =>
        match ParseInt (trimSuffix resp.Body.data "\n") with
        | .error _ => none
        | .ok timestampMillis => some timestampMillis

namespace Downloader

/-- The loop of `GetBaseUrlAndTimestamp` over the base URLs, from the
current values of `upTodateBaseUrl` and `upTodateTimestamp`. -/
def probeBaseUrls (d : Downloader) :
    List String → String → Int → Host → String × Int × Host
  | [], upTodateBaseUrl, upTodateTimestamp, h => (upTodateBaseUrl, upTodateTimestamp, h)
  | baseUrl :: rest, upTodateBaseUrl, upTodateTimestamp, h =>
    let url := baseUrl ++ "/" ++ d.Basename ++ ".timestamp"
    let answer := h.get d.HttpClient url
    match probedTimestamp answer.1 with
    | none => probeBaseUrls d rest upTodateBaseUrl upTodateTimestamp answer.2
    | some timestampMillis =>
      if timestampMillis > upTodateTimestamp then
        probeBaseUrls d rest baseUrl timestampMillis answer.2
      else probeBaseUrls d rest upTodateBaseUrl upTodateTimestamp answer.2

/-- Method `GetBaseUrlAndTimestamp`: the base URL, the timestamp and the
error. -/
def GetBaseUrlAndTimestamp (d : Downloader) (h : Host) :
    (String × String × Option GoError) × Host :=
  let baseUrls := buildBaseUrlList d.AllUrls
  let r := d.probeBaseUrls baseUrls "" 0 h
  if r.1.length > 0 then ((r.1, FormatInt r.2.1, none), r.2.2)
  else
    (("", "", some (.plain ("Cannot retrieve any timestamp, tried " ++
      FormatInt baseUrls.length ++ " base urls"))), r.2.2)

/-- Method `fetchRemoteSettings`. -/
def fetchRemoteSettings (d : Downloader) (baseUrl timestamp : String) (h : Host) :
    (Properties × Option GoError) × Host :=
  let url :=
    if timestamp.length > 0 then baseUrl ++ "/" ++ d.Basename ++ "." ++ timestamp ++ ".settings"
    else baseUrl ++ "/" ++ d.Basename ++ ".settings"
  match h.get d.HttpClient url with
  | (.failed err, h1) => (([], some err), h1)
  | (.ok resp, h1) =>
    if resp.StatusCode ≠ 200 then (([], some (non200 resp.StatusCode)), h1)
    else (loadProperties resp.Body, h1)

/-- Method `makeSettingsFromProperties`. -/
def makeSettingsFromProperties (d : Downloader) (properties : Properties) :
    AxonCache.RemoteSettings where
  compressionMethod := GetStringProperty properties "compression.method" d.DefaultCompressionMethod
  checksumExtension := GetStringProperty properties "checksum.extension" d.DefaultChecksumExtension
  downloadMethod := GetStringProperty properties "download.method" d.DownloadMethod

/-- Method `fetchChecksum`. -/
def fetchChecksum (d : Downloader) (baseUrl timestamp checksumExtension : String) (h : Host) :
    (String × Option GoError) × Host :=
  let url := baseUrl ++ "/" ++ d.Basename ++ "." ++ timestamp ++ "." ++ checksumExtension
  match h.get d.HttpClient url with
  | (.failed err, h1) => (("", some err), h1)
  | (.ok resp, h1) =>
    if resp.StatusCode ≠ 200 then (("", some (non200 resp.StatusCode)), h1)
    else
      match resp.Body.err with
      | some err => (("", some err), h1)
      | none => ((resp.Body.data, none), h1)

/-- Method `fetchUncompressedSize`. -/
def fetchUncompressedSize (d : Downloader) (baseUrl timestamp : String) (h : Host) :
    (Int × Option GoError) × Host :=
  let url := baseUrl ++ "/" ++ d.Basename ++ "." ++ timestamp ++ ".size"
  match h.get d.HttpClient url with
  | (.failed err, h1) => ((-1, some err), h1)
  | (.ok resp, h1) =>
    if resp.StatusCode ≠ 200 then ((-1, some (non200 resp.StatusCode)), h1)
    else
      match resp.Body.err with
      | some err => ((-1, some err), h1)
      | none =>
        match ParseInt resp.Body.data with
        | .error e => ((-1, some (.plain (e.Error resp.Body.data))), h1)
        | .ok size => ((size, none), h1)

/-- Method `fetchRemoteInputsFile`. -/
def fetchRemoteInputsFile (d : Downloader) (baseUrl : String) (h : Host) :
    (String × Option GoError) × Host :=
  let url := baseUrl ++ "/" ++ d.Basename ++ ".inputs"
  match h.get d.HttpClient url with
  | (.failed err, h1) => (("", some err), h1)
  | (.ok resp, h1) =>
    if resp.StatusCode ≠ 200 then
      (("", some (.plain ("Invalid HTTP response " ++ FormatInt resp.StatusCode ++
        " for input file request"))), h1)
    else ((resp.Body.data, resp.Body.err), h1)

/-- Method `hasAtLeastOneDownloadedFileAlready`. -/
def hasAtLeastOneDownloadedFileAlready (d : Downloader) (timestamp : String) (h : Host) : Bool :=
  let globPattern := d.DestinationFolder ++ "/" ++ d.BasenameNoExt ++ ".*" ++ timestamp ++ "*"
  match h.glob globPattern with
  | (_, some _) => false
  | (paths, none) => if paths.length ≤ 2 then false else true

/-- Method `shouldDownload`. -/
def shouldDownload (d : Downloader) (h : Host) : (Bool × DownloadReason) × Host :=
  match d.GetBaseUrlAndTimestamp h with
  | ((_, _, some _), h1) => ((true, .NoTimestamp), h1)
  | ((baseUrl, timestamp, none), h1) =>
    let timestampPathLatest := d.DestinationFolder ++ "/" ++ d.Basename ++ ".timestamp.latest"
    match h1.readFile timestampPathLatest with
    | none => ((true, .MissingLatestTimestamp), h1)
    | some content =>
      if content ≠ timestamp then
        match d.fetchRemoteInputsFile baseUrl h1 with
        | ((_, some _), h2) => ((true, .MissingRemoteInputs), h2)
        | ((remoteInputs, none), h2) =>
          if remoteInputs.length = 0 then ((true, .EmptyRemoteInputs), h2)
          else
            let inputsPath := d.DestinationFolder ++ "/" ++ d.Basename ++ ".inputs"
            match h2.readFile inputsPath with
            | none => ((true, .MissingLocalInputs), h2)
            | some localInputs =>
              if localInputs.length = 0 then ((true, .EmptyLocalInputs), h2)
              else if localInputs = remoteInputs then
                if ¬ d.hasAtLeastOneDownloadedFileAlready timestamp h2 then
                  ((true, .NotEnoughFiles), h2)
                else ((false, .SimilarRemoteAndLocalInputs), h2)
              else ((true, .DifferentRemoteAndLocalInputs), h2)
      else if ¬ d.hasAtLeastOneDownloadedFileAlready timestamp h1 then
        ((true, .NotEnoughFiles), h1)
      else ((false, .UpToDate), h1)

end Downloader


/-! ## Decompression to disk (`internal/core/compress.go`) -/

/-- The first statements of `WriteDecompressedFileToDiskFromReader`: the
path of the decompressed file, derived from the path of the compressed
one. -/
def decompressedPathOf (compressedPath : String) : String :=
  let decompressedPath := trimSuffix compressedPath (pathExt compressedPath)
  match splitOn (pathBase decompressedPath) '.' with
  | name :: extension :: timestamp :: _ =>
    if extension = "cache" then
      pathDir decompressedPath ++ "/" ++ name ++ "." ++ timestamp ++ "." ++ extension
    else decompressedPath
  | _ => decompressedPath

/-- The hash that `WriteDecompressedFileToDiskFromReader` computes for a
compression method and a checksum extension; `none` for a combination that
the function does not support. -/
def hashFor (codec : Codec) (compressionMethod checksumExtension : String) :
    Option (String → Nat) :=
  if compressionMethod = "zst" ∧ checksumExtension = "xxh" then some codec.xxh64
  else if compressionMethod = "zst" ∧ checksumExtension = "xxh3" then some codec.xxh3
  else none

/-- The bytes that `io.Copy` moves from the zstd reader over `f` to the
output: an error when reading `f` fails or when the stream is corrupt. -/
def copyDecoded (codec : Codec) (f : BodyReader) : String × Option GoError :=
  match f.err with
  | some err => ("", some err)
  | none =>
    match codec.zstdDecode f.data with
    | none => ("", some (.plain "zstd: corrupt input"))
    | some bytes => (bytes, none)

/-- Content of a file of `allocated` bytes after `bytes` were written from
its start. -/
def writtenOver (allocated : Nat) (bytes : String) : String :=
  String.mk (bytes.data ++ List.replicate (allocated - bytes.data.length) (Char.ofNat 0))

/-- Function `WriteDecompressedFileToDiskFromReader`: the decompressed
path, the decompressed size and the error.  The bytes that reach the
temporary file before a failing copy are not modelled: the file is then left
as it was allocated. -/
def WriteDecompressedFileToDiskFromReader (codec : Codec) (f : BodyReader)
    (compressedPath compressionMethod checksumExtension remoteCksum : String)
    (uncompressedSize : Int) (h : Host) : (String × Int × Option GoError) × Host :=
  let decompressedPath := decompressedPathOf compressedPath
  let seeded := h.nextRand
  let tempDecompressedPath := decompressedPath ++ ".tmp." ++ FormatInt seeded.1
  match seeded.2.createFile tempDecompressedPath with
  | (some err, h1) => (("", -1, some err), h1)
  | (none, h1) =>
    match (if uncompressedSize > 0 then codec.fallocate uncompressedSize else none) with
    | some err => (("", -1, some err), h1)
    | none =>
      let allocated := if uncompressedSize > 0 then uncompressedSize.toNat else 0
      let h2 := { h1 with
        fs := h1.store tempDecompressedPath (some (.text (writtenOver allocated ""))) }
      match hashFor codec compressionMethod checksumExtension with
      | none =>
        (("", -1, some (.plain ("Unsupported compressionMethod " ++ compressionMethod ++
          " and checksumExtension " ++ checksumExtension))), h2)
      | some hash =>
        match copyDecoded codec f with
        | (_, some err) => (("", -1, some err), h2)
        | (bytes, none) =>
          let checksum := FormatHex (hash bytes % 2 ^ 64)
          let h3 := h2.writeOpenFile tempDecompressedPath (writtenOver allocated bytes)
          if checksum ≠ remoteCksum then
            (("", -1, some (.plain ("invalid computed cksum \x27" ++ checksum ++
              "\x27 != pre-computed remote cksum \x27" ++ remoteCksum ++ "\x27"))), h3)
          else
            match h3.readFile tempDecompressedPath with
            | none =>
              (("", -1, some (.plain ("stat " ++ tempDecompressedPath ++
                ": no such file or directory"))), h3)
            | some content =>
              let renamed := h3.rename tempDecompressedPath decompressedPath
              ((decompressedPath, (content.length : Int), renamed.1), renamed.2)

namespace Downloader

/-- The text of a `*DownloadError`. -/
def DownloadError (url : String) (err : GoError) : GoError :=
  .plain ("✋ download error: " ++ err.Error ++ " for url " ++ url)

/-- Method `writeStringToFile`. -/
def writeStringToFile (_d : Downloader) (path content : String) (downloadStats : DownloadStats)
    (h : Host) : Option GoError × DownloadStats × Host :=
  match h.WriteStringToFile path content with
  | (some err, h1) => (some err, downloadStats, h1)
  | (none, h1) => (none, { downloadStats with SavedFiles := downloadStats.SavedFiles ++ [path] }, h1)

/-- Method `downloadInternal`: the decompressed path and the error, the
statistics and the machine after the call. -/
def downloadInternal (d : Downloader) (codec : Codec) (downloadStats : DownloadStats)
    (baseUrl downloadMethod timestamp compressionMethod checksumExtension : String)
    (uncompressedSize : Int) (remoteCksum : String) (h : Host) :
    (String × Option GoError) × DownloadStats × Host :=
  let stats1 := { downloadStats with DownloadMethod := downloadMethod }
  let fileUrl := baseUrl ++ "/" ++ d.Basename ++ "." ++ timestamp ++ "." ++ compressionMethod
  let compressedPath :=
    d.DestinationFolder ++ "/" ++ d.Basename ++ "." ++ timestamp ++ "." ++ compressionMethod
  match h.get d.HttpClientNoTimeout fileUrl with
  | (.failed err, h1) => (("", some (DownloadError fileUrl err)), stats1, h1)
  | (.ok resp, h1) =>
    match WriteDecompressedFileToDiskFromReader codec resp.Body compressedPath compressionMethod
        checksumExtension remoteCksum uncompressedSize h1 with
    | ((decompressedPath, _, some err), h2) =>
      ((decompressedPath, some (DownloadError fileUrl err)), stats1, h2)
    | ((decompressedPath, decompressedSize, none), h2) =>
      if decompressedSize ≠ uncompressedSize ∧ ¬ h2.fileExists decompressedPath then
        ((decompressedPath, some (.plain ("✋ Cannot stat decompressed file " ++ decompressedPath ++
          " : stat " ++ decompressedPath ++ ": no such file or directory"))), stats1, h2)
      else
        let stats2 := { stats1 with
          DecompressedPath := decompressedPath
          DecompressedSizeInBytes := decompressedSize
          SavedFiles := stats1.SavedFiles ++ [decompressedPath]
          TotalBytesWrittenToDisk := stats1.TotalBytesWrittenToDisk + decompressedSize }
        let sizePath := d.DestinationFolder ++ "/" ++ d.Basename ++ "." ++ timestamp ++ ".size"
        match d.writeStringToFile sizePath (FormatInt decompressedSize) stats2 h2 with
        | (some err, stats3, h3) =>
          ((decompressedPath, some (.plain ("error creating size file: " ++ err.Error))), stats3, h3)
        | (none, stats3, h3) => ((decompressedPath, none), stats3, h3)

/-- The loop of `download` over the timestamp paths. -/
def writeTimestampFiles (d : Downloader) (timestamp : String) :
    List String → DownloadStats → Host → Option GoError × DownloadStats × Host
  | [], downloadStats, h => (none, downloadStats, h)
  | timestampPath :: rest, downloadStats, h =>
    match d.writeStringToFile timestampPath timestamp downloadStats h with
    | (some err, stats1, h1) =>
      (some (.plain ("✋ Error writing timestamp timestampPath " ++ timestampPath ++
        " to disk : " ++ err.Error)), stats1, h1)
    | (none, stats1, h1) => writeTimestampFiles d timestamp rest stats1 h1

end Downloader

/-- What a call of `download` or `Run` leaves behind: the statistics and the
error returned, the receiver and the machine after the call. -/
structure DownloadResult where
  stats : DownloadStats
  err : Option GoError
  downloader : Downloader
  host : Host

/-- Method `download`.  Memory mapping the decompressed file
(`mmapFileAfterDownload`) changes no file and cannot fail the download; it
is left out. -/
def Downloader.download (d : Downloader) (codec : Codec) (h : Host) : DownloadResult :=
  let stats0 : DownloadStats := {}
  match d.GetBaseUrlAndTimestamp h with
  | ((_, _, some err), h1) =>
    ⟨stats0, some (.plain ("✋ Error downloading timestamp and baseUrl for " ++ d.Basename ++
      " : " ++ err.Error)), d, h1⟩
  | ((baseUrl, timestamp, none), h1) =>
    let stats1 := { stats0 with Timestamp := timestamp, BaseUrl := baseUrl }
    let perTimestamp := d.fetchRemoteSettings baseUrl timestamp h1
    let fetched :=
      match perTimestamp with
      | ((_, some _), h2) => d.fetchRemoteSettings baseUrl "" h2
      | ((properties, none), h2) => ((properties, none), h2)
    match fetched with
    | ((_, some err), h3) =>
      ⟨stats1, some (.plain ("✋ Error downloading remote settings for " ++ d.Basename ++
        " : " ++ err.Error)), d, h3⟩
    | ((remoteProperties, none), h3) =>
      let path := d.DestinationFolder ++ "/" ++ d.Basename ++ "." ++ timestamp ++ ".settings"
      match h3.WritePropertiesFile remoteProperties path with
      | (some err, h4) =>
        ⟨stats1, some (.plain ("✋ Error writing settings file: " ++ err.Error)), d, h4⟩
      | (none, h4) =>
        let d1 := { d with RemoteSettings := d.makeSettingsFromProperties remoteProperties }
        let compressionMethod := d1.RemoteSettings.compressionMethod
        let checksumExtension := d1.RemoteSettings.checksumExtension
        let downloadMethod := d1.RemoteSettings.downloadMethod
        let sized := d1.fetchUncompressedSize baseUrl timestamp h4
        let uncompressedSize := if sized.1.2 ≠ none then -1 else sized.1.1
        match d1.fetchChecksum baseUrl timestamp checksumExtension sized.2 with
        | ((_, some err), h6) =>
          ⟨stats1, some (.plain ("✋ Error downloading " ++ d.Basename ++ " checksum: " ++
            err.Error)), d1, h6⟩
        | ((remoteCksum, none), h6) =>
          match d1.downloadInternal codec stats1 baseUrl downloadMethod timestamp
              compressionMethod checksumExtension uncompressedSize remoteCksum h6 with
          | ((_, some err), stats2, h7) => ⟨stats2, some err, d1, h7⟩
          | ((decompressedPath, none), stats2, h7) =>
            let checksumPath :=
              d.DestinationFolder ++ "/" ++ d.Basename ++ "." ++ timestamp ++ "." ++ checksumExtension
            match d1.writeStringToFile checksumPath remoteCksum stats2 h7 with
            | (some err, stats3, h8) =>
              ⟨stats3, some (.plain ("✋ Error writing checksum file " ++ checksumPath ++ " : " ++
                err.Error)), d1, h8⟩
            | (none, stats3, h8) =>
              let timestampPaths :=
                [d.DestinationFolder ++ "/" ++ d.Basename ++ ".timestamp",
                 d.DestinationFolder ++ "/" ++ d.Basename ++ ".timestamp.latest"] ++
                (if decompressedPath.length > 0 then [decompressedPath ++ ".timestamp"] else [])
              match d1.writeTimestampFiles timestamp timestampPaths stats3 h8 with
              | (some err, stats4, h9) => ⟨stats4, some err, d1, h9⟩
              | (none, stats4, h9) => ⟨stats4, none, d1, h9⟩


/-! ## Cleanup (`internal/core/cleanup.go`) and `Run` -/

/-- Insert `x` into an ascending list of integers. -/
def insertInt (x : Int) : List Int → List Int
  | [] => [x]
  | y :: ys => if x ≤ y then x :: y :: ys else y :: insertInt x ys

/-- The keys of the set of timestamps, in ascending order. -/
def sortedKeys (timestamps : List Int) : List Int :=
  timestamps.eraseDups.foldr insertInt []

/-- The timestamp that `GetSortedTimeStamps` reads from one path: the
second token of the base name if it is a number, else the third. -/
def timestampOfPath (p : String) : Option Int :=
  match splitOn (pathBase p) '.' with
  | _ :: second :: rest =>
    match ParseInt second with
    | .ok timestamp => some timestamp
    | .error _ =>
      match rest with
      | third :: _ =>
        match ParseInt third with
        | .ok timestamp => some timestamp
        | .error _ => none
      | [] => none
  | _ => none

/-- The paths that a glob adds to a list: none when the glob fails. -/
def globbed (storageHandler : StorageHandler) (h : Host) (globPattern : String) : List String :=
  (storageHandler.Glob h globPattern).1

/-- Whether the second token of a name is `mmap` or `cache`; then the
first token, the name without extension. -/
def cacheName (basename : String) : Option String :=
  match splitOn basename '.' with
  | name :: extension :: _ => if extension = "mmap" ∨ extension = "cache" then some name else none
  | _ => none

/-- Function `GetSortedTimeStamps`. -/
def GetSortedTimeStamps (destinationFolder stem : String) (storageHandler : StorageHandler)
    (h : Host) : List Int × Option GoError :=
  match storageHandler.Glob h (destinationFolder ++ "/" ++ stem ++ ".*") with
  | (_, some err) => ([], some err)
  | (paths, none) =>
    let extraFiles :=
      match cacheName stem with
      | some name => globbed storageHandler h (destinationFolder ++ "/" ++ name ++ ".*")
      | none => []
    (sortedKeys ((paths ++ extraFiles).filterMap timestampOfPath), none)

/-- Function `ListFetchedFiles`. -/
def ListFetchedFiles (destinationFolder basename timestamp : String)
    (storageHandler : StorageHandler) (h : Host) : List String :=
  let paths := globbed storageHandler h (destinationFolder ++ "/" ++ basename ++ "." ++ timestamp ++ "*")
  match cacheName basename with
  | some name =>
    let extension := (splitOn basename '.').getD 1 ""
    paths ++ globbed storageHandler h
      (destinationFolder ++ "/" ++ name ++ "." ++ timestamp ++ "." ++ extension ++ "*")
  | none => paths

/-- Function `ListTempFetchedFiles`. -/
def ListTempFetchedFiles (destinationFolder basename : String) (storageHandler : StorageHandler)
    (h : Host) : List String :=
  globbed storageHandler h (destinationFolder ++ "/" ++ basename ++ "." ++ "*.latest.tmp*") ++
    globbed storageHandler h (destinationFolder ++ "/" ++ basename ++ "." ++ "*.http_download_tmp*")

/-- The loop that removes each path of a list; a failing removal is only
logged. -/
def removeAll (storageHandler : StorageHandler) : List String → Host → Host
  | [], h => h
  | path :: rest, h => removeAll storageHandler rest (storageHandler.Remove h path).2

/-- The loop of `RemoveOldFiles` over the timestamps to drop: the machine
afterwards and the paths handed to the callback. -/
def removeGroups (destinationFolder basename : String) (storageHandler : StorageHandler) :
    List Int → Host → List String → Host × List String
  | [], h, seen => (h, seen)
  | timestamp :: rest, h, seen =>
    let paths := ListFetchedFiles destinationFolder basename (FormatInt timestamp) storageHandler h
    removeGroups destinationFolder basename storageHandler rest
      (removeAll storageHandler paths h) (seen ++ paths)

/-- What a call of `RemoveOldFiles` leaves behind: the error returned, the
machine, and the paths handed to the callback, each of which was then
passed to `Remove`. -/
structure CleanupResult where
  err : Option GoError
  host : Host
  removed : List String

/-- Function `RemoveOldFiles`, for a retain count that is not negative. -/
def RemoveOldFiles (destinationFolder basename : String) (numRetainedDownloads : Nat)
    (storageHandler : StorageHandler) (h : Host) : CleanupResult :=
  let paths := ListTempFetchedFiles destinationFolder basename storageHandler h
  let h1 := removeAll storageHandler paths h
  match GetSortedTimeStamps destinationFolder basename storageHandler h1 with
  | (_, some err) => ⟨some err, h1, paths⟩
  | (timestamps, none) =>
    if timestamps.length ≤ numRetainedDownloads then ⟨none, h1, paths⟩
    else
      let r := removeGroups destinationFolder basename storageHandler
        (timestamps.take (timestamps.length - numRetainedDownloads)) h1 paths
      ⟨none, r.1, r.2⟩

/-- Function `RemoveLastDownloadedFilesAfterError`; it always returns
`nil`. -/
def RemoveLastDownloadedFilesAfterError (destinationFolder basename timestamp : String)
    (storageHandler : StorageHandler) (h : Host) : Host :=
  let h1 := removeAll storageHandler
    (ListTempFetchedFiles destinationFolder basename storageHandler h) h
  if timestamp = "" then h1
  else removeAll storageHandler
    (ListFetchedFiles destinationFolder basename timestamp storageHandler h1) h1

/-- Method `Run`. -/
def Downloader.Run (d : Downloader) (codec : Codec) (h : Host) : DownloadResult :=
  match d.shouldDownload h with
  | ((false, _), h1) => ⟨{}, none, d, h1⟩
  | ((true, _), h1) =>
    let r := d.download codec h1
    match r.err with
    | some err =>
      ⟨r.stats, some err, r.downloader,
        RemoveLastDownloadedFilesAfterError d.DestinationFolder d.Basename r.stats.Timestamp
          LocalFStorageHandler r.host⟩
    | none =>
      ⟨r.stats, none, r.downloader,
        (RemoveOldFiles d.DestinationFolder d.Basename 1 LocalFStorageHandler r.host).host⟩

/-! ## The update loop of the reader (`checkForNewFiles`) -/

/-- Method `getLatestTimestamp`. -/
def CacheReader.getLatestTimestamp {H : Type} (c : CacheReader H) (h : Host) : Int × Option GoError :=
  let path := c.DestinationFolder ++ "/" ++ c.TaskName ++ ".cache.timestamp.latest"
  match h.readFile path with
  | none =>
    (-1, some (.plain ("Cannot read file " ++ path ++ ", error open " ++ path ++
      ": no such file or directory")))
  | some content =>
    match ParseInt content with
    | .error e =>
      (-1, some (.plain ("Cannot parse timestamp as int from file " ++ path ++ ", error: " ++
        e.Error content)))
    | .ok timestamp => (timestamp, none)

/-- Method `maybeDownload`; `net` is the transport that the clients of the
new downloader use. -/
def CacheReader.maybeDownload {H : Type} (c : CacheReader H) (net : CoreDownloader)
    (codec : Codec) (h : Host) : Option GoError × Host :=
  if c.BaseUrls.length = 0 then (none, h)
  else
    let downloader := NewDownloader net
      { Basename := c.TaskName ++ ".cache"
        DestinationFolder := c.DestinationFolder
        AllUrls := c.BaseUrls }
    let r := downloader.Run codec h
    (r.err, r.host)

/-- What one pass of the loop of `checkForNewFiles` leaves behind: the error
of `maybeDownload`, the result of `getLatestTimestamp`, the argument of each
call of `Update`, the reader and the machine. -/
structure LoopPass (H : Type) where
  downloadErr : Option GoError
  latest : Int × Option GoError
  updates : List String
  reader : CacheReader H
  host : Host

/-- One pass of the loop of `checkForNewFiles`, in the `default` case of
the `select`.  The native library reads the files of the machine as they are
when `Update` is called. -/
def CacheReader.checkPass {H : Type} (api : FS → ReaderCApi H) (net : CoreDownloader)
    (codec : Codec) (c : CacheReader H) (h : Host) : LoopPass H :=
  let downloaded := c.maybeDownload net codec h
  let latest := c.getLatestTimestamp downloaded.2
  match latest.2 with
  | some _ => ⟨downloaded.1, latest, [], c, downloaded.2⟩
  | none =>
    if latest.1 > c.MostRecentFileTimestamp then
      let timestamp := FormatInt latest.1
      ⟨downloaded.1, latest, [timestamp], (c.Update (api downloaded.2.fs) timestamp).reader,
        downloaded.2⟩
    else ⟨downloaded.1, latest, [], c, downloaded.2⟩

/-! ## The key-value file scanner (`cmd/kv_scanner.go`) -/

/-- The record separator, byte 30. -/
def recordSeparator : Char := Char.ofNat 30

/-- Call `bytes.IndexByte(b, c)`: `none` for -1. -/
def indexByte (c : Char) : List Char → Option Nat
  | [] => none
  | x :: xs => if x = c then some 0 else (indexByte c xs).map (· + 1)

/-- Slice expression `b[start:end]` for `start ≤ end ≤ len(b)`. -/
def sliceBytes (b : List Char) (start stop : Nat) : List Char :=
  (b.drop start).take (stop - start)

/-- Go struct `KeyValueFileScanner` as `NewKeyValueFileScanner` makes it
(the maps exist; a map to `bool` that only ever stores `true` is the list of
its keys).  `MappedBytes` is `none` for nil.  `Counter` is the total of the
`InsertCounter`, which `SetPath` creates before it maps the file.  The file
handle and the cancel function are not modelled. -/
structure KeyValueFileScanner where
  Path : String := ""
  MappedBytes : Option String := none
  Counter : Int := 0
  DeduplicateKeys : Bool := false
  UniqueKeys : List String := []
  UniqueKeysWithoutQueryId : List String := []
  CurrentPopulateQueryId : String := ""
  KeysCount : Int := 0
  MinKeyLength : Int := 2 ^ 63 - 1
  MaxKeyLength : Int := 0
  MinValueLength : Int := 2 ^ 63 - 1
  MaxValueLength : Int := 0
  KeySpaceSize : Int := 0
  ValueSpaceSize : Int := 0
  QueryIds : List Int := []
deriving DecidableEq, Repr

/-- Function `NewKeyValueFileScanner`. -/
def NewKeyValueFileScanner : KeyValueFileScanner := {}

/-- What `os.OpenFile(path, os.O_RDONLY, 0644)` followed by `mmap.Map` gives:
the bytes of the file, or the error of either call. -/
inductive Mapped where
  | bytes (b : String)
  | failed (err : GoError)
deriving DecidableEq, Repr

namespace KeyValueFileScanner

/-- Method `EnableKeysDeduplication`. -/
def EnableKeysDeduplication (k : KeyValueFileScanner) : KeyValueFileScanner :=
  { k with DeduplicateKeys := true }

/-- Method `SetPath`; `mapFile` opens and maps a file. -/
def SetPath (mapFile : String → Mapped) (k : KeyValueFileScanner) (path : String) :
    Option GoError × KeyValueFileScanner :=
  let k1 := { k with Path := path, MappedBytes := none, Counter := 0 }
  match mapFile path with
  | .failed err => (some err, k1)
  | .bytes b => (none, { k1 with MappedBytes := some b })

/-- Method `UpdateStats`. -/
def UpdateStats (k : KeyValueFileScanner) (key value : String) : KeyValueFileScanner :=
  let k1 := { k with
    KeysCount := k.KeysCount + 1
    KeySpaceSize := k.KeySpaceSize + key.length
    ValueSpaceSize := k.ValueSpaceSize + value.length }
  let k2 := if (key.length : Int) < k1.MinKeyLength then { k1 with MinKeyLength := key.length }
    else k1
  let k3 := if (value.length : Int) < k2.MinValueLength then
      { k2 with MinValueLength := value.length }
    else k2
  let k4 := if (key.length : Int) > k3.MaxKeyLength then { k3 with MaxKeyLength := key.length }
    else k3
  if (value.length : Int) > k4.MaxValueLength then { k4 with MaxValueLength := value.length }
  else k4

/-- Method `isKeyDuplicated`: the answer and the scanner after the call. -/
def isKeyDuplicated (k : KeyValueFileScanner) (key : String) : Bool × KeyValueFileScanner :=
  match indexByte '.' key.data with
  | none =>
    if key ∈ k.UniqueKeysWithoutQueryId then (true, k)
    else (false, { k with UniqueKeysWithoutQueryId := key :: k.UniqueKeysWithoutQueryId })
  | some idx =>
    let queryId := String.mk (key.data.take idx)
    if queryId.length = 0 then (false, k)
    else
      let k1 := if k.CurrentPopulateQueryId = "" then { k with CurrentPopulateQueryId := queryId }
        else k
      let k2 := if queryId ≠ k1.CurrentPopulateQueryId then
          { k1 with CurrentPopulateQueryId := queryId, UniqueKeys := [] }
        else k1
      if key ∈ k2.UniqueKeys then (true, k2)
      else (false, { k2 with UniqueKeys := key :: k2.UniqueKeys })

/-- Method `ExtractQueryId`: `key[0]` panics on an empty key;
`strconv.Atoi` is `ParseInt(s, 10, 0)` with a 64-bit `int`. -/
def ExtractQueryId (key : String) : Outcome Int :=
  match key.data with
  | [] => .panic
  | c :: rest =>
    let key2 := if c.toNat = 1 then rest else c :: rest
    match indexByte '.' key2 with
    | none => .ret 0 none
    | some idx =>
      match ParseInt (String.mk (key2.take idx)) with
      | .ok val => .ret val none
      | .error _ => .ret 0 none

/-- The body of the loop of `ForEach` for one line: the scanner and the
state of the callback afterwards, with a nil error when the loop goes on and
the error with which `ForEach` returns otherwise.  The callback `fn` is a
function of its captured state `σ`. -/
def scanLine {σ : Type} (fn : σ → String → String → Int → Outcome σ) (k : KeyValueFileScanner)
    (line : List Char) (s : σ) : Outcome (KeyValueFileScanner × σ) :=
  match indexByte '=' line with
  | none =>
    .ret (k, s) (some (.plain ("Invalid line \x27" ++ String.mk line ++
      "\x27 missing = separator, format should be key=value")))
  | some idx =>
    let key := String.mk (line.take idx)
    let value := String.mk (line.drop (idx + 1))
    match ExtractQueryId key with
    | .panic => .panic
    | .ret queryId _ =>
      let k1 := { k with
        QueryIds := if queryId ∈ k.QueryIds then k.QueryIds else k.QueryIds ++ [queryId] }
      let dup := if k1.DeduplicateKeys then k1.isKeyDuplicated key else (false, k1)
      if dup.1 then .ret ({ dup.2 with Counter := dup.2.Counter + 1 }, s) none
      else
        let k2 := dup.2.UpdateStats key value
        match fn s key value queryId with
        | .panic => .panic
        | .ret s1 (some err) => .ret (k2, s1) (some err)
        | .ret s1 none => .ret ({ k2 with Counter := k2.Counter + 1 }, s1) none

/-- The loop of `ForEach` from index `i` on: `rest` are the bytes from `i`
on, `start` is the index at which the current line begins, `all` are the
mapped bytes and `last` is `len(all) - 1`. -/
def forEachFrom {σ : Type} (fn : σ → String → String → Int → Outcome σ) (all : List Char)
    (last : Int) : List Char → Nat → Nat → KeyValueFileScanner → σ →
    Outcome (KeyValueFileScanner × σ)
  | [], _, _, k, s => .ret (k, s) none
  | char :: rest, i, start, k, s =>
    if char = recordSeparator ∨ (i : Int) = last then
      let stop := if char ≠ recordSeparator then i + 1 else i
      match scanLine fn k (sliceBytes all start stop) s with
      | .panic => .panic
      | .ret out (some err) => .ret out (some err)
      | .ret out none => forEachFrom fn all last rest (i + 1) (i + 1) out.1 out.2
    else forEachFrom fn all last rest (i + 1) start k s

/-- Method `ForEach`: the scanner and the state of the callback after the
call, and the error returned. -/
def ForEach {σ : Type} (k : KeyValueFileScanner) (fn : σ → String → String → Int → Outcome σ)
    (s : σ) : Outcome (KeyValueFileScanner × σ) :=
  let all := match k.MappedBytes with
    | some b => b.data
    | none => []
  let last : Int := (all.length : Int) - 1
  let k0 := if k.DeduplicateKeys then { k with UniqueKeys := [] } else k
  forEachFrom fn all last all 0 0 k0 s

end KeyValueFileScanner

/-! ## The cache creator (`cmd/cache_creator.go`) -/

/-- Constant `StringValueType`. -/
def StringValueType : Int := 0

/-- Go struct `CacheCreator`; `KeyTypes` is the list of the entries of the
map. -/
structure CacheCreator where
  Properties : Properties
  DestinationFolder : String
  CCacheDestinationFolder : String
  GotOffsetBitsError : Bool
  GotOutOfDataSpaceError : Bool
  HasLastPopulateKey : Bool
  KeyTypes : List (Int × Int)

/-- Map read `c.KeyTypes[queryId]`: 0 for a missing key. -/
def keyTypeOf (keyTypes : List (Int × Int)) (queryId : Int) : Int :=
  match keyTypes.find? fun e => e.1 = queryId with
  | some e => e.2
  | none => 0

/-- What the callback of `InsertAllKeysAndValues` captures: the creator,
`previousKey` (nil is the empty string: `bytes.Equal` does not tell them
apart) and the writer; and, for observation, the records that entered the
block guarded by the key comparison and the arguments of each call of
`InsertKey`, oldest first. -/
structure InsertState (W : Type) where
  creator : CacheCreator
  previousKey : String
  cacheWriter : CacheWriter W
  reached : List (String × String)
  inserted : List (String × String × Int)

/-- The callback that `InsertAllKeysAndValues` passes to `ForEach`. -/
def insertRecord {W : Type} (api : WriterCApi W) (st : InsertState W) (key value : String)
    (queryId : Int) : Outcome (InsertState W) :=
  let st1 := if hasPrefix key "LAST_POPULATE" then
      { st with creator := { st.creator with HasLastPopulateKey := true } }
    else st
  if key ≠ st1.previousKey then
    let st2 := { st1 with previousKey := key, reached := st1.reached ++ [(key, value)] }
    let keyType := keyTypeOf st2.creator.KeyTypes queryId
    if keyType ≠ StringValueType ∧ value.length = 0 then .ret st2 none
    else
      match st2.cacheWriter.InsertKey api key value keyType with
      | .panic => .panic
      | .ret w err =>
        .ret { st2 with cacheWriter := w, inserted := st2.inserted ++ [(key, value, keyType)] } err
  else .ret st1 none

/-- Method `InsertAllKeysAndValues`: the state of the callback and the
scanner after the call, and the error returned.  The deferred `Close` of
the scanner releases the mapping and is not modelled. -/
def CacheCreator.InsertAllKeysAndValues {W : Type} (api : WriterCApi W)
    (mapFile : String → Mapped) (c : CacheCreator) (cacheWriter : CacheWriter W)
    (scanner : KeyValueFileScanner) (path dataFile : String) :
    Outcome (InsertState W × KeyValueFileScanner) :=
  let opened := scanner.SetPath mapFile path
  let st0 : InsertState W := ⟨c, "", cacheWriter, [], []⟩
  match opened.1 with
  | some err => .ret (st0, opened.2) (some err)
  | none =>
    match opened.2.ForEach (insertRecord api) st0 with
    | .panic => .panic
    | .ret out (some err) => .ret (out.2, out.1) (some err)
    | .ret out none =>
      if ¬ out.2.creator.HasLastPopulateKey then
        .ret (out.2, out.1) (some (.plain ("Invalid key value file \x27" ++ dataFile ++
          "\x27 : missing LAST_POPULATE key")))
      else .ret (out.2, out.1) none

/-! ## The decision of `shouldDownload` as a function of what it observes -/

/-- What `shouldDownload` looks at: the remote timestamp picked by
`GetBaseUrlAndTimestamp` (`none` when none can be picked), the content of
the local `<basename>.timestamp.latest` (`none` when unreadable), how many
local paths match `<dest>/<BasenameNoExt>.*<timestamp>*` (zero when the
listing fails), the remote inputs manifest (`none` when the fetch fails) and
the local `<basename>.inputs` (`none` when unreadable). -/
structure Observed where
  remoteTimestamp : Option String
  latest : Option String
  matching : Nat
  remoteInputs : Option String
  localInputs : Option String

/-- The observations of `shouldDownload` for downloader `d` on machine `h`. -/
def Downloader.observe (d : Downloader) (h : Host) : Observed :=
  let probe := d.GetBaseUrlAndTimestamp h
  let baseUrl := probe.1.1
  let timestamp := probe.1.2.1
  let fetched := d.fetchRemoteInputsFile baseUrl probe.2
  { remoteTimestamp := if probe.1.2.2 = none then some timestamp else none
    latest := h.readFile (d.DestinationFolder ++ "/" ++ d.Basename ++ ".timestamp.latest")
    matching :=
      if (h.glob (d.DestinationFolder ++ "/" ++ d.BasenameNoExt ++ ".*" ++ timestamp ++
          "*")).2 = none then
        (h.glob (d.DestinationFolder ++ "/" ++ d.BasenameNoExt ++ ".*" ++ timestamp ++
          "*")).1.length
      else 0
    remoteInputs := if fetched.1.2 = none then some fetched.1.1 else none
    localInputs := h.readFile (d.DestinationFolder ++ "/" ++ d.Basename ++ ".inputs") }

/-- The decision function in the words of the description of
`shouldDownload`. -/
def decisionOf (o : Observed) : Bool × DownloadReason :=
  match o.remoteTimestamp with
  | none => (true, .NoTimestamp)
  | some timestamp =>
    match o.latest with
    | none => (true, .MissingLatestTimestamp)
    | some content =>
      if content = timestamp then
        if o.matching > 2 then (false, .UpToDate) else (true, .NotEnoughFiles)
      else
        match o.remoteInputs with
        | none => (true, .MissingRemoteInputs)
        | some remote =>
          if remote.length = 0 then (true, .EmptyRemoteInputs)
          else
            match o.localInputs with
            | none => (true, .MissingLocalInputs)
            | some loc =>
              if loc.length = 0 then (true, .EmptyLocalInputs)
              else if loc ≠ remote then (true, .DifferentRemoteAndLocalInputs)
              else if o.matching > 2 then (false, .SimilarRemoteAndLocalInputs)
              else (true, .NotEnoughFiles)

/-! ## Sample inputs for the downloader -/

/-- A response with status 200 and the given body. -/
def okResponse (body : String) : HttpResult :=
  .ok ⟨200, "", ⟨body, none⟩⟩

/-- A response with status 404. -/
def notFound : HttpResult :=
  .ok ⟨404, "", ⟨"", none⟩⟩

/-- A remote that serves generation 1700 of `t.cache` under `http://h`:
the timestamp, empty settings, the checksum `ff` and the compressed
body `z`. -/
def sampleNet : CoreDownloader := fun _ url =>
  if url = "http://h/t.cache.timestamp" then okResponse "1700\n"
  else if url = "http://h/t.cache.1700.settings" then okResponse ""
  else if url = "http://h/t.cache.1700.xxh3" then okResponse "ff"
  else if url = "http://h/t.cache.1700.zst" then okResponse "z"
  else notFound

/-- A codec for which `z` is the compressed form of `data`, whose hashes
are 255 for `data` and 0 for any other input, and for which every other
stream is corrupt. -/
def sampleCodec : Codec where
  zstdDecode := fun s => if s = "z" then some "data" else none
  xxh64 := fun s => if s = "data" then 255 else 0
  xxh3 := fun s => if s = "data" then 255 else 0
  fallocate := fun _ => none

/-- A machine whose files are the given text files, with nothing done
yet. -/
def hostWith (files : List (String × String)) (seeds : List Nat) : Host where
  fs :=
    { files := fun p => (files.find? fun e => e.1 = p).map fun e => FileData.text e.2
      denied := fun _ => false }
  known := files.map Prod.fst
  log := []
  seeds := seeds
  requests := []

/-- The downloader that the reader builds for task `t`, folder `/d` and
base URL list `h`. -/
def sampleDownloader (net : CoreDownloader) : Downloader :=
  NewDownloader net { Basename := "t.cache", DestinationFolder := "/d", AllUrls := "h" }

/-- A remote that serves timestamp 1700 and the inputs manifest `in` for
`t.cache` under `http://h`. -/
def inputsNet : CoreDownloader := fun _ url =>
  if url = "http://h/t.cache.timestamp" then okResponse "1700\n"
  else if url = "http://h/t.cache.inputs" then okResponse "in"
  else notFound

/-- A folder `/d` that holds generation 1700 of `t.cache`, the inputs
manifest `in`, and a latest timestamp file that still names 1600. -/
def sameInputsHost : Host :=
  hostWith [("/d/t.cache.timestamp.latest", "1600"), ("/d/t.cache.inputs", "in"),
    ("/d/t.1700.cache", "data"), ("/d/t.cache.1700.size", "4"), ("/d/t.cache.1700.xxh3", "ff")] []

/-- An empty folder, with the next seven values of `rand.Uint32()`. -/
def emptyHost : Host :=
  hostWith [] [1, 2, 3, 4, 5, 6, 7]

/-- A reader of task `t` in folder `/d` that downloads from the base URL
list `h` and has timestamp 1600 loaded. -/
def remoteReader : CacheReader Unit where
  Handle := some ()
  TaskName := "t"
  DestinationFolder := "/d"
  BaseUrls := "h"
  MostRecentFileTimestamp := 1600
  Timestamp := ""
  IsPreloadMemoryEnabled := 0
  UpdatePeriod := 1000
  StopClosed := false
  UpdateCallback := none

/-- A network on which every request fails. -/
def downNet : CoreDownloader := fun _ _ =>
  .failed (.plain "connection refused")

/-- A folder `/d` whose latest timestamp file for `t.cache` names 1700. -/
def latestHost : Host :=
  hostWith [("/d/t.cache.timestamp.latest", "1700")] []

/-- A folder `/d` that still holds the settings file of generation 1800 of
`t.cache`. -/
def staleHost : Host :=
  hostWith [("/d/t.cache.1800.settings", "")] [1, 2, 3, 4, 5, 6, 7]

/-- A folder `/d` that holds the settings files of generations 17 and 1700
of `t.cache` and the data file of generation 1700. -/
def prefixHost : Host :=
  hostWith [("/d/t.cache.17.settings", ""), ("/d/t.cache.1700.settings", ""),
    ("/d/t.1700.cache", "data")] []

/-- A remote that serves generation 1700 of `basename` under `http://h`:
the timestamp, empty settings, the checksum `ff` and the given compressed
body. -/
def remoteOf (basename body : String) : CoreDownloader := fun _ url =>
  if url = "http://h/" ++ basename ++ ".timestamp" then okResponse "1700\n"
  else if url = "http://h/" ++ basename ++ ".1700.settings" then okResponse ""
  else if url = "http://h/" ++ basename ++ ".1700.xxh3" then okResponse "ff"
  else if url = "http://h/" ++ basename ++ ".1700.zst" then okResponse body
  else notFound

/-- The run of a downloader for `basename` in `folder`, on a machine without
files, against a remote that serves generation 1700 of `basename` with a
compressed body that is corrupt. -/
def corruptRun (basename folder : String) : DownloadResult :=
  (NewDownloader (remoteOf basename "bad")
    { Basename := basename, DestinationFolder := folder, AllUrls := "h" }).Run sampleCodec emptyHost


/-! ## Notions used to state properties of the downloader -/

/-- A comma-separated list: the entries joined by single commas. -/
def commaJoin : List String → String
  | [] => ""
  | [e] => e
  | e :: es => e ++ "," ++ commaJoin es

/-- The URL that `GetBaseUrlAndTimestamp` requests for a base URL. -/
def timestampUrl (d : Downloader) (baseUrl : String) : String :=
  baseUrl ++ "/" ++ d.Basename ++ ".timestamp"

/-- For each base URL in turn, the timestamp that the answer to its
timestamp request carries (`none` when the request fails, the status is not
200, the body cannot be read or is not a decimal number); `sent` is the list
of the requests made before. -/
def probeAnswers (d : Downloader) : List String → List String → List (String × Option Int)
  | [], _ => []
  | baseUrl :: rest, sent =>
    (baseUrl, probedTimestamp (d.HttpClient sent (timestampUrl d baseUrl))) ::
      probeAnswers d rest (sent ++ [timestampUrl d baseUrl])

/-- A remote whose only answer is the timestamp `0` for `t.cache` under
`http://h`. -/
def zeroNet : CoreDownloader := fun _ url =>
  if url = "http://h/t.cache.timestamp" then okResponse "0" else notFound

/-- The downloader for `t.cache` and folder `/d` with the base URL list
`http://host`. -/
def schemeDownloader : Downloader :=
  NewDownloader sampleNet
    { Basename := "t.cache", DestinationFolder := "/d", AllUrls := "http://host" }

/-- The downloader for `t.cache` and folder `/d` with a base URL list of a
`file://` entry, an empty entry and a bare host. -/
def mixedDownloader : Downloader :=
  NewDownloader sampleNet
    { Basename := "t.cache", DestinationFolder := "/d", AllUrls := "file:///srv,,host" }

/-- The two effects of a successful `WriteStringToFile(path, _)` when
`seeds` are the next values of `rand.Uint32()`: the temporary file is
written, then renamed to `path`. -/
def published (path : String) (seeds : List Nat) : List FileEvent :=
  [.write (path ++ ".tmp." ++ FormatInt (seeds.headD 0)),
   .rename (path ++ ".tmp." ++ FormatInt (seeds.headD 0)) path]

/-- The effects of publishing each path of a list in turn. -/
def publishedAll : List String → List Nat → List FileEvent
  | [], _ => []
  | path :: rest, seeds => published path seeds ++ publishedAll rest seeds.tail

/-- The path at which a download for `timestamp` with the compression
method `compressionMethod` puts the decompressed data. -/
def dataPath (d : Downloader) (timestamp compressionMethod : String) : String :=
  decompressedPathOf
    (d.DestinationFolder ++ "/" ++ d.Basename ++ "." ++ timestamp ++ "." ++ compressionMethod)

/-- The effects of decompressing to `data` through a temporary file. -/
def dataPublished (data : String) (seeds : List Nat) : List FileEvent :=
  [.create (data ++ ".tmp." ++ FormatInt (seeds.headD 0)),
   .write (data ++ ".tmp." ++ FormatInt (seeds.headD 0)),
   .rename (data ++ ".tmp." ++ FormatInt (seeds.headD 0)) data]

/-- The publication order of a download: the settings file, the data file
(created under a temporary name, written, renamed), the size sidecar, the
checksum sidecar, then the timestamp files `<basename>.timestamp`,
`<basename>.timestamp.latest` and `<data path>.timestamp`. -/
def publicationOrder (d : Downloader) (timestamp compressionMethod checksumExtension : String)
    (seeds : List Nat) : List FileEvent :=
  published (d.DestinationFolder ++ "/" ++ d.Basename ++ "." ++ timestamp ++ ".settings") seeds ++
  (dataPublished (dataPath d timestamp compressionMethod) seeds.tail ++
  (published (d.DestinationFolder ++ "/" ++ d.Basename ++ "." ++ timestamp ++ ".size")
      seeds.tail.tail ++
  (published (d.DestinationFolder ++ "/" ++ d.Basename ++ "." ++ timestamp ++ "." ++
      checksumExtension) seeds.tail.tail.tail ++
  publishedAll
    [d.DestinationFolder ++ "/" ++ d.Basename ++ ".timestamp",
     d.DestinationFolder ++ "/" ++ d.Basename ++ ".timestamp.latest",
     dataPath d timestamp compressionMethod ++ ".timestamp"] seeds.tail.tail.tail.tail)))

/-- Two states of the machine that differ at most in the requests sent. -/
def SameDisk (h h1 : Host) : Prop :=
  h1.fs = h.fs ∧ h1.known = h.known ∧ h1.log = h.log ∧ h1.seeds = h.seeds

/-- The machine went from `h` to `h1` by the file effects `events`: these
were appended to the log, the permissions are the same, and every path that
a listing could show can still be shown. -/
def Ran (h h1 : Host) (events : List FileEvent) : Prop :=
  h1.log = h.log ++ events ∧ h1.fs.denied = h.fs.denied ∧ ∀ q ∈ h.known, q ∈ h1.known


/-- The error of a call that returned; `none` also for a call that did not
return. -/
def Outcome.errorOf {α : Type} : Outcome α → Option GoError
  | .ret _ e => e
  | .panic => none

/-- Whether the call returned. -/
def Outcome.returned {α : Type} : Outcome α → Bool
  | .ret _ _ => true
  | .panic => false

/-- The order of `sort.Strings`. -/
def keyLe (a b : String) : Prop :=
  bytesLe a.data b.data = true

/-- The line that `SerializeProperties` writes for an entry, without the
newline. -/
def lineOf (e : String × String) : List Char :=
  e.1.data ++ '=' :: e.2.data

/-- A key or value that a properties line carries unchanged: no `=`, no
newline, no carriage return, no leading and no trailing space. -/
def Plain (s : String) : Prop :=
  '=' ∉ s.data ∧ '\n' ∉ s.data ∧ '\r' ∉ s.data ∧ s.data.head? ≠ some ' ' ∧
    s.data.getLast? ≠ some ' '

/-- An entry that a properties file carries unchanged: plain key and value,
a key that does not begin with `#`, and a line of at most 65535 bytes. -/
def PlainEntry (e : String × String) : Prop :=
  Plain e.1 ∧ Plain e.2 ∧ e.1.data.head? ≠ some '#' ∧ (lineOf e).length ≤ 65535


/-- The reader after a sequence of calls of `Update`, whatever they
return. -/
def CacheReader.updated {H : Type} (api : ReaderCApi H) (c : CacheReader H)
    (timestamps : List String) : CacheReader H :=
  timestamps.foldl (fun r ts => (CacheReader.Update api r ts).reader) c

/-- The query id that `ExtractQueryId` returns for a key; 0 where it does
not return. -/
def queryIdOf (key : String) : Int :=
  match KeyValueFileScanner.ExtractQueryId key with
  | .ret queryId _ => queryId
  | .panic => 0

/-- A record `(key, value)` of a key-value file: the key is not empty and
holds neither `=` nor the separator byte, the value does not hold the
separator byte. -/
@[reducible] def GoodRecord (r : String × String) : Prop :=
  r.1.data ≠ [] ∧ '=' ∉ r.1.data ∧ recordSeparator ∉ r.1.data ∧ recordSeparator ∉ r.2.data

/-- The bytes `k_1=v_1 0x1E k_2=v_2 0x1E ...` with each record followed by
the separator. -/
def terminated (rs : List (String × String)) : List Char :=
  (rs.map fun r => lineOf r ++ [recordSeparator]).flatten

/-- The bytes of a key-value file holding the records `rs`, with or without
the separator after the last record. -/
def kvBytes (rs : List (String × String)) (trailing : Bool) : List Char :=
  if trailing then terminated rs else (terminated rs).dropLast

/-- The callback applied to each record in turn, with the query id of its
key, until it reports an error or panics. -/
def feed {σ : Type} (fn : σ → String → String → Int → Outcome σ) :
    List (String × String) → σ → Outcome σ
  | [], s => .ret s none
  | r :: rs, s =>
    match fn s r.1 r.2 (queryIdOf r.1) with
    | .panic => .panic
    | .ret s1 (some err) => .ret s1 (some err)
    | .ret s1 none => feed fn rs s1

/-- A scanner whose mapped bytes are `b`, as `SetPath` leaves it. -/
def scannerOn (b : List Char) : KeyValueFileScanner :=
  { NewKeyValueFileScanner with MappedBytes := some (String.mk b) }

/-- A callback that appends its arguments to a list and never fails. -/
def recordCall (log : List (String × String × Int)) (key value : String) (queryId : Int) :
    Outcome (List (String × String × Int)) :=
  .ret (log ++ [(key, value, queryId)]) none

/-- The records whose key differs from the key of the record before them;
`prev` is the key of the record before the first one, `none` when there is
no such record. -/
def firstOfRuns : Option String → List (String × String) → List (String × String)
  | _, [] => []
  | prev, r :: rs =>
    if prev ≠ some r.1 then r :: firstOfRuns (some r.1) rs else firstOfRuns (some r.1) rs

/-- The calls of `InsertKey` for records that entered the guarded block:
a record with an empty value is passed on only when its key type is
`StringValueType`. -/
def insertedOf (keyTypes : List (Int × Int)) (records : List (String × String)) :
    List (String × String × Int) :=
  (records.filter fun r =>
    decide (keyTypeOf keyTypes (queryIdOf r.1) = StringValueType ∨ r.2.length ≠ 0)).map
    fun r => (r.1, r.2, keyTypeOf keyTypes (queryIdOf r.1))

/-- The scanner as `SetPath` leaves it when the file was mapped. -/
def KeyValueFileScanner.mapped (k : KeyValueFileScanner) (path : String) (b : String) :
    KeyValueFileScanner :=
  { k with Path := path, MappedBytes := some b, Counter := 0 }

/-- Records of a key-value file: two consecutive records with the same key,
a record of a boolean key with an empty value, and the `LAST_POPULATE`
record. -/
def sampleRecords : List (String × String) :=
  [("12.a", "x"), ("12.a", "y"), ("13.b", ""), ("LAST_POPULATE", "1")]

/-- A creator in which the keys of query 13 are booleans (type 2). -/
def sampleCreator : CacheCreator where
  Properties := []
  DestinationFolder := "/tmp/d"
  CCacheDestinationFolder := "/tmp/d"
  GotOffsetBitsError := false
  GotOutOfDataSpaceError := false
  HasLastPopulateKey := false
  KeyTypes := [(13, 2)]

/-- A machine on which every path maps to the bytes `b`. -/
def mapTo (b : List Char) : String → Mapped :=
  fun _ => .bytes (String.mk b)


/-- What a run of `InsertAllKeysAndValues` shows: the records that entered
the block guarded by the key comparison, the arguments of the calls of
`InsertKey`, and the error returned; `none` when the run panics. -/
def offeredIn {W : Type} (o : Outcome (InsertState W × KeyValueFileScanner)) :
    Option (List (String × String) × List (String × String × Int) × Option GoError) :=
  match o with
  | .ret out err => some (out.1.reached, out.1.inserted, err)
  | .panic => none

/-- Records of a key-value file in which a key comes back after another key
of the same query id. -/
def returningRecords : List (String × String) :=
  [("12.a", "x"), ("12.b", "y"), ("12.a", "z"), ("LAST_POPULATE", "1")]

/-- The path that `path.Clean` makes of the elements it keeps. -/
def renderPath (k : Bool × List (List Char)) : String :=
  if k.1 then String.mk ('/' :: joinSlash k.2.reverse)
  else if joinSlash k.2.reverse = [] then "."
  else String.mk (joinSlash k.2.reverse)

/-- What `path.Clean` keeps (innermost first): elements that are not empty,
hold no slash and are not `.`, with `..` only at the outer end of a path
that is not rooted. -/
def CleanStack (rooted : Bool) (S : List (List Char)) : Prop :=
  (∀ e ∈ S, e ≠ [] ∧ '/' ∉ e ∧ e ≠ ['.']) ∧
  (rooted = true → ['.', '.'] ∉ S) ∧
  ∀ pre post, S = pre ++ ['.', '.'] :: post → ∀ x ∈ post, x = ['.', '.']

/-- A name that `path.Clean` keeps as it is: not empty, without a slash,
and neither `.` nor `..`. -/
def PlainName (n : List Char) : Prop :=
  n ≠ [] ∧ '/' ∉ n ∧ n ≠ ['.'] ∧ n ≠ ['.', '.']

/-- The directory in which `Glob` looks for a pattern `<dest>/<file>` whose
folder `dest` has no metacharacter. -/
def globFolder (dest : String) : String :=
  if dest = "" then "/" else dest

/-- Where a chunk without star, class and escape matches the beginning of a
name without slash: the rest of the name. -/
def chunkRest : List Char → List Char → Option (List Char)
  | [], s => some s
  | _ :: _, [] => none
  | c :: cs, x :: xs => if c = '?' ∨ x = c then chunkRest cs xs else none

/-- What a star before a pattern matches, on a name without slash: any
beginning of the name, with the rest of the name matching the pattern. -/
def starMatch (rest : List Char → Bool) : List Char → Bool
  | [] => rest []
  | c :: cs => rest (c :: cs) || starMatch rest cs

/-- Whether a name without slash matches a pattern without class and
escape, told from the meaning of `*` and `?`. -/
def globMatch : List Char → List Char → Bool
  | [], name => name.isEmpty
  | p :: ps, name =>
    if p = '*' then starMatch (globMatch ps) name
    else
      match name with
      | [] => false
      | c :: cs => (decide (p = '?') || decide (c = p)) && globMatch ps cs

/-- The chunk matches the beginning of the name, and all of the name when
the chunk is the last of the pattern. -/
def acceptChunk (chunk : List Char) (lastChunk : Bool) (s : List Char) : Option (List Char) :=
  match chunkRest chunk s with
  | some t => if lastChunk ∧ t ≠ [] then none else some t
  | none => none

/-- The first place from which the chunk is accepted, going along the name:
what is left of the name after it. -/
def searchChunk (chunk : List Char) (lastChunk : Bool) : List Char → Option (List Char)
  | [] => acceptChunk chunk lastChunk []
  | x :: xs =>
    match acceptChunk chunk lastChunk (x :: xs) with
    | some t => some t
    | none => searchChunk chunk lastChunk xs

/-! ## Decimal rendering and parsing -/

theorem digitVal_digit (d : Nat) (hd : d < 10) : digitVal (Char.ofNat (48 + d)) = some d := by
  interval_cases d <;> decide

theorem digit_ne_sign (d : Nat) (hd : d < 10) :
    Char.ofNat (48 + d) ≠ '+' ∧ Char.ofNat (48 + d) ≠ '-' := by
  interval_cases d <;> decide

theorem parseUintLoop_decimalDigits (fuel : Nat) :
    ∀ (n : Nat) (acc : List Char), n < fuel → n < 2 ^ 64 →
      parseUintLoop (decimalDigits fuel n acc) 0 = parseUintLoop acc n := by
  induction fuel with
  | zero => intro n acc h; omega
  | succ f ih =>
    intro n acc hf hn
    have hd := digitVal_digit (n % 10) (Nat.mod_lt _ (by decide))
    have hn1 : n < 18446744073709551616 := by simpa using hn
    have step : ∀ m, m * 10 + n % 10 = n →
        parseUintLoop (Char.ofNat (48 + n % 10) :: acc) m = parseUintLoop acc n := by
      intro m hm
      simp only [parseUintLoop, hd]
      have c1 : ¬ (m ≥ (2 ^ 64 - 1) / 10 + 1) := by
        norm_num
        omega
      have c2 : ¬ (m * 10 + n % 10 > 2 ^ 64 - 1) := by
        norm_num
        omega
      rw [hm] at c2
      simp only [c1, hm, c2, if_false]
    unfold decimalDigits
    by_cases h0 : n / 10 = 0
    · simp only [h0, if_true]
      exact step 0 (by omega)
    · simp only [h0, if_false]
      rw [ih (n / 10) _ (by omega) (by omega)]
      exact step (n / 10) (by omega)

theorem decimalDigits_head (fuel : Nat) :
    ∀ (n : Nat) (acc : List Char),
      ∃ d cs, d < 10 ∧ decimalDigits (fuel + 1) n acc = Char.ofNat (48 + d) :: cs := by
  induction fuel with
  | zero =>
    intro n acc
    refine ⟨n % 10, acc, Nat.mod_lt _ (by decide), ?_⟩
    simp [decimalDigits]
  | succ f ih =>
    intro n acc
    unfold decimalDigits
    by_cases h0 : n / 10 = 0
    · exact ⟨n % 10, acc, Nat.mod_lt _ (by decide), by simp [h0]⟩
    · simp only [h0, if_false]
      exact ih _ _

theorem ParseUint_decimalDigits (n : Nat) (hn : n < 2 ^ 64) :
    ParseUint (decimalDigits (n + 1) n []) = .ok n := by
  obtain ⟨d, cs, _, hcs⟩ := decimalDigits_head n n []
  have h := parseUintLoop_decimalDigits (n + 1) n [] (by omega) hn
  unfold ParseUint
  rw [hcs] at h ⊢
  simpa [parseUintLoop] using h

/-- Parsing the decimal rendering of an `int64` gives the integer back. -/
theorem ParseInt_FormatInt (i : Int) (hlo : -(2 ^ 63) ≤ i) (hhi : i < 2 ^ 63) :
    ParseInt (FormatInt i) = .ok i := by
  cases i with
  | ofNat n =>
    have hn : n < 2 ^ 63 := by
      have : (n : Int) < 2 ^ 63 := hhi
      exact_mod_cast this
    obtain ⟨d, cs, hd, hcs⟩ := decimalDigits_head n n []
    have hp := ParseUint_decimalDigits n (by omega)
    have hs := digit_ne_sign d hd
    simp only [ParseInt, FormatInt, ParseIntChars]
    rw [hcs] at hp ⊢
    simp only [hs.1, hs.2, or_self, if_false, hp]
    have c1 : ¬ (n ≥ 2 ^ 63) := by omega
    simp [c1]
    omega
  | negSucc n =>
    have hn : n + 1 ≤ 2 ^ 63 := by
      have h1 : -(2 ^ 63 : Int) ≤ Int.negSucc n := hlo
      rw [Int.negSucc_eq] at h1
      have h2 : ((n : Int) + 1) ≤ 2 ^ 63 := by omega
      exact_mod_cast h2
    have hp := ParseUint_decimalDigits (n + 1) (by omega)
    simp only [ParseInt, FormatInt, ParseIntChars]
    have c1 : ¬ (n + 1 > 2 ^ 63) := by omega
    simp [hp, c1, Int.negSucc_eq]
    omega


/-! ## Reader: `Update`, `Delete` and the initialisation guard -/

section UpdatePaths

variable {H : Type} (api : ReaderCApi H) (c : CacheReader H) (ts : String)

theorem Update_nil_handle (hH : c.Handle = none) :
    CacheReader.Update api c ts = ⟨some (.plain "C handle is nil"), c, []⟩ := by
  simp [CacheReader.Update, hH]

theorem Update_parse_error {h : H} {e : NumErr} (hH : c.Handle = some h)
    (hp : ParseInt ts = .error e) :
    CacheReader.Update api c ts =
      ⟨some (.plain ("Cannot convert timestamp " ++ ts ++ " to int, " ++ e.Error ts)), c, []⟩ := by
  simp [CacheReader.Update, hH, hp]

theorem Update_load_failed {h : H} {n : Int} (hH : c.Handle = some h)
    (hp : ParseInt ts = .ok n)
    (hr : (api.Initialize h c.TaskName c.DestinationFolder ts c.IsPreloadMemoryEnabled).1 ≠ 0) :
    CacheReader.Update api c ts =
      ⟨some (.plain ("Error initializing reader, error code: " ++
          FormatInt (api.Initialize h c.TaskName c.DestinationFolder ts
            c.IsPreloadMemoryEnabled).1)),
        { c with Handle := some (api.Initialize h c.TaskName c.DestinationFolder ts
            c.IsPreloadMemoryEnabled).2 }, []⟩ := by
  simp [CacheReader.Update, hH, hp, hr]

theorem Update_loaded_no_callback {h : H} {n : Int} (hH : c.Handle = some h)
    (hp : ParseInt ts = .ok n)
    (hr : (api.Initialize h c.TaskName c.DestinationFolder ts c.IsPreloadMemoryEnabled).1 = 0)
    (hcb : c.UpdateCallback = none) :
    CacheReader.Update api c ts =
      ⟨none, c.loadedAt (api.Initialize h c.TaskName c.DestinationFolder ts
          c.IsPreloadMemoryEnabled).2 n, []⟩ := by
  simp [CacheReader.Update, hH, hp, hr, hcb, CacheReader.loadedAt]

theorem Update_loaded_callback {h : H} {n : Int} {cb : UpdateCallback}
    (hH : c.Handle = some h) (hp : ParseInt ts = .ok n)
    (hr : (api.Initialize h c.TaskName c.DestinationFolder ts c.IsPreloadMemoryEnabled).1 = 0)
    (hcb : c.UpdateCallback = some cb) :
    CacheReader.Update api c ts =
      ⟨(cb ((c.loadedAt (api.Initialize h c.TaskName c.DestinationFolder ts
            c.IsPreloadMemoryEnabled).2 n).GetKey api)).map
          (fun e => .plain ("Error calling update callback: " ++ e.Error)),
        c.loadedAt (api.Initialize h c.TaskName c.DestinationFolder ts
          c.IsPreloadMemoryEnabled).2 n,
        [c.loadedAt (api.Initialize h c.TaskName c.DestinationFolder ts
          c.IsPreloadMemoryEnabled).2 n]⟩ := by
  simp only [CacheReader.Update, hH, hp, hr, hcb, CacheReader.loadedAt]
  simp only [ne_eq, not_true_eq_false, if_false]
  split <;> simp_all

end UpdatePaths

/-- C2, as stated, fails: with a native load that succeeds and an update
callback that reports an error, `Update("7")` on a reader loaded at timestamp
5 returns a non-nil error and `MostRecentFileTimestamp` is 7, not 5, so the
claim does not hold for every reader. -/
theorem update_error_after_callback_moves_timestamp :
    (CacheReader.Update (constReaderApi 0) (sampleReader 5 (some failingCallback)) "7").err ≠ none ∧
    (CacheReader.Update (constReaderApi 0)
      (sampleReader 5 (some failingCallback)) "7").reader.MostRecentFileTimestamp = 7 ∧
    (sampleReader 5 (some failingCallback)).MostRecentFileTimestamp = 5 ∧
    ¬ (∀ (api : ReaderCApi Unit) (c : CacheReader Unit) (ts : String),
        (CacheReader.Update api c ts).err ≠ none →
        (CacheReader.Update api c ts).reader.MostRecentFileTimestamp =
          c.MostRecentFileTimestamp) := by
  have h1 : (CacheReader.Update (constReaderApi 0)
      (sampleReader 5 (some failingCallback)) "7").err ≠ none := by decide
  have h2 : (CacheReader.Update (constReaderApi 0)
      (sampleReader 5 (some failingCallback)) "7").reader.MostRecentFileTimestamp = 7 := by
    decide
  refine ⟨h1, h2, rfl, fun hall => ?_⟩
  have h3 := hall (constReaderApi 0) (sampleReader 5 (some failingCallback)) "7" h1
  rw [h2] at h3
  exact absurd h3 (by decide)

/-- C2, amended: when `Update` returns a non-nil error without having
reached the update callback (nil handle, unparsable timestamp, or non-zero
native return code), `MostRecentFileTimestamp` and every other Go-side field
of the reader are as before the call; only the native object is whatever the
native call left. -/
theorem update_error_before_callback_keeps_timestamp {H : Type} (api : ReaderCApi H)
    (c : CacheReader H) (ts : String)
    (herr : (CacheReader.Update api c ts).err ≠ none)
    (hcalls : (CacheReader.Update api c ts).calls = []) :
    (CacheReader.Update api c ts).reader.MostRecentFileTimestamp = c.MostRecentFileTimestamp ∧
    (CacheReader.Update api c ts).reader.isInitialized = c.isInitialized ∧
    (∃ h, (CacheReader.Update api c ts).reader = { c with Handle := h }) := by
  cases hH : c.Handle with
  | none =>
    rw [Update_nil_handle api c ts hH]
    exact ⟨rfl, rfl, none, by cases c; simp_all⟩
  | some h =>
    cases hp : ParseInt ts with
    | error e =>
      rw [Update_parse_error api c ts hH hp]
      exact ⟨rfl, rfl, some h, by cases c; simp_all⟩
    | ok n =>
      by_cases hr : (api.Initialize h c.TaskName c.DestinationFolder ts
          c.IsPreloadMemoryEnabled).1 = 0
      · cases hcb : c.UpdateCallback with
        | none =>
          rw [Update_loaded_no_callback api c ts hH hp hr hcb] at herr
          exact absurd rfl herr
        | some cb =>
          rw [Update_loaded_callback api c ts hH hp hr hcb] at hcalls
          simp at hcalls
      · rw [Update_load_failed api c ts hH hp hr]
        exact ⟨rfl, rfl, _, rfl⟩

/-- The amended C2 applies to the update of `TestCacheReaderBadUpdate`: the
timestamp parses (to 0) and the native load fails. -/
theorem update_error_before_callback_keeps_timestamp_witness :
    (CacheReader.Update (constReaderApi 1) (sampleReader 5 none)
      "0000000000000000000000").reader.MostRecentFileTimestamp = 5 :=
  (update_error_before_callback_keeps_timestamp (constReaderApi 1) (sampleReader 5 none)
    "0000000000000000000000" (by decide) rfl).1

/-- C3: when `Update(ts)` returns nil, `ts` parses as a base-10 `int64` and
`MostRecentFileTimestamp` holds that integer; a set update callback has been
invoked exactly once, on this reader as the call leaves it (the new timestamp
already stored); without a callback nothing is invoked. -/
theorem update_success_stores_timestamp_and_calls_back {H : Type} (api : ReaderCApi H)
    (c : CacheReader H) (ts : String)
    (hok : (CacheReader.Update api c ts).err = none) :
    ∃ n : Int, ParseInt ts = .ok n ∧
      (CacheReader.Update api c ts).reader.MostRecentFileTimestamp = n ∧
      (∀ cb, c.UpdateCallback = some cb →
        (CacheReader.Update api c ts).calls = [(CacheReader.Update api c ts).reader] ∧
        cb ((CacheReader.Update api c ts).reader.GetKey api) = none) ∧
      (c.UpdateCallback = none → (CacheReader.Update api c ts).calls = []) := by
  cases hH : c.Handle with
  | none =>
    rw [Update_nil_handle api c ts hH] at hok
    exact absurd hok (by simp)
  | some h =>
    cases hp : ParseInt ts with
    | error e =>
      rw [Update_parse_error api c ts hH hp] at hok
      exact absurd hok (by simp)
    | ok n =>
      by_cases hr : (api.Initialize h c.TaskName c.DestinationFolder ts
          c.IsPreloadMemoryEnabled).1 = 0
      · refine ⟨n, rfl, ?_⟩
        cases hcb : c.UpdateCallback with
        | none =>
          rw [Update_loaded_no_callback api c ts hH hp hr hcb]
          exact ⟨rfl, fun cb h => by simp at h, fun _ => rfl⟩
        | some cb =>
          rw [Update_loaded_callback api c ts hH hp hr hcb] at hok ⊢
          refine ⟨rfl, fun cb2 h2 => ?_, fun h => by simp at h⟩
          have hc : cb2 = cb := (Option.some.inj h2).symm
          subst hc
          refine ⟨rfl, ?_⟩
          simpa using hok
      · rw [Update_load_failed api c ts hH hp hr] at hok
        exact absurd hok (by simp)

/-- C3 on the update of `TestCacheReaderUpdates`: the load of timestamp
1700522842046 succeeds and the callback reports no error. -/
theorem update_success_stores_timestamp_and_calls_back_witness :
    ∃ n : Int, ParseInt "1700522842046" = .ok n ∧
      (CacheReader.Update (constReaderApi 0) (sampleReader 5 (some fun _ => none))
        "1700522842046").reader.MostRecentFileTimestamp = n ∧
      (∀ cb, (sampleReader 5 (some fun _ => none)).UpdateCallback = some cb →
        (CacheReader.Update (constReaderApi 0) (sampleReader 5 (some fun _ => none))
          "1700522842046").calls =
          [(CacheReader.Update (constReaderApi 0) (sampleReader 5 (some fun _ => none))
            "1700522842046").reader] ∧
        cb ((CacheReader.Update (constReaderApi 0) (sampleReader 5 (some fun _ => none))
          "1700522842046").reader.GetKey (constReaderApi 0)) = none) ∧
      ((sampleReader 5 (some fun _ => none)).UpdateCallback = none →
        (CacheReader.Update (constReaderApi 0) (sampleReader 5 (some fun _ => none))
          "1700522842046").calls = []) :=
  update_success_stores_timestamp_and_calls_back (constReaderApi 0)
    (sampleReader 5 (some fun _ => none)) "1700522842046" (by decide)


/-- Every getter stops at the initialisation guard when the reader reports
itself uninitialised. -/
theorem getters_when_not_initialized {H : Type} (api : ReaderCApi H) (c : CacheReader H)
    (key : String) (hi : c.isInitialized = false) :
    c.ContainsKey api key = .ret false (some .ErrUnInitialized) ∧
    c.GetKey api key = .ret "" (some .ErrUnInitialized) ∧
    c.GetKeyType api key = .ret "" (some .ErrUnInitialized) ∧
    c.GetBool api key = .ret false (some .ErrUnInitialized) ∧
    c.GetInt api key = .ret 0 (some .ErrUnInitialized) ∧
    c.GetLong api key = .ret 0 (some .ErrUnInitialized) ∧
    c.GetDouble api key = .ret ⟨0⟩ (some .ErrUnInitialized) ∧
    c.GetVector api key = .ret (.mk []) (some .ErrUnInitialized) ∧
    c.GetVectorFloat api key = .ret (.mk []) (some .ErrUnInitialized) := by
  simp [CacheReader.ContainsKey, CacheReader.GetKey, CacheReader.GetKeyType,
    CacheReader.GetBool, CacheReader.GetInt, CacheReader.GetLong, CacheReader.GetDouble,
    CacheReader.GetVector, CacheReader.GetVectorFloat, hi]

/-- C4, as stated, fails for the two slice getters: on a reader with no
generation loaded, `GetVector` and `GetVectorFloat` return the empty literal
`[]string{}` / `[]float32{}`, which is not the zero value `nil` of a slice
type. -/
theorem uninitialized_slice_getters_return_non_nil :
    (sampleReader 0 none).MostRecentFileTimestamp = 0 ∧
    CacheReader.GetVector (constReaderApi 0) (sampleReader 0 none) "999.vec1" =
      .ret (.mk []) (some .ErrUnInitialized) ∧
    CacheReader.GetVector (constReaderApi 0) (sampleReader 0 none) "999.vec1" ≠
      .ret .nil (some .ErrUnInitialized) ∧
    CacheReader.GetVectorFloat (constReaderApi 0) (sampleReader 0 none) "1909.xxx" ≠
      .ret .nil (some .ErrUnInitialized) := by
  decide

/-- C4, amended: on a reader whose `MostRecentFileTimestamp` is not
positive, for every key, every native library and every handle (nil
included), `ContainsKey`, `GetKey`, `GetKeyType`, `GetBool`, `GetInt`,
`GetLong` and `GetDouble` return `ErrUnInitialized` with the zero value of
their type, and `GetVector` and `GetVectorFloat` return `ErrUnInitialized`
with an empty, non-nil slice; the result does not depend on the native
library or the handle. -/
theorem uninitialized_getters {H : Type} (api : ReaderCApi H) (c : CacheReader H)
    (key : String) (h : ¬ c.MostRecentFileTimestamp > 0) :
    c.ContainsKey api key = .ret false (some .ErrUnInitialized) ∧
    c.GetKey api key = .ret "" (some .ErrUnInitialized) ∧
    c.GetKeyType api key = .ret "" (some .ErrUnInitialized) ∧
    c.GetBool api key = .ret false (some .ErrUnInitialized) ∧
    c.GetInt api key = .ret 0 (some .ErrUnInitialized) ∧
    c.GetLong api key = .ret 0 (some .ErrUnInitialized) ∧
    c.GetDouble api key = .ret ⟨0⟩ (some .ErrUnInitialized) ∧
    c.GetVector api key = .ret (.mk []) (some .ErrUnInitialized) ∧
    c.GetVectorFloat api key = .ret (.mk []) (some .ErrUnInitialized) :=
  getters_when_not_initialized api c key (by simp [CacheReader.isInitialized, h])

/-- The amended C4 on the reader of `TestCacheReaderUninitialized`, whose
timestamp is still 0. -/
theorem uninitialized_getters_witness :
    CacheReader.GetKey (constReaderApi 0) (sampleReader 0 none) "267.foo" =
      .ret "" (some .ErrUnInitialized) :=
  (uninitialized_getters (constReaderApi 0) (sampleReader 0 none) "267.foo" (by decide)).2.1

/-- C5: `Delete` on a reader whose `Stop` channel is open returns; on the
reader it leaves, every getter returns `ErrUnInitialized` for every key, and
`Update(ts)` returns a non-nil error for every `ts`, invokes no callback and
leaves the reader exactly as it was (so the same holds for every later
`Update`). -/
theorem delete_then_getters_and_update_fail {H : Type} (api : ReaderCApi H)
    (c : CacheReader H) (hstop : c.StopClosed = false) :
    c.Delete.panicked = false ∧
    (∀ key : String,
      c.Delete.reader.ContainsKey api key = .ret false (some .ErrUnInitialized) ∧
      c.Delete.reader.GetKey api key = .ret "" (some .ErrUnInitialized) ∧
      c.Delete.reader.GetKeyType api key = .ret "" (some .ErrUnInitialized) ∧
      c.Delete.reader.GetBool api key = .ret false (some .ErrUnInitialized) ∧
      c.Delete.reader.GetInt api key = .ret 0 (some .ErrUnInitialized) ∧
      c.Delete.reader.GetLong api key = .ret 0 (some .ErrUnInitialized) ∧
      c.Delete.reader.GetDouble api key = .ret ⟨0⟩ (some .ErrUnInitialized) ∧
      c.Delete.reader.GetVector api key = .ret (.mk []) (some .ErrUnInitialized) ∧
      c.Delete.reader.GetVectorFloat api key = .ret (.mk []) (some .ErrUnInitialized)) ∧
    (∀ ts : String,
      (CacheReader.Update api c.Delete.reader ts).err ≠ none ∧
      (CacheReader.Update api c.Delete.reader ts).reader = c.Delete.reader ∧
      (CacheReader.Update api c.Delete.reader ts).calls = []) := by
  have hp : c.Delete.panicked = false := by
    simp [CacheReader.Delete, hstop]
  have ht : c.Delete.reader.MostRecentFileTimestamp = 0 := by
    simp [CacheReader.Delete, hstop]
  have hh : c.Delete.reader.Handle = none := by
    simp [CacheReader.Delete, hstop]
  refine ⟨hp, fun key => ?_, fun ts => ?_⟩
  · exact getters_when_not_initialized api c.Delete.reader key
      (by simp [CacheReader.isInitialized, ht])
  · rw [Update_nil_handle api c.Delete.reader ts hh]
    exact ⟨by simp, rfl, rfl⟩

/-- C5 on the reader of `TestCacheReaderUseAfterDelete`: loaded, then
deleted, then asked for a key and for an update. -/
theorem delete_then_getters_and_update_fail_witness :
    CacheReader.GetKey (constReaderApi 0) (sampleReader 5 none).Delete.reader "267.foo" =
      .ret "" (some .ErrUnInitialized) ∧
    (CacheReader.Update (constReaderApi 0) (sampleReader 5 none).Delete.reader
      "0000000000000000000000").err ≠ none :=
  ⟨((delete_then_getters_and_update_fail (constReaderApi 0) (sampleReader 5 none) rfl).2.1
      "267.foo").2.1,
   ((delete_then_getters_and_update_fail (constReaderApi 0) (sampleReader 5 none) rfl).2.2
      "0000000000000000000000").1⟩

/-! ## Paths -/

theorem last_byte_append (a : String) (b : String) (c : Char) (cs : List Char)
    (hb : b.data.reverse = c :: cs) : (a ++ b).data.reverse.head? = some c := by
  simp [String.data_append, List.reverse_append, hb]

theorem latestPath_ne_cacheWithTimestamp (dest task ts : String) :
    latestPath dest task ≠ cacheWithTimestamp dest task ts := by
  intro h
  have h1 := last_byte_append (dest ++ "/" ++ task) ".cache.timestamp.latest" 't'
    "setal.pmatsemit.ehcac.".data (by decide)
  have h2 := last_byte_append (dest ++ "/" ++ task ++ "." ++ ts) ".cache" 'e'
    "hcac.".data (by decide)
  unfold latestPath cacheWithTimestamp at h
  rw [h, h2] at h1
  exact absurd h1 (by decide)

theorem latestPath_ne_cacheWithoutTimestamp (dest task : String) :
    latestPath dest task ≠ cacheWithoutTimestamp dest task := by
  intro h
  have h1 := last_byte_append (dest ++ "/" ++ task) ".cache.timestamp.latest" 't'
    "setal.pmatsemit.ehcac.".data (by decide)
  have h2 := last_byte_append (dest ++ "/" ++ task) ".cache" 'e'
    "hcac.".data (by decide)
  unfold latestPath cacheWithoutTimestamp at h
  rw [h, h2] at h1
  exact absurd h1 (by decide)

theorem cacheWithTimestamp_ne_cacheWithoutTimestamp (dest task ts : String) :
    cacheWithTimestamp dest task ts ≠ cacheWithoutTimestamp dest task := by
  intro h
  have h1 := congrArg String.length h
  simp only [cacheWithTimestamp, cacheWithoutTimestamp, String.length_append] at h1
  have e1 : ".".length = 1 := by decide
  omega


/-! ## Writer: `InsertKey` and the initialisation guard -/

/-- C6: on an initialised writer with a live handle and for a non-empty
key, `InsertKey` returns nil exactly when the native insert returns 0, an
`*OffSetBitsError` exactly when it returns 2 (and then its `OffsetBits` is the
writer's), a `*KeySpaceIsFullError` exactly when it returns 3, and a plain
error exactly for the other non-zero codes; the writer's `OffsetBits` is the
configured option, or 35 when the option was left 0. -/
theorem insertKey_error_by_native_code {W : Type} (api : WriterCApi W) (c : CacheWriter W)
    (h : W) (k v : String) (keyType : Int)
    (hinit : c.IsInitialized = true) (hH : c.Handle = some h) (hk : k.length ≠ 0) :
    (∀ (fs : FS) (rand : Nat) (options : CacheWriterOptions),
      (NewCacheWriter api fs rand options).writer.OffsetBits =
        if options.OffsetBits = 0 then 35 else options.OffsetBits) ∧
    ∃ err, c.InsertKey api k v keyType =
        .ret (c.withHandle
          (api.InsertKey h k (if v.length = 0 then none else some v) keyType).2) err ∧
      (err = none ↔
        (api.InsertKey h k (if v.length = 0 then none else some v) keyType).1 = 0) ∧
      ((∃ m, err = some (.OffSetBitsError m c.OffsetBits)) ↔
        (api.InsertKey h k (if v.length = 0 then none else some v) keyType).1 = 2) ∧
      ((∃ m b, err = some (.OffSetBitsError m b)) ↔
        (api.InsertKey h k (if v.length = 0 then none else some v) keyType).1 = 2) ∧
      ((∃ m, err = some (.KeySpaceIsFullError m)) ↔
        (api.InsertKey h k (if v.length = 0 then none else some v) keyType).1 = 3) ∧
      ((∃ m, err = some (.plain m)) ↔
        ((api.InsertKey h k (if v.length = 0 then none else some v) keyType).1 ≠ 0 ∧
         (api.InsertKey h k (if v.length = 0 then none else some v) keyType).1 ≠ 2 ∧
         (api.InsertKey h k (if v.length = 0 then none else some v) keyType).1 ≠ 3)) := by
  refine ⟨?_, ?_⟩
  · intro fs rand options
    unfold NewCacheWriter
    by_cases hc : (nativeInitialize api fs rand options).1 = 0 <;>
      simp [hc, effectiveOffsetBits]
  · have hr : (if v.length = 0 then api.InsertKey h k none keyType
        else api.InsertKey h k (some v) keyType) =
        api.InsertKey h k (if v.length = 0 then none else some v) keyType := by
      by_cases hv : v.length = 0 <;> simp [hv]
    generalize hg : api.InsertKey h k (if v.length = 0 then none else some v) keyType = r at hr ⊢
    unfold CacheWriter.InsertKey
    simp only [CacheWriter.isInitialized, CacheWriter.withHandle, hinit, hH, hk, hr]
    by_cases h0 : r.1 = 0
    · refine ⟨none, by simp [h0], ?_⟩
      simp [h0]
    · by_cases h2 : r.1 = 2
      · refine ⟨some (.OffSetBitsError ("Error inserting key \x27" ++ k ++ "\x27 : error code " ++ FormatInt r.1) c.OffsetBits), by simp [h2], ?_⟩
        simp [h2]
      · by_cases h3 : r.1 = 3
        · refine ⟨some (.KeySpaceIsFullError ("Error inserting key \x27" ++ k ++ "\x27 : error code " ++ FormatInt r.1)), by simp [h3], ?_⟩
          simp [h3]
        · refine ⟨some (.plain ("Error inserting key \x27" ++ k ++ "\x27 : error code " ++ FormatInt r.1)), by simp [h0, h2, h3], ?_⟩
          simp [h0, h2, h3]

/-- C6 on the writer of `TestCacheWriterSetOffsetBitsTooSmallForDataSize`
when the native insert returns 2: the error is an `*OffSetBitsError` carrying
the writer's 35 offset bits. -/
theorem insertKey_error_by_native_code_witness :
    ∃ m, CacheWriter.InsertKey (constWriterApi 0 2 "") sampleWriter "key_1" "val_1" 0 =
      .ret sampleWriter (some (.OffSetBitsError m 35)) := by
  obtain ⟨_, err, he, _, h2, _⟩ := insertKey_error_by_native_code (constWriterApi 0 2 "")
    sampleWriter () "key_1" "val_1" 0 rfl rfl (by decide)
  obtain ⟨m, hm⟩ := h2.mpr rfl
  exact ⟨m, by rw [he, hm]; rfl⟩

/-- C7: on an initialised writer, `InsertKey` with an empty key returns the
error "Empty key" for every value, every type and every native library, and
returns the writer, native object included, exactly as it received it: the
native insert is not reached. -/
theorem insertKey_empty_key_rejected {W : Type} (api : WriterCApi W) (c : CacheWriter W)
    (v : String) (keyType : Int) (hinit : c.IsInitialized = true) :
    c.InsertKey api "" v keyType = .ret c (some (.plain "Empty key")) := by
  simp [CacheWriter.InsertKey, CacheWriter.isInitialized, hinit]

/-- C7 on the sample writer, with a native insert that would have returned
code 3 had it been called. -/
theorem insertKey_empty_key_rejected_witness :
    CacheWriter.InsertKey (constWriterApi 0 3 "") sampleWriter "" "val_1" 0 =
      .ret sampleWriter (some (.plain "Empty key")) :=
  insertKey_empty_key_rejected (constWriterApi 0 3 "") sampleWriter "val_1" 0 rfl

/-- C8: when the native initialisation inside `NewCacheWriter` returns a
non-zero code, `NewCacheWriter` returns a non-nil error, and on the writer it
returns every `InsertKey`, `FinishAddDuplicateValues` and
`FinishCacheCreation` returns `ErrUnInitialized` and leaves the writer as it
is, whatever the native library, the arguments and the file system. -/
theorem failed_initialize_leaves_writer_uninitialized {W : Type} (api : WriterCApi W)
    (fs : FS) (rand : Nat) (options : CacheWriterOptions)
    (hfail : (nativeInitialize api fs rand options).1 ≠ 0) :
    (NewCacheWriter api fs rand options).err ≠ none ∧
    ∀ (api2 : WriterCApi W) (k v : String) (keyType : Int) (fs2 : FS) (now : Int),
      (NewCacheWriter api fs rand options).writer.InsertKey api2 k v keyType =
        .ret (NewCacheWriter api fs rand options).writer (some .ErrUnInitialized) ∧
      (NewCacheWriter api fs rand options).writer.FinishAddDuplicateValues api2 =
        .ret (NewCacheWriter api fs rand options).writer (some .ErrUnInitialized) ∧
      (NewCacheWriter api fs rand options).writer.FinishCacheCreation api2 fs2 now =
        .ret ⟨"", (NewCacheWriter api fs rand options).writer, fs2, []⟩
          (some .ErrUnInitialized) := by
  have hw : (NewCacheWriter api fs rand options).writer.IsInitialized = false := by
    simp [NewCacheWriter, hfail]
  refine ⟨by simp [NewCacheWriter, hfail], fun api2 k v keyType fs2 now => ?_⟩
  simp [CacheWriter.InsertKey, CacheWriter.FinishAddDuplicateValues,
    CacheWriter.FinishCacheCreation, CacheWriter.isInitialized, hw]


/-! ## Writer: `FinishCacheCreation` -/

/-- C9: when `FinishCacheCreation` returns nil on a writer with
`GenerateTimestampFile` and `RenameCacheFile` set, the returned string is the
decimal rendering of the publication time `now` (for an `int64` it parses
back to `now`), the file `<dest>/<task>.cache.timestamp.latest` contains
exactly that string, `<dest>/<task>.<T>.cache` holds what the native library
had written to `<dest>/<task>.cache`, and `<dest>/<task>.cache` is gone. -/
theorem finish_publishes_under_one_timestamp {W : Type} (api : WriterCApi W)
    (c : CacheWriter W) (fs : FS) (now : Int) (st : FinishState W)
    (hg : c.GenerateTimestampFile = true) (hr : c.RenameCacheFile = true)
    (hok : c.FinishCacheCreation api fs now = .ret st none) :
    st.timestamp = FormatInt now ∧
    (-(2 ^ 63) ≤ now → now < 2 ^ 63 → ParseInt st.timestamp = .ok now) ∧
    st.fs.files (latestPath c.DestinationFolder c.TaskName) = some (.text st.timestamp) ∧
    (∃ h d, c.Handle = some h ∧
      (api.FinishCacheCreation fs h).2.2.files
        (cacheWithoutTimestamp c.DestinationFolder c.TaskName) = some d ∧
      st.fs.files (cacheWithTimestamp c.DestinationFolder c.TaskName st.timestamp) = some d) ∧
    st.fs.files (cacheWithoutTimestamp c.DestinationFolder c.TaskName) = none := by
  unfold CacheWriter.FinishCacheCreation at hok
  by_cases hi : c.isInitialized = true
  swap
  · simp [hi] at hok
  cases hH : c.Handle with
  | none => simp [hi, hH] at hok
  | some h =>
    simp only [hi, hH, hg, hr, not_true_eq_false, if_false, if_true] at hok
    by_cases hc : (api.FinishCacheCreation fs h).1 = 0
    swap
    · simp [hc] at hok
    simp only [hc, ne_eq, not_true_eq_false, if_false] at hok
    generalize hfs1 : (api.FinishCacheCreation fs h).2.2 = fs1 at hok ⊢
    by_cases hd : fs1.denied (latestPath c.DestinationFolder c.TaskName) = true
    · simp [WriteFile, hd] at hok
    simp only [WriteFile, hd, Bool.false_eq_true, if_false] at hok
    cases hold : fs1.files (cacheWithoutTimestamp c.DestinationFolder c.TaskName) with
    | none =>
      simp [Rename, latestPath_ne_cacheWithoutTimestamp, hold,
        (latestPath_ne_cacheWithoutTimestamp _ _).symm] at hok
    | some d =>
      by_cases hd2 : fs1.denied
          (cacheWithTimestamp c.DestinationFolder c.TaskName (FormatInt now)) = true
      · simp [Rename, hold, hd2, (latestPath_ne_cacheWithoutTimestamp _ _).symm] at hok
      simp only [Rename, hold, hd2, (latestPath_ne_cacheWithoutTimestamp _ _).symm,
        if_false, Bool.false_eq_true, Outcome.ret.injEq, and_true] at hok
      subst hok
      refine ⟨rfl, fun hlo hhi => ParseInt_FormatInt now hlo hhi, ?_, ⟨h, d, rfl, by rw [hfs1]; exact hold, ?_⟩, ?_⟩
      · simp [latestPath_ne_cacheWithTimestamp, latestPath_ne_cacheWithoutTimestamp]
      · simp
      · simp [(cacheWithTimestamp_ne_cacheWithoutTimestamp _ _ _).symm]

/-- C9 on the sample writer at publication time 1730393701512, with a native
library that writes `/tmp/d/super_cache.cache`. -/
theorem finish_publishes_under_one_timestamp_witness :
    ∃ st, CacheWriter.FinishCacheCreation (constWriterApi 0 0 "/tmp/d/super_cache.cache")
        sampleWriter emptyFS 1730393701512 = .ret st none ∧
      st.timestamp = "1730393701512" ∧
      st.fs.files "/tmp/d/super_cache.cache.timestamp.latest" = some (.text "1730393701512") ∧
      st.fs.files "/tmp/d/super_cache.1730393701512.cache" = some (.artifact emptyArtifact) ∧
      st.fs.files "/tmp/d/super_cache.cache" = none :=
  ⟨_, rfl,
    (finish_publishes_under_one_timestamp (constWriterApi 0 0 "/tmp/d/super_cache.cache")
      sampleWriter emptyFS 1730393701512 _ rfl rfl rfl).1.trans (by decide),
    by decide, by decide, by decide⟩


/-- C10 fails on the code: `FinishCacheCreation` writes the timestamp file
before it renames the cache file.  On a writer that generates the timestamp
file and renames the cache file, in an empty folder at time 1730393701512:
after the second effect `<task>.cache.timestamp.latest` contains
1730393701512 while `<task>.1730393701512.cache` does not exist yet; and when
the rename fails (the native library wrote its file to another folder) the
call returns an error and leaves a timestamp file naming 1730393701512 with no
such artifact. -/
theorem finish_writes_timestamp_before_rename :
    (∃ st fs2,
      CacheWriter.FinishCacheCreation (constWriterApi 0 0 "/tmp/d/super_cache.cache")
        sampleWriter emptyFS 1730393701512 = .ret st none ∧
      st.trace[1]? = some fs2 ∧
      fs2.files "/tmp/d/super_cache.cache.timestamp.latest" = some (.text "1730393701512") ∧
      fs2.files "/tmp/d/super_cache.1730393701512.cache" = none) ∧
    (∃ st e,
      CacheWriter.FinishCacheCreation (constWriterApi 0 0 "/tmp/other/super_cache.cache")
        sampleWriter emptyFS 1730393701512 = .ret st (some e) ∧
      st.timestamp = "1730393701512" ∧
      st.fs.files "/tmp/d/super_cache.cache.timestamp.latest" = some (.text "1730393701512") ∧
      st.fs.files "/tmp/d/super_cache.1730393701512.cache" = none) :=
  ⟨⟨_, _, rfl, rfl, by decide, by decide⟩, ⟨_, _, rfl, by decide, by decide, by decide⟩⟩

/-- C8 on the options of `TestCacheWriterSetOffsetBitsBelowLimits`: with
offset bits 15 the modelled native initialisation fails (15 is below the
minimum 16), `NewCacheWriter` returns an error, and `InsertKey` on the
returned writer returns `ErrUnInitialized`. -/
theorem failed_initialize_leaves_writer_uninitialized_witness :
    (nativeInitialize (specWriterApi sampleParams) emptyFS 7 (sampleOptions 15)).1 ≠ 0 ∧
    (NewCacheWriter (specWriterApi sampleParams) emptyFS 7 (sampleOptions 15)).err ≠ none ∧
    (NewCacheWriter (specWriterApi sampleParams) emptyFS 7
      (sampleOptions 15)).writer.InsertKey (specWriterApi sampleParams) "key_1" "val_1" 0 =
      .ret (NewCacheWriter (specWriterApi sampleParams) emptyFS 7 (sampleOptions 15)).writer
        (some .ErrUnInitialized) :=
  ⟨by decide,
   (failed_initialize_leaves_writer_uninitialized (specWriterApi sampleParams) emptyFS 7
      (sampleOptions 15) (by decide)).1,
   ((failed_initialize_leaves_writer_uninitialized (specWriterApi sampleParams) emptyFS 7
      (sampleOptions 15) (by decide)).2 (specWriterApi sampleParams) "key_1" "val_1" 0
      emptyFS 0).1⟩


/-! ## Paths after `path.Clean` -/

theorem splitBytes_no_sep (sep : Char) (a : List Char) (ha : sep ∉ a) :
    splitBytes sep a = [a] := by
  induction a with
  | nil => rfl
  | cons c cs ih =>
    have hc : c ≠ sep := fun e => ha (by simp [e])
    have hcs : sep ∉ cs := fun e => ha (by simp [e])
    simp [splitBytes, hc, ih hcs]

theorem splitBytes_append_sep (sep : Char) (a b : List Char) (ha : sep ∉ a) :
    splitBytes sep (a ++ sep :: b) = a :: splitBytes sep b := by
  induction a with
  | nil => simp [splitBytes]
  | cons c cs ih =>
    have hc : c ≠ sep := fun e => ha (by simp [e])
    have hcs : sep ∉ cs := fun e => ha (by simp [e])
    simp [splitBytes, hc, ih hcs]

theorem splitBytes_ne_nil (sep : Char) (a : List Char) : splitBytes sep a ≠ [] := by
  induction a with
  | nil => simp [splitBytes]
  | cons c cs ih =>
    unfold splitBytes
    split
    · simp
    · split
      · simp
      · simp

theorem splitBytes_append (sep : Char) (a b : List Char) :
    splitBytes sep (a ++ sep :: b) = splitBytes sep a ++ splitBytes sep b := by
  induction a with
  | nil => simp [splitBytes]
  | cons c cs ih =>
    by_cases hc : c = sep
    · simp [splitBytes, hc, ih]
    · have hne := splitBytes_ne_nil sep cs
      cases hs : splitBytes sep cs with
      | nil => exact absurd hs hne
      | cons t ts =>
        rw [hs] at ih
        simp [splitBytes, hc, ih, hs]

theorem cleanElems_cons (r : Bool) (S : List (List Char)) (e : List Char)
    (es : List (List Char)) :
    cleanElems r S (e :: es) = cleanElems r (cleanElems r S [e]) es := by
  by_cases h0 : e = [] ∨ e = ['.']
  · simp [cleanElems, h0]
  · by_cases hdd : e = ['.', '.']
    · cases S with
      | nil => cases r <;> simp [cleanElems, hdd]
      | cons top rest => by_cases ht : top = ['.', '.'] <;> simp [cleanElems, hdd, ht]
    · simp [cleanElems, h0, hdd]

theorem cleanElems_append (r : Bool) (xs ys : List (List Char)) :
    ∀ S, cleanElems r S (xs ++ ys) = cleanElems r (cleanElems r S xs) ys := by
  induction xs with
  | nil => intro S; rfl
  | cons e es ih =>
    intro S
    rw [List.cons_append, cleanElems_cons, ih, ← cleanElems_cons]

theorem cleanElems_plain (r : Bool) (S : List (List Char)) (n : List Char)
    (hn : PlainName n) : cleanElems r S [n] = n :: S := by
  obtain ⟨h1, _, h3, h4⟩ := hn
  simp [cleanElems, h1, h3, h4]

theorem cleanElems_skip (r : Bool) (S : List (List Char)) (n : List Char)
    (hn : n = [] ∨ n = ['.']) : cleanElems r S [n] = S := by
  simp [cleanElems, hn]

theorem cleanElems_up_root : cleanElems true [] [['.', '.']] = [] := by
  simp [cleanElems]

theorem cleanElems_up_nil : cleanElems false [] [['.', '.']] = [['.', '.']] := by
  simp [cleanElems]

theorem cleanElems_up_up (r : Bool) (rest : List (List Char)) :
    cleanElems r (['.', '.'] :: rest) [['.', '.']] = ['.', '.'] :: ['.', '.'] :: rest := by
  simp [cleanElems]

theorem cleanElems_up_pop (r : Bool) (top : List Char) (rest : List (List Char))
    (ht : top ≠ ['.', '.']) : cleanElems r (top :: rest) [['.', '.']] = rest := by
  simp [cleanElems, ht]

/-- One round of the loop of `path.Clean` keeps the stack well formed. -/
theorem CleanStack.step {r : Bool} {S : List (List Char)} (hS : CleanStack r S)
    (e : List Char) (he : '/' ∉ e) : CleanStack r (cleanElems r S [e]) := by
  obtain ⟨s1, s2, s3⟩ := hS
  by_cases h0 : e = [] ∨ e = ['.']
  · rw [cleanElems_skip r S e h0]
    exact ⟨s1, s2, s3⟩
  · by_cases hdd : e = ['.', '.']
    · subst hdd
      cases S with
      | nil =>
        cases r with
        | true =>
          rw [cleanElems_up_root]
          exact ⟨s1, s2, s3⟩
        | false =>
          rw [cleanElems_up_nil]
          refine ⟨by simp, by simp, ?_⟩
          intro pre post hpp x hx
          cases pre with
          | nil =>
            simp only [List.nil_append, List.cons.injEq, true_and] at hpp
            rw [← hpp] at hx
            simp at hx
          | cons a pre1 =>
            simp only [List.cons_append, List.cons.injEq] at hpp
            have := hpp.2
            simp at this
      | cons top rest =>
        by_cases ht : top = ['.', '.']
        · subst ht
          have hr : r = false := by
            cases r with
            | false => rfl
            | true => exact absurd (List.mem_cons_self _ _) (s2 rfl)
          have hrest := s3 [] rest rfl
          rw [cleanElems_up_up]
          refine ⟨?_, ?_, ?_⟩
          · intro x hx
            rcases List.mem_cons.mp hx with e1 | e1
            · subst e1; simp
            · exact s1 x e1
          · intro hc
            rw [hr] at hc
            cases hc
          · intro pre post hpp x hx
            cases pre with
            | nil =>
              simp only [List.nil_append, List.cons.injEq, true_and] at hpp
              rw [← hpp] at hx
              rcases List.mem_cons.mp hx with e1 | e1
              · exact e1
              · exact hrest x e1
            | cons a pre1 =>
              simp only [List.cons_append, List.cons.injEq] at hpp
              exact s3 pre1 post hpp.2 x hx
        · rw [cleanElems_up_pop r top rest ht]
          refine ⟨fun x hx => s1 x (List.mem_cons_of_mem _ hx),
            fun hc hm => s2 hc (List.mem_cons_of_mem _ hm), ?_⟩
          intro pre post hpp x hx
          exact s3 (top :: pre) post (by rw [hpp]; rfl) x hx
    · have hp : PlainName e := ⟨fun h => h0 (Or.inl h), he, fun h => h0 (Or.inr h), hdd⟩
      rw [cleanElems_plain r S e hp]
      refine ⟨?_, ?_, ?_⟩
      · intro x hx
        rcases List.mem_cons.mp hx with e1 | e1
        · subst e1
          exact ⟨hp.1, hp.2.1, hp.2.2.1⟩
        · exact s1 x e1
      · intro hc hm
        rcases List.mem_cons.mp hm with e1 | e1
        · exact hdd e1.symm
        · exact s2 hc e1
      · intro pre post hpp x hx
        cases pre with
        | nil =>
          simp only [List.nil_append, List.cons.injEq] at hpp
          exact absurd hpp.1 hdd
        | cons a pre1 =>
          simp only [List.cons_append, List.cons.injEq] at hpp
          exact s3 pre1 post hpp.2 x hx

theorem CleanStack.run {r : Bool} (es : List (List Char)) (hes : ∀ e ∈ es, '/' ∉ e) :
    ∀ S, CleanStack r S → CleanStack r (cleanElems r S es) := by
  induction es with
  | nil => intro S hS; simpa [cleanElems] using hS
  | cons e rest ih =>
    intro S hS
    rw [cleanElems_cons]
    exact ih (fun x hx => hes x (List.mem_cons_of_mem _ hx)) _
      (hS.step e (hes e (List.mem_cons_self _ _)))

theorem splitBytes_no_slash (sep : Char) (a : List Char) :
    ∀ e ∈ splitBytes sep a, sep ∉ e := by
  induction a with
  | nil => simp [splitBytes]
  | cons c cs ih =>
    intro e he
    unfold splitBytes at he
    split at he
    · rcases List.mem_cons.mp he with e1 | e1
      · subst e1; simp
      · exact ih e e1
    · rename_i hc
      split at he
      · simp only [List.mem_singleton] at he
        subst he
        simp only [List.mem_singleton]
        exact fun h => hc h.symm
      · rename_i t ts hs
        rcases List.mem_cons.mp he with e1 | e1
        · subst e1
          have ht := ih t (by rw [hs]; simp)
          intro hm
          rcases List.mem_cons.mp hm with e2 | e2
          · exact hc e2.symm
          · exact ht e2
        · exact ih e (by rw [hs]; simp [e1])

/-- The elements that `path.Clean` keeps are well formed. -/
theorem pathElems_clean (p : String) : CleanStack (pathElems p).1 (pathElems p).2 :=
  CleanStack.run _ (splitBytes_no_slash '/' p.data) []
    ⟨by simp, by simp, fun pre post h => by simp at h⟩
/-- Cleaning the elements of a well-formed stack, outermost first, gives
the stack back. -/
theorem cleanElems_of_clean (r : Bool) (elems : List (List Char)) :
    ∀ A, CleanStack r (elems.reverse ++ A) → cleanElems r A elems = elems.reverse ++ A := by
  induction elems with
  | nil => intro A _; rfl
  | cons e es ih =>
    intro A hA
    have hA2 : CleanStack r (es.reverse ++ (e :: A)) := by
      simpa [List.reverse_cons, List.append_assoc] using hA
    have hstep : cleanElems r A [e] = e :: A := by
      obtain ⟨s1, s2, s3⟩ := hA2
      have he := s1 e (by simp)
      by_cases hdd : e = ['.', '.']
      · subst hdd
        have hbelow := s3 es.reverse A rfl
        cases A with
        | nil =>
          cases r with
          | true => exact absurd (by simp) (s2 rfl)
          | false => exact cleanElems_up_nil
        | cons top rest =>
          have ht : top = ['.', '.'] := hbelow top (by simp)
          subst ht
          exact cleanElems_up_up r rest
      · exact cleanElems_plain r A e ⟨he.1, he.2.1, he.2.2, hdd⟩
    rw [cleanElems_cons, hstep, ih _ hA2]
    simp [List.reverse_cons, List.append_assoc]

theorem splitBytes_joinSlash (elems : List (List Char)) (hne : elems ≠ [])
    (hs : ∀ e ∈ elems, '/' ∉ e) : splitBytes '/' (joinSlash elems) = elems := by
  induction elems with
  | nil => exact absurd rfl hne
  | cons e es ih =>
    cases es with
    | nil => simpa [joinSlash] using splitBytes_no_sep '/' e (hs e (by simp))
    | cons e2 es2 =>
      have h1 := ih (by simp) (fun x hx => hs x (by simp [hx]))
      have : joinSlash (e :: e2 :: es2) = e ++ '/' :: joinSlash (e2 :: es2) := rfl
      rw [this, splitBytes_append_sep '/' _ _ (hs e (by simp)), h1]

theorem joinSlash_head (elems : List (List Char)) (e : List Char) (c : Char) (cs : List Char)
    (he : e = c :: cs) : ∃ t, joinSlash (e :: elems) = c :: t := by
  subst he
  cases elems with
  | nil => exact ⟨cs, rfl⟩
  | cons e2 es => exact ⟨cs ++ '/' :: joinSlash (e2 :: es), rfl⟩

theorem pathElems_empty : pathElems "" = (false, []) := by
  decide

theorem pathClean_eq_render (p : String) : pathClean p = renderPath (pathElems p) := by
  by_cases hp : p.data = []
  · have : p = "" := by
      cases p
      simp_all
    subst this
    decide
  · unfold pathClean renderPath pathElems isRooted
    rw [if_neg hp]

/-- The elements of a cleaned path are the elements it was made of. -/
theorem pathElems_render (r : Bool) (S : List (List Char)) (hS : CleanStack r S) :
    pathElems (renderPath (r, S)) = (r, S) := by
  have hsl : ∀ e ∈ S.reverse, '/' ∉ e := fun e he => (hS.1 e (List.mem_reverse.mp he)).2.1
  have hre : cleanElems r [] S.reverse = S := by
    have := cleanElems_of_clean r S.reverse [] (by simpa using hS)
    simpa using this
  by_cases hnil : S = []
  · subst hnil
    cases r <;> decide
  · have hne : S.reverse ≠ [] := by simpa using hnil
    have hsplit := splitBytes_joinSlash S.reverse hne hsl
    obtain ⟨e, es, hes⟩ := List.exists_cons_of_ne_nil hne
    have he := hS.1 e (List.mem_reverse.mp (by rw [hes]; simp))
    obtain ⟨c, cs, hc⟩ := List.exists_cons_of_ne_nil he.1
    have hcs : c ≠ '/' := fun h => he.2.1 (by rw [hc, h]; simp)
    obtain ⟨t, ht⟩ := joinSlash_head es e c cs hc
    rw [← hes] at ht
    cases r with
    | true =>
      unfold renderPath pathElems isRooted
      simp only [if_true, List.head?_cons, decide_True, splitBytes]
      rw [hsplit]
      have : cleanElems true [] ([] :: S.reverse) = cleanElems true [] S.reverse := by
        rw [cleanElems_cons, cleanElems_skip true [] [] (Or.inl rfl)]
      rw [this, hre]
    | false =>
      have hb : joinSlash S.reverse ≠ [] := by rw [ht]; simp
      unfold renderPath pathElems isRooted
      simp only [Bool.false_eq_true, if_false, hb]
      rw [hsplit]
      have hd : decide ((joinSlash S.reverse).head? = some '/') = false := by
        simp [ht, hcs]
      rw [hd, hre]

theorem pathElems_pathClean (p : String) : pathElems (pathClean p) = pathElems p := by
  rw [pathClean_eq_render]
  exact pathElems_render _ _ (pathElems_clean p)

theorem pathClean_idem (p : String) : pathClean (pathClean p) = pathClean p := by
  rw [pathClean_eq_render (pathClean p), pathElems_pathClean, ← pathClean_eq_render]

theorem pathClean_eq_of_elems {p q : String} (h : pathElems p = pathElems q) :
    pathClean p = pathClean q := by
  rw [pathClean_eq_render, pathClean_eq_render, h]

theorem pathElems_eq_of_clean {p q : String} (h : pathClean p = pathClean q) :
    pathElems p = pathElems q := by
  rw [← pathElems_pathClean p, ← pathElems_pathClean q, h]

theorem isRooted_append (x y : String) (hx : x.data ≠ []) : isRooted (x ++ y) = isRooted x := by
  obtain ⟨c, cs, hc⟩ := List.exists_cons_of_ne_nil hx
  simp [isRooted, String.data_append, hc]

/-- The elements of a path that ends with a slash. -/
theorem pathElems_slash (x : String) (hx : x.data ≠ []) : pathElems (x ++ "/") = pathElems x := by
  unfold pathElems
  rw [isRooted_append x "/" hx]
  have hd : (x ++ "/").data = x.data ++ '/' :: [] := by simp [String.data_append]
  have hs : splitBytes '/' ([] : List Char) = [[]] := rfl
  rw [hd, splitBytes_append, hs, cleanElems_append, cleanElems_skip _ _ [] (Or.inl rfl)]

/-- The elements of a path made of a directory, a slash and a name. -/
theorem pathElems_child (x n : String) (hn : PlainName n.data) :
    pathElems (x ++ "/" ++ n) = ((pathElems (x ++ "/")).1, n.data :: (pathElems (x ++ "/")).2) := by
  have hr : isRooted (x ++ "/" ++ n) = isRooted (x ++ "/") :=
    isRooted_append (x ++ "/") n (by simp [String.data_append])
  unfold pathElems
  rw [hr]
  have hd : (x ++ "/" ++ n).data = x.data ++ '/' :: n.data := by simp [String.data_append]
  have hd2 : (x ++ "/").data = x.data ++ '/' :: [] := by simp [String.data_append]
  have hs : splitBytes '/' ([] : List Char) = [[]] := rfl
  rw [hd, hd2, splitBytes_append, splitBytes_append, hs, splitBytes_no_sep '/' n.data hn.2.1,
    cleanElems_append, cleanElems_append, cleanElems_skip _ _ [] (Or.inl rfl),
    cleanElems_plain _ _ _ hn]

theorem splitBytes_append_plain (sep : Char) (b : List Char) (hb : sep ∉ b) (a : List Char) :
    ∃ init last, splitBytes sep a = init ++ [last] ∧
      splitBytes sep (a ++ b) = init ++ [last ++ b] := by
  induction a with
  | nil => exact ⟨[], [], rfl, by simpa using splitBytes_no_sep sep b hb⟩
  | cons c cs ih =>
    obtain ⟨init, last, h1, h2⟩ := ih
    by_cases hc : c = sep
    · refine ⟨[] :: init, last, ?_, ?_⟩
      · simp [splitBytes, hc, h1]
      · simp [splitBytes, hc, h2]
    · cases init with
      | nil =>
        refine ⟨[], c :: last, ?_, ?_⟩
        · simp only [List.nil_append] at h1
          simp [splitBytes, hc, h1]
        · simp only [List.nil_append] at h2
          simp [splitBytes, hc, h2]
      | cons i is =>
        refine ⟨(c :: i) :: is, last, ?_, ?_⟩
        · simp only [List.cons_append] at h1
          simp [splitBytes, hc, h1]
        · simp only [List.cons_append] at h2
          simp [splitBytes, hc, h2]

/-- A path with something appended to its last element names another file. -/
theorem pathElems_suffix_ne (p sfx : String) (hs : '/' ∉ sfx.data)
    (hlen : 2 < sfx.data.length) : pathElems (p ++ sfx) ≠ pathElems p := by
  have hr : isRooted (p ++ sfx) = isRooted p := by
    by_cases hp : p.data = []
    · obtain ⟨c, cs, hc⟩ := List.exists_cons_of_ne_nil
        (fun h : sfx.data = [] => by rw [h] at hlen; simp at hlen)
      have hcs : c ≠ '/' := fun h => hs (by rw [hc, h]; simp)
      simp [isRooted, String.data_append, hp, hc, hcs]
    · exact isRooted_append p sfx hp
  obtain ⟨init, last, h1, h2⟩ := splitBytes_append_plain '/' sfx.data hs p.data
  have hlast : '/' ∉ last := splitBytes_no_slash '/' p.data last (by rw [h1]; simp)
  have hplain : PlainName (last ++ sfx.data) := by
    refine ⟨?_, ?_, ?_, ?_⟩
    · intro h
      have := congrArg List.length h
      simp only [List.length_append, List.length_nil, List.length_cons] at this
      omega
    · simp [hlast, hs]
    · intro h
      have := congrArg List.length h
      simp only [List.length_append, List.length_nil, List.length_cons] at this
      omega
    · intro h
      have := congrArg List.length h
      simp only [List.length_append, List.length_nil, List.length_cons] at this
      omega
  have hne : last ++ sfx.data ≠ last := by
    intro h
    have := congrArg List.length h
    simp only [List.length_append, List.length_nil, List.length_cons] at this
    omega
  intro heq
  have h2nd := congrArg Prod.snd heq
  unfold pathElems at h2nd
  simp only [String.data_append] at h2nd
  rw [hr, h1, h2, cleanElems_append, cleanElems_append, cleanElems_plain _ _ _ hplain] at h2nd
  generalize cleanElems (isRooted p) [] init = S0 at h2nd
  by_cases h0 : last = [] ∨ last = ['.']
  · rw [cleanElems_skip _ _ _ h0] at h2nd
    have := congrArg List.length h2nd
    simp at this
  · by_cases hdd : last = ['.', '.']
    · subst hdd
      cases S0 with
      | nil =>
        cases hrp : isRooted p with
        | true =>
          rw [hrp, cleanElems_up_root] at h2nd
          simp at h2nd
        | false =>
          rw [hrp, cleanElems_up_nil] at h2nd
          simp only [List.cons.injEq, and_true] at h2nd
          exact hne h2nd
      | cons top rest =>
        by_cases ht : top = ['.', '.']
        · subst ht
          rw [cleanElems_up_up] at h2nd
          simp only [List.cons.injEq, and_true] at h2nd
          exact hne h2nd
        · rw [cleanElems_up_pop _ _ _ ht] at h2nd
          have := congrArg List.length h2nd
          simp at this
          omega
    · rw [cleanElems_plain _ _ _ ⟨fun h => h0 (Or.inl h), hlast, fun h => h0 (Or.inr h), hdd⟩]
        at h2nd
      simp only [List.cons.injEq, and_true] at h2nd
      exact hne h2nd

theorem pathClean_suffix_ne (p sfx : String) (hs : '/' ∉ sfx.data)
    (hlen : 2 < sfx.data.length) : pathClean (p ++ sfx) ≠ pathClean p :=
  fun h => pathElems_suffix_ne p sfx hs hlen (pathElems_eq_of_clean h)

/-- A byte is a decimal digit. -/
theorem decimalDigits_digit (fuel : Nat) :
    ∀ (n : Nat) (acc : List Char), (∀ c ∈ acc, 48 ≤ c.toNat ∧ c.toNat ≤ 57) →
      ∀ c ∈ decimalDigits fuel n acc, 48 ≤ c.toNat ∧ c.toNat ≤ 57 := by
  induction fuel with
  | zero => intro n acc ha c hc; exact ha c (by simpa [decimalDigits] using hc)
  | succ f ih =>
    intro n acc ha c hc
    have hd : 48 ≤ (Char.ofNat (48 + n % 10)).toNat ∧ (Char.ofNat (48 + n % 10)).toNat ≤ 57 := by
      have h10 : n % 10 < 10 := Nat.mod_lt _ (by decide)
      interval_cases (n % 10) <;> decide
    have ha1 : ∀ c ∈ Char.ofNat (48 + n % 10) :: acc, 48 ≤ c.toNat ∧ c.toNat ≤ 57 := by
      intro x hx
      rcases List.mem_cons.mp hx with e | e
      · rw [e]; exact hd
      · exact ha x e
    unfold decimalDigits at hc
    dsimp only at hc
    split at hc
    · exact ha1 c hc
    · exact ih _ _ ha1 c hc

theorem FormatInt_digits (n : Int) (hn : 0 ≤ n) :
    ∀ c ∈ (FormatInt n).data, 48 ≤ c.toNat ∧ c.toNat ≤ 57 := by
  cases n with
  | ofNat m =>
    simp only [FormatInt]
    exact decimalDigits_digit _ _ _ (by simp)
  | negSucc m => exact absurd hn (by simp)

theorem FormatInt_ne_nil (n : Int) : (FormatInt n).data ≠ [] := by
  have hd : ∀ fuel m acc, decimalDigits (fuel + 1) m acc ≠ [] := by
    intro fuel
    induction fuel with
    | zero =>
      intro m acc
      simp [decimalDigits]
    | succ f ih =>
      intro m acc
      unfold decimalDigits
      dsimp only
      split
      · simp
      · exact ih _ _
  cases n with
  | ofNat m => simpa [FormatInt] using hd m m []
  | negSucc m => simp [FormatInt]

theorem digit_ne (c : Char) (hc : 48 ≤ c.toNat ∧ c.toNat ≤ 57) :
    c ≠ '.' ∧ c ≠ '/' ∧ c ≠ '*' ∧ c ≠ '?' ∧ c ≠ '[' ∧ c ≠ '\\' := by
  refine ⟨?_, ?_, ?_, ?_, ?_, ?_⟩ <;>
  · intro e
    rw [e] at hc
    revert hc
    decide

/-- The temporary file of a path names another file than the path. -/
theorem pathClean_temp_ne (p : String) (n : Nat) :
    pathClean (p ++ ".tmp." ++ FormatInt n) ≠ pathClean p := by
  have hd := FormatInt_digits (n : Int) (Int.natCast_nonneg n)
  have hs : '/' ∉ (".tmp." ++ FormatInt n).data := by
    simp only [String.data_append, List.mem_append, not_or]
    exact ⟨by decide, fun hm => (digit_ne _ (hd _ hm)).2.1 rfl⟩
  have hl : 2 < (".tmp." ++ FormatInt n).data.length := by
    simp only [String.data_append, List.length_append]
    have : ['.', 't', 'm', 'p', '.'].length = 5 := rfl
    show 2 < ['.', 't', 'm', 'p', '.'].length + (FormatInt n).data.length
    omega
  rw [String.append_assoc]
  exact pathClean_suffix_ne p _ hs hl

/-! ## `shouldDownload` -/

/-- The answers that `shouldDownload` can give. -/
theorem shouldDownload_cases (d : Downloader) (h : Host) :
    (d.shouldDownload h).1 ∈
      [(true, DownloadReason.NoTimestamp), (true, DownloadReason.MissingLatestTimestamp),
       (true, DownloadReason.MissingRemoteInputs), (true, DownloadReason.EmptyRemoteInputs),
       (true, DownloadReason.MissingLocalInputs), (true, DownloadReason.EmptyLocalInputs),
       (true, DownloadReason.NotEnoughFiles), (true, DownloadReason.DifferentRemoteAndLocalInputs),
       (false, DownloadReason.SimilarRemoteAndLocalInputs), (false, DownloadReason.UpToDate)] := by
  unfold Downloader.shouldDownload
  repeat' (first | (simp; done) | split | (dsimp only))

/-- C18, counterexample: with a latest timestamp file that names another
generation, equal non-empty remote and local inputs manifests and three
files of the remote generation on disk, `shouldDownload` reports that no
fetch is needed with the reason `SimilarRemoteAndLocalInputs`, which is not
`UpToDate`. -/
theorem shouldDownload_similar_inputs_skips_fetch :
    ((sampleDownloader inputsNet).shouldDownload sameInputsHost).1 =
      (false, DownloadReason.SimilarRemoteAndLocalInputs) := by
  decide

/-- C18, amended: `shouldDownload` reports that no fetch is needed exactly
when its reason is `UpToDate` or `SimilarRemoteAndLocalInputs`; with each of
the eight other reasons it reports that a fetch is needed. -/
theorem shouldDownload_fetch_iff_reason (d : Downloader) (h : Host) :
    ((d.shouldDownload h).1.1 = false ↔
      ((d.shouldDownload h).1.2 = DownloadReason.UpToDate ∨
        (d.shouldDownload h).1.2 = DownloadReason.SimilarRemoteAndLocalInputs)) := by
  have hc := shouldDownload_cases d h
  generalize (d.shouldDownload h).1 = r at hc
  simp only [List.mem_cons, List.mem_singleton, List.not_mem_nil, or_false] at hc
  rcases hc with rfl | rfl | rfl | rfl | rfl | rfl | rfl | rfl | rfl | rfl <;> simp


/-! ## Base URLs and the timestamp probe -/

theorem splitOn_commaJoin (entries : List String) (hne : entries ≠ [])
    (hsep : ∀ e ∈ entries, ',' ∉ e.data) : splitOn (commaJoin entries) ',' = entries := by
  induction entries with
  | nil => exact absurd rfl hne
  | cons e es ih =>
    cases es with
    | nil =>
      simp [commaJoin, splitOn, splitBytes_no_sep ',' e.data (hsep e (by simp))]
    | cons e2 es2 =>
      have h1 := ih (by simp) (fun x hx => hsep x (by simp [hx]))
      unfold splitOn at h1 ⊢
      have hd : (commaJoin (e :: e2 :: es2)).data = e.data ++ ',' :: (commaJoin (e2 :: es2)).data := by
        simp [commaJoin, String.data_append]
      rw [hd, splitBytes_append_sep ',' _ _ (hsep e (by simp))]
      simp [h1]

theorem length_pos_iff_ne_empty (s : String) : (decide (s.length > 0)) = decide (s ≠ "") := by
  cases s with
  | mk l =>
    cases l with
    | nil => decide
    | cons c cs =>
      have : (String.mk (c :: cs)) ≠ "" := by
        intro e
        have := congrArg String.data e
        simp at this
      simp [String.length, this]

/-- The base URL that `buildBaseUrlList` makes of one entry. -/
theorem buildBaseUrlList_commaJoin (entries : List String)
    (hsep : ∀ e ∈ entries, ',' ∉ e.data) :
    buildBaseUrlList (commaJoin entries) =
      (entries.filter fun e => e ≠ "").map fun e =>
        if hasPrefix e "file://" ∨ hasPrefix e "gs://" then e else "http://" ++ e := by
  unfold buildBaseUrlList
  cases entries with
  | nil => decide
  | cons e es =>
    rw [splitOn_commaJoin (e :: es) (by simp) hsep]
    have hf : (fun baseUrl : String => decide (baseUrl.length > 0)) = fun e => decide (e ≠ "") := by
      funext s
      exact length_pos_iff_ne_empty s
    rw [hf]
    apply List.map_congr_left
    intro a _
    by_cases h1 : hasPrefix a "file://" = true
    · simp [h1]
    · by_cases h2 : hasPrefix a "gs://" = true
      · simp [h1, h2]
      · simp [h1, h2]

/-- The loop of `GetBaseUrlAndTimestamp` changes the machine only by the
requests it sends: one per base URL, in order. -/
theorem probeBaseUrls_host (d : Downloader) (baseUrls : List String) :
    ∀ (up : String) (ts : Int) (h : Host),
      (d.probeBaseUrls baseUrls up ts h).2.2 =
        { h with requests := h.requests ++ baseUrls.map (timestampUrl d) } := by
  induction baseUrls with
  | nil => intro up ts h; simp [Downloader.probeBaseUrls]
  | cons b rest ih =>
    intro up ts h
    unfold Downloader.probeBaseUrls
    simp only [Host.get]
    split
    · rw [ih]; simp [timestampUrl]
    · split
      · rw [ih]; simp [timestampUrl]
      · rw [ih]; simp [timestampUrl]

theorem GetBaseUrlAndTimestamp_host (d : Downloader) (h : Host) :
    (d.GetBaseUrlAndTimestamp h).2 =
      { h with requests := h.requests ++ (buildBaseUrlList d.AllUrls).map (timestampUrl d) } := by
  unfold Downloader.GetBaseUrlAndTimestamp
  dsimp only
  split <;> simp [probeBaseUrls_host]

/-- C17, counterexample: for the base URL list `http://host` the URL
probed is `http://http://host/t.cache.timestamp`, not
`http://host/t.cache.timestamp`. -/
theorem http_entry_gets_second_scheme :
    (schemeDownloader.GetBaseUrlAndTimestamp (hostWith [] [])).2.requests =
      ["http://http://host/t.cache.timestamp"] := by
  decide

/-- C17, amended: for a comma-separated base URL list, the URLs probed for
the timestamp are the non-empty entries, in order, each followed by
`/<basename>.timestamp`; an entry that starts with `file://` or `gs://` is
used unchanged, and every other entry (a bare host, but also an entry that
starts with `http://` or `https://`) is first given the scheme `http://`. -/
theorem probed_urls_of_base_url_list (d : Downloader) (h : Host) (entries : List String)
    (hsep : ∀ e ∈ entries, ',' ∉ e.data) (hall : d.AllUrls = commaJoin entries) :
    (d.GetBaseUrlAndTimestamp h).2.requests =
      h.requests ++ (entries.filter fun e => e ≠ "").map fun e =>
        (if hasPrefix e "file://" ∨ hasPrefix e "gs://" then e else "http://" ++ e) ++
          "/" ++ d.Basename ++ ".timestamp" := by
  rw [GetBaseUrlAndTimestamp_host, hall, buildBaseUrlList_commaJoin entries hsep]
  simp [timestampUrl, Function.comp_def]

theorem probed_urls_of_base_url_list_witness :
    (mixedDownloader.GetBaseUrlAndTimestamp (hostWith [] [])).2.requests =
      (hostWith [] []).requests ++ (["file:///srv", "", "host"].filter fun e => e ≠ "").map fun e =>
        (if hasPrefix e "file://" ∨ hasPrefix e "gs://" then e else "http://" ++ e) ++
          "/" ++ mixedDownloader.Basename ++ ".timestamp" :=
  probed_urls_of_base_url_list mixedDownloader (hostWith [] []) ["file:///srv", "", "host"]
    (by decide) (by decide)


theorem probeAnswers_mem_base (d : Downloader) (baseUrls : List String) :
    ∀ (sent : List String) (b : String) (x : Option Int),
      (b, x) ∈ probeAnswers d baseUrls sent → b ∈ baseUrls := by
  induction baseUrls with
  | nil => intro sent b x hm; simp [probeAnswers] at hm
  | cons c rest ih =>
    intro sent b x hm
    simp only [probeAnswers, List.mem_cons] at hm
    rcases hm with hm | hm
    · simp [(Prod.mk.inj hm).1]
    · exact List.mem_cons_of_mem _ (ih _ b x hm)

theorem buildBaseUrlList_length_pos (allUrls b : String) (hb : b ∈ buildBaseUrlList allUrls) :
    b.length > 0 := by
  unfold buildBaseUrlList at hb
  simp only [List.mem_map, List.mem_filter] at hb
  obtain ⟨e, ⟨_, he⟩, hbe⟩ := hb
  have he2 : e.length > 0 := by simpa using he
  subst hbe
  split
  · exact he2
  · split
    · exact he2
    · simp only [String.length_append]
      omega

/-- The loop of `GetBaseUrlAndTimestamp` keeps the largest timestamp seen
that exceeds the starting value, with the first base URL that carries it:
every answer before the returned one carries no timestamp or a strictly
smaller one. -/
theorem probeBaseUrls_spec (d : Downloader) (baseUrls : List String) :
    ∀ (up : String) (ts : Int) (h : Host),
      (∀ b m, (b, some m) ∈ probeAnswers d baseUrls h.requests →
        m ≤ (d.probeBaseUrls baseUrls up ts h).2.1) ∧
      ts ≤ (d.probeBaseUrls baseUrls up ts h).2.1 ∧
      (((d.probeBaseUrls baseUrls up ts h).1 = up ∧ (d.probeBaseUrls baseUrls up ts h).2.1 = ts) ∨
        ((∃ pre post, probeAnswers d baseUrls h.requests =
              pre ++ ((d.probeBaseUrls baseUrls up ts h).1,
                some (d.probeBaseUrls baseUrls up ts h).2.1) :: post ∧
            ∀ e ∈ pre, ∀ m, e.2 = some m → m < (d.probeBaseUrls baseUrls up ts h).2.1) ∧
          ts < (d.probeBaseUrls baseUrls up ts h).2.1)) := by
  induction baseUrls with
  | nil =>
    intro up ts h
    simp [Downloader.probeBaseUrls, probeAnswers]
  | cons c rest ih =>
    intro up ts h
    have hreq : ∀ url, (h.get d.HttpClient url).2.requests = h.requests ++ [url] := fun _ => rfl
    have hans : ∀ url, (h.get d.HttpClient url).1 = d.HttpClient h.requests url := fun _ => rfl
    unfold Downloader.probeBaseUrls
    simp only [probeAnswers, timestampUrl, List.mem_cons, hans]
    cases hp : probedTimestamp (d.HttpClient h.requests (c ++ "/" ++ d.Basename ++ ".timestamp")) with
    | none =>
      dsimp only
      obtain ⟨i1, i2, i3⟩ := ih up ts (h.get d.HttpClient (c ++ "/" ++ d.Basename ++ ".timestamp")).2
      rw [hreq] at i1 i3
      refine ⟨?_, i2, ?_⟩
      · intro b m hm
        rcases hm with hm | hm
        · simp at hm
        · exact i1 b m hm
      · rcases i3 with i3 | ⟨⟨pre, post, hsplit, hpre⟩, hlt⟩
        · exact Or.inl i3
        · refine Or.inr ⟨⟨(c, none) :: pre, post, ?_, ?_⟩, hlt⟩
          · rw [hsplit]; rfl
          · intro e he m hm
            rcases List.mem_cons.mp he with he | he
            · subst he; simp at hm
            · exact hpre e he m hm
    | some t =>
      dsimp only
      by_cases hgt : t > ts
      · rw [if_pos hgt]
        obtain ⟨i1, i2, i3⟩ := ih c t (h.get d.HttpClient (c ++ "/" ++ d.Basename ++ ".timestamp")).2
        rw [hreq] at i1 i3
        refine ⟨?_, by omega, ?_⟩
        · intro b m hm
          rcases hm with hm | hm
          · have : m = t := by simpa using (Prod.mk.inj hm).2
            omega
          · exact i1 b m hm
        · rcases i3 with i3 | ⟨⟨pre, post, hsplit, hpre⟩, hlt⟩
          · refine Or.inr ⟨⟨[], probeAnswers d rest
                (h.requests ++ [c ++ "/" ++ d.Basename ++ ".timestamp"]), ?_, ?_⟩, by omega⟩
            · rw [i3.1, i3.2]; rfl
            · intro e he; simp at he
          · refine Or.inr ⟨⟨(c, some t) :: pre, post, ?_, ?_⟩, by omega⟩
            · rw [hsplit]; rfl
            · intro e he m hm
              rcases List.mem_cons.mp he with he | he
              · subst he
                have : t = m := by simpa using hm
                omega
              · exact hpre e he m hm
      · rw [if_neg hgt]
        obtain ⟨i1, i2, i3⟩ := ih up ts (h.get d.HttpClient (c ++ "/" ++ d.Basename ++ ".timestamp")).2
        rw [hreq] at i1 i3
        refine ⟨?_, i2, ?_⟩
        · intro b m hm
          rcases hm with hm | hm
          · have : m = t := by simpa using (Prod.mk.inj hm).2
            omega
          · exact i1 b m hm
        · rcases i3 with i3 | ⟨⟨pre, post, hsplit, hpre⟩, hlt⟩
          · exact Or.inl i3
          · refine Or.inr ⟨⟨(c, some t) :: pre, post, ?_, ?_⟩, hlt⟩
            · rw [hsplit]; rfl
            · intro e he m hm
              rcases List.mem_cons.mp he with he | he
              · subst he
                have : t = m := by simpa using hm
                omega
              · exact hpre e he m hm

/-- C16, counterexample: a single base URL that answers status 200 with the
parsable timestamp `0` yields a timestamp, yet `GetBaseUrlAndTimestamp`
returns an error. -/
theorem zero_timestamp_is_not_picked :
    probeAnswers (sampleDownloader zeroNet) (buildBaseUrlList (sampleDownloader zeroNet).AllUrls) []
        = [("http://h", some 0)] ∧
      ((sampleDownloader zeroNet).GetBaseUrlAndTimestamp (hostWith [] [])).1 =
        ("", "", some (.plain "Cannot retrieve any timestamp, tried 1 base urls")) := by
  decide

/-- C16, amended: `GetBaseUrlAndTimestamp` returns no error exactly when
some base URL answers with status 200 and a parsable decimal timestamp
(one trailing newline stripped) that is greater than 0; it then returns a
base URL whose probed timestamp is the largest of all probed timestamps,
with the decimal rendering of that timestamp, and on a tie the first such
base URL in probing order: every base URL probed before the returned one
answered with no timestamp or with a strictly smaller one. -/
theorem GetBaseUrlAndTimestamp_picks_largest_positive (d : Downloader) (h : Host) :
    ((d.GetBaseUrlAndTimestamp h).1.2.2 = none ↔
        ∃ b n, (b, some n) ∈ probeAnswers d (buildBaseUrlList d.AllUrls) h.requests ∧ 0 < n) ∧
      ((d.GetBaseUrlAndTimestamp h).1.2.2 = none →
        ∃ n, ((d.GetBaseUrlAndTimestamp h).1.1, some n) ∈
            probeAnswers d (buildBaseUrlList d.AllUrls) h.requests ∧
          0 < n ∧ (d.GetBaseUrlAndTimestamp h).1.2.1 = FormatInt n ∧
          (∀ b m, (b, some m) ∈ probeAnswers d (buildBaseUrlList d.AllUrls) h.requests → m ≤ n) ∧
          ∃ pre post, probeAnswers d (buildBaseUrlList d.AllUrls) h.requests =
              pre ++ ((d.GetBaseUrlAndTimestamp h).1.1, some n) :: post ∧
            ∀ e ∈ pre, ∀ m, e.2 = some m → m < n) := by
  obtain ⟨i1, _, i3⟩ := probeBaseUrls_spec d (buildBaseUrlList d.AllUrls) "" 0 h
  unfold Downloader.GetBaseUrlAndTimestamp
  dsimp only
  rcases i3 with i3 | ⟨⟨pre, post, hsplit, hpre⟩, hlt⟩
  · have hl : ¬ ((d.probeBaseUrls (buildBaseUrlList d.AllUrls) "" 0 h).1.length > 0) := by
      rw [i3.1]; decide
    rw [if_neg hl]
    refine ⟨⟨fun e => by simp at e, ?_⟩, fun e => by simp at e⟩
    rintro ⟨b, n, hm, hn⟩
    have := i1 b n hm
    rw [i3.2] at this
    omega
  · have hin : ((d.probeBaseUrls (buildBaseUrlList d.AllUrls) "" 0 h).1,
        some (d.probeBaseUrls (buildBaseUrlList d.AllUrls) "" 0 h).2.1) ∈
        probeAnswers d (buildBaseUrlList d.AllUrls) h.requests := by
      rw [hsplit]; simp
    have hmem := probeAnswers_mem_base d _ _ _ _ hin
    have hl := buildBaseUrlList_length_pos _ _ hmem
    rw [if_pos hl]
    exact ⟨⟨fun _ => ⟨_, _, hin, hlt⟩, fun _ => rfl⟩,
      fun _ => ⟨_, hin, hlt, rfl, i1, pre, post, hsplit, hpre⟩⟩

/-! ## Decompression to disk -/

theorem temp_ne_self (p s : String) : p ++ ".tmp." ++ s ≠ p := by
  intro e
  have := congrArg String.length e
  simp only [String.length_append] at this
  have e1 : ".tmp.".length = 5 := by decide
  omega

/-- What `WriteDecompressedFileToDiskFromReader` does to the machine, by
outcome. -/
theorem WriteDecompressed_trace (codec : Codec) (f : BodyReader)
    (compressedPath cm ce remote : String) (size : Int) (h : Host)
    (final temp : String) (hfinal : final = decompressedPathOf compressedPath)
    (htemp : temp = final ++ ".tmp." ++ FormatInt (h.seeds.headD 0))
    (r : (String × Int × Option GoError) × Host)
    (hr : r = WriteDecompressedFileToDiskFromReader codec f compressedPath cm ce remote size h) :
    r.2.seeds = h.seeds.tail ∧ r.2.requests = h.requests ∧ r.2.fs.denied = h.fs.denied ∧
    (∀ q, pathClean q ≠ pathClean temp → pathClean q ≠ pathClean final →
      r.2.fs.files q = h.fs.files q) ∧
    (∀ q ∈ h.known, q ∈ r.2.known) ∧
    (r.2.log ≠ h.log → h.fs.denied (pathClean temp) = false ∧ temp ∈ r.2.known) ∧
    ((r.1.2.2 = none ∧ r.1.1 = final ∧
        r.2.log = h.log ++ [.create temp, .write temp, .rename temp final] ∧
        r.2.fileExists final = true ∧
        ∃ hash bytes, hashFor codec cm ce = some hash ∧ copyDecoded codec f = (bytes, none) ∧
          FormatHex (hash bytes % 2 ^ 64) = remote) ∨
      ((∃ e, r.1.2.2 = some e) ∧ r.2.fs.files final = h.fs.files final ∧
        (r.2.log = h.log ∨
          ((r.2.log = h.log ++ [.create temp] ∨ r.2.log = h.log ++ [.create temp, .write temp]) ∧
            h.fs.denied (pathClean temp) = false ∧ temp ∈ r.2.known)))) := by
  have hne : pathClean final ≠ pathClean temp := by
    rw [htemp]
    exact fun e => pathClean_temp_ne final (h.seeds.headD 0) e.symm
  unfold WriteDecompressedFileToDiskFromReader at hr
  rw [← hfinal] at hr
  clear hfinal
  simp only [Host.nextRand] at hr
  rw [← htemp] at hr
  clear htemp
  by_cases hden : h.fs.denied (pathClean temp) = true
  · simp [Host.createFile, hden] at hr
    subst hr
    simp
  · have hden2 : h.fs.denied (pathClean temp) = false := by simpa using hden
    simp only [Host.createFile, hden2, Bool.false_eq_true, if_false] at hr
    split at hr
    · subst hr
      simp +contextual [Host.after, Host.store, hne, hden2]
    · split at hr
      · subst hr
        simp +contextual [Host.after, Host.store, hne, hden2]
      · split at hr
        · subst hr
          simp +contextual [Host.after, Host.store, hne, hden2]
        · split at hr
          · subst hr
            simp +contextual [Host.after, Host.store, hne, hden2, Host.writeOpenFile]
          · simp only [Host.after, Host.store, Host.writeOpenFile, Host.readFile, if_true,
              pathClean_idem] at hr
            simp only [Host.rename, if_true, hne.symm, hne, if_false, pathClean_idem] at hr
            by_cases hdf : h.fs.denied (pathClean final) = true
            · simp only [hdf, if_true, Host.after] at hr
              subst hr
              simp +contextual [hne, hden2]
            · simp only [hdf, if_false, Host.after] at hr
              subst hr
              simp +contextual [hne, hden2, Host.fileExists, pathClean_idem]
              rename_i _ _ _ hash hhash _ bytes hcopy hck
              exact ⟨hash, hhash, bytes, hcopy, by simpa using hck⟩
theorem hashFor_some (codec : Codec) (cm ce : String) (hash : String → Nat)
    (hh : hashFor codec cm ce = some hash) :
    cm = "zst" ∧ ((ce = "xxh" ∧ hash = codec.xxh64) ∨ (ce = "xxh3" ∧ hash = codec.xxh3)) := by
  unfold hashFor at hh
  split at hh
  · rename_i hc
    exact ⟨hc.1, Or.inl ⟨hc.2, (Option.some.inj hh).symm⟩⟩
  · split at hh
    · rename_i hc
      exact ⟨hc.1, Or.inr ⟨hc.2, (Option.some.inj hh).symm⟩⟩
    · exact absurd hh (by simp)

theorem copyDecoded_ok (codec : Codec) (f : BodyReader) (bytes : String)
    (hc : copyDecoded codec f = (bytes, none)) :
    f.err = none ∧ codec.zstdDecode f.data = some bytes := by
  unfold copyDecoded at hc
  split at hc
  · simp at hc
  · split at hc
    · simp at hc
    · rename_i hz
      simp only [Prod.mk.injEq, and_true] at hc
      rename_i he _ _
      exact ⟨he, by rw [hz, hc]⟩

/-- C13: `WriteDecompressedFileToDiskFromReader` returns no error, or
renames a file, only if the compression method is `zst`, the checksum
extension is `xxh` or `xxh3`, and the unpadded lowercase hexadecimal
rendering of the 64-bit hash (xxh64 for `xxh`, xxh3 for `xxh3`) of the
decompressed bytes equals the fetched checksum; whenever it returns an
error, the decompressed path holds what it held before; and it returns an
error when the rendering of the hash differs from the fetched checksum and
when the combination of method and extension is another one. -/
theorem decompressed_file_published_only_on_equal_checksum (codec : Codec) (f : BodyReader)
    (compressedPath cm ce remote : String) (size : Int) (h : Host) :
    let r := WriteDecompressedFileToDiskFromReader codec f compressedPath cm ce remote size h
    let final := decompressedPathOf compressedPath
    ((r.1.2.2 = none ∨ ∃ a b, FileEvent.rename a b ∈ r.2.log.drop h.log.length) →
      cm = "zst" ∧ ∃ hash bytes,
        ((ce = "xxh" ∧ hash = codec.xxh64) ∨ (ce = "xxh3" ∧ hash = codec.xxh3)) ∧
        f.err = none ∧ codec.zstdDecode f.data = some bytes ∧
        FormatHex (hash bytes % 2 ^ 64) = remote) ∧
    (r.1.2.2 ≠ none → r.2.fs.files final = h.fs.files final) ∧
    (∀ hash bytes, ((ce = "xxh" ∧ hash = codec.xxh64) ∨ (ce = "xxh3" ∧ hash = codec.xxh3)) →
      codec.zstdDecode f.data = some bytes → FormatHex (hash bytes % 2 ^ 64) ≠ remote →
      r.1.2.2 ≠ none) ∧
    (¬ (cm = "zst" ∧ (ce = "xxh" ∨ ce = "xxh3")) → r.1.2.2 ≠ none) := by
  intro r final
  obtain ⟨_, _, _, _, _, _, hcase⟩ := WriteDecompressed_trace codec f compressedPath cm ce remote size h
    final _ rfl rfl r rfl
  have hok : r.1.2.2 = none → cm = "zst" ∧ ∃ hash bytes,
        ((ce = "xxh" ∧ hash = codec.xxh64) ∨ (ce = "xxh3" ∧ hash = codec.xxh3)) ∧
        f.err = none ∧ codec.zstdDecode f.data = some bytes ∧
        FormatHex (hash bytes % 2 ^ 64) = remote := by
    intro hnone
    rcases hcase with ⟨_, _, _, _, hash, bytes, hh, hc, hx⟩ | ⟨⟨e, he⟩, _⟩
    · obtain ⟨h1, h2⟩ := hashFor_some codec cm ce hash hh
      obtain ⟨h3, h4⟩ := copyDecoded_ok codec f bytes hc
      exact ⟨h1, hash, bytes, h2, h3, h4, hx⟩
    · rw [he] at hnone
      exact absurd hnone (by simp)
  refine ⟨?_, ?_, ?_, ?_⟩
  · rintro (hnone | ⟨a, b, hren⟩)
    · exact hok hnone
    · rcases hcase with ⟨hnone, _⟩ | ⟨_, _, hlog⟩
      · exact hok hnone
      · rcases hlog with hlog | ⟨hlog | hlog, _⟩ <;> rw [hlog] at hren <;> simp at hren
  · intro herr
    rcases hcase with ⟨hnone, _⟩ | ⟨_, hfiles, _⟩
    · exact absurd hnone herr
    · exact hfiles
  · intro hash bytes hce hz hx hnone
    obtain ⟨_, hash2, bytes2, hce2, _, hz2, hx2⟩ := hok hnone
    have hb : bytes2 = bytes := Option.some.inj (hz2.symm.trans hz)
    have hh : hash2 = hash := by
      rcases hce with ⟨c1, e1⟩ | ⟨c1, e1⟩ <;> rcases hce2 with ⟨c2, e2⟩ | ⟨c2, e2⟩
      · rw [e1, e2]
      · rw [c1] at c2; exact absurd c2 (by decide)
      · rw [c1] at c2; exact absurd c2 (by decide)
      · rw [e1, e2]
    rw [hb, hh] at hx2
    exact hx hx2
  · intro hun hnone
    obtain ⟨h1, _, _, hce, _⟩ := hok hnone
    exact hun ⟨h1, hce.imp (fun x => x.1) (fun x => x.1)⟩


/-! ## The effects of a download, in order -/

/-- What `WriteStringToFile` does to the machine, by outcome. -/
theorem WriteStringToFile_trace (h : Host) (path text temp : String)
    (htemp : temp = path ++ ".tmp." ++ FormatInt (h.seeds.headD 0))
    (r : Option GoError × Host) (hr : r = h.WriteStringToFile path text) :
    r.2.seeds = h.seeds.tail ∧ r.2.requests = h.requests ∧ r.2.fs.denied = h.fs.denied ∧
    (∀ q, pathClean q ≠ pathClean temp → pathClean q ≠ pathClean path →
      r.2.fs.files q = h.fs.files q) ∧
    (∀ q ∈ h.known, q ∈ r.2.known) ∧
    ((r.1 = none ∧ r.2.log = h.log ++ [.write temp, .rename temp path] ∧
        r.2.fileExists path = true) ∨
      ((∃ e, r.1 = some e) ∧ (r.2.log = h.log ∨ r.2.log = h.log ++ [.write temp]))) := by
  have hne : pathClean path ≠ pathClean temp := by
    rw [htemp]
    exact fun e => pathClean_temp_ne path (h.seeds.headD 0) e.symm
  unfold Host.WriteStringToFile at hr
  simp only [Host.nextRand] at hr
  rw [← htemp] at hr
  clear htemp
  simp only [Host.writeFile] at hr
  by_cases hden : h.fs.denied (pathClean temp) = true
  · simp [hden] at hr
    subst hr
    simp
  · by_cases hdf : h.fs.denied (pathClean path) = true
    · simp [hden, hdf, Host.after, Host.rename, Host.store, pathClean_idem] at hr
      subst hr
      simp +contextual
    · simp [hden, hdf, Host.after, Host.rename, Host.store, pathClean_idem] at hr
      subst hr
      simp +contextual [Host.fileExists, hne, pathClean_idem]

theorem SameDisk.same (h : Host) : SameDisk h h := ⟨rfl, rfl, rfl, rfl⟩

theorem SameDisk.chain {h h1 h2 : Host} (a : SameDisk h h1) (b : SameDisk h1 h2) : SameDisk h h2 :=
  ⟨b.1.trans a.1, b.2.1.trans a.2.1, b.2.2.1.trans a.2.2.1, b.2.2.2.trans a.2.2.2⟩

theorem get_eq (h : Host) (c : CoreDownloader) (url : String) (ans : HttpResult) (h1 : Host)
    (hq : h.get c url = (ans, h1)) : h1 = { h with requests := h.requests ++ [url] } := by
  unfold Host.get at hq
  cases hq
  rfl

theorem fetchRemoteSettings_sameDisk (d : Downloader) (b t : String) (h : Host) :
    SameDisk h (d.fetchRemoteSettings b t h).2 := by
  unfold Downloader.fetchRemoteSettings
  dsimp only
  repeat' split
  all_goals
    have hh := get_eq _ _ _ _ _ (by assumption)
    subst hh
    exact ⟨rfl, rfl, rfl, rfl⟩

theorem fetchChecksum_sameDisk (d : Downloader) (b t e : String) (h : Host) :
    SameDisk h (d.fetchChecksum b t e h).2 := by
  unfold Downloader.fetchChecksum
  dsimp only
  repeat' split
  all_goals
    have hh := get_eq _ _ _ _ _ (by assumption)
    subst hh
    exact ⟨rfl, rfl, rfl, rfl⟩

theorem fetchUncompressedSize_sameDisk (d : Downloader) (b t : String) (h : Host) :
    SameDisk h (d.fetchUncompressedSize b t h).2 := by
  unfold Downloader.fetchUncompressedSize
  dsimp only
  repeat' split
  all_goals
    have hh := get_eq _ _ _ _ _ (by assumption)
    subst hh
    exact ⟨rfl, rfl, rfl, rfl⟩

theorem fetchRemoteInputsFile_sameDisk (d : Downloader) (b : String) (h : Host) :
    SameDisk h (d.fetchRemoteInputsFile b h).2 := by
  unfold Downloader.fetchRemoteInputsFile
  dsimp only
  repeat' split
  all_goals
    have hh := get_eq _ _ _ _ _ (by assumption)
    subst hh
    exact ⟨rfl, rfl, rfl, rfl⟩

theorem GetBaseUrlAndTimestamp_sameDisk (d : Downloader) (h : Host) :
    SameDisk h (d.GetBaseUrlAndTimestamp h).2 := by
  rw [GetBaseUrlAndTimestamp_host]
  exact ⟨rfl, rfl, rfl, rfl⟩

theorem shouldDownload_sameDisk (d : Downloader) (h : Host) :
    SameDisk h (d.shouldDownload h).2 := by
  unfold Downloader.shouldDownload
  have h1 := GetBaseUrlAndTimestamp_sameDisk d h
  split
  · rename_i heq
    rw [heq] at h1
    exact h1
  · rename_i b t hb heq
    rw [heq] at h1
    have h2 := fetchRemoteInputsFile_sameDisk d b hb
    dsimp only
    split
    · exact h1
    · split
      · split
        · rename_i heq2
          rw [heq2] at h2
          exact h1.chain h2
        · rename_i heq2
          rw [heq2] at h2
          repeat' split
          all_goals exact h1.chain h2
      · split <;> exact h1

/-- A successful `GetBaseUrlAndTimestamp` returns the rendering of a
positive timestamp. -/
theorem GetBaseUrlAndTimestamp_positive (d : Downloader) (h : Host) (b t : String) (h1 : Host)
    (hg : d.GetBaseUrlAndTimestamp h = ((b, t, none), h1)) : ∃ n : Int, 0 < n ∧ t = FormatInt n := by
  obtain ⟨_, _, i3⟩ := probeBaseUrls_spec d (buildBaseUrlList d.AllUrls) "" 0 h
  unfold Downloader.GetBaseUrlAndTimestamp at hg
  dsimp only at hg
  split at hg
  · rename_i hl
    simp only [Prod.mk.injEq, and_true, true_and] at hg
    rcases i3 with i3 | i3
    · rw [i3.1] at hl
      exact absurd hl (by decide)
    · exact ⟨_, i3.2, hg.1.2.symm⟩
  · simp at hg

theorem Ran.stay (h : Host) : Ran h h [] := ⟨by simp, rfl, fun _ hq => hq⟩

theorem Ran.append {h h1 h2 : Host} {a b : List FileEvent} (x : Ran h h1 a) (y : Ran h1 h2 b) :
    Ran h h2 (a ++ b) :=
  ⟨by rw [y.1, x.1, List.append_assoc], y.2.1.trans x.2.1, fun q hq => y.2.2 q (x.2.2 q hq)⟩

theorem SameDisk.ran {h h1 : Host} (x : SameDisk h h1) : Ran h h1 [] :=
  ⟨by rw [x.2.2.1]; simp, by rw [x.1], fun q hq => by rw [x.2.1]; exact hq⟩

/-- What the method `writeStringToFile` does, by outcome. -/
theorem writeStringToFile_trace (d : Downloader) (path content : String) (stats : DownloadStats)
    (h : Host) :
    ∃ E, Ran h (d.writeStringToFile path content stats h).2.2 E ∧
      E <+: published path h.seeds ∧
      ((d.writeStringToFile path content stats h).1 = none → E = published path h.seeds) ∧
      (d.writeStringToFile path content stats h).2.2.seeds = h.seeds.tail ∧
      (d.writeStringToFile path content stats h).2.1.Timestamp = stats.Timestamp ∧
      (d.writeStringToFile path content stats h).2.1.DecompressedPath = stats.DecompressedPath := by
  obtain ⟨t1, _, t3, _, t5, t6⟩ := WriteStringToFile_trace h path content _ rfl _ rfl
  unfold Downloader.writeStringToFile
  split
  · rename_i e h1 heq
    rw [heq] at t1 t3 t5 t6
    simp only at t1 t3 t5 t6
    rcases t6 with ⟨t6, _⟩ | ⟨_, t6 | t6⟩
    · simp at t6
    · exact ⟨[], ⟨by simp [t6], t3, t5⟩, List.nil_prefix, by simp, t1, rfl, rfl⟩
    · exact ⟨_, ⟨t6, t3, t5⟩, ⟨[_], rfl⟩, by simp, t1, rfl, rfl⟩
  · rename_i h1 heq
    rw [heq] at t1 t3 t5 t6
    simp only at t1 t3 t5 t6
    rcases t6 with ⟨_, t6, _⟩ | ⟨⟨e, he⟩, _⟩
    · exact ⟨_, ⟨t6, t3, t5⟩, List.prefix_refl _, fun _ => rfl, t1, rfl, rfl⟩
    · simp at he


/-- What the method `downloadInternal` does, by outcome. -/
theorem downloadInternal_trace (d : Downloader) (codec : Codec) (stats : DownloadStats)
    (baseUrl dm ts cm ce : String) (usize : Int) (remote : String) (h : Host) :
    ∃ E, Ran h (d.downloadInternal codec stats baseUrl dm ts cm ce usize remote h).2.2 E ∧
      E <+: dataPublished (dataPath d ts cm) h.seeds ++
        published (d.DestinationFolder ++ "/" ++ d.Basename ++ "." ++ ts ++ ".size") h.seeds.tail ∧
      ((d.downloadInternal codec stats baseUrl dm ts cm ce usize remote h).1.2 = none →
        E = dataPublished (dataPath d ts cm) h.seeds ++
          published (d.DestinationFolder ++ "/" ++ d.Basename ++ "." ++ ts ++ ".size") h.seeds.tail ∧
        (d.downloadInternal codec stats baseUrl dm ts cm ce usize remote h).1.1 = dataPath d ts cm ∧
        (d.downloadInternal codec stats baseUrl dm ts cm ce usize remote h).2.2.seeds
          = h.seeds.tail.tail ∧
        (d.downloadInternal codec stats baseUrl dm ts cm ce usize remote h).2.1.DecompressedPath
          = dataPath d ts cm) ∧
      (1 ≤ E.length →
        h.fs.denied (pathClean (dataPath d ts cm ++ ".tmp." ++ FormatInt (h.seeds.headD 0)))
          = false ∧
        dataPath d ts cm ++ ".tmp." ++ FormatInt (h.seeds.headD 0) ∈
          (d.downloadInternal codec stats baseUrl dm ts cm ce usize remote h).2.2.known) ∧
      (d.downloadInternal codec stats baseUrl dm ts cm ce usize remote h).2.1.Timestamp
        = stats.Timestamp := by
  unfold Downloader.downloadInternal
  dsimp only
  split
  · rename_i e h1 heq
    have hh := get_eq _ _ _ _ _ heq
    subst hh
    exact ⟨[], ⟨by simp, rfl, fun _ hq => hq⟩, List.nil_prefix, by simp, by simp, rfl⟩
  · rename_i resp h1 heq
    have hh := get_eq _ _ _ _ _ heq
    subst hh
    clear heq
    obtain ⟨w1, w2, w3, w4, w5, wk, w6⟩ := WriteDecompressed_trace codec resp.Body
      (d.DestinationFolder ++ "/" ++ d.Basename ++ "." ++ ts ++ "." ++ cm) cm ce remote usize
      { h with requests := h.requests ++ [baseUrl ++ "/" ++ d.Basename ++ "." ++ ts ++ "." ++ cm] }
      _ _ rfl rfl _ rfl
    split
    · rename_i p sz err h2 heq2
      rw [heq2] at w1 w2 w3 w4 w5 wk w6
      simp only at w1 w2 w3 w4 w5 wk w6
      rcases w6 with ⟨w6, _⟩ | ⟨_, _, w6⟩
      · simp at w6
      · rcases w6 with w6 | ⟨w6, w7, w8⟩
        · exact ⟨[], ⟨by simp [w6], w3, w5⟩, List.nil_prefix, by simp, by simp, rfl⟩
        · rcases w6 with w6 | w6
          · exact ⟨_, ⟨w6, w3, w5⟩, List.IsPrefix.trans ⟨[_, _], rfl⟩ (List.prefix_append _ _),
              by simp, fun _ => ⟨w7, w8⟩, rfl⟩
          · exact ⟨_, ⟨w6, w3, w5⟩, List.IsPrefix.trans ⟨[_], rfl⟩ (List.prefix_append _ _),
              by simp, fun _ => ⟨w7, w8⟩, rfl⟩
    · rename_i p sz h2 heq2
      rw [heq2] at w1 w2 w3 w4 w5 wk w6
      simp only at w1 w2 w3 w4 w5 wk w6
      rcases w6 with ⟨_, w6, w7, w8, _⟩ | ⟨⟨e, he⟩, _⟩
      · subst w6
        have hex : ¬ (sz ≠ usize ∧ ¬ h2.fileExists (decompressedPathOf
            (d.DestinationFolder ++ "/" ++ d.Basename ++ "." ++ ts ++ "." ++ cm)) = true) := by
          simp [w8]
        rw [if_neg hex]
        have hk := wk (by rw [w7]; simp)
        obtain ⟨E, s1, s2, s3, s4, s5, s6⟩ := writeStringToFile_trace d
          (d.DestinationFolder ++ "/" ++ d.Basename ++ "." ++ ts ++ ".size") (FormatInt sz)
          { Timestamp := stats.Timestamp, DownloadMethod := dm, DecompressedSizeInBytes := sz,
            DecompressedPath :=
              decompressedPathOf (d.DestinationFolder ++ "/" ++ d.Basename ++ "." ++ ts ++ "." ++ cm),
            BaseUrl := stats.BaseUrl, TotalBytesWrittenToDisk := stats.TotalBytesWrittenToDisk + sz,
            SavedFiles := stats.SavedFiles ++
              [decompressedPathOf (d.DestinationFolder ++ "/" ++ d.Basename ++ "." ++ ts ++ "." ++ cm)] }
          h2
        have hran : Ran h h2 (dataPublished (dataPath d ts cm) h.seeds) := ⟨w7, w3, w5⟩
        rw [w1] at s2 s3 s4
        split
        · rename_i err stats3 h3 heq3
          rw [heq3] at s1 s3 s4 s5 s6
          simp only at s1 s3 s4 s5 s6
          refine ⟨dataPublished (dataPath d ts cm) h.seeds ++ E, hran.append s1,
            (List.prefix_append_right_inj _).mpr s2, ?_, fun _ => ⟨hk.1, s1.2.2 _ hk.2⟩, s5⟩
          intro hc
          simp at hc
        · rename_i stats3 h3 heq3
          rw [heq3] at s1 s3 s4 s5 s6
          simp only at s1 s3 s4 s5 s6
          refine ⟨dataPublished (dataPath d ts cm) h.seeds ++ E, hran.append s1,
            (List.prefix_append_right_inj _).mpr s2, ?_, fun _ => ⟨hk.1, s1.2.2 _ hk.2⟩, s5⟩
          intro _
          refine ⟨?_, ?_, s4, ?_⟩
          · rw [s3 trivial]
          · simp only [dataPath]
          · simp only [dataPath]
            exact s6
      · simp at he

/-- What the loop over the timestamp paths does, by outcome. -/
theorem writeTimestampFiles_trace (d : Downloader) (timestamp : String) (paths : List String) :
    ∀ (stats : DownloadStats) (h : Host),
      ∃ E, Ran h (d.writeTimestampFiles timestamp paths stats h).2.2 E ∧
        E <+: publishedAll paths h.seeds ∧
        ((d.writeTimestampFiles timestamp paths stats h).1 = none → E = publishedAll paths h.seeds) ∧
        (d.writeTimestampFiles timestamp paths stats h).2.1.Timestamp = stats.Timestamp ∧
        (d.writeTimestampFiles timestamp paths stats h).2.1.DecompressedPath
          = stats.DecompressedPath := by
  induction paths with
  | nil =>
    intro stats h
    exact ⟨[], Ran.stay h, List.nil_prefix, fun _ => rfl, rfl, rfl⟩
  | cons p rest ih =>
    intro stats h
    obtain ⟨E, s1, s2, s3, s4, s5, s6⟩ := writeStringToFile_trace d p timestamp stats h
    unfold Downloader.writeTimestampFiles
    split
    · rename_i err stats1 h1 heq
      rw [heq] at s1 s3 s4 s5 s6
      simp only at s1 s3 s4 s5 s6
      refine ⟨E, s1, s2.trans (List.prefix_append _ _), ?_, s5, s6⟩
      intro hc
      simp at hc
    · rename_i stats1 h1 heq
      rw [heq] at s1 s3 s4 s5 s6
      simp only at s1 s3 s4 s5 s6
      obtain ⟨F, f1, f2, f3, f4, f5⟩ := ih stats1 h1
      rw [s4] at f2 f3
      refine ⟨E ++ F, s1.append f1, ?_, ?_, f4.trans s5, f5.trans s6⟩
      · rw [s3 trivial]
        exact (List.prefix_append_right_inj _).mpr f2
      · intro hc
        rw [s3 trivial, f3 hc]
        rfl

theorem extScan_length (rev : List Char) :
    ∀ acc, (extScan rev acc).length ≤ acc.length + (rev.takeWhile fun c => c ≠ '/').length := by
  induction rev with
  | nil => intro acc; simp [extScan]
  | cons c rev ih =>
    intro acc
    unfold extScan
    by_cases h1 : c = '/'
    · simp [h1]
    · by_cases h2 : c = '.'
      · simp [h1, h2, List.takeWhile]
      · have := ih (c :: acc)
        simp [h1, h2, List.takeWhile] at this ⊢
        omega

theorem takeWhile_length_lt (l : List Char) (hl : '/' ∈ l) :
    (l.takeWhile fun c => c ≠ '/').length < l.length := by
  induction l with
  | nil => simp at hl
  | cons c l ih =>
    by_cases h1 : c = '/'
    · simp [h1, List.takeWhile]
    · have : '/' ∈ l := by
        rcases List.mem_cons.mp hl with e | e
        · exact absurd e.symm h1
        · exact e
      have := ih this
      simp [h1, List.takeWhile] at this ⊢
      omega

theorem trimExt_length_pos (p : String) (hp : '/' ∈ p.data) :
    (trimSuffix p (pathExt p)).length > 0 := by
  have h1 := extScan_length p.data.reverse []
  have h2 := takeWhile_length_lt p.data.reverse (by simpa using hp)
  have h3 : (pathExt p).data.length < p.data.length := by
    simp only [pathExt, List.length_reverse, List.length_nil, Nat.zero_add] at h1 h2 ⊢
    omega
  unfold trimSuffix
  split
  · simp only [String.length, List.length_take]
    omega
  · simp only [String.length]
    omega

theorem decompressedPathOf_length_pos (p : String) (hp : '/' ∈ p.data) :
    (decompressedPathOf p).length > 0 := by
  have h0 := trimExt_length_pos p hp
  unfold decompressedPathOf
  dsimp only
  split
  · split
    · simp only [String.length_append]
      have : "/".length = 1 := by decide
      omega
    · exact h0
  · exact h0

theorem dataPath_length_pos (d : Downloader) (ts cm : String) : (dataPath d ts cm).length > 0 := by
  apply decompressedPathOf_length_pos
  simp [String.data_append]

/-- What `WriteStringToFile` does, by outcome, as a run of effects. -/
theorem WriteStringToFile_ran (h : Host) (path text : String) :
    ∃ E, Ran h (h.WriteStringToFile path text).2 E ∧ E <+: published path h.seeds ∧
      ((h.WriteStringToFile path text).1 = none → E = published path h.seeds) ∧
      (h.WriteStringToFile path text).2.seeds = h.seeds.tail := by
  obtain ⟨t1, _, t3, _, t5, t6⟩ := WriteStringToFile_trace h path text _ rfl _ rfl
  rcases t6 with ⟨_, t6, _⟩ | ⟨⟨e, he⟩, t6 | t6⟩
  · exact ⟨_, ⟨t6, t3, t5⟩, List.prefix_refl _, fun _ => rfl, t1⟩
  · exact ⟨[], ⟨by simp [t6], t3, t5⟩, List.nil_prefix, by simp [he], t1⟩
  · exact ⟨_, ⟨t6, t3, t5⟩, ⟨[_], rfl⟩, by simp [he], t1⟩

theorem prefix_form2 {α : Type} (A B C X E : List α) (h : E <+: B ++ C) :
    A ++ E <+: A ++ (B ++ (C ++ X)) := by
  rw [← List.append_assoc B C X]
  exact (List.prefix_append_right_inj A).mpr (h.trans (List.prefix_append _ _))

theorem prefix_form3 {α : Type} (A B C D X E : List α) (h : E <+: D) :
    A ++ (B ++ C) ++ E <+: A ++ (B ++ (C ++ (D ++ X))) := by
  have e : A ++ (B ++ (C ++ (D ++ X))) = (A ++ (B ++ C)) ++ (D ++ X) := by
    simp only [List.append_assoc]
  rw [e]
  exact (List.prefix_append_right_inj _).mpr (h.trans (List.prefix_append _ _))

theorem prefix_form4 {α : Type} (A B C D T E : List α) (h : E <+: T) :
    A ++ (B ++ C) ++ D ++ E <+: A ++ (B ++ (C ++ (D ++ T))) := by
  have e : A ++ (B ++ (C ++ (D ++ T))) = (A ++ (B ++ C) ++ D) ++ T := by
    simp only [List.append_assoc]
  rw [e]
  exact (List.prefix_append_right_inj _).mpr h

theorem append_form5 {α : Type} (A B C D T : List α) :
    A ++ (B ++ C) ++ D ++ T = A ++ (B ++ (C ++ (D ++ T))) := by
  simp only [List.append_assoc]

/-- The effects of `download` are a prefix of the publication order, and
the whole of it when `download` succeeds. -/
theorem download_trace (d : Downloader) (codec : Codec) (h : Host) (r : DownloadResult)
    (hr : r = d.download codec h) :
    ∃ E, Ran h r.host E ∧
      E <+: publicationOrder d r.stats.Timestamp r.downloader.RemoteSettings.compressionMethod
        r.downloader.RemoteSettings.checksumExtension h.seeds ∧
      (r.err = none →
        E = publicationOrder d r.stats.Timestamp r.downloader.RemoteSettings.compressionMethod
          r.downloader.RemoteSettings.checksumExtension h.seeds ∧
        r.stats.DecompressedPath =
          dataPath d r.stats.Timestamp r.downloader.RemoteSettings.compressionMethod) ∧
      (3 ≤ E.length →
        h.fs.denied (pathClean
          (dataPath d r.stats.Timestamp r.downloader.RemoteSettings.compressionMethod ++
            ".tmp." ++ FormatInt (h.seeds.tail.headD 0))) = false ∧
        dataPath d r.stats.Timestamp r.downloader.RemoteSettings.compressionMethod ++
          ".tmp." ++ FormatInt (h.seeds.tail.headD 0) ∈ r.host.known) ∧
      (E = [] ∨ ∃ n : Int, 0 < n ∧ r.stats.Timestamp = FormatInt n) := by
  unfold Downloader.download at hr
  dsimp only at hr
  have g1 := GetBaseUrlAndTimestamp_sameDisk d h
  split at hr
  · rename_i err h1 heq
    rw [heq] at g1
    subst hr
    exact ⟨[], g1.ran, List.nil_prefix, by simp, by simp, Or.inl rfl⟩
  · rename_i baseUrl ts h1 heq
    rw [heq] at g1
    have hpos := GetBaseUrlAndTimestamp_positive d h baseUrl ts h1 heq
    clear heq
    simp only at g1
    have g2 : ∀ (x : Properties × Option GoError) (h3 : Host),
        (match d.fetchRemoteSettings baseUrl ts h1 with
          | ((_, some _), h2) => d.fetchRemoteSettings baseUrl "" h2
          | ((properties, none), h2) => ((properties, none), h2)) = (x, h3) → SameDisk h1 h3 := by
      intro x h3 heq
      have a1 := fetchRemoteSettings_sameDisk d baseUrl ts h1
      split at heq
      · rename_i h2 heq1
        rw [heq1] at a1
        have a2 := fetchRemoteSettings_sameDisk d baseUrl "" h2
        rw [heq] at a2
        exact a1.chain a2
      · rename_i h2 heq1
        rw [heq1] at a1
        cases heq
        exact a1
    split at hr
    · rename_i err h3 heq
      replace g2 := g2 _ _ heq
      subst hr
      exact ⟨[], (g1.chain g2).ran, List.nil_prefix, by simp, by simp, Or.inr hpos⟩
    · rename_i props h3 heq
      replace g2 := g2 _ _ heq
      clear heq
      have g3 := g1.chain g2
      obtain ⟨E1, p1, p2, p3, p4⟩ := WriteStringToFile_ran h3
        (d.DestinationFolder ++ "/" ++ d.Basename ++ "." ++ ts ++ ".settings")
        (SerializeProperties props)
      rw [g3.2.2.2] at p2 p3 p4
      unfold Host.WritePropertiesFile at hr
      split at hr
      · rename_i err h4 heq
        rw [heq] at p1 p3 p4
        subst hr
        refine ⟨E1, g3.ran.append p1, p2.trans (List.prefix_append _ _), by simp, ?_, Or.inr hpos⟩
        intro hl
        have := p2.length_le
        simp [published] at this
        omega
      · rename_i h4 heq
        rw [heq] at p1 p3 p4
        have p5 := p3 rfl
        dsimp only at p1 p4
        subst p5
        clear p2 p3 heq
        have q1 := g3.ran.append p1
        rw [List.nil_append] at q1
        generalize hd1 : ({ d with RemoteSettings := d.makeSettingsFromProperties props } :
          Downloader) = d1 at hr
        have e1 : d1.DestinationFolder = d.DestinationFolder := by rw [← hd1]
        have e2 : d1.Basename = d.Basename := by rw [← hd1]
        have e3 : d1.RemoteSettings = d.makeSettingsFromProperties props := by rw [← hd1]
        have e4 : ∀ t c, dataPath d1 t c = dataPath d t c := by
          intro t c
          simp only [dataPath, e1, e2]
        clear hd1
        have g4 := fetchUncompressedSize_sameDisk d1 baseUrl ts h4
        generalize hcm : (d.makeSettingsFromProperties props).compressionMethod = cm at hr
        generalize hce : (d.makeSettingsFromProperties props).checksumExtension = ce at hr
        generalize (d.makeSettingsFromProperties props).downloadMethod = dm at hr
        have e5 : d1.RemoteSettings.compressionMethod = cm := by rw [e3, hcm]
        have e6 : d1.RemoteSettings.checksumExtension = ce := by rw [e3, hce]
        clear e3 hcm hce
        generalize d1.fetchUncompressedSize baseUrl ts h4 = us at hr g4
        obtain ⟨⟨sz, szerr⟩, h5⟩ := us
        dsimp only at hr g4
        have g5 := fetchChecksum_sameDisk d1 baseUrl ts ce h5
        split at hr
        · rename_i err h6 heq
          rw [heq] at g5
          dsimp only at g5
          subst hr
          refine ⟨_, q1.append (g4.chain g5).ran, ?_, by simp, ?_, Or.inr hpos⟩
          · rw [List.append_nil]
            exact List.prefix_append _ _
          · intro hl
            simp [published] at hl
        · rename_i remote h6 heq
          rw [heq] at g5
          dsimp only at g5
          clear heq
          have g6 := g4.chain g5
          have q2 := q1.append g6.ran
          rw [List.append_nil] at q2
          have s6 : h6.seeds = h.seeds.tail := g6.2.2.2.trans p4
          generalize (if szerr ≠ none then (-1 : Int) else sz) = usize at hr
          obtain ⟨E2, i1, i2, i3, i4, i5⟩ := downloadInternal_trace d1 codec
            { Timestamp := ts, DownloadMethod := "", DecompressedSizeInBytes := 0,
              DecompressedPath := "", BaseUrl := baseUrl, TotalBytesWrittenToDisk := 0,
              SavedFiles := [] } baseUrl dm ts cm ce usize remote h6
          simp only [s6, e1, e2, e4] at i2 i3 i4
          rw [g6.1, q1.2.1] at i4
          have hassoc : ∀ X : List FileEvent,
              dataPublished (dataPath d ts cm) h.seeds.tail ++
                (published (d.DestinationFolder ++ "/" ++ d.Basename ++ "." ++ ts ++ ".size")
                  h.seeds.tail.tail ++ X) =
              (dataPublished (dataPath d ts cm) h.seeds.tail ++
                published (d.DestinationFolder ++ "/" ++ d.Basename ++ "." ++ ts ++ ".size")
                  h.seeds.tail.tail) ++ X := fun X => (List.append_assoc _ _ _).symm
          split at hr
          · rename_i err stats2 h7 heq
            rw [heq] at i1 i3 i4 i5
            dsimp only at i1 i4 i5
            subst hr
            dsimp only
            rw [e5, e6, i5]
            refine ⟨_, q2.append i1, ?_, by simp, ?_, Or.inr hpos⟩
            · unfold publicationOrder
              exact prefix_form2 _ _ _ _ _ i2
            · intro hl
              apply i4
              simp [published] at hl
              omega
          · rename_i dp stats2 h7 heq
            rw [heq] at i1 i3 i4 i5
            dsimp only at i1 i4 i5
            obtain ⟨j1, j2, j3, j4⟩ := i3 rfl
            dsimp only at j2 j3 j4
            subst j1 j2
            clear heq i2 i3
            have hk := i4 (by simp [dataPublished])
            clear i4
            have q3 := q2.append i1
            obtain ⟨E3, c1, c2, c3, c4, c5, c6⟩ := writeStringToFile_trace d1
              (d.DestinationFolder ++ "/" ++ d.Basename ++ "." ++ ts ++ "." ++ ce) remote stats2 h7
            rw [j3] at c2 c3 c4
            split at hr
            · rename_i err stats3 h8 heq
              rw [heq] at c1 c3 c4 c5 c6
              dsimp only at c1 c4 c5 c6
              subst hr
              dsimp only
              rw [e5, e6, c5, i5]
              refine ⟨_, q3.append c1, ?_, by simp, fun _ => ⟨hk.1, c1.2.2 _ hk.2⟩, Or.inr hpos⟩
              unfold publicationOrder
              exact prefix_form3 _ _ _ _ _ _ c2
            · rename_i stats3 h8 heq
              rw [heq] at c1 c3 c4 c5 c6
              dsimp only at c1 c4 c5 c6
              have c7 := c3 rfl
              subst c7
              clear c2 c3 heq
              have q4 := q3.append c1
              rw [if_pos (dataPath_length_pos d ts cm)] at hr
              obtain ⟨E4, t1, t2, t3, t4, t5⟩ := writeTimestampFiles_trace d1 ts
                ([d.DestinationFolder ++ "/" ++ d.Basename ++ ".timestamp",
                  d.DestinationFolder ++ "/" ++ d.Basename ++ ".timestamp.latest"] ++
                  [dataPath d ts cm ++ ".timestamp"]) stats3 h8
              rw [c4] at t2 t3
              split at hr
              · rename_i err stats4 h9 heq
                rw [heq] at t1 t3 t4 t5
                dsimp only at t1 t4 t5
                subst hr
                dsimp only
                rw [e5, e6, t4, c5, i5]
                refine ⟨_, q4.append t1, ?_, by simp,
                  fun _ => ⟨hk.1, t1.2.2 _ (c1.2.2 _ hk.2)⟩, Or.inr hpos⟩
                unfold publicationOrder
                exact prefix_form4 _ _ _ _ _ _ t2
              · rename_i stats4 h9 heq
                rw [heq] at t1 t3 t4 t5
                dsimp only at t1 t4 t5
                have t6 := t3 rfl
                subst t6
                subst hr
                dsimp only
                rw [e5, e6, t4, t5, c5, c6, i5, j4]
                have hall := append_form5
                  (published (d.DestinationFolder ++ "/" ++ d.Basename ++ "." ++ ts ++ ".settings")
                    h.seeds)
                  (dataPublished (dataPath d ts cm) h.seeds.tail)
                  (published (d.DestinationFolder ++ "/" ++ d.Basename ++ "." ++ ts ++ ".size")
                    h.seeds.tail.tail)
                  (published (d.DestinationFolder ++ "/" ++ d.Basename ++ "." ++ ts ++ "." ++ ce)
                    h.seeds.tail.tail.tail)
                  (publishedAll
                    ([d.DestinationFolder ++ "/" ++ d.Basename ++ ".timestamp",
                      d.DestinationFolder ++ "/" ++ d.Basename ++ ".timestamp.latest"] ++
                      [dataPath d ts cm ++ ".timestamp"]) h.seeds.tail.tail.tail.tail)
                have q5 := q4.append t1
                rw [hall] at q5
                exact ⟨_, q5, List.prefix_refl _, fun _ => ⟨rfl, rfl⟩,
                  fun _ => ⟨hk.1, t1.2.2 _ (c1.2.2 _ hk.2)⟩, Or.inr hpos⟩


/-! ## Publication order of a download -/

/-- C11: the file effects of every `download` are an initial part of the
publication order: the settings file; the data file, created under its
temporary name, written, then renamed to its final path; the size sidecar;
the checksum sidecar; then `<basename>.timestamp`,
`<basename>.timestamp.latest` and `<decompressed path>.timestamp`.  A
successful download performs the whole of it, so the data file is renamed
before both sidecars are written and both sidecars are written before any
timestamp file; a download that stops within the first nine effects, that
is before the checksum sidecar is in place, has performed only effects that
come before the timestamp files. -/
theorem download_follows_publication_order (d : Downloader) (codec : Codec) (h : Host) :
    ∃ E, (d.download codec h).host.log = h.log ++ E ∧
      E <+: publicationOrder d (d.download codec h).stats.Timestamp
        (d.download codec h).downloader.RemoteSettings.compressionMethod
        (d.download codec h).downloader.RemoteSettings.checksumExtension h.seeds ∧
      ((d.download codec h).err = none →
        E = publicationOrder d (d.download codec h).stats.Timestamp
          (d.download codec h).downloader.RemoteSettings.compressionMethod
          (d.download codec h).downloader.RemoteSettings.checksumExtension h.seeds ∧
        (d.download codec h).stats.DecompressedPath =
          dataPath d (d.download codec h).stats.Timestamp
            (d.download codec h).downloader.RemoteSettings.compressionMethod) ∧
      (E.length ≤ 9 →
        E <+: (publicationOrder d (d.download codec h).stats.Timestamp
          (d.download codec h).downloader.RemoteSettings.compressionMethod
          (d.download codec h).downloader.RemoteSettings.checksumExtension h.seeds).take 9) := by
  obtain ⟨E, t1, t2, t3, _, _⟩ := download_trace d codec h _ rfl
  refine ⟨E, t1.1, t2, t3, ?_⟩
  intro hl
  obtain ⟨T, hT⟩ := t2
  rw [← hT, List.take_append_eq_append_take, List.take_of_length_le hl]
  exact List.prefix_append _ _

/-- C12, counterexample: in a successful download into an empty folder the
last effect is the rename that puts `/d/t.1700.cache.timestamp` in place;
`/d/t.cache.timestamp.latest` was put in place two effects earlier. -/
theorem latest_timestamp_is_not_last :
    ((sampleDownloader sampleNet).download sampleCodec emptyHost).err = none ∧
      ((sampleDownloader sampleNet).download sampleCodec emptyHost).host.log.reverse.take 3 =
        [.rename "/d/t.1700.cache.timestamp.tmp.7" "/d/t.1700.cache.timestamp",
         .write "/d/t.1700.cache.timestamp.tmp.7",
         .rename "/d/t.cache.timestamp.latest.tmp.6" "/d/t.cache.timestamp.latest"] := by
  decide

/-- C12, amended: in every successful download the log of file effects
ends with the publication of `<basename>.timestamp.latest` followed by the
publication of `<decompressed path>.timestamp` (its temporary file is
written, then renamed); no other file is written or renamed after
`<basename>.timestamp.latest`. -/
theorem latest_timestamp_is_followed_by_data_timestamp_only (d : Downloader) (codec : Codec)
    (h : Host) (hok : (d.download codec h).err = none) :
    ∃ before, (d.download codec h).host.log =
      before ++
        published (d.DestinationFolder ++ "/" ++ d.Basename ++ ".timestamp.latest")
          h.seeds.tail.tail.tail.tail.tail ++
        published ((d.download codec h).stats.DecompressedPath ++ ".timestamp")
          h.seeds.tail.tail.tail.tail.tail.tail := by
  obtain ⟨E, t1, _, t3, _, _⟩ := download_trace d codec h _ rfl
  obtain ⟨hE, hp⟩ := t3 hok
  rw [t1.1, hE, hp]
  unfold publicationOrder
  simp only [publishedAll, List.append_nil, ← List.append_assoc]
  exact ⟨_, rfl⟩

theorem latest_timestamp_is_followed_by_data_timestamp_only_witness :
    ((sampleDownloader sampleNet).download sampleCodec emptyHost).err = none ∧
    ∃ before, ((sampleDownloader sampleNet).download sampleCodec emptyHost).host.log =
      before ++
        published ((sampleDownloader sampleNet).DestinationFolder ++ "/" ++
          (sampleDownloader sampleNet).Basename ++ ".timestamp.latest")
          emptyHost.seeds.tail.tail.tail.tail.tail ++
        published (((sampleDownloader sampleNet).download sampleCodec emptyHost).stats.DecompressedPath
          ++ ".timestamp") emptyHost.seeds.tail.tail.tail.tail.tail.tail :=
  ⟨by decide, latest_timestamp_is_followed_by_data_timestamp_only (sampleDownloader sampleNet)
    sampleCodec emptyHost (by decide)⟩


/-! ## One pass of the update loop -/

theorem ParseInt_range (s : String) (v : Int) (hp : ParseInt s = .ok v) :
    -(2 ^ 63) ≤ v ∧ v < 2 ^ 63 := by
  unfold ParseInt ParseIntChars at hp
  split at hp
  · simp at hp
  · dsimp only at hp
    split at hp
    · simp at hp
    · split at hp
      · simp at hp
      · split at hp
        · simp at hp
        · rename_i _ c cs _ _ un hun h1 h2
          simp only [Parsed.ok.injEq] at hp
          subst hp
          have h0 : (0 : Int) ≤ un := Int.natCast_nonneg un
          by_cases hneg : c = '-'
          · have h3 : un ≤ 2 ^ 63 := by
              by_contra hc
              exact h2 ⟨hneg, by omega⟩
            have : (un : Int) ≤ 2 ^ 63 := by exact_mod_cast h3
            rw [if_pos hneg]
            omega
          · have h3 : un < 2 ^ 63 := by
              by_contra hc
              exact h1 ⟨hneg, by omega⟩
            have : (un : Int) < 2 ^ 63 := by exact_mod_cast h3
            rw [if_neg hneg]
            omega

/-- The loaded timestamp after `Update(timestamp)` is the one before the
call or the number that `timestamp` renders. -/
theorem Update_timestamp {H : Type} (api : ReaderCApi H) (c : CacheReader H) (timestamp : String)
    (v : Int) (hp : ParseInt timestamp = .ok v) :
    (c.Update api timestamp).reader.MostRecentFileTimestamp = c.MostRecentFileTimestamp ∨
      (c.Update api timestamp).reader.MostRecentFileTimestamp = v := by
  unfold CacheReader.Update
  rw [hp]
  repeat' (first | (simp_all; done) | split | (dsimp only))

/-- C20, counterexample: the download fails (no base URL can be reached)
while `/d/t.cache.timestamp.latest` names 1700 and the reader has 1600
loaded; the pass still calls `Update("1700")` and the loaded timestamp
becomes 1700. -/
theorem download_error_does_not_freeze_timestamp :
    (remoteReader.checkPass (fun _ => constReaderApi 0) downNet sampleCodec latestHost).downloadErr
        ≠ none ∧
      (remoteReader.checkPass (fun _ => constReaderApi 0) downNet sampleCodec latestHost).updates
        = ["1700"] ∧
      remoteReader.MostRecentFileTimestamp = 1600 ∧
      (remoteReader.checkPass (fun _ => constReaderApi 0) downNet sampleCodec
        latestHost).reader.MostRecentFileTimestamp = 1700 := by
  decide

/-- C20, amended: in one pass of the update loop, `Update` is invoked if and
only if `<task>.cache.timestamp.latest`, as it is after the download
attempt, can be read and parsed and its timestamp is strictly greater than
the loaded `MostRecentFileTimestamp`; it is then invoked once, with the
decimal rendering of that timestamp.  A pass never lowers
`MostRecentFileTimestamp`, and it leaves the reader as it was when the
timestamp file is unreadable and whenever `Update` is not invoked; a
download error has no effect of its own on the reader. -/
theorem checkPass_updates_iff_newer {H : Type} (api : FS → ReaderCApi H) (net : CoreDownloader)
    (codec : Codec) (c : CacheReader H) (h : Host) :
    (c.checkPass api net codec h).latest = c.getLatestTimestamp (c.checkPass api net codec h).host ∧
    ((c.checkPass api net codec h).updates ≠ [] ↔
      ((c.checkPass api net codec h).latest.2 = none ∧
        (c.checkPass api net codec h).latest.1 > c.MostRecentFileTimestamp)) ∧
    ((c.checkPass api net codec h).updates ≠ [] →
      (c.checkPass api net codec h).updates = [FormatInt (c.checkPass api net codec h).latest.1]) ∧
    c.MostRecentFileTimestamp ≤ (c.checkPass api net codec h).reader.MostRecentFileTimestamp ∧
    ((c.checkPass api net codec h).latest.2 ≠ none → (c.checkPass api net codec h).reader = c) ∧
    ((c.checkPass api net codec h).updates = [] → (c.checkPass api net codec h).reader = c) := by
  unfold CacheReader.checkPass
  dsimp only
  split
  · rename_i e he
    simp [he]
  · rename_i he
    split
    · rename_i hgt
      refine ⟨rfl, by simp [he, hgt], by simp, ?_, by simp [he], by simp⟩
      dsimp only
      have hr : ∃ content, ParseInt content =
          .ok (c.getLatestTimestamp (c.maybeDownload net codec h).2).1 := by
        unfold CacheReader.getLatestTimestamp at he ⊢
        dsimp only at he ⊢
        split
        · rename_i hf
          rw [hf] at he
          simp at he
        · rename_i content hf
          rw [hf] at he
          dsimp only at he ⊢
          split
          · rename_i hpe
            rw [hpe] at he
            simp at he
          · rename_i hpo
            exact ⟨content, hpo⟩
      obtain ⟨content, hpc⟩ := hr
      obtain ⟨hlo, hhi⟩ := ParseInt_range _ _ hpc
      rcases Update_timestamp (api (c.maybeDownload net codec h).2.fs) c _ _
        (ParseInt_FormatInt _ hlo hhi) with hu | hu
      · rw [hu]
      · rw [hu]
        omega
    · rename_i hgt
      simp [he, hgt]


/-! ## Cleanup after a download -/

/-- C15, failing input: the folder holds `/d/t.cache.1800.settings` and the
remote serves generation 1700.  `Run` downloads generation 1700 and returns
no error with `DecompressedPath = /d/t.1700.cache`, the latest timestamp
file names 1700, yet the cleanup that follows has removed
`/d/t.1700.cache`: it retains the group with the largest number, 1800. -/
theorem run_cleanup_removes_published_artifact :
    ((sampleDownloader sampleNet).Run sampleCodec staleHost).err = none ∧
      ((sampleDownloader sampleNet).Run sampleCodec staleHost).stats.DecompressedPath
        = "/d/t.1700.cache" ∧
      ((sampleDownloader sampleNet).Run sampleCodec staleHost).host.readFile
        "/d/t.cache.timestamp.latest" = some "1700" ∧
      FileEvent.rename "/d/t.1700.cache.tmp.2" "/d/t.1700.cache" ∈
        ((sampleDownloader sampleNet).Run sampleCodec staleHost).host.log ∧
      ((sampleDownloader sampleNet).Run sampleCodec staleHost).host.fileExists "/d/t.1700.cache"
        = false := by
  decide

/-- C19, failing input: the folder holds files of the generations 17 and
1700 and one generation is retained.  The sorted timestamps are 17 and
1700, so only generation 17 is to go; but the files listed for it include
`/d/t.cache.1700.settings`, which belongs to the retained generation, and
`RemoveOldFiles` removes it. -/
theorem cleanup_removes_file_of_retained_group :
    GetSortedTimeStamps "/d" "t.cache" LocalFStorageHandler prefixHost = ([17, 1700], none) ∧
      timestampOfPath "/d/t.cache.1700.settings" = some 1700 ∧
      (RemoveOldFiles "/d" "t.cache" 1 LocalFStorageHandler prefixHost).removed =
        ["/d/t.cache.17.settings", "/d/t.cache.1700.settings"] ∧
      (RemoveOldFiles "/d" "t.cache" 1 LocalFStorageHandler prefixHost).host.fileExists
        "/d/t.cache.1700.settings" = false := by
  decide


/-! ## Paths, listings and removals -/

theorem pathExt_zst (x : String) : pathExt (x ++ ".zst") = ".zst" := by
  simp [pathExt, String.data_append, extScan]

theorem trimSuffix_append (x s : String) : trimSuffix (x ++ s) s = x := by
  unfold trimSuffix
  have h1 : hasSuffix (x ++ s) s = true := by
    simp [hasSuffix, String.data_append, List.reverse_append]
  rw [if_pos h1]
  simp [String.data_append]

theorem dirPart_file (dir file : List Char) (hf : '/' ∉ file) :
    dirPart (file.reverse ++ '/' :: dir.reverse) = dir ++ ['/'] := by
  induction file using List.reverseRecOn with
  | nil => simp [dirPart]
  | append_singleton l c ih =>
    have hc : c ≠ '/' := fun e => hf (by simp [e])
    have hl : '/' ∉ l := fun e => hf (by simp [e])
    simp [dirPart, hc, ih hl]

theorem pathDir_file (dir file : String) (hf : '/' ∉ file.data) :
    pathDir (dir ++ "/" ++ file) = pathClean (dir ++ "/") := by
  unfold pathDir
  congr 1
  have := dirPart_file dir.data file.data hf
  simp [String.data_append, List.reverse_append] at this ⊢
  rw [this]
  rfl

theorem stripTrailingSlashes_file (p : List Char) (c : Char) (hc : c ≠ '/') :
    stripTrailingSlashes (p ++ [c]) = p ++ [c] := by
  simp [stripTrailingSlashes, List.dropWhile, hc]

theorem pathBase_file (dir file : String) (hf : '/' ∉ file.data) (hne : file.data ≠ []) :
    pathBase (dir ++ "/" ++ file) = file := by
  obtain ⟨l, c, hl⟩ : ∃ l c, file.data = l ++ [c] := by
    rcases List.eq_nil_or_concat file.data with e | ⟨l, c, e⟩
    · exact absurd e hne
    · exact ⟨l, c, by simpa using e⟩
  have hc : c ≠ '/' := fun e => hf (by rw [hl]; simp [e])
  have hd : (dir ++ "/" ++ file).data = dir.data ++ '/' :: file.data := by
    simp [String.data_append]
  unfold pathBase
  have hnil : (dir ++ "/" ++ file).data ≠ [] := by rw [hd]; simp
  rw [if_neg hnil, hd]
  have hs : stripTrailingSlashes (dir.data ++ '/' :: file.data) = dir.data ++ '/' :: file.data := by
    have := stripTrailingSlashes_file (dir.data ++ '/' :: l) c hc
    rw [hl]
    simpa using this
  rw [hs, splitBytes_append, splitBytes_no_sep '/' file.data hf]
  simp [hne]

/-- The decompressed path of `<dest>/<task>.cache.<ts>.zst` is
`<dest>/<task>.<ts>.cache`. -/
theorem decompressedPathOf_cache (dest task ts : String)
    (htask : '.' ∉ task.data ∧ '/' ∉ task.data)
    (hts : ∀ c ∈ ts.data, 48 ≤ c.toNat ∧ c.toNat ≤ 57)
    (hclean : pathClean (dest ++ "/") = dest) :
    decompressedPathOf (dest ++ "/" ++ (task ++ ".cache") ++ "." ++ ts ++ "." ++ "zst") =
      dest ++ "/" ++ task ++ "." ++ ts ++ "." ++ "cache" := by
  have hdot : '.' ∉ ts.data := fun hm => (digit_ne _ (hts _ hm)).1 rfl
  have hsl : '/' ∉ ts.data := fun hm => (digit_ne _ (hts _ hm)).2.1 rfl
  have e1 : dest ++ "/" ++ (task ++ ".cache") ++ "." ++ ts ++ "." ++ "zst" =
      (dest ++ "/" ++ (task ++ ".cache" ++ "." ++ ts)) ++ ".zst" := by
    simp only [String.append_assoc]
    rfl
  have hF : (task ++ ".cache" ++ "." ++ ts).data =
      task.data ++ '.' :: ("cache".data ++ '.' :: ts.data) := by
    simp [String.data_append]
  have hFs : '/' ∉ (task ++ ".cache" ++ "." ++ ts).data := by
    rw [hF]
    simp [htask.2, hsl]
  have hFn : (task ++ ".cache" ++ "." ++ ts).data ≠ [] := by
    rw [hF]
    simp
  have hsplit : splitOn (task ++ ".cache" ++ "." ++ ts) '.' = [task, "cache", ts] := by
    unfold splitOn
    rw [hF, splitBytes_append_sep '.' _ _ htask.1, splitBytes_append_sep '.' _ _ (by decide),
      splitBytes_no_sep '.' _ hdot]
    rfl
  unfold decompressedPathOf
  dsimp only
  rw [e1, pathExt_zst, trimSuffix_append, pathBase_file _ _ hFs hFn, hsplit]
  dsimp only
  rw [if_pos rfl, pathDir_file _ _ hFs, hclean]

theorem mem_insertSorted (x y : String) (l : List String) :
    y ∈ insertSorted x l ↔ y = x ∨ y ∈ l := by
  induction l with
  | nil => simp [insertSorted]
  | cons z zs ih =>
    unfold insertSorted
    split
    · simp
    · simp [ih]
      tauto

theorem mem_sortStrings (y : String) (l : List String) : y ∈ sortStrings l ↔ y ∈ l := by
  induction l with
  | nil => simp [sortStrings]
  | cons z zs ih =>
    have : sortStrings (z :: zs) = insertSorted z (sortStrings zs) := rfl
    rw [this, mem_insertSorted, ih]
    simp

theorem mem_dedupStrings (y : String) (l : List String) : y ∈ dedupStrings l ↔ y ∈ l := by
  induction l with
  | nil => simp [dedupStrings]
  | cons z zs ih =>
    simp only [dedupStrings, List.mem_cons, List.mem_filter, ih]
    by_cases e : y = z
    · simp [e]
    · simp [e]

/-- In a pattern without character class and escape the chunk ends before
the first star. -/
theorem scanChunkFrom_simple (body : List Char) (hb : ∀ c ∈ body, c ≠ '[' ∧ c ≠ '\\') :
    ∀ acc, scanChunkFrom false body acc =
      (acc.reverse ++ body.takeWhile (fun c => decide (c ≠ '*')),
        body.dropWhile (fun c => decide (c ≠ '*'))) := by
  induction body with
  | nil => intro acc; simp [scanChunkFrom]
  | cons c cs ih =>
    intro acc
    have hc := hb c (by simp)
    have hi := ih (fun x hx => hb x (by simp [hx]))
    rw [scanChunkFrom.eq_def]
    by_cases hs : c = '*'
    · subst hs
      simp
    · by_cases hr : c = ']'
      · subst hr
        simp [hi]
      · simp [hc.1, hc.2, hs, hr, hi]

theorem chunkRest_suffix (C : List Char) :
    ∀ s t, chunkRest C s = some t → t <:+ s ∧ t.length + C.length = s.length := by
  induction C with
  | nil =>
    intro s t h
    simp [chunkRest] at h
    subst h
    exact ⟨List.suffix_refl _, rfl⟩
  | cons c cs ih =>
    intro s t h
    cases s with
    | nil => simp [chunkRest] at h
    | cons x xs =>
      simp only [chunkRest] at h
      split at h
      · obtain ⟨h1, h2⟩ := ih xs t h
        exact ⟨h1.trans (List.suffix_cons x xs), by simp; omega⟩
      · simp at h

theorem matchChunkLoop_simple (C : List Char) (hC : ∀ c ∈ C, c ≠ '[' ∧ c ≠ '\\') :
    ∀ (fuel : Nat) (s : List Char) (failed : Bool), C.length ≤ fuel → '/' ∉ s →
      matchChunkLoop fuel C s failed = some (if failed then none else chunkRest C s) := by
  induction C with
  | nil =>
    intro fuel s failed _ _
    cases fuel <;> cases failed <;> simp [matchChunkLoop, chunkRest]
  | cons c cs ih =>
    intro fuel s failed hf hs
    have hc := hC c (by simp)
    cases fuel with
    | zero => simp at hf
    | succ f =>
      have hf2 : cs.length ≤ f := by simpa using hf
      have hi := ih (fun x hx => hC x (by simp [hx])) f
      simp only [matchChunkLoop, hc.1, hc.2, if_false]
      cases s with
      | nil =>
        by_cases hq : c = '?'
        · simp only [hq, if_true]
          rw [hi _ _ hf2 (by simp)]
          cases failed <;> simp [chunkRest]
        · simp only [hq, if_false]
          rw [hi _ _ hf2 (by simp)]
          cases failed <;> simp [chunkRest]
      | cons x xs =>
        have hx : x ≠ '/' := fun e => hs (by simp [e])
        have hxs : '/' ∉ xs := fun e => hs (by simp [e])
        by_cases hq : c = '?'
        · simp only [hq, if_true]
          cases failed with
          | true =>
            simp only [Bool.true_or, if_true]
            rw [hi _ _ hf2 hs]
            simp
          | false =>
            simp only [Bool.false_or, List.isEmpty_cons, Bool.false_eq_true, if_false,
              List.tail_cons]
            rw [hi _ _ hf2 hxs]
            simp [chunkRest, hx]
        · simp only [hq, if_false]
          cases failed with
          | true =>
            simp only [Bool.true_or, if_true]
            rw [hi _ _ hf2 hs]
            simp
          | false =>
            simp only [Bool.false_or, List.isEmpty_cons, Bool.false_eq_true, if_false,
              List.tail_cons]
            rw [hi _ _ hf2 hxs]
            by_cases hxc : x = c
            · simp [chunkRest, hxc]
            · simp [chunkRest, hxc, hq]

theorem matchChunk_simple (C s : List Char) (hC : ∀ c ∈ C, c ≠ '[' ∧ c ≠ '\\') (hs : '/' ∉ s) :
    matchChunk C s = some (chunkRest C s) := by
  unfold matchChunk
  rw [matchChunkLoop_simple C hC _ _ _ (le_refl _) hs]
  simp

theorem globMatch_chunk (C rest : List Char) (hC : ∀ c ∈ C, c ≠ '*') :
    ∀ s, globMatch (C ++ rest) s =
      match chunkRest C s with
      | some t => globMatch rest t
      | none => false := by
  induction C with
  | nil => intro s; simp [chunkRest]
  | cons c cs ih =>
    intro s
    have hc := hC c (by simp)
    have hi := ih (fun x hx => hC x (by simp [hx]))
    cases s with
    | nil => simp [globMatch, chunkRest, hc]
    | cons x xs =>
      simp only [List.cons_append, globMatch, hc, if_false, chunkRest, hi]
      by_cases h : c = '?' ∨ x = c
      · rw [if_pos h]
        rcases h with h | h <;> simp [h, hi]
      · rw [if_neg h]
        simp only [not_or] at h
        simp [h.1, h.2]

theorem starMatch_iff (f : List Char → Bool) (s : List Char) :
    starMatch f s = true ↔ ∃ u, u <:+ s ∧ f u = true := by
  induction s with
  | nil =>
    simp [starMatch]
  | cons x xs ih =>
    simp only [starMatch, Bool.or_eq_true, ih, List.suffix_cons_iff]
    constructor
    · rintro (h | ⟨u, hu, hf⟩)
      · exact ⟨_, Or.inl rfl, h⟩
      · exact ⟨u, Or.inr hu, hf⟩
    · rintro ⟨u, hu | hu, hf⟩
      · subst hu; exact Or.inl hf
      · exact Or.inr ⟨u, hu, hf⟩

theorem starMatch_self (f : List Char → Bool) (s : List Char) (h : f s = true) :
    starMatch f s = true :=
  (starMatch_iff f s).mpr ⟨s, List.suffix_refl _, h⟩

theorem starMatch_idem (f : List Char → Bool) (s : List Char) :
    starMatch (starMatch f) s = starMatch f s := by
  apply Bool.eq_iff_iff.mpr
  rw [starMatch_iff, starMatch_iff]
  constructor
  · rintro ⟨u, hu, h⟩
    obtain ⟨v, hv, hf⟩ := (starMatch_iff f u).mp h
    exact ⟨v, hv.trans hu, hf⟩
  · rintro ⟨u, hu, h⟩
    exact ⟨u, hu, starMatch_self f u h⟩

/-- Leading stars count as one. -/
theorem globMatch_stars (stars body : List Char) (hs : ∀ c ∈ stars, c = '*') (hne : stars ≠ []) :
    ∀ s, globMatch (stars ++ body) s = starMatch (globMatch body) s := by
  induction stars with
  | nil => exact absurd rfl hne
  | cons c cs ih =>
    intro s
    have hc : c = '*' := hs c (by simp)
    subst hc
    by_cases hcs : cs = []
    · subst hcs
      simp [globMatch]
    · have hi := ih (fun x hx => hs x (by simp [hx])) hcs
      have : globMatch ('*' :: cs ++ body) = starMatch (globMatch (cs ++ body)) := by
        funext u
        simp [globMatch]
      rw [this]
      have e : globMatch (cs ++ body) = starMatch (globMatch body) := funext hi
      rw [e, starMatch_idem]
theorem chunkRest_nil (C t : List Char) (h : chunkRest C [] = some t) : t = [] := by
  have := (chunkRest_suffix C [] t h).1
  simpa using this

theorem searchChunk_of_accept (C : List Char) ( last : Bool) (s t : List Char)
    (h : acceptChunk C last s = some t) : searchChunk C last s = some t := by
  cases s with
  | nil => simpa [searchChunk] using h
  | cons x xs => simp [searchChunk, h]

/-- The loop after a star goes along the name to the first place from which
the chunk is accepted. -/
theorem skipSearch_simple (C : List Char) ( last : Bool) (hC : ∀ c ∈ C, c ≠ '[' ∧ c ≠ '\\') :
    ∀ xs x, '/' ∉ x :: xs → skipSearch C last (x :: xs) = some (searchChunk C last xs) := by
  intro xs
  induction xs with
  | nil =>
    intro x hs
    have hx : x ≠ '/' := fun e => hs (by simp [e])
    simp only [skipSearch, hx, if_false, matchChunk_simple C [] hC (by simp), searchChunk,
      acceptChunk]
    cases hr : chunkRest C [] with
    | none => rfl
    | some t =>
      dsimp only
      by_cases hl : last = true ∧ t ≠ []
      · rw [if_pos hl, if_pos hl]
      · rw [if_neg hl, if_neg hl]
  | cons y ys ih =>
    intro x hs
    have hx : x ≠ '/' := fun e => hs (by simp [e])
    have hxs : '/' ∉ y :: ys := fun e => hs (by simp [e])
    rw [skipSearch]
    simp only [hx, if_false, matchChunk_simple C (y :: ys) hC hxs]
    cases hr : chunkRest C (y :: ys) with
    | none =>
      dsimp only
      rw [ih y hxs]
      simp [searchChunk, acceptChunk, hr]
    | some t =>
      dsimp only
      by_cases hl : last = true ∧ t ≠ []
      · rw [if_pos hl, ih y hxs]
        simp [searchChunk, acceptChunk, hr, hl]
      · rw [if_neg hl]
        rw [searchChunk_of_accept C last (y :: ys) t (by simp [acceptChunk, hr, hl])]

theorem globMatch_star_mono (Q t u : List Char) (hu : u <:+ t)
    (h : globMatch ('*' :: Q) u = true) : globMatch ('*' :: Q) t = true := by
  simp only [globMatch, if_true] at h ⊢
  obtain ⟨w, hw, hf⟩ := (starMatch_iff _ u).mp h
  exact (starMatch_iff _ t).mpr ⟨w, hw.trans hu, hf⟩

/-- The first place is as good as any later one when a star follows the
chunk. -/
theorem later_match (C Q s xs t : List Char) (hC : ∀ c ∈ C, c ≠ '*') (hxs : xs <:+ s)
    (ht : chunkRest C s = some t)
    (h : starMatch (globMatch (C ++ '*' :: Q)) xs = true) : globMatch ('*' :: Q) t = true := by
  obtain ⟨u, hu, hf⟩ := (starMatch_iff _ xs).mp h
  rw [globMatch_chunk C _ hC] at hf
  cases hr : chunkRest C u with
  | none => simp [hr] at hf
  | some t1 =>
    simp only [hr] at hf
    obtain ⟨a1, a2⟩ := chunkRest_suffix C u t1 hr
    obtain ⟨b1, b2⟩ := chunkRest_suffix C s t ht
    have hus : u <:+ s := hu.trans hxs
    have hlen : t1.length ≤ t.length := by
      have := hus.length_le
      omega
    exact globMatch_star_mono Q t t1 (List.suffix_of_suffix_length_le (a1.trans hus) b1 hlen) hf

/-- What the search after a star finds decides the match of the star, the
chunk and the rest of the pattern. -/
theorem searchChunk_starMatch (C rest : List Char) (hC : ∀ c ∈ C, c ≠ '*')
    (hrest : rest = [] ∨ ∃ Q, rest = '*' :: Q) :
    ∀ s, (match searchChunk C (decide (rest = [])) s with
      | some t => globMatch rest t
      | none => false) = starMatch (globMatch (C ++ rest)) s := by
  intro s
  induction s with
  | nil =>
    simp only [searchChunk, starMatch, globMatch_chunk C rest hC, acceptChunk]
    cases hr : chunkRest C [] with
    | none => rfl
    | some t =>
      have := chunkRest_nil C t hr
      subst this
      simp
  | cons x xs ih =>
    simp only [searchChunk, starMatch]
    rw [← ih, globMatch_chunk C rest hC]
    simp only [acceptChunk]
    cases hr : chunkRest C (x :: xs) with
    | none => simp
    | some t =>
      dsimp only
      by_cases hl : decide (rest = []) = true ∧ t ≠ []
      · rw [if_pos hl]
        have h1 : rest = [] := by simpa using hl.1
        subst h1
        simp [globMatch, hl.2]
      · rw [if_neg hl]
        dsimp only
        cases hg : globMatch rest t with
        | true => simp
        | false =>
          rcases hrest with h1 | ⟨Q, h1⟩
          · subst h1
            have : t = [] := by simpa using hl
            subst this
            simp [globMatch] at hg
          · subst h1
            simp only [Bool.false_or]
            rw [ih]
            cases hsm : starMatch (globMatch (C ++ '*' :: Q)) xs with
            | false => rfl
            | true =>
              have := later_match C Q (x :: xs) xs t hC (List.suffix_cons x xs) hr hsm
              rw [hg] at this
              exact absurd this (by simp)
theorem dropWhile_stops {α : Type} (p : α → Bool) (l : List α) :
    l.dropWhile p = [] ∨ ∃ x xs, l.dropWhile p = x :: xs ∧ p x = false := by
  induction l with
  | nil => exact Or.inl rfl
  | cons a as ih =>
    by_cases h : p a = true
    · simpa [List.dropWhile, h] using ih
    · right
      exact ⟨a, as, by simp [List.dropWhile, h], by simpa using h⟩

/-- The parts into which `scanChunk` takes a pattern without character
class and escape: leading stars, a chunk without star, and a rest that is
empty or begins with a star. -/
theorem scanChunk_simple (P : List Char) (hne : P ≠ []) (hP : ∀ c ∈ P, c ≠ '[' ∧ c ≠ '\\') :
    ∃ stars C rest, P = stars ++ (C ++ rest) ∧
      scanChunk P = (decide (stars ≠ []), C, rest) ∧
      (∀ x ∈ stars, x = '*') ∧ (∀ x ∈ C, x ≠ '*') ∧
      (rest = [] ∨ ∃ Q, rest = '*' :: Q) ∧ (stars = [] → C ≠ []) ∧ (C = [] → rest = []) := by
  let isStar : Char → Bool := fun c => decide (c = '*')
  let noStar : Char → Bool := fun c => decide (c ≠ '*')
  have hbody : ∀ c ∈ P.dropWhile isStar, c ≠ '[' ∧ c ≠ '\\' :=
    fun c hc => hP c ((List.dropWhile_sublist isStar).subset hc)
  refine ⟨P.takeWhile isStar, (P.dropWhile isStar).takeWhile noStar,
    (P.dropWhile isStar).dropWhile noStar, ?_, ?_, ?_, ?_, ?_, ?_, ?_⟩
  · rw [List.takeWhile_append_dropWhile, List.takeWhile_append_dropWhile]
  · unfold scanChunk
    dsimp only
    rw [scanChunkFrom_simple _ hbody]
    obtain ⟨c, cs, rfl⟩ := List.exists_cons_of_ne_nil hne
    by_cases hc : c = '*'
    · simp [hc, List.takeWhile, isStar, noStar]
    · simp [hc, List.takeWhile, isStar, noStar]
  · intro x hx
    simpa [isStar] using List.mem_takeWhile_imp hx
  · intro x hx
    simpa [noStar] using List.mem_takeWhile_imp hx
  · rcases dropWhile_stops noStar (P.dropWhile isStar) with h | ⟨x, xs, h, hx⟩
    · exact Or.inl h
    · right
      have : x = '*' := by simpa [noStar] using hx
      subst this
      exact ⟨xs, h⟩
  · intro h
    obtain ⟨c, cs, rfl⟩ := List.exists_cons_of_ne_nil hne
    by_cases hc : c = '*'
    · simp [List.takeWhile, isStar, hc] at h
    · simp [List.dropWhile, List.takeWhile, isStar, noStar, hc]
  · intro h
    rcases dropWhile_stops isStar P with h1 | ⟨x, xs, h1, hx⟩
    · rw [h1]
      rfl
    · rw [h1] at h
      have : x ≠ '*' := by simpa [isStar] using hx
      simp [List.takeWhile, noStar, this] at h

theorem validChunks_simple :
    ∀ (fuel : Nat) (P : List Char), P.length ≤ fuel → (∀ c ∈ P, c ≠ '[' ∧ c ≠ '\\') →
      validChunks fuel P = true := by
  intro fuel
  induction fuel with
  | zero =>
    intro P hl _
    have : P = [] := by simpa using hl
    subst this
    rfl
  | succ f ih =>
    intro P hl hP
    cases P with
    | nil => rfl
    | cons c cs =>
      obtain ⟨stars, C, rest, hdec, hscan, _, _, _, h1, _⟩ :=
        scanChunk_simple (c :: cs) (by simp) hP
      have hCs : ∀ x ∈ C, x ≠ '[' ∧ x ≠ '\\' := fun x hx => hP x (by rw [hdec]; simp [hx])
      have hrs : ∀ x ∈ rest, x ≠ '[' ∧ x ≠ '\\' := fun x hx => hP x (by rw [hdec]; simp [hx])
      have hlen : rest.length ≤ f := by
        have e := congrArg List.length hdec
        simp only [List.length_append, List.length_cons] at e hl
        by_cases hs : stars = []
        · have := List.length_pos.mpr (h1 hs)
          omega
        · have := List.length_pos.mpr hs
          omega
      simp only [validChunks, hscan, matchChunk_simple C [] hCs (by simp), ih rest hlen hrs]
theorem not_mem_of_suffix {t s : List Char} (h : t <:+ s) (hs : '/' ∉ s) : '/' ∉ t :=
  fun e => hs (h.subset e)

theorem acceptChunk_suffix (C : List Char) ( last : Bool) (s t : List Char)
    (h : acceptChunk C last s = some t) : t <:+ s := by
  unfold acceptChunk at h
  cases hr : chunkRest C s with
  | none => simp [hr] at h
  | some t1 =>
    simp only [hr] at h
    split at h
    · simp at h
    · simp only [Option.some.injEq] at h
      subst h
      exact (chunkRest_suffix C s t1 hr).1

theorem searchChunk_suffix (C : List Char) ( last : Bool) :
    ∀ s t, searchChunk C last s = some t → t <:+ s := by
  intro s
  induction s with
  | nil =>
    intro t h
    exact acceptChunk_suffix C last [] t (by simpa [searchChunk] using h)
  | cons x xs ih =>
    intro t h
    simp only [searchChunk] at h
    cases ha : acceptChunk C last (x :: xs) with
    | some t1 =>
      simp only [ha, Option.some.injEq] at h
      subst h
      exact acceptChunk_suffix C last _ _ ha
    | none =>
      simp only [ha] at h
      exact (ih t h).trans (List.suffix_cons x xs)

/-- On a name without slash `Match` decides, for a pattern without
character class and escape, what the meaning of `*` and `?` tells. -/
theorem matchLoop_simple :
    ∀ (fuel : Nat) (P : List Char), P.length ≤ fuel → (∀ c ∈ P, c ≠ '[' ∧ c ≠ '\\') →
      ∀ s, '/' ∉ s → matchLoop fuel P s = some (globMatch P s) := by
  intro fuel
  induction fuel with
  | zero =>
    intro P hl _ s _
    have : P = [] := by simpa using hl
    subst this
    rfl
  | succ f ih =>
    intro P hl hP s hs
    cases P with
    | nil => rfl
    | cons c cs =>
      obtain ⟨stars, C, rest, hdec, hscan, hst, hC, hrest, h1, h2⟩ :=
        scanChunk_simple (c :: cs) (by simp) hP
      have hCs : ∀ x ∈ C, x ≠ '[' ∧ x ≠ '\\' := fun x hx => hP x (by rw [hdec]; simp [hx])
      have hrs : ∀ x ∈ rest, x ≠ '[' ∧ x ≠ '\\' := fun x hx => hP x (by rw [hdec]; simp [hx])
      have hlen : rest.length ≤ f := by
        have e := congrArg List.length hdec
        simp only [List.length_append, List.length_cons] at e hl
        by_cases hs : stars = []
        · have := List.length_pos.mpr (h1 hs)
          omega
        · have := List.length_pos.mpr hs
          omega
      have hv := validChunks_simple rest.length rest (le_refl _) hrs
      have hnext := ih rest hlen hrs
      simp only [matchLoop, hscan, hv, if_true, matchChunk_simple C s hCs hs]
      rw [hdec]
      by_cases hstars : stars = []
      · subst hstars
        have hCne := h1 rfl
        simp only [ne_eq, not_true_eq_false, decide_False, Bool.false_eq_true, false_and,
          if_false, List.nil_append]
        rw [globMatch_chunk C rest hC]
        cases hr : chunkRest C s with
        | none => rfl
        | some t =>
          dsimp only
          by_cases ht : t = [] ∨ rest ≠ []
          · rw [if_pos ht]
            exact hnext t (not_mem_of_suffix (chunkRest_suffix C s t hr).1 hs)
          · rw [if_neg ht]
            simp only [not_or, ne_eq, not_not] at ht
            rw [ht.2]
            simp [globMatch, ht.1]
      · by_cases hCe : C = []
        · have hre := h2 hCe
          subst hCe
          subst hre
          have hc : s.contains '/' = false := by simpa using hs
          simp only [ne_eq, hstars, not_false_eq_true, decide_True, and_self, if_true, hc,
            Bool.not_false, List.append_nil]
          have e := globMatch_stars stars [] hst hstars s
          rw [List.append_nil] at e
          rw [e]
          exact congrArg some ((starMatch_iff _ s).mpr ⟨[], List.nil_suffix, rfl⟩).symm
        · have hrej : acceptChunk C (decide (rest = [])) s = none →
              (match skipSearch C (decide (rest = [])) s with
                | none => none
                | some (some t1) => matchLoop f rest t1
                | some none => some false) =
              some (match searchChunk C (decide (rest = [])) s with
                | some t => globMatch rest t
                | none => false) := by
            intro ha
            cases s with
            | nil =>
              simp [skipSearch, searchChunk, ha]
            | cons x xs =>
              rw [skipSearch_simple C _ hCs xs x hs]
              simp only [searchChunk, ha]
              cases hsc : searchChunk C (decide (rest = [])) xs with
              | none => rfl
              | some t1 =>
                dsimp only
                exact hnext t1 (not_mem_of_suffix
                  ((searchChunk_suffix C _ xs t1 hsc).trans (List.suffix_cons x xs)) hs)
          simp only [ne_eq, hstars, not_false_eq_true, decide_True, hCe, and_false, if_false,
            if_true]
          rw [globMatch_stars stars (C ++ rest) hst hstars, ← searchChunk_starMatch C rest hC hrest]
          cases hr : chunkRest C s with
          | none =>
            exact hrej (by simp [acceptChunk, hr])
          | some t =>
            dsimp only
            by_cases ht : t = [] ∨ rest ≠ []
            · rw [if_pos ht]
              have ha : acceptChunk C (decide (rest = [])) s = some t := by
                simp only [acceptChunk, hr]
                rw [if_neg]
                simp only [decide_eq_true_eq, not_and, not_not]
                intro e
                rcases ht with ht | ht
                · exact ht
                · exact absurd e ht
              rw [searchChunk_of_accept C _ s t ha]
              exact hnext t (not_mem_of_suffix (chunkRest_suffix C s t hr).1 hs)
            · rw [if_neg ht]
              simp only [not_or, ne_eq, not_not] at ht
              exact hrej (by simp [acceptChunk, hr, ht.1, ht.2])

theorem Match_simple (P s : List Char) (hP : ∀ c ∈ P, c ≠ '[' ∧ c ≠ '\\') (hs : '/' ∉ s) :
    Match P s = some (globMatch P s) :=
  matchLoop_simple P.length P (le_refl _) hP s hs

/-- A pattern of stars, question marks and plain bytes followed by a star
matches every name that begins with the bytes of the pattern. -/
theorem globMatch_self (L R : List Char) : globMatch (L ++ ['*']) (L ++ R) = true := by
  induction L with
  | nil =>
    simp only [List.nil_append, globMatch, if_true]
    exact (starMatch_iff _ R).mpr ⟨[], List.nil_suffix, rfl⟩
  | cons c cs ih =>
    by_cases hc : c = '*'
    · subst hc
      simp only [List.cons_append, globMatch, if_true]
      exact (starMatch_iff _ _).mpr ⟨cs ++ R, List.suffix_cons _ _, ih⟩
    · simp [globMatch, hc, ih]

theorem isPrefixOf_append_self {α : Type} [BEq α] [LawfulBEq α] (a b : List α) :
    a.isPrefixOf (a ++ b) = true := by
  induction a with
  | nil => simp [List.isPrefixOf]
  | cons x xs ih => simp [List.isPrefixOf, ih]

/-- A file right below a directory shows in its listing under its last
element. -/
theorem nameIn_child (dir q n : String) (hn : n.data ≠ ['.', '.'])
    (hq : pathElems q = ((pathElems dir).1, n.data :: (pathElems dir).2)) :
    nameIn dir q = some n := by
  unfold nameIn
  rw [hq]
  simp only [List.reverse_cons, true_and]
  rw [if_pos (isPrefixOf_append_self _ _)]
  have : ((pathElems dir).2.reverse ++ [n.data]).drop (pathElems dir).2.length = [n.data] := by
    have hl : (pathElems dir).2.length = (pathElems dir).2.reverse.length := by simp
    rw [hl, List.drop_left]
  rw [this]
  simp [hn]

theorem mem_namesIn (h : Host) (dir q n : String) (hk : q ∈ h.known)
    (he : h.fileExists q = true) (hn : nameIn dir q = some n) : n ∈ h.namesIn dir := by
  unfold Host.namesIn
  rw [mem_sortStrings, mem_dedupStrings, List.mem_filterMap]
  exact ⟨q, hk, by simp [he, hn]⟩

theorem globNames_found (dir : String) (pattern : List Char) (names : List String) :
    ∀ found x, x ∈ found → x ∈ (globNames dir pattern names found).1 := by
  induction names with
  | nil => intro found x hx; exact hx
  | cons n rest ih =>
    intro found x hx
    unfold globNames
    split
    · exact hx
    · exact ih _ x (List.mem_append_left _ hx)
    · exact ih _ x hx

/-- The loop of `glob` finds the joined path of every name that matches,
when no call of `Match` fails. -/
theorem globNames_mem (dir : String) (pattern : List Char) (names : List String)
    (hok : ∀ m ∈ names, Match pattern m.data ≠ none) (n : String) (hn : n ∈ names)
    (hm : Match pattern n.data = some true) :
    ∀ found, pathJoin dir n ∈ (globNames dir pattern names found).1 := by
  induction names with
  | nil => exact absurd hn (by simp)
  | cons m rest ih =>
    intro found
    unfold globNames
    by_cases hmn : n = m
    · subst hmn
      rw [hm]
      exact globNames_found dir pattern rest _ _ (by simp)
    · have hn2 : n ∈ rest := by
        rcases List.mem_cons.mp hn with e | e
        · exact absurd e hmn
        · exact e
      have hok2 : ∀ x ∈ rest, Match pattern x.data ≠ none :=
        fun x hx => hok x (List.mem_cons_of_mem _ hx)
      split
      · rename_i hnone
        exact absurd hnone (hok m (by simp))
      · exact ih hok2 hn2 _
      · exact ih hok2 hn2 _

theorem hasMeta_false (x : String) (hx : ∀ c ∈ x.data, c ≠ '*' ∧ c ≠ '?' ∧ c ≠ '[' ∧ c ≠ '\\') :
    hasMeta x = false := by
  unfold hasMeta
  rw [List.any_eq_false]
  intro c hc
  have := hx c hc
  simp [this.1, this.2.1, this.2.2.1, this.2.2.2]

/-- `Glob` for a pattern made of a folder without metacharacter and a name
without slash, character class and escape, followed by a star, lists the
folder. -/
theorem glob_literal_star (h : Host) (dest L : String)
    (hdest : ∀ c ∈ dest.data, c ≠ '*' ∧ c ≠ '?' ∧ c ≠ '[' ∧ c ≠ '\\')
    (hL : ∀ c ∈ L.data, c ≠ '[' ∧ c ≠ '\\') (hs : '/' ∉ L.data) :
    h.glob (dest ++ "/" ++ L ++ "*") = h.globDir (globFolder dest) (L ++ "*") [] := by
  have hpd : (dest ++ "/" ++ L ++ "*").data = (dest.data ++ '/' :: L.data) ++ ['*'] := by
    simp [String.data_append]
  have hlit : ∀ c ∈ (dest.data ++ '/' :: L.data) ++ ['*'], c ≠ '[' ∧ c ≠ '\\' := by
    intro c hc
    rcases List.mem_append.mp hc with e | e
    · rcases List.mem_append.mp e with e | e
      · exact ⟨(hdest c e).2.2.1, (hdest c e).2.2.2⟩
      · rcases List.mem_cons.mp e with e1 | e1
        · subst e1; decide
        · exact hL c e1
    · have : c = '*' := by simpa using e
      subst this
      decide
  have hmatch : Match (dest ++ "/" ++ L ++ "*").data [] =
      some (globMatch ((dest.data ++ '/' :: L.data) ++ ['*']) []) := by
    rw [hpd]
    exact Match_simple _ [] hlit (by simp)
  have hmeta : hasMeta (dest ++ "/" ++ L ++ "*") = true := by
    unfold hasMeta
    rw [hpd]
    simp
  have hrev : (dest ++ "/" ++ L ++ "*").data.reverse =
      (L.data ++ ['*']).reverse ++ '/' :: dest.data.reverse := by
    rw [hpd]
    simp
  have hfile : '/' ∉ L.data ++ ['*'] := by
    simp [hs]
  have hdir : dirPart (dest ++ "/" ++ L ++ "*").data.reverse = dest.data ++ ['/'] := by
    rw [hrev]
    exact dirPart_file dest.data (L.data ++ ['*']) hfile
  have hclean : cleanGlobPath (String.mk (dest.data ++ ['/'])) = globFolder dest := by
    unfold cleanGlobPath globFolder
    by_cases hd : dest = ""
    · subst hd
      decide
    · have hd2 : dest.data ≠ [] := by
        intro e
        apply hd
        cases dest
        simp_all
      have h1 : String.mk (dest.data ++ ['/']) ≠ "" := by
        intro e
        have := congrArg String.data e
        simp at this
      have h2 : String.mk (dest.data ++ ['/']) ≠ "/" := by
        intro e
        have := congrArg String.data e
        simp at this
        obtain ⟨c, cs, hc⟩ := List.exists_cons_of_ne_nil hd2
        rw [hc] at this
        simp at this
      rw [if_neg h1, if_neg h2, if_neg hd]
      simp
  have hfolder : hasMeta (globFolder dest) = false := by
    unfold globFolder
    split
    · decide
    · exact hasMeta_false dest hdest
  have hdrop : (dest ++ "/" ++ L ++ "*").data.drop (dest.data ++ ['/']).length =
      (L ++ "*").data := by
    rw [hpd]
    have e : dest.data ++ '/' :: L.data ++ ['*'] = (dest.data ++ ['/']) ++ (L.data ++ ['*']) := by
      simp
    rw [e, List.drop_left]
    simp [String.data_append]
  show h.globWithLimit (9999 + 1) (dest ++ "/" ++ L ++ "*") = _
  rw [Host.globWithLimit, hmatch]
  simp only [hmeta, Bool.true_eq_false, if_false, hdir, hclean, hfolder, if_true, hdrop]

theorem globFolder_ne (dest : String) : (globFolder dest).data ≠ [] := by
  unfold globFolder
  split
  · decide
  · rename_i hd
    intro e
    apply hd
    cases dest
    simp_all

theorem globFolder_elems (dest : String) :
    pathElems (globFolder dest ++ "/") = pathElems (dest ++ "/") := by
  unfold globFolder
  split
  · rename_i hd
    subst hd
    decide
  · rfl

theorem nameIn_no_slash (dir path n : String) (h : nameIn dir path = some n) : '/' ∉ n.data := by
  unfold nameIn at h
  split at h
  · cases hh : ((pathElems path).2.reverse.drop (pathElems dir).2.length).head? with
    | none => simp [hh] at h
    | some e =>
      simp only [hh] at h
      split at h
      · simp at h
      · simp only [Option.some.injEq] at h
        subst h
        have hm : e ∈ (pathElems path).2 := by
          have := List.mem_of_mem_drop (List.mem_of_mem_head? hh)
          simpa using this
        exact ((pathElems_clean path).1 e hm).2.1
  · simp at h

theorem namesIn_no_slash (h : Host) (dir m : String) (hm : m ∈ h.namesIn dir) :
    '/' ∉ m.data := by
  unfold Host.namesIn at hm
  rw [mem_sortStrings, mem_dedupStrings, List.mem_filterMap] at hm
  obtain ⟨q, _, hq⟩ := hm
  split at hq
  · exact nameIn_no_slash dir q m hq
  · simp at hq

/-- `Glob` for `<dest>/<L>*` finds a path that names a given existing file
that lies in the folder under a name beginning with the bytes of `L`. -/
theorem glob_finds (h : Host) (dest L R temp : String)
    (hdest : ∀ c ∈ dest.data, c ≠ '*' ∧ c ≠ '?' ∧ c ≠ '[' ∧ c ≠ '\\')
    (hL : ∀ c ∈ L.data, c ≠ '[' ∧ c ≠ '\\') (hLs : '/' ∉ L.data)
    (hplain : PlainName (L ++ R).data)
    (hk : temp ∈ h.known) (he : h.fileExists temp = true)
    (helems : pathElems temp = pathElems (dest ++ "/" ++ (L ++ R))) :
    ∃ c ∈ (h.glob (dest ++ "/" ++ L ++ "*")).1, pathClean c = pathClean temp := by
  have hdir := globFolder_ne dest
  have hchild : pathElems (globFolder dest ++ "/" ++ (L ++ R)) =
      pathElems (dest ++ "/" ++ (L ++ R)) := by
    rw [pathElems_child _ _ hplain, pathElems_child _ _ hplain, globFolder_elems]
  have hq : pathElems temp =
      ((pathElems (globFolder dest)).1, (L ++ R).data :: (pathElems (globFolder dest)).2) := by
    rw [helems, pathElems_child _ _ hplain, ← globFolder_elems,
      pathElems_slash _ hdir]
  have hname : (L ++ R) ∈ h.namesIn (globFolder dest) :=
    mem_namesIn h _ temp _ hk he (nameIn_child _ _ _ hplain.2.2.2 hq)
  have hpat : (L ++ "*").data = L.data ++ ['*'] := by simp [String.data_append]
  have hsimple : ∀ c ∈ L.data ++ ['*'], c ≠ '[' ∧ c ≠ '\\' := by
    intro c hc
    rcases List.mem_append.mp hc with e | e
    · exact hL c e
    · have : c = '*' := by simpa using e
      subst this
      decide
  have hok : ∀ m ∈ h.namesIn (globFolder dest), Match (L ++ "*").data m.data ≠ none := by
    intro m hm
    rw [hpat, Match_simple _ _ hsimple (namesIn_no_slash h _ m hm)]
    simp
  have hm : Match (L ++ "*").data (L ++ R).data = some true := by
    rw [hpat, Match_simple _ _ hsimple hplain.2.1]
    have : (L ++ R).data = L.data ++ R.data := by simp [String.data_append]
    rw [this, globMatch_self]
  refine ⟨pathJoin (globFolder dest) (L ++ R), ?_, ?_⟩
  · rw [glob_literal_star h dest L hdest hL hLs]
    exact globNames_mem _ _ _ hok _ hname hm []
  · unfold pathJoin
    rw [if_neg hdir, pathClean_idem]
    exact pathClean_eq_of_elems (hchild.trans helems.symm)

theorem remove_facts (h : Host) (p : String) :
    (h.remove p).2.fs.denied = h.fs.denied ∧ (h.remove p).2.known = h.known ∧
    (∀ q, (h.remove p).2.fileExists q = true → h.fileExists q = true) ∧
    (h.fs.denied (pathClean p) = false →
      ∀ q, pathClean q = pathClean p → (h.remove p).2.fileExists q = false) ∧
    (∃ X, (h.remove p).2.log = h.log ++ X ∧ ∀ e ∈ X, ∃ q, e = FileEvent.remove q) := by
  unfold Host.remove
  split
  · rename_i hf
    refine ⟨rfl, rfl, fun _ hq => hq, fun _ q hq => ?_, [], by simp, by simp⟩
    simp [Host.fileExists, hq, hf]
  · split
    · rename_i hd
      exact ⟨rfl, rfl, fun _ hq => hq, fun hc => by rw [hc] at hd; exact absurd hd (by simp),
        [], by simp, by simp⟩
    · refine ⟨rfl, by simp [Host.after], ?_, ?_, ?_⟩
      · intro q hq
        simp only [Host.after, Host.fileExists, Host.store, pathClean_idem] at hq ⊢
        split at hq
        · simp at hq
        · exact hq
      · intro _ q hq
        simp [Host.after, Host.fileExists, Host.store, pathClean_idem, hq]
      · exact ⟨[.remove p], rfl, by simp⟩

theorem removeAll_facts (paths : List String) :
    ∀ h : Host,
      (removeAll LocalFStorageHandler paths h).fs.denied = h.fs.denied ∧
      (removeAll LocalFStorageHandler paths h).known = h.known ∧
      (∀ q, (removeAll LocalFStorageHandler paths h).fileExists q = true → h.fileExists q = true) ∧
      (∀ c ∈ paths, h.fs.denied (pathClean c) = false → ∀ q, pathClean q = pathClean c →
        (removeAll LocalFStorageHandler paths h).fileExists q = false) ∧
      (∃ X, (removeAll LocalFStorageHandler paths h).log = h.log ++ X ∧
        ∀ e ∈ X, ∃ q, e = FileEvent.remove q) := by
  induction paths with
  | nil =>
    intro h
    exact ⟨rfl, rfl, fun _ hq => hq, fun q hq => absurd hq (by simp), [], by simp [removeAll],
      by simp⟩
  | cons p rest ih =>
    intro h
    obtain ⟨r1, r2, r3, r4, r5⟩ := remove_facts h p
    obtain ⟨i1, i2, i3, i4, i5⟩ := ih (h.remove p).2
    have hu : removeAll LocalFStorageHandler (p :: rest) h =
        removeAll LocalFStorageHandler rest (h.remove p).2 := rfl
    rw [hu]
    refine ⟨i1.trans r1, i2.trans r2, fun q hq => r3 q (i3 q hq), ?_, ?_⟩
    · intro c hc hd q hq
      by_cases hcr : c ∈ rest
      · exact i4 c hcr (by rw [r1]; exact hd) q hq
      · have hcp : c = p := by
          rcases List.mem_cons.mp hc with e | e
          · exact e
          · exact absurd e hcr
        subst hcp
        have h1 := r4 hd q hq
        cases hx : (removeAll LocalFStorageHandler rest (h.remove c).2).fileExists q with
        | false => rfl
        | true => rw [i3 q hx] at h1; exact absurd h1 (by simp)
    · obtain ⟨X, hX, hXr⟩ := r5
      obtain ⟨Y, hY, hYr⟩ := i5
      refine ⟨X ++ Y, by rw [hY, hX, List.append_assoc], ?_⟩
      intro e he
      rcases List.mem_append.mp he with h1 | h1
      · exact hXr e h1
      · exact hYr e h1

theorem removeGroups_log (dest base : String) (timestamps : List Int) :
    ∀ (h : Host) (seen : List String),
      ∃ X, (removeGroups dest base LocalFStorageHandler timestamps h seen).1.log = h.log ++ X ∧
        ∀ e ∈ X, ∃ q, e = FileEvent.remove q := by
  induction timestamps with
  | nil => intro h seen; exact ⟨[], by simp [removeGroups], by simp⟩
  | cons t rest ih =>
    intro h seen
    unfold removeGroups
    dsimp only
    obtain ⟨_, _, _, _, X, hX, hXr⟩ := removeAll_facts
      (ListFetchedFiles dest base (FormatInt t) LocalFStorageHandler h) h
    obtain ⟨Y, hY, hYr⟩ := ih
      (removeAll LocalFStorageHandler
        (ListFetchedFiles dest base (FormatInt t) LocalFStorageHandler h) h)
      (seen ++ ListFetchedFiles dest base (FormatInt t) LocalFStorageHandler h)
    refine ⟨X ++ Y, by rw [hY, hX, List.append_assoc], ?_⟩
    intro e he
    rcases List.mem_append.mp he with h1 | h1
    · exact hXr e h1
    · exact hYr e h1

theorem RemoveOldFiles_log (dest base : String) (n : Nat) (h : Host) :
    ∃ X, (RemoveOldFiles dest base n LocalFStorageHandler h).host.log = h.log ++ X ∧
      ∀ e ∈ X, ∃ q, e = FileEvent.remove q := by
  obtain ⟨_, _, _, _, X, hX, hXr⟩ := removeAll_facts
    (ListTempFetchedFiles dest base LocalFStorageHandler h) h
  unfold RemoveOldFiles
  dsimp only
  split
  · exact ⟨X, hX, hXr⟩
  · split
    · exact ⟨X, hX, hXr⟩
    · rename_i timestamps _ _
      obtain ⟨Y, hY, hYr⟩ := removeGroups_log dest base
        (timestamps.take (timestamps.length - n))
        (removeAll LocalFStorageHandler (ListTempFetchedFiles dest base LocalFStorageHandler h) h)
        (ListTempFetchedFiles dest base LocalFStorageHandler h)
      refine ⟨X ++ Y, by rw [hY, hX, List.append_assoc], ?_⟩
      intro e he
      rcases List.mem_append.mp he with h1 | h1
      · exact hXr e h1
      · exact hYr e h1

theorem RemoveLast_log (dest base ts : String) (h : Host) :
    ∃ X, (RemoveLastDownloadedFilesAfterError dest base ts LocalFStorageHandler h).log
        = h.log ++ X ∧
      ∀ e ∈ X, ∃ q, e = FileEvent.remove q := by
  obtain ⟨_, _, _, _, X, hX, hXr⟩ := removeAll_facts
    (ListTempFetchedFiles dest base LocalFStorageHandler h) h
  unfold RemoveLastDownloadedFilesAfterError
  dsimp only
  split
  · exact ⟨X, hX, hXr⟩
  · obtain ⟨_, _, _, _, Y, hY, hYr⟩ := removeAll_facts
      (ListFetchedFiles dest base ts LocalFStorageHandler
        (removeAll LocalFStorageHandler (ListTempFetchedFiles dest base LocalFStorageHandler h) h))
      (removeAll LocalFStorageHandler (ListTempFetchedFiles dest base LocalFStorageHandler h) h)
    refine ⟨X ++ Y, by rw [hY, hX, List.append_assoc], ?_⟩
    intro e he
    rcases List.mem_append.mp he with h1 | h1
    · exact hXr e h1
    · exact hYr e h1

theorem extScan_ext (a r acc : List Char) (ha : ∀ c ∈ a, c ≠ '.' ∧ c ≠ '/') :
    extScan (a ++ '.' :: r) acc = '.' :: (a.reverse ++ acc) := by
  induction a generalizing acc with
  | nil => simp [extScan]
  | cons c cs ih =>
    have hc := ha c (by simp)
    have := ih (c :: acc) (fun x hx => ha x (by simp [hx]))
    simp [extScan, hc.1, hc.2, this]

theorem pathExt_ext (x cm : String) (hcm : ∀ c ∈ cm.data, c ≠ '.' ∧ c ≠ '/') :
    pathExt (x ++ "." ++ cm) = "." ++ cm := by
  unfold pathExt
  have e : (x ++ "." ++ cm).data.reverse = cm.data.reverse ++ '.' :: x.data.reverse := by
    simp [String.data_append, List.reverse_append]
  rw [e, extScan_ext _ _ _ (by simpa using hcm)]
  apply String.ext
  simp [String.data_append]

/-- The general form of `decompressedPathOf_cache`: the folder of the result
is the cleaned folder of the compressed path. -/
theorem decompressedPathOf_cache_dir (dest task ts : String)
    (htask : '.' ∉ task.data ∧ '/' ∉ task.data)
    (hts : ∀ c ∈ ts.data, 48 ≤ c.toNat ∧ c.toNat ≤ 57) :
    decompressedPathOf (dest ++ "/" ++ (task ++ ".cache") ++ "." ++ ts ++ "." ++ "zst") =
      pathClean (dest ++ "/") ++ "/" ++ task ++ "." ++ ts ++ "." ++ "cache" := by
  have hdot : '.' ∉ ts.data := fun hm => (digit_ne _ (hts _ hm)).1 rfl
  have hsl : '/' ∉ ts.data := fun hm => (digit_ne _ (hts _ hm)).2.1 rfl
  have e1 : dest ++ "/" ++ (task ++ ".cache") ++ "." ++ ts ++ "." ++ "zst" =
      (dest ++ "/" ++ (task ++ ".cache" ++ "." ++ ts)) ++ ".zst" := by
    simp only [String.append_assoc]
    rfl
  have hF : (task ++ ".cache" ++ "." ++ ts).data =
      task.data ++ '.' :: ("cache".data ++ '.' :: ts.data) := by
    simp [String.data_append]
  have hFs : '/' ∉ (task ++ ".cache" ++ "." ++ ts).data := by
    rw [hF]
    simp [htask.2, hsl]
  have hFn : (task ++ ".cache" ++ "." ++ ts).data ≠ [] := by
    rw [hF]
    simp
  have hsplit : splitOn (task ++ ".cache" ++ "." ++ ts) '.' = [task, "cache", ts] := by
    unfold splitOn
    rw [hF, splitBytes_append_sep '.' _ _ htask.1, splitBytes_append_sep '.' _ _ (by decide),
      splitBytes_no_sep '.' _ hdot]
    rfl
  unfold decompressedPathOf
  dsimp only
  rw [e1, pathExt_zst, trimSuffix_append, pathBase_file _ _ hFs hFn, hsplit]
  dsimp only
  rw [if_pos rfl, pathDir_file _ _ hFs]

/-- For a basename without a slash whose second dot-separated token is not
`cache`, the decompressed path is the compressed path without its last
extension. -/
theorem decompressedPathOf_other (dest basename ts cm : String)
    (hb : '/' ∉ basename.data)
    (hsecond : (splitOn basename '.')[1]? ≠ some "cache")
    (hts : ∀ c ∈ ts.data, 48 ≤ c.toNat ∧ c.toNat ≤ 57)
    (hcm : ∀ c ∈ cm.data, c ≠ '.' ∧ c ≠ '/') :
    decompressedPathOf (dest ++ "/" ++ basename ++ "." ++ ts ++ "." ++ cm) =
      dest ++ "/" ++ basename ++ "." ++ ts := by
  have hdot : '.' ∉ ts.data := fun hm => (digit_ne _ (hts _ hm)).1 rfl
  have hsl : '/' ∉ ts.data := fun hm => (digit_ne _ (hts _ hm)).2.1 rfl
  have e1 : dest ++ "/" ++ basename ++ "." ++ ts ++ "." ++ cm =
      (dest ++ "/" ++ (basename ++ "." ++ ts)) ++ "." ++ cm := by
    simp only [String.append_assoc]
  have e2 : dest ++ "/" ++ (basename ++ "." ++ ts) ++ "." ++ cm =
      (dest ++ "/" ++ (basename ++ "." ++ ts)) ++ ("." ++ cm) := by
    simp only [String.append_assoc]
  have e3 : dest ++ "/" ++ basename ++ "." ++ ts = dest ++ "/" ++ (basename ++ "." ++ ts) := by
    simp only [String.append_assoc]
  have hF : (basename ++ "." ++ ts).data = basename.data ++ '.' :: ts.data := by
    simp [String.data_append]
  have hFs : '/' ∉ (basename ++ "." ++ ts).data := by
    rw [hF]
    simp [hb, hsl]
  have hFn : (basename ++ "." ++ ts).data ≠ [] := by
    rw [hF]
    simp
  have hsplit : splitOn (basename ++ "." ++ ts) '.' = splitOn basename '.' ++ [ts] := by
    unfold splitOn
    rw [hF, splitBytes_append, splitBytes_no_sep '.' _ hdot]
    simp
  have hts2 : ts ≠ "cache" := by
    intro e
    have := hts 'c' (by rw [e]; decide)
    simp at this
  unfold decompressedPathOf
  dsimp only
  rw [e1, pathExt_ext _ _ hcm, e2, trimSuffix_append, pathBase_file _ _ hFs hFn, hsplit, e3]
  have hne : splitOn basename '.' ≠ [] := by
    unfold splitOn
    simpa using splitBytes_ne_nil '.' basename.data
  cases hs : splitOn basename '.' with
  | nil => exact absurd hs hne
  | cons b0 r0 =>
    cases r0 with
    | nil => simp
    | cons b1 r1 =>
      rw [hs] at hsecond
      have hb1 : b1 ≠ "cache" := by simpa using hsecond
      cases r1 with
      | nil => simp [hb1]
      | cons b2 r2 => simp [hb1]


/-! ## The temporary data file after a failed run -/

/-- The only file that the publication order creates is the temporary data
file, as its third effect. -/
theorem created_in_order (d : Downloader) (ts cm ce : String) (seeds : List Nat)
    (E : List FileEvent) (p : String) (hE : E <+: publicationOrder d ts cm ce seeds)
    (hc : FileEvent.create p ∈ E) :
    p = dataPath d ts cm ++ ".tmp." ++ FormatInt (seeds.tail.headD 0) ∧ 3 ≤ E.length := by
  have hp : FileEvent.create p ∈ publicationOrder d ts cm ce seeds := hE.subset hc
  constructor
  · simpa [publicationOrder, published, dataPublished, publishedAll] using hp
  · obtain ⟨T, hT⟩ := hE
    match E, hc, hT with
    | [], hc, _ => simp at hc
    | [a], hc, hT =>
      simp [publicationOrder, published] at hT
      simp [hT.1] at hc
    | [a, b], hc, hT =>
      simp [publicationOrder, published] at hT
      simp [hT.1, hT.2.1] at hc
    | _ :: _ :: _ :: _, _, _ => simp

/-- The outcomes of `Run`. -/
theorem Run_cases (d : Downloader) (codec : Codec) (h : Host) :
    (∃ h1, SameDisk h h1 ∧ d.Run codec h = ⟨{}, none, d, h1⟩) ∨
    (∃ h1, SameDisk h h1 ∧
      (((d.download codec h1).err ≠ none ∧
          d.Run codec h = ⟨(d.download codec h1).stats, (d.download codec h1).err,
            (d.download codec h1).downloader,
            RemoveLastDownloadedFilesAfterError d.DestinationFolder d.Basename
              (d.download codec h1).stats.Timestamp LocalFStorageHandler (d.download codec h1).host⟩) ∨
        ((d.download codec h1).err = none ∧
          d.Run codec h = ⟨(d.download codec h1).stats, none, (d.download codec h1).downloader,
            (RemoveOldFiles d.DestinationFolder d.Basename 1 LocalFStorageHandler
              (d.download codec h1).host).host⟩))) := by
  have hs := shouldDownload_sameDisk d h
  unfold Downloader.Run
  split
  · rename_i reason h1 heq
    rw [heq] at hs
    exact Or.inl ⟨h1, hs, rfl⟩
  · rename_i reason h1 heq
    rw [heq] at hs
    refine Or.inr ⟨h1, hs, ?_⟩
    dsimp only
    split
    · rename_i err he
      exact Or.inl ⟨by simp [he], by rw [he]⟩
    · rename_i he
      exact Or.inr ⟨he, rfl⟩

theorem cacheName_cache (task : String) (ht : '.' ∉ task.data) :
    splitOn (task ++ ".cache") '.' = [task, "cache"] := by
  unfold splitOn
  have hd : (task ++ ".cache").data = task.data ++ '.' :: "cache".data := by
    simp [String.data_append]
  rw [hd, splitBytes_append_sep '.' _ _ ht, splitBytes_no_sep '.' _ (by decide)]
  rfl

theorem pathClean_ne_nil (p : String) : (pathClean p).data ≠ [] := by
  rw [pathClean_eq_render]
  unfold renderPath
  split
  · simp
  · split
    · decide
    · rename_i hb
      exact hb

/-- The name of a temporary file is a plain name. -/
theorem tmpName_plain (L : String) (n : Nat) (hL : '/' ∉ L.data) :
    PlainName (L ++ (".tmp." ++ FormatInt n)).data ∧ '/' ∉ (".tmp." ++ FormatInt n).data := by
  have hd := FormatInt_digits (n : Int) (Int.natCast_nonneg n)
  have hs : '/' ∉ (".tmp." ++ FormatInt n).data := by
    simp only [String.data_append, List.mem_append, not_or]
    exact ⟨by decide, fun hm => (digit_ne _ (hd _ hm)).2.1 rfl⟩
  have hlen : 5 ≤ (L ++ (".tmp." ++ FormatInt n)).data.length := by
    simp only [String.data_append, List.length_append]
    have : ['.', 't', 'm', 'p', '.'].length = 5 := rfl
    show 5 ≤ L.data.length + (['.', 't', 'm', 'p', '.'].length + (FormatInt n).data.length)
    omega
  refine ⟨⟨?_, ?_, ?_, ?_⟩, hs⟩
  · intro e
    rw [e] at hlen
    simp at hlen
  · simp only [String.data_append, List.mem_append, not_or] at hs ⊢
    exact ⟨hL, hs⟩
  · intro e
    rw [e] at hlen
    simp at hlen
  · intro e
    rw [e] at hlen
    simp at hlen

/-- After the cleanup of a failed run, a file that could be created in the
destination folder under a name that begins with the bytes of one of the
patterns of `ListFetchedFiles` is gone. -/
theorem RemoveLast_removes_temp (dest base ts L R temp : String) (h : Host)
    (hdest : ∀ c ∈ dest.data, c ≠ '*' ∧ c ≠ '?' ∧ c ≠ '[' ∧ c ≠ '\\')
    (hL : ∀ c ∈ L.data, c ≠ '[' ∧ c ≠ '\\') (hLs : '/' ∉ L.data)
    (hplain : PlainName (L ++ R).data)
    (hne : ts ≠ "")
    (hlist : ∀ (h1 : Host), ∀ x ∈ (h1.glob (dest ++ "/" ++ L ++ "*")).1,
      x ∈ ListFetchedFiles dest base ts LocalFStorageHandler h1)
    (hk : temp ∈ h.known) (hd : h.fs.denied (pathClean temp) = false)
    (helems : pathElems temp = pathElems (dest ++ "/" ++ (L ++ R))) :
    (RemoveLastDownloadedFilesAfterError dest base ts LocalFStorageHandler h).fileExists temp
      = false := by
  unfold RemoveLastDownloadedFilesAfterError
  dsimp only
  rw [if_neg hne]
  obtain ⟨a1, a2, a3, _, _⟩ := removeAll_facts
    (ListTempFetchedFiles dest base LocalFStorageHandler h) h
  generalize removeAll LocalFStorageHandler
    (ListTempFetchedFiles dest base LocalFStorageHandler h) h = h3 at a1 a2 a3 ⊢
  obtain ⟨b1, b2, b3, b4, _⟩ := removeAll_facts
    (ListFetchedFiles dest base ts LocalFStorageHandler h3) h3
  cases hex : h3.fileExists temp with
  | false =>
    cases hx : (removeAll LocalFStorageHandler
        (ListFetchedFiles dest base ts LocalFStorageHandler h3) h3).fileExists temp with
    | false => rfl
    | true => rw [b3 temp hx] at hex; exact absurd hex (by simp)
  | true =>
    obtain ⟨c, hc, hcp⟩ := glob_finds h3 dest L R temp hdest hL hLs hplain
      (by rw [a2]; exact hk) hex helems
    exact b4 c (hlist h3 c hc) (by rw [a1, hcp]; exact hd) temp hcp.symm

theorem ListFetchedFiles_first (dest base ts : String) (h : Host) :
    ∀ x ∈ (h.glob (dest ++ "/" ++ (base ++ "." ++ ts) ++ "*")).1,
      x ∈ ListFetchedFiles dest base ts LocalFStorageHandler h := by
  intro x hx
  have e : dest ++ "/" ++ (base ++ "." ++ ts) ++ "*" = dest ++ "/" ++ base ++ "." ++ ts ++ "*" := by
    simp only [String.append_assoc]
  rw [e] at hx
  unfold ListFetchedFiles
  dsimp only
  split
  · exact List.mem_append_left _ hx
  · exact hx

theorem ListFetchedFiles_second (dest task ts : String) (ht : '.' ∉ task.data) (h : Host) :
    ∀ x ∈ (h.glob (dest ++ "/" ++ (task ++ "." ++ ts ++ "." ++ "cache") ++ "*")).1,
      x ∈ ListFetchedFiles dest (task ++ ".cache") ts LocalFStorageHandler h := by
  intro x hx
  have e : dest ++ "/" ++ (task ++ "." ++ ts ++ "." ++ "cache") ++ "*" =
      dest ++ "/" ++ task ++ "." ++ ts ++ "." ++ "cache" ++ "*" := by
    simp only [String.append_assoc]
  rw [e] at hx
  unfold ListFetchedFiles cacheName
  rw [cacheName_cache task ht]
  dsimp only
  rw [if_pos (Or.inr rfl)]
  dsimp only
  exact List.mem_append_right _ hx

theorem digits_plain (ts : String) (hts : ∀ c ∈ ts.data, 48 ≤ c.toNat ∧ c.toNat ≤ 57) :
    ∀ c ∈ ts.data, c ≠ '.' ∧ c ≠ '/' ∧ c ≠ '*' ∧ c ≠ '?' ∧ c ≠ '[' ∧ c ≠ '\\' :=
  fun c hc => digit_ne c (hts c hc)

/-- The temporary data file of a failed run is gone after the cleanup, for
a basename whose second token is not `cache` or which is `<task>.cache`. -/
theorem RemoveLast_removes_data_temp (dest base ts : String) (seed : Nat) (h : Host)
    (hbase : ∀ c ∈ base.data, c ≠ '/' ∧ c ≠ '[' ∧ c ≠ '\\')
    (hdest : ∀ c ∈ dest.data, c ≠ '*' ∧ c ≠ '?' ∧ c ≠ '[' ∧ c ≠ '\\')
    (htokens : (splitOn base '.')[1]? ≠ some "cache" ∨
      ∃ task, base = task ++ ".cache" ∧ '.' ∉ task.data)
    (hts : ∀ c ∈ ts.data, 48 ≤ c.toNat ∧ c.toNat ≤ 57) (hne : ts ≠ "")
    (hk : decompressedPathOf (dest ++ "/" ++ base ++ "." ++ ts ++ "." ++ "zst") ++ ".tmp." ++
      FormatInt seed ∈ h.known)
    (hd : h.fs.denied (pathClean
      (decompressedPathOf (dest ++ "/" ++ base ++ "." ++ ts ++ "." ++ "zst") ++ ".tmp." ++
        FormatInt seed)) = false) :
    (RemoveLastDownloadedFilesAfterError dest base ts LocalFStorageHandler h).fileExists
      (decompressedPathOf (dest ++ "/" ++ base ++ "." ++ ts ++ "." ++ "zst") ++ ".tmp." ++
        FormatInt seed) = false := by
  have hdig := digits_plain ts hts
  rcases htokens with hsecond | ⟨task, hname, hdot⟩
  · have hfinal := decompressedPathOf_other dest base ts "zst"
      (fun hm => (hbase _ hm).1 rfl) hsecond hts (by decide)
    rw [hfinal] at hk hd ⊢
    have hLs : '/' ∉ (base ++ "." ++ ts).data := by
      simp only [String.data_append, List.mem_append, not_or]
      exact ⟨⟨fun hm => (hbase _ hm).1 rfl, by decide⟩, fun hm => (hdig _ hm).2.1 rfl⟩
    have hL : ∀ c ∈ (base ++ "." ++ ts).data, c ≠ '[' ∧ c ≠ '\\' := by
      intro c hc
      simp only [String.data_append, List.mem_append] at hc
      rcases hc with (hc | hc) | hc
      · exact (hbase c hc).2
      · revert c; decide
      · exact (hdig c hc).2.2.2.2
    obtain ⟨hplain, _⟩ := tmpName_plain (base ++ "." ++ ts) seed hLs
    have e : dest ++ "/" ++ base ++ "." ++ ts ++ ".tmp." ++ FormatInt seed =
        dest ++ "/" ++ ((base ++ "." ++ ts) ++ (".tmp." ++ FormatInt seed)) := by
      simp only [String.append_assoc]
    exact RemoveLast_removes_temp dest base ts (base ++ "." ++ ts) (".tmp." ++ FormatInt seed) _ h
      hdest hL hLs hplain hne
      (fun h1 => ListFetchedFiles_first dest base ts h1) hk hd (by rw [e])
  · subst hname
    have htask : ∀ c ∈ task.data, c ≠ '/' ∧ c ≠ '[' ∧ c ≠ '\\' :=
      fun c hc => hbase c (by simp [String.data_append, hc])
    have hfinal := decompressedPathOf_cache_dir dest task ts
      ⟨hdot, fun hm => (htask _ hm).1 rfl⟩ hts
    rw [hfinal] at hk hd ⊢
    have hLs : '/' ∉ (task ++ "." ++ ts ++ "." ++ "cache").data := by
      simp only [String.data_append, List.mem_append, not_or]
      exact ⟨⟨⟨⟨fun hm => (htask _ hm).1 rfl, by decide⟩, fun hm => (hdig _ hm).2.1 rfl⟩,
        by decide⟩, by decide⟩
    have hL : ∀ c ∈ (task ++ "." ++ ts ++ "." ++ "cache").data, c ≠ '[' ∧ c ≠ '\\' := by
      intro c hc
      simp only [String.data_append, List.mem_append] at hc
      rcases hc with (((hc | hc) | hc) | hc) | hc
      · exact (htask c hc).2
      · revert c; decide
      · exact (hdig c hc).2.2.2.2
      · revert c; decide
      · revert c; decide
    obtain ⟨hplain, _⟩ := tmpName_plain (task ++ "." ++ ts ++ "." ++ "cache") seed hLs
    have e : pathClean (dest ++ "/") ++ "/" ++ task ++ "." ++ ts ++ "." ++ "cache" ++ ".tmp." ++
        FormatInt seed =
        pathClean (dest ++ "/") ++ "/" ++
          ((task ++ "." ++ ts ++ "." ++ "cache") ++ (".tmp." ++ FormatInt seed)) := by
      simp only [String.append_assoc]
    have helems : pathElems (pathClean (dest ++ "/") ++ "/" ++ task ++ "." ++ ts ++ "." ++
        "cache" ++ ".tmp." ++ FormatInt seed) =
        pathElems (dest ++ "/" ++
          ((task ++ "." ++ ts ++ "." ++ "cache") ++ (".tmp." ++ FormatInt seed))) := by
      rw [e, pathElems_child _ _ hplain, pathElems_child _ _ hplain,
        pathElems_slash _ (pathClean_ne_nil _), pathElems_pathClean]
    exact RemoveLast_removes_temp dest (task ++ ".cache") ts (task ++ "." ++ ts ++ "." ++ "cache")
      (".tmp." ++ FormatInt seed) _ h hdest hL hLs hplain hne
      (fun h1 => ListFetchedFiles_second dest task ts hdot h1) hk hd helems

theorem mem_drop_append {α : Type} (a E X : List α) (l : List α) (hl : l = a ++ E ++ X) :
    l.drop a.length = E ++ X := by
  rw [hl, List.append_assoc, List.drop_left]

/-- C14, counterexample: in each of these runs the compressed body is
corrupt, `Run` returns an error, and the temporary decompressed file that it
created still exists when `Run` returns.  With the basename `a.cache.v2` the
file is `/d/a.v2.cache.tmp.2`, and the cleanup lists `/d/a.cache.v2.1700*`
and `/d/a.1700.cache*`, which do not match it.  With the basename
`a.b/t.cache` the file is `/d/a.b/t.1700.cache.tmp.2`, and the cleanup lists
`/d/a.b/t.cache.1700*` only.  With the basename `t[1].mmap` or the
destination folder `/d[1]` the brackets in the pattern of the cleanup are a
character class, and with the basename `t\.mmap` or the destination folder
`/d\x` the backslash is an escape, so that the pattern does not match the
name it was made of.  With the destination folders `/d*/` and `/d?/` the
cleanup looks for the entry with the empty name in the folders that match
`/d*` or `/d?`, and lists nothing. -/
theorem odd_basename_keeps_temp_data_file :
    ((corruptRun "a.cache.v2" "/d").err ≠ none ∧
      FileEvent.create "/d/a.v2.cache.tmp.2" ∈ (corruptRun "a.cache.v2" "/d").host.log ∧
      (corruptRun "a.cache.v2" "/d").host.fileExists "/d/a.v2.cache.tmp.2" = true) ∧
    ((corruptRun "a.b/t.cache" "/d").err ≠ none ∧
      FileEvent.create "/d/a.b/t.1700.cache.tmp.2" ∈ (corruptRun "a.b/t.cache" "/d").host.log ∧
      (corruptRun "a.b/t.cache" "/d").host.fileExists "/d/a.b/t.1700.cache.tmp.2" = true) ∧
    ((corruptRun "t[1].mmap" "/d").err ≠ none ∧
      FileEvent.create "/d/t[1].mmap.1700.tmp.2" ∈ (corruptRun "t[1].mmap" "/d").host.log ∧
      (corruptRun "t[1].mmap" "/d").host.fileExists "/d/t[1].mmap.1700.tmp.2" = true) ∧
    ((corruptRun "t\\.mmap" "/d").err ≠ none ∧
      FileEvent.create "/d/t\\.mmap.1700.tmp.2" ∈ (corruptRun "t\\.mmap" "/d").host.log ∧
      (corruptRun "t\\.mmap" "/d").host.fileExists "/d/t\\.mmap.1700.tmp.2" = true) ∧
    ((corruptRun "t.cache" "/d[1]").err ≠ none ∧
      FileEvent.create "/d[1]/t.1700.cache.tmp.2" ∈ (corruptRun "t.cache" "/d[1]").host.log ∧
      (corruptRun "t.cache" "/d[1]").host.fileExists "/d[1]/t.1700.cache.tmp.2" = true) ∧
    ((corruptRun "t.mmap" "/d\\x").err ≠ none ∧
      FileEvent.create "/d\\x/t.mmap.1700.tmp.2" ∈ (corruptRun "t.mmap" "/d\\x").host.log ∧
      (corruptRun "t.mmap" "/d\\x").host.fileExists "/d\\x/t.mmap.1700.tmp.2" = true) ∧
    ((corruptRun "t.mmap" "/d*/").err ≠ none ∧
      FileEvent.create "/d*//t.mmap.1700.tmp.2" ∈ (corruptRun "t.mmap" "/d*/").host.log ∧
      (corruptRun "t.mmap" "/d*/").host.fileExists "/d*//t.mmap.1700.tmp.2" = true) ∧
    ((corruptRun "t.mmap" "/d?/").err ≠ none ∧
      FileEvent.create "/d?//t.mmap.1700.tmp.2" ∈ (corruptRun "t.mmap" "/d?/").host.log ∧
      (corruptRun "t.mmap" "/d?/").host.fileExists "/d?//t.mmap.1700.tmp.2" = true) :=
  ⟨by decide, by decide, by decide, by decide, by decide, by decide, by decide, by decide⟩

/-- C14, amended: let the basename hold no slash, no `[` and no backslash,
let its second dot-separated token not be `cache` unless the basename is
`<task>.cache` (two tokens), let the destination folder hold none of `*`,
`?`, `[` and backslash, and let the remote settings name the compression
`zst`.  A file that `Run` creates is the temporary data file
`<final path>.tmp.<n>`, where the final path is the decompressed path that
`WriteDecompressedFileToDiskFromReader` derives from
`<dest>/<basename>.<ts>.zst`.  A `Run` that returns no error has renamed it;
so a `Run` in which it is not renamed (as when the compressed body is corrupt
or the hash differs from the checksum) returns an error.  And when `Run`
returns an error, that file does not exist afterwards. -/
theorem failed_run_leaves_no_temp_data_file (d : Downloader) (codec : Codec) (h : Host)
    (p : String)
    (hbase : ∀ c ∈ d.Basename.data, c ≠ '/' ∧ c ≠ '[' ∧ c ≠ '\\')
    (htokens : (splitOn d.Basename '.')[1]? ≠ some "cache" ∨
      ∃ task, d.Basename = task ++ ".cache" ∧ '.' ∉ task.data)
    (hdest : ∀ c ∈ d.DestinationFolder.data, c ≠ '*' ∧ c ≠ '?' ∧ c ≠ '[' ∧ c ≠ '\\')
    (hzst : (d.Run codec h).downloader.RemoteSettings.compressionMethod = "zst")
    (hcreated : FileEvent.create p ∈ (d.Run codec h).host.log.drop h.log.length) :
    p = decompressedPathOf (d.DestinationFolder ++ "/" ++ d.Basename ++ "." ++
        (d.Run codec h).stats.Timestamp ++ "." ++ "zst") ++ ".tmp." ++
        FormatInt (h.seeds.tail.headD 0) ∧
    ((d.Run codec h).err = none →
      ∃ q, FileEvent.rename p q ∈ (d.Run codec h).host.log.drop h.log.length) ∧
    ((d.Run codec h).err ≠ none → (d.Run codec h).host.fileExists p = false) := by
  rcases Run_cases d codec h with ⟨h1, hs, hrun⟩ | ⟨h1, hs, hrun⟩
  · rw [hrun] at hcreated
    dsimp only at hcreated
    rw [hs.2.2.1] at hcreated
    simp at hcreated
  · obtain ⟨E, t1, t2, t3, t4, t5⟩ := download_trace d codec h1 _ rfl
    rw [hs.2.2.2] at t2 t3 t4
    rw [hs.1] at t4
    have hlog1 : (d.download codec h1).host.log = h.log ++ E := by rw [t1.1, hs.2.2.1]
    have key : ∀ X : List FileEvent, (∀ e ∈ X, ∃ q, e = FileEvent.remove q) →
        FileEvent.create p ∈ E ++ X → FileEvent.create p ∈ E := by
      intro X hX hm
      rcases List.mem_append.mp hm with h1 | h1
      · exact h1
      · obtain ⟨q, hq⟩ := hX _ h1
        cases hq
    rcases hrun with ⟨herr, hrun⟩ | ⟨herr, hrun⟩
    · obtain ⟨X, hX, hXr⟩ := RemoveLast_log d.DestinationFolder d.Basename
        (d.download codec h1).stats.Timestamp (d.download codec h1).host
      rw [hrun] at hcreated hzst ⊢
      dsimp only at hcreated hzst ⊢
      rw [mem_drop_append h.log E X _ (by rw [hX, hlog1])] at hcreated ⊢
      have hcE := key X hXr hcreated
      rw [hzst] at t2 t4
      obtain ⟨hp, h3⟩ := created_in_order d _ _ _ _ E p t2 hcE
      obtain ⟨n, hn, hts⟩ := t5.resolve_left (by intro e; rw [e] at h3; simp at h3)
      have hdig := FormatInt_digits n (le_of_lt hn)
      unfold dataPath at hp t4
      obtain ⟨hden, hknown⟩ := t4 h3
      refine ⟨hp, fun e => absurd e herr, fun _ => ?_⟩
      rw [hp]
      apply RemoveLast_removes_data_temp _ _ _ _ _ hbase hdest htokens
      · rw [hts]; exact hdig
      · rw [hts]
        intro e
        exact FormatInt_ne_nil n (by rw [e])
      · exact hknown
      · rw [t1.2.1, hs.1]
        exact hden
    · obtain ⟨X, hX, hXr⟩ := RemoveOldFiles_log d.DestinationFolder d.Basename 1
        (d.download codec h1).host
      rw [hrun] at hcreated hzst ⊢
      dsimp only at hcreated hzst ⊢
      rw [mem_drop_append h.log E X _ (by rw [hX, hlog1])] at hcreated ⊢
      have hcE := key X hXr hcreated
      rw [hzst] at t2 t3 t4
      obtain ⟨hp, h3⟩ := created_in_order d _ _ _ _ E p t2 hcE
      refine ⟨hp, fun _ => ?_, fun e => absurd rfl e⟩
      obtain ⟨hE, _⟩ := t3 herr
      refine ⟨dataPath d (d.download codec h1).stats.Timestamp "zst", ?_⟩
      apply List.mem_append_left
      rw [hE, hp]
      simp [publicationOrder, dataPublished]

/-- C14 on four runs whose compressed body is corrupt: the basename
`t.cache` in the folder `/d`, the basename `t.mmap` in the folder `/d`, the
basename `t.mmap` in the folder `/d/`, whose temporary data file `Run`
creates as `/d//t.mmap.1700.tmp.2`, and the basename `t*.mmap` in the folder
`/d`.  Each run returns an error and leaves no temporary data file. -/
theorem failed_run_leaves_no_temp_data_file_witness :
    ((corruptRun "t.cache" "/d").err ≠ none ∧
      FileEvent.create "/d/t.1700.cache.tmp.2" ∈ (corruptRun "t.cache" "/d").host.log ∧
      (corruptRun "t.cache" "/d").host.fileExists "/d/t.1700.cache.tmp.2" = false) ∧
    ((corruptRun "t.mmap" "/d").err ≠ none ∧
      FileEvent.create "/d/t.mmap.1700.tmp.2" ∈ (corruptRun "t.mmap" "/d").host.log ∧
      (corruptRun "t.mmap" "/d").host.fileExists "/d/t.mmap.1700.tmp.2" = false) ∧
    ((corruptRun "t.mmap" "/d/").err ≠ none ∧
      FileEvent.create "/d//t.mmap.1700.tmp.2" ∈ (corruptRun "t.mmap" "/d/").host.log ∧
      (corruptRun "t.mmap" "/d/").host.fileExists "/d//t.mmap.1700.tmp.2" = false) ∧
    ((corruptRun "t*.mmap" "/d").err ≠ none ∧
      FileEvent.create "/d/t*.mmap.1700.tmp.2" ∈ (corruptRun "t*.mmap" "/d").host.log ∧
      (corruptRun "t*.mmap" "/d").host.fileExists "/d/t*.mmap.1700.tmp.2" = false) :=
  ⟨⟨by decide, by decide,
    (failed_run_leaves_no_temp_data_file
      (NewDownloader (remoteOf "t.cache" "bad")
        { Basename := "t.cache", DestinationFolder := "/d", AllUrls := "h" })
      sampleCodec emptyHost "/d/t.1700.cache.tmp.2" (by decide)
      (Or.inr ⟨"t", rfl, by decide⟩) (by decide) (by decide) (by decide)).2.2 (by decide)⟩,
   ⟨by decide, by decide,
    (failed_run_leaves_no_temp_data_file
      (NewDownloader (remoteOf "t.mmap" "bad")
        { Basename := "t.mmap", DestinationFolder := "/d", AllUrls := "h" })
      sampleCodec emptyHost "/d/t.mmap.1700.tmp.2" (by decide)
      (Or.inl (by decide)) (by decide) (by decide) (by decide)).2.2 (by decide)⟩,
   ⟨by decide, by decide,
    (failed_run_leaves_no_temp_data_file
      (NewDownloader (remoteOf "t.mmap" "bad")
        { Basename := "t.mmap", DestinationFolder := "/d/", AllUrls := "h" })
      sampleCodec emptyHost "/d//t.mmap.1700.tmp.2" (by decide)
      (Or.inl (by decide)) (by decide) (by decide) (by decide)).2.2 (by decide)⟩,
   ⟨by decide, by decide,
    (failed_run_leaves_no_temp_data_file
      (NewDownloader (remoteOf "t*.mmap" "bad")
        { Basename := "t*.mmap", DestinationFolder := "/d", AllUrls := "h" })
      sampleCodec emptyHost "/d/t*.mmap.1700.tmp.2" (by decide)
      (Or.inl (by decide)) (by decide) (by decide) (by decide)).2.2 (by decide)⟩⟩

/-! ## Reader: a second `Delete`, the empty key, and the initialisation flag -/

/-- C21, failing case: `Delete` leaves the `Stop` channel closed, so on the
reader that a first `Delete` leaves, a second `Delete` does not return: it
stores timestamp 0 and a nil handle again and then panics in `close(c.Stop)`.
The first call returns when the channel was open. -/
theorem second_delete_panics {H : Type} (c : CacheReader H) (hstop : c.StopClosed = false) :
    c.Delete.panicked = false ∧
    c.Delete.reader.StopClosed = true ∧
    c.Delete.reader.Delete.panicked = true := by
  simp [CacheReader.Delete, hstop]

/-- C21 on the reader of `TestCacheReaderUseAfterDelete`, deleted twice. -/
theorem second_delete_panics_witness :
    (sampleReader 5 none).Delete.panicked = false ∧
    (sampleReader 5 none).Delete.reader.StopClosed = true ∧
    (sampleReader 5 none).Delete.reader.Delete.panicked = true :=
  second_delete_panics (sampleReader 5 none) rfl

/-- On an initialised reader every lookup with the empty key panics at
`&k[0]`. -/
theorem getters_empty_key {H : Type} (api : ReaderCApi H) (c : CacheReader H)
    (hi : c.isInitialized = true) :
    c.ContainsKey api "" = .panic ∧
    c.GetKey api "" = .panic ∧
    c.GetKeyType api "" = .panic ∧
    c.GetBool api "" = .panic ∧
    c.GetInt api "" = .panic ∧
    c.GetLong api "" = .panic ∧
    c.GetDouble api "" = .panic ∧
    c.GetVector api "" = .panic ∧
    c.GetVectorFloat api "" = .panic := by
  simp [CacheReader.ContainsKey, CacheReader.GetKey, CacheReader.GetKeyType,
    CacheReader.GetBool, CacheReader.GetInt, CacheReader.GetLong, CacheReader.GetDouble,
    CacheReader.GetVector, CacheReader.GetVectorFloat, hi, CacheReader.withKey]

theorem getters_nonempty_key {H : Type} (api : ReaderCApi H) (c : CacheReader H) (h : H)
    (key : String) (hi : c.isInitialized = true) (hh : c.Handle = some h)
    (hk : key.length ≠ 0) :
    c.ContainsKey api key = .ret (decide (api.ContainsKey h key ≠ 0)) none ∧
    (∀ r, r ∈ [(c.GetKey api key).errorOf, (c.GetKeyType api key).errorOf,
        (c.GetBool api key).errorOf, (c.GetInt api key).errorOf, (c.GetLong api key).errorOf,
        (c.GetDouble api key).errorOf, (c.GetVector api key).errorOf,
        (c.GetVectorFloat api key).errorOf] → r = none ∨ r = some .ErrNotFound) ∧
    (c.GetKey api key).returned = true ∧ (c.GetKeyType api key).returned = true ∧
    (c.GetBool api key).returned = true ∧ (c.GetInt api key).returned = true ∧
    (c.GetLong api key).returned = true ∧ (c.GetDouble api key).returned = true ∧
    (c.GetVector api key).returned = true ∧ (c.GetVectorFloat api key).returned = true := by
  simp only [CacheReader.ContainsKey, CacheReader.GetKey, CacheReader.GetKeyType,
    CacheReader.GetBool, CacheReader.GetInt, CacheReader.GetLong, CacheReader.GetDouble,
    CacheReader.GetVector, CacheReader.GetVectorFloat, hi, CacheReader.withKey, hh, hk]
  simp only [not_true_eq_false, if_false, List.mem_cons, List.mem_singleton, List.not_mem_nil,
    or_false, true_and]
  refine ⟨?_, ?_, ?_, ?_, ?_, ?_, ?_, ?_, ?_⟩
  · rintro r (h | h | h | h | h | h | h | h) <;> subst h <;>
      (repeat' split) <;> simp [Outcome.errorOf] at *
  all_goals (repeat' split) <;> simp [Outcome.returned]

/-- C23, failing case: on an initialised reader with a live native handle,
`ContainsKey` and every typed getter panic on the empty key (`&k[0]` on an
empty slice) instead of returning; for every non-empty key `ContainsKey`
returns a boolean with a nil error and every typed getter returns with a nil
error or `ErrNotFound`. -/
theorem empty_key_lookup_panics {H : Type} (api : ReaderCApi H) (c : CacheReader H) (h : H)
    (hi : c.isInitialized = true) (hh : c.Handle = some h) :
    (c.ContainsKey api "" = .panic ∧ c.GetKey api "" = .panic ∧
      c.GetKeyType api "" = .panic ∧ c.GetBool api "" = .panic ∧ c.GetInt api "" = .panic ∧
      c.GetLong api "" = .panic ∧ c.GetDouble api "" = .panic ∧
      c.GetVector api "" = .panic ∧ c.GetVectorFloat api "" = .panic) ∧
    ∀ key : String, key.length ≠ 0 →
      c.ContainsKey api key = .ret (decide (api.ContainsKey h key ≠ 0)) none ∧
      (∀ r, r ∈ [(c.GetKey api key).errorOf, (c.GetKeyType api key).errorOf,
          (c.GetBool api key).errorOf, (c.GetInt api key).errorOf, (c.GetLong api key).errorOf,
          (c.GetDouble api key).errorOf, (c.GetVector api key).errorOf,
          (c.GetVectorFloat api key).errorOf] → r = none ∨ r = some .ErrNotFound) ∧
      (c.GetKey api key).returned = true ∧ (c.GetKeyType api key).returned = true ∧
      (c.GetBool api key).returned = true ∧ (c.GetInt api key).returned = true ∧
      (c.GetLong api key).returned = true ∧ (c.GetDouble api key).returned = true ∧
      (c.GetVector api key).returned = true ∧ (c.GetVectorFloat api key).returned = true :=
  ⟨getters_empty_key api c hi, fun key hk => getters_nonempty_key api c h key hi hh hk⟩

/-- C23 on the reader of `TestCacheReaderUpdates`, loaded at timestamp 5:
`GetKey("")` panics and `GetKey("267.foo")` returns. -/
theorem empty_key_lookup_panics_witness :
    CacheReader.GetKey (constReaderApi 0) (sampleReader 5 none) "" = .panic ∧
    (CacheReader.GetKey (constReaderApi 0) (sampleReader 5 none) "267.foo").returned = true :=
  ⟨(empty_key_lookup_panics (constReaderApi 0) (sampleReader 5 none) () (by decide) rfl).1.2.1,
   ((empty_key_lookup_panics (constReaderApi 0) (sampleReader 5 none) () (by decide) rfl).2
      "267.foo" (by decide)).2.2.1⟩

theorem getters_when_initialized {H : Type} (api : ReaderCApi H) (c : CacheReader H)
    (key : String) (hi : c.isInitialized = true) :
    (c.ContainsKey api key).errorOf ≠ some .ErrUnInitialized ∧
    (c.GetKey api key).errorOf ≠ some .ErrUnInitialized ∧
    (c.GetKeyType api key).errorOf ≠ some .ErrUnInitialized ∧
    (c.GetBool api key).errorOf ≠ some .ErrUnInitialized ∧
    (c.GetInt api key).errorOf ≠ some .ErrUnInitialized ∧
    (c.GetLong api key).errorOf ≠ some .ErrUnInitialized ∧
    (c.GetDouble api key).errorOf ≠ some .ErrUnInitialized ∧
    (c.GetVector api key).errorOf ≠ some .ErrUnInitialized ∧
    (c.GetVectorFloat api key).errorOf ≠ some .ErrUnInitialized := by
  simp only [CacheReader.ContainsKey, CacheReader.GetKey, CacheReader.GetKeyType,
    CacheReader.GetBool, CacheReader.GetInt, CacheReader.GetLong, CacheReader.GetDouble,
    CacheReader.GetVector, CacheReader.GetVectorFloat, hi, CacheReader.withKey]
  simp only [not_true_eq_false, if_false]
  refine ⟨?_, ?_, ?_, ?_, ?_, ?_, ?_, ?_, ?_⟩ <;> (repeat' split) <;> simp [Outcome.errorOf]

/-- When `Update` returns nil the timestamp parsed and was stored. -/
theorem Update_ok_stores {H : Type} (api : ReaderCApi H) (c : CacheReader H) (ts : String)
    (hok : (CacheReader.Update api c ts).err = none) :
    ∃ n, ParseInt ts = .ok n ∧ (CacheReader.Update api c ts).reader.MostRecentFileTimestamp = n := by
  unfold CacheReader.Update at hok ⊢
  split at hok
  · simp at hok
  · split at hok
    · simp at hok
    ·
      refine ⟨_, by assumption, ?_⟩
      dsimp only at hok ⊢
      split at hok
      · simp at hok
      · rename_i hr
        simp only [hr, if_false]
        split <;> [rfl; (split <;> rfl)]

theorem Update_timestamp_cases {H : Type} (api : ReaderCApi H) (c : CacheReader H)
    (ts : String) :
    (CacheReader.Update api c ts).reader.MostRecentFileTimestamp = c.MostRecentFileTimestamp ∨
      ∃ v, ParseInt ts = .ok v ∧ (CacheReader.Update api c ts).reader.MostRecentFileTimestamp = v := by
  cases hp : ParseInt ts with
  | ok v =>
    rcases Update_timestamp api c ts v hp with h | h
    · exact Or.inl h
    · exact Or.inr ⟨v, rfl, h⟩
  | error e =>
    left
    unfold CacheReader.Update
    rw [hp]
    split <;> rfl

/-- Further updates to positive timestamps keep the loaded timestamp
positive. -/
theorem updated_positive {H : Type} (api : ReaderCApi H) (tss : List String)
    (htss : ∀ ts ∈ tss, ∀ v, ParseInt ts = .ok v → 0 < v) (c : CacheReader H)
    (hc : 0 < c.MostRecentFileTimestamp) : 0 < (c.updated api tss).MostRecentFileTimestamp := by
  induction tss generalizing c with
  | nil => exact hc
  | cons ts rest ih =>
    have h1 : 0 < (CacheReader.Update api c ts).reader.MostRecentFileTimestamp := by
      rcases Update_timestamp_cases api c ts with h | ⟨v, hv, h⟩
      · rw [h]
        exact hc
      · rw [h]
        exact htss ts (by simp) v hv
    exact ih (fun t ht => htss t (by simp [ht])) _ h1

/-- C30, counterexample: `Update("5")` and then `Update("0")` both return
nil on a reader whose native loads succeed; `Delete` has not been called
(the `Stop` channel is open), and `GetKey` returns `ErrUnInitialized`. -/
theorem update_to_zero_uninitializes_without_delete :
    (CacheReader.Update (constReaderApi 0) (sampleReader 0 none) "5").err = none ∧
    (CacheReader.Update (constReaderApi 0) (sampleReader 0 none) "5").reader.isInitialized =
      true ∧
    (CacheReader.Update (constReaderApi 0)
      (CacheReader.Update (constReaderApi 0) (sampleReader 0 none) "5").reader "0").err = none ∧
    (CacheReader.Update (constReaderApi 0)
      (CacheReader.Update (constReaderApi 0) (sampleReader 0 none) "5").reader
        "0").reader.StopClosed = false ∧
    CacheReader.GetKey (constReaderApi 0)
      (CacheReader.Update (constReaderApi 0)
        (CacheReader.Update (constReaderApi 0) (sampleReader 0 none) "5").reader "0").reader
      "267.foo" = .ret "" (some .ErrUnInitialized) := by
  decide

/-- C30, amended: the reader reports itself initialised exactly when
`MostRecentFileTimestamp > 0`.  When `Update(ts)` returns nil, `ts` parses to
an integer `n` which is the stored timestamp; if `n ≤ 0` every getter returns
`ErrUnInitialized` for every key on the reader that `Update` leaves; if
`n > 0` no getter returns `ErrUnInitialized` for any key on that reader, nor
on the reader after any further calls of `Update` whose timestamps do not
parse to zero or a negative number; after `Delete` every getter returns
`ErrUnInitialized`. -/
theorem initialized_iff_positive_timestamp {H : Type} (api : ReaderCApi H) (c : CacheReader H)
    (ts : String) (hok : (CacheReader.Update api c ts).err = none) :
    (∀ r : CacheReader H, r.isInitialized = true ↔ r.MostRecentFileTimestamp > 0) ∧
    ∃ n, ParseInt ts = .ok n ∧
      (CacheReader.Update api c ts).reader.MostRecentFileTimestamp = n ∧
      (n ≤ 0 → ∀ key : String,
        (CacheReader.Update api c ts).reader.ContainsKey api key =
          .ret false (some .ErrUnInitialized) ∧
        (CacheReader.Update api c ts).reader.GetKey api key = .ret "" (some .ErrUnInitialized) ∧
        (CacheReader.Update api c ts).reader.GetKeyType api key =
          .ret "" (some .ErrUnInitialized) ∧
        (CacheReader.Update api c ts).reader.GetBool api key =
          .ret false (some .ErrUnInitialized) ∧
        (CacheReader.Update api c ts).reader.GetInt api key = .ret 0 (some .ErrUnInitialized) ∧
        (CacheReader.Update api c ts).reader.GetLong api key = .ret 0 (some .ErrUnInitialized) ∧
        (CacheReader.Update api c ts).reader.GetDouble api key =
          .ret ⟨0⟩ (some .ErrUnInitialized) ∧
        (CacheReader.Update api c ts).reader.GetVector api key =
          .ret (.mk []) (some .ErrUnInitialized) ∧
        (CacheReader.Update api c ts).reader.GetVectorFloat api key =
          .ret (.mk []) (some .ErrUnInitialized)) ∧
      (0 < n → ∀ tss : List String, (∀ t ∈ tss, ∀ v, ParseInt t = .ok v → 0 < v) →
        ∀ key : String,
        (((CacheReader.Update api c ts).reader.updated api tss).ContainsKey api key).errorOf ≠
          some .ErrUnInitialized ∧
        (((CacheReader.Update api c ts).reader.updated api tss).GetKey api key).errorOf ≠
          some .ErrUnInitialized ∧
        (((CacheReader.Update api c ts).reader.updated api tss).GetKeyType api key).errorOf ≠
          some .ErrUnInitialized ∧
        (((CacheReader.Update api c ts).reader.updated api tss).GetBool api key).errorOf ≠
          some .ErrUnInitialized ∧
        (((CacheReader.Update api c ts).reader.updated api tss).GetInt api key).errorOf ≠
          some .ErrUnInitialized ∧
        (((CacheReader.Update api c ts).reader.updated api tss).GetLong api key).errorOf ≠
          some .ErrUnInitialized ∧
        (((CacheReader.Update api c ts).reader.updated api tss).GetDouble api key).errorOf ≠
          some .ErrUnInitialized ∧
        (((CacheReader.Update api c ts).reader.updated api tss).GetVector api key).errorOf ≠
          some .ErrUnInitialized ∧
        (((CacheReader.Update api c ts).reader.updated api tss).GetVectorFloat api key).errorOf ≠
          some .ErrUnInitialized) ∧
      (∀ (tss : List String) (key : String),
        ((CacheReader.Update api c ts).reader.updated api tss).Delete.reader.GetKey api key =
          .ret "" (some .ErrUnInitialized)) := by
  refine ⟨fun r => by simp [CacheReader.isInitialized], ?_⟩
  obtain ⟨n, hp, hn⟩ := Update_ok_stores api c ts hok
  refine ⟨n, hp, hn, fun hle key => ?_, fun hpos tss htss key => ?_, fun tss key => ?_⟩
  · exact getters_when_not_initialized api _ key
      (by simp [CacheReader.isInitialized, hn, hle])
  · have := updated_positive api tss htss _ (hn ▸ hpos)
    exact getters_when_initialized api _ key (by simp [CacheReader.isInitialized, this])
  · exact (getters_when_not_initialized api _ key
      (by simp [CacheReader.isInitialized, CacheReader.Delete]; split <;> simp)).2.1

/-- The amended C30 on the reader of `TestCacheReaderUpdates`: after
`Update("0")` a lookup reports `ErrUnInitialized`, and after `Update("7")`
followed by `Update("9")` it does not. -/
theorem initialized_iff_positive_timestamp_witness :
    (CacheReader.Update (constReaderApi 0) (sampleReader 5 none) "0").reader.GetKey
      (constReaderApi 0) "267.foo" = .ret "" (some .ErrUnInitialized) ∧
    (CacheReader.GetKey (constReaderApi 0)
      ((CacheReader.Update (constReaderApi 0) (sampleReader 5 none) "7").reader.updated
        (constReaderApi 0) ["9"]) "267.foo").errorOf ≠ some .ErrUnInitialized := by
  constructor
  · obtain ⟨_, n, hp, _, hle, _, _⟩ :=
      initialized_iff_positive_timestamp (constReaderApi 0) (sampleReader 5 none) "0" (by decide)
    have h0 : n = 0 := by
      have : ParseInt "0" = .ok 0 := by decide
      rw [this] at hp
      cases hp
      rfl
    exact (hle (by omega) "267.foo").2.1
  · obtain ⟨_, n, hp, _, _, hpos, _⟩ :=
      initialized_iff_positive_timestamp (constReaderApi 0) (sampleReader 5 none) "7" (by decide)
    have h7 : n = 7 := by
      have : ParseInt "7" = .ok 7 := by decide
      rw [this] at hp
      cases hp
      rfl
    have h9 : ∀ t ∈ ["9"], ∀ v, ParseInt t = .ok v → 0 < v := by
      intro t ht v hv
      simp only [List.mem_singleton] at ht
      subst ht
      have : ParseInt "9" = .ok 9 := by decide
      rw [this] at hv
      cases hv
      decide
    exact (hpos (by omega) ["9"] h9 "267.foo").2.1

/-! ## `shouldDownload` as a decision function -/

theorem SameDisk.readFile {h h1 : Host} (x : SameDisk h h1) (p : String) :
    h1.readFile p = h.readFile p := by
  simp [Host.readFile, x.1]

theorem SameDisk.namesIn {h h1 : Host} (x : SameDisk h h1) (dir : String) :
    h1.namesIn dir = h.namesIn dir := by
  simp [Host.namesIn, Host.fileExists, x.1, x.2.1]

theorem SameDisk.globEach {h h1 : Host} (x : SameDisk h h1) (pattern : String)
    (dirs : List String) : ∀ found, h1.globEach pattern dirs found = h.globEach pattern dirs found := by
  induction dirs with
  | nil => intro found; rfl
  | cons d ds ih =>
    intro found
    simp only [Host.globEach, Host.globDir, x.namesIn, ih]

theorem SameDisk.globWithLimit {h h1 : Host} (x : SameDisk h h1) (left : Nat) :
    ∀ p, h1.globWithLimit left p = h.globWithLimit left p := by
  induction left with
  | zero => intro p; rfl
  | succ n ih =>
    intro p
    simp only [Host.globWithLimit, Host.lstat, Host.globDir, Host.fileExists, x.namesIn, x.1, ih,
      x.globEach]

theorem SameDisk.glob {h h1 : Host} (x : SameDisk h h1) (p : String) :
    h1.glob p = h.glob p :=
  x.globWithLimit 10000 p

theorem shouldDownload_decision (d : Downloader) (h : Host) :
    (d.shouldDownload h).1 = decisionOf (d.observe h) := by
  have s1 := GetBaseUrlAndTimestamp_sameDisk d h
  have s2 := fun b => (fetchRemoteInputsFile_sameDisk d b (d.GetBaseUrlAndTimestamp h).2)
  unfold Downloader.shouldDownload Downloader.observe decisionOf
  dsimp only
  generalize d.GetBaseUrlAndTimestamp h = p at s1 s2 ⊢
  obtain ⟨⟨baseUrl, timestamp, e⟩, h1⟩ := p
  dsimp only at s1 s2 ⊢
  cases e with
  | some e => simp
  | none =>
    simp only [if_true, s1.readFile]
    cases hl : h.readFile (d.DestinationFolder ++ "/" ++ d.Basename ++ ".timestamp.latest") with
    | none => simp
    | some content =>
      dsimp only
      by_cases hc : content = timestamp
      · simp only [hc, ne_eq, not_true_eq_false, if_false, if_true,
          Downloader.hasAtLeastOneDownloadedFileAlready, s1.glob]
        generalize h.glob _ = g
        obtain ⟨paths, ge⟩ := g
        cases ge with
        | some ge => simp
        | none =>
          simp only [if_true]
          by_cases hn : paths.length ≤ 2
          · simp [hn, Nat.not_lt.mpr hn]
          · simp [hn, Nat.lt_of_not_le hn]
      · simp only [hc, ne_eq, not_false_eq_true, if_true, if_false]
        have s2b := s2 baseUrl
        generalize d.fetchRemoteInputsFile baseUrl h1 = f at s2b ⊢
        obtain ⟨⟨remote, fe⟩, h2⟩ := f
        dsimp only at s2b ⊢
        have s3 := s1.chain s2b
        cases fe with
        | some e => simp
        | none =>
          simp only [if_true, s3.readFile]
          by_cases hr : remote.length = 0
          · simp [hr]
          · simp only [hr, if_false]
            cases hi : h.readFile (d.DestinationFolder ++ "/" ++ d.Basename ++ ".inputs") with
            | none => simp
            | some loc =>
              dsimp only
              by_cases hll : loc.length = 0
              · simp [hll]
              · simp only [hll, if_false]
                by_cases he : loc = remote
                · simp only [he, if_true, ne_eq, not_true_eq_false, if_false,
                    Downloader.hasAtLeastOneDownloadedFileAlready, s3.glob]
                  generalize h.glob _ = g
                  obtain ⟨paths, ge⟩ := g
                  cases ge with
                  | some ge => simp
                  | none =>
                    simp only [if_true]
                    by_cases hn : paths.length ≤ 2
                    · simp [hn, Nat.not_lt.mpr hn]
                    · simp [hn, Nat.lt_of_not_le hn]
                · simp [he]

theorem decisionOf_false (o : Observed) (hf : (decisionOf o).1 = false) :
    2 < o.matching ∧ ∃ timestamp, o.remoteTimestamp = some timestamp := by
  unfold decisionOf at hf
  repeat' (first | (simp at hf; done) | split at hf)
  all_goals exact ⟨by assumption, _, by assumption⟩

/-- C27: the answer of `shouldDownload` is the decision function of the
description applied to what the call observes (the remote timestamp picked,
the local `timestamp.latest`, the number of local paths matching
`<dest>/<BasenameNoExt>.*<timestamp>*`, the remote and the local inputs
manifest); and when the answer is `false` a remote timestamp was picked and
more than two local paths match that pattern for it. -/
theorem shouldDownload_is_decision_function (d : Downloader) (h : Host) :
    (d.shouldDownload h).1 = decisionOf (d.observe h) ∧
    ((d.shouldDownload h).1.1 = false →
      (d.observe h).remoteTimestamp = some (d.GetBaseUrlAndTimestamp h).1.2.1 ∧
      (h.glob (d.DestinationFolder ++ "/" ++ d.BasenameNoExt ++ ".*" ++
        (d.GetBaseUrlAndTimestamp h).1.2.1 ++ "*")).2 = none ∧
      2 < (h.glob (d.DestinationFolder ++ "/" ++ d.BasenameNoExt ++ ".*" ++
        (d.GetBaseUrlAndTimestamp h).1.2.1 ++ "*")).1.length) := by
  refine ⟨shouldDownload_decision d h, fun hf => ?_⟩
  rw [shouldDownload_decision] at hf
  obtain ⟨hm, ts, hts⟩ := decisionOf_false _ hf
  simp only [Downloader.observe] at hm hts ⊢
  refine ⟨?_, ?_, ?_⟩
  · split at hts
    · simp_all
    · simp at hts
  · by_contra hne
    simp [hne] at hm
  · split at hm
    · exact hm
    · simp at hm
/-! ## The decompressed path and the temporary path -/

theorem WriteDecompressed_log (codec : Codec) (f : BodyReader)
    (compressedPath cm ce remote : String) (size : Int) (h : Host) :
    ∃ events,
      (WriteDecompressedFileToDiskFromReader codec f compressedPath cm ce remote size h).2.log =
        h.log ++ events ∧
      events <+:
        [.create (decompressedPathOf compressedPath ++ ".tmp." ++ FormatInt (h.seeds.headD 0)),
         .write (decompressedPathOf compressedPath ++ ".tmp." ++ FormatInt (h.seeds.headD 0)),
         .rename (decompressedPathOf compressedPath ++ ".tmp." ++ FormatInt (h.seeds.headD 0))
           (decompressedPathOf compressedPath)] := by
  have t := WriteDecompressed_trace codec f compressedPath cm ce remote size h _ _ rfl rfl _ rfl
  rcases t.2.2.2.2.2.2 with ⟨_, _, hl, _⟩ | ⟨_, _, hl | ⟨hl | hl, _⟩⟩
  · exact ⟨_, hl, List.prefix_refl _⟩
  · exact ⟨[], by simpa using hl, List.nil_prefix⟩
  · exact ⟨_, hl, by simp⟩
  · exact ⟨_, hl, by simp⟩

/-- C26, counterexample: with the destination folder `/d/` the compressed
path is `/d//t.cache.1700.zst` and the decompressed path is
`/d/t.1700.cache`, not `/d//t.1700.cache`: `path.Dir` returns the folder in
its clean form. -/
theorem unclean_folder_is_cleaned :
    decompressedPathOf ("/d/" ++ "/" ++ ("t" ++ ".cache") ++ "." ++ "1700" ++ "." ++ "zst") =
      "/d/t.1700.cache" ∧
    "/d/t.1700.cache" ≠ "/d/" ++ "/" ++ "t" ++ "." ++ "1700" ++ "." ++ "cache" := by
  decide

/-- C26, amended: for a task name without dot and slash and a timestamp of
decimal digits, `<dest>/<task>.cache.<ts>.zst` is decompressed to
`<dir>/<task>.<ts>.cache` where `<dir>` is `path.Clean(<dest>/)`, which is
`<dest>/<task>.<ts>.cache` when `<dest>` is a clean path; for a basename
without slash whose second dot-separated token is not `cache` and a
compression method without dot and slash, the final path is the compressed
path without its last extension; and the file effects of
`WriteDecompressedFileToDiskFromReader` are a prefix of: create
`<final path>.tmp.<n>`, write it, rename it to the final path, with `n` the
value of `rand.Uint32()`. -/
theorem decompressed_path_forms (dest task ts : String)
    (htask : '.' ∉ task.data ∧ '/' ∉ task.data)
    (hts : ∀ c ∈ ts.data, 48 ≤ c.toNat ∧ c.toNat ≤ 57) :
    decompressedPathOf (dest ++ "/" ++ (task ++ ".cache") ++ "." ++ ts ++ "." ++ "zst") =
      pathClean (dest ++ "/") ++ "/" ++ task ++ "." ++ ts ++ "." ++ "cache" ∧
    (pathClean (dest ++ "/") = dest →
      decompressedPathOf (dest ++ "/" ++ (task ++ ".cache") ++ "." ++ ts ++ "." ++ "zst") =
        dest ++ "/" ++ task ++ "." ++ ts ++ "." ++ "cache") ∧
    (∀ basename cm : String, '/' ∉ basename.data →
      (splitOn basename '.')[1]? ≠ some "cache" → (∀ c ∈ cm.data, c ≠ '.' ∧ c ≠ '/') →
      decompressedPathOf (dest ++ "/" ++ basename ++ "." ++ ts ++ "." ++ cm) =
        dest ++ "/" ++ basename ++ "." ++ ts) ∧
    (∀ (codec : Codec) (f : BodyReader) (compressedPath cm ce remote : String) (size : Int)
      (h : Host), ∃ events,
      (WriteDecompressedFileToDiskFromReader codec f compressedPath cm ce remote size h).2.log =
        h.log ++ events ∧
      events <+:
        [.create (decompressedPathOf compressedPath ++ ".tmp." ++ FormatInt (h.seeds.headD 0)),
         .write (decompressedPathOf compressedPath ++ ".tmp." ++ FormatInt (h.seeds.headD 0)),
         .rename (decompressedPathOf compressedPath ++ ".tmp." ++ FormatInt (h.seeds.headD 0))
           (decompressedPathOf compressedPath)]) :=
  ⟨decompressedPathOf_cache_dir dest task ts htask hts,
   fun hclean => decompressedPathOf_cache dest task ts htask hts hclean,
   fun basename cm hb hsecond hcm => decompressedPathOf_other dest basename ts cm hb hsecond hts hcm,
   fun codec f compressedPath cm ce remote size h =>
     WriteDecompressed_log codec f compressedPath cm ce remote size h⟩

/-- The amended C26 for the folder `/d`, the task `t` and the timestamp
`1700`; and for the basename `t.mmap`. -/
theorem decompressed_path_forms_witness :
    decompressedPathOf ("/d" ++ "/" ++ ("t" ++ ".cache") ++ "." ++ "1700" ++ "." ++ "zst") =
      "/d" ++ "/" ++ "t" ++ "." ++ "1700" ++ "." ++ "cache" ∧
    decompressedPathOf ("/d" ++ "/" ++ "t.mmap" ++ "." ++ "1700" ++ "." ++ "zst") =
      "/d" ++ "/" ++ "t.mmap" ++ "." ++ "1700" :=
  ⟨(decompressed_path_forms "/d" "t" "1700" (by decide) (by decide)).2.1 (by decide),
   (decompressed_path_forms "/d" "t" "1700" (by decide) (by decide)).2.2.1 "t.mmap" "zst"
     (by decide) (by decide) (by decide)⟩
/-! ## `GetSortedTimeStamps` -/

theorem eraseDups_loop_facts (as bs : List Int) (hb : bs.Nodup) :
    (List.eraseDups.loop as bs).Nodup ∧
    ∀ x, x ∈ List.eraseDups.loop as bs ↔ x ∈ as ∨ x ∈ bs := by
  induction as generalizing bs with
  | nil => simp [List.eraseDups.loop, hb]
  | cons a as ih =>
    unfold List.eraseDups.loop
    by_cases ha : a ∈ bs
    · have : List.elem a bs = true := by simpa using ha
      rw [this]
      refine ⟨(ih bs hb).1, fun x => ?_⟩
      rw [(ih bs hb).2 x]
      constructor
      · rintro (h | h)
        · exact Or.inl (by simp [h])
        · exact Or.inr h
      · rintro (h | h)
        · rcases List.mem_cons.mp h with rfl | h
          · exact Or.inr ha
          · exact Or.inl h
        · exact Or.inr h
    · have : List.elem a bs = false := by simpa using ha
      rw [this]
      have hb2 : (a :: bs).Nodup := List.nodup_cons.mpr ⟨ha, hb⟩
      refine ⟨(ih _ hb2).1, fun x => ?_⟩
      rw [(ih _ hb2).2 x]
      simp only [List.mem_cons]
      tauto

theorem mem_insertInt (x t : Int) (l : List Int) : t ∈ insertInt x l ↔ t = x ∨ t ∈ l := by
  induction l with
  | nil => simp [insertInt]
  | cons y ys ih =>
    unfold insertInt
    split
    · simp
    · simp only [List.mem_cons, ih]
      tauto

theorem insertInt_strict (x : Int) (l : List Int) (hl : l.Pairwise (· < ·)) (hx : x ∉ l) :
    (insertInt x l).Pairwise (· < ·) := by
  induction l with
  | nil => simp [insertInt]
  | cons y ys ih =>
    have hy : x ≠ y := fun e => hx (by simp [e])
    have hys : x ∉ ys := fun e => hx (by simp [e])
    rw [List.pairwise_cons] at hl
    unfold insertInt
    split
    · rename_i hle
      have hlt : x < y := lt_of_le_of_ne hle hy
      refine List.pairwise_cons.mpr ⟨fun z hz => ?_, List.pairwise_cons.mpr hl⟩
      rcases List.mem_cons.mp hz with rfl | hz
      · exact hlt
      · exact lt_trans hlt (hl.1 z hz)
    · rename_i hle
      refine List.pairwise_cons.mpr ⟨fun z hz => ?_, ih hl.2 hys⟩
      rcases (mem_insertInt x z ys).mp hz with rfl | hz
      · omega
      · exact hl.1 z hz

theorem foldr_insertInt_facts (l : List Int) (hl : l.Nodup) :
    (l.foldr insertInt []).Pairwise (· < ·) ∧ ∀ t, t ∈ l.foldr insertInt [] ↔ t ∈ l := by
  induction l with
  | nil => simp
  | cons x xs ih =>
    rw [List.nodup_cons] at hl
    have h := ih hl.2
    simp only [List.foldr_cons]
    refine ⟨insertInt_strict x _ h.1 (fun hm => hl.1 ((h.2 x).mp hm)), fun t => ?_⟩
    rw [mem_insertInt, h.2 t]
    simp

/-- The sorted keys are strictly increasing and are the members of the
set. -/
theorem sortedKeys_facts (l : List Int) :
    (sortedKeys l).Pairwise (· < ·) ∧ ∀ t, t ∈ sortedKeys l ↔ t ∈ l := by
  unfold sortedKeys List.eraseDups
  have h := eraseDups_loop_facts l [] List.nodup_nil
  have f := foldr_insertInt_facts _ h.1
  refine ⟨f.1, fun t => ?_⟩
  rw [f.2 t, h.2 t]
  simp

/-- The timestamp read from a path, by the tokens of its base name. -/
theorem timestampOfPath_eq (p : String) (t : Int) :
    timestampOfPath p = some t ↔
      ∃ second, (splitOn (pathBase p) '.')[1]? = some second ∧
        (ParseInt second = .ok t ∨
          ((∃ e, ParseInt second = .error e) ∧
            ∃ third, (splitOn (pathBase p) '.')[2]? = some third ∧ ParseInt third = .ok t)) := by
  unfold timestampOfPath
  cases hs : splitOn (pathBase p) '.' with
  | nil => simp
  | cons a r =>
    cases r with
    | nil => simp
    | cons second rest =>
      simp only [List.getElem?_cons_succ, List.getElem?_cons_zero, Option.some.injEq,
        exists_eq_left']
      cases hp : ParseInt second with
      | ok v => simp
      | error e =>
        cases rest with
        | nil => simp
        | cons third r3 =>
          simp only [List.getElem?_cons_zero, Option.some.injEq, exists_eq_left']
          cases hq : ParseInt third with
          | ok v => simp
          | error e2 => simp

theorem cacheName_eq (stem name : String) :
    cacheName stem = some name ↔
      ∃ extension rest, splitOn stem '.' = name :: extension :: rest ∧
        (extension = "mmap" ∨ extension = "cache") := by
  unfold cacheName
  cases hs : splitOn stem '.' with
  | nil => simp
  | cons a r =>
    cases r with
    | nil => simp
    | cons b r2 =>
      by_cases hb : b = "mmap" ∨ b = "cache"
      · simp only [hb, if_true, Option.some.injEq, List.cons.injEq]
        constructor
        · rintro rfl
          exact ⟨b, r2, ⟨rfl, rfl, rfl⟩, hb⟩
        · rintro ⟨e, r, ⟨ha, _, _⟩, _⟩
          exact ha
      · simp only [hb, if_false, List.cons.injEq]
        constructor
        · intro hf
          cases hf
        · rintro ⟨e, r, ⟨_, he, _⟩, hx⟩
          exact absurd (he ▸ hx) hb

/-- C24: `GetSortedTimeStamps` returns a strictly increasing list.  When
the first listing fails it returns the empty list with the error.  Otherwise
the error is nil and an integer is in the list exactly when some path `p`
listed for `<dest>/<prefix>.*` (or, when the second token of the prefix is
`mmap` or `cache`, for `<dest>/<first token>.*`) has a base name whose
second dot-separated token parses to that integer as a base-10 `int64`, or
whose second token does not parse and whose third token parses to it. -/
theorem GetSortedTimeStamps_sorted_exact (destinationFolder stem : String)
    (storageHandler : StorageHandler) (h : Host) :
    (GetSortedTimeStamps destinationFolder stem storageHandler h).1.Pairwise (· < ·) ∧
    (∀ err, (storageHandler.Glob h (destinationFolder ++ "/" ++ stem ++ ".*")).2 = some err →
      GetSortedTimeStamps destinationFolder stem storageHandler h = ([], some err)) ∧
    ((storageHandler.Glob h (destinationFolder ++ "/" ++ stem ++ ".*")).2 = none →
      (GetSortedTimeStamps destinationFolder stem storageHandler h).2 = none ∧
      ∀ t : Int, t ∈ (GetSortedTimeStamps destinationFolder stem storageHandler h).1 ↔
        ∃ p : String,
          (p ∈ (storageHandler.Glob h (destinationFolder ++ "/" ++ stem ++ ".*")).1 ∨
            ∃ name extension rest, splitOn stem '.' = name :: extension :: rest ∧
              (extension = "mmap" ∨ extension = "cache") ∧
              p ∈ (storageHandler.Glob h (destinationFolder ++ "/" ++ name ++ ".*")).1) ∧
          ∃ second, (splitOn (pathBase p) '.')[1]? = some second ∧
            (ParseInt second = .ok t ∨
              ((∃ e, ParseInt second = .error e) ∧
                ∃ third, (splitOn (pathBase p) '.')[2]? = some third ∧
                  ParseInt third = .ok t))) := by
  unfold GetSortedTimeStamps
  generalize storageHandler.Glob h (destinationFolder ++ "/" ++ stem ++ ".*") = g
  obtain ⟨paths, ge⟩ := g
  cases ge with
  | some err => simp
  | none =>
    dsimp only
    refine ⟨(sortedKeys_facts _).1, by simp, fun _ => ⟨rfl, fun t => ?_⟩⟩
    rw [(sortedKeys_facts _).2 t, List.mem_filterMap]
    simp only [← timestampOfPath_eq, List.mem_append]
    constructor
    · rintro ⟨p, hp | hp, ht⟩
      · exact ⟨p, Or.inl hp, ht⟩
      · cases hc : cacheName stem with
        | none => simp [hc] at hp
        | some name =>
          obtain ⟨extension, rest, hs, he⟩ := (cacheName_eq stem name).mp hc
          simp only [hc, globbed] at hp
          exact ⟨p, Or.inr ⟨name, extension, rest, hs, he, hp⟩, ht⟩
    · rintro ⟨p, hp | ⟨name, extension, rest, hs, he, hp⟩, ht⟩
      · exact ⟨p, Or.inl hp, ht⟩
      · have hc : cacheName stem = some name := (cacheName_eq stem name).mpr ⟨_, _, hs, he⟩
        exact ⟨p, Or.inr (by simpa [hc, globbed] using hp), ht⟩
/-! ## Properties: serialisation and the round trip -/

theorem bytesLe_refl (a : List Char) : bytesLe a a = true := by
  induction a with
  | nil => rfl
  | cons c cs ih => simp [bytesLe, ih]

theorem bytesLe_total (a b : List Char) : bytesLe a b = true ∨ bytesLe b a = true := by
  induction a generalizing b with
  | nil => simp [bytesLe]
  | cons c cs ih =>
    cases b with
    | nil => simp [bytesLe]
    | cons d ds =>
      simp only [bytesLe]
      rcases Nat.lt_trichotomy c.toNat d.toNat with h | h | h
      · simp [h]
      · simp [h, ih ds]
      · right
        simp [h]

theorem bytesLe_antisymm (a b : List Char) (h1 : bytesLe a b = true) (h2 : bytesLe b a = true) :
    a = b := by
  induction a generalizing b with
  | nil =>
    cases b with
    | nil => rfl
    | cons d ds => simp [bytesLe] at h2
  | cons c cs ih =>
    cases b with
    | nil => simp [bytesLe] at h1
    | cons d ds =>
      simp only [bytesLe] at h1 h2
      rcases Nat.lt_trichotomy c.toNat d.toNat with h | h | h
      · have h3 : ¬ d.toNat < c.toNat := by omega
        have h4 : d.toNat ≠ c.toNat := by omega
        simp [h3, h4] at h2
      · have hcd : c = d := by
          apply Char.ext
          apply UInt32.ext
          exact h
        subst hcd
        simp at h1 h2
        rw [ih ds h1 h2]
      · have h3 : ¬ c.toNat < d.toNat := by omega
        have h4 : c.toNat ≠ d.toNat := by omega
        simp [h3, h4] at h1

theorem bytesLe_trans (a b c : List Char) (h1 : bytesLe a b = true) (h2 : bytesLe b c = true) :
    bytesLe a c = true := by
  induction a generalizing b c with
  | nil => simp [bytesLe]
  | cons x xs ih =>
    cases b with
    | nil => simp [bytesLe] at h1
    | cons y ys =>
      cases c with
      | nil => simp [bytesLe] at h2
      | cons z zs =>
        simp only [bytesLe] at h1 h2 ⊢
        by_cases hxy : x.toNat < y.toNat
        · by_cases hyz : y.toNat < z.toNat
          · have : x.toNat < z.toNat := by omega
            simp [this]
          · by_cases hyz2 : y.toNat = z.toNat
            · have : x.toNat < z.toNat := by omega
              simp [this]
            · simp [hyz, hyz2] at h2
        · by_cases hxy2 : x.toNat = y.toNat
          · rw [if_neg hxy, if_pos hxy2] at h1
            by_cases hyz : y.toNat < z.toNat
            · have : x.toNat < z.toNat := by omega
              simp [this]
            · by_cases hyz2 : y.toNat = z.toNat
              · rw [if_neg hyz, if_pos hyz2] at h2
                have e : x.toNat = z.toNat := by omega
                have ne : ¬ x.toNat < z.toNat := by omega
                rw [if_neg ne, if_pos e]
                exact ih ys zs h1 h2
              · simp [hyz, hyz2] at h2
          · simp [hxy, hxy2] at h1

theorem insertSorted_perm (x : String) (l : List String) : (insertSorted x l).Perm (x :: l) := by
  induction l with
  | nil => simp [insertSorted]
  | cons y ys ih =>
    unfold insertSorted
    split
    · exact List.Perm.refl _
    · exact (List.Perm.cons y ih).trans (List.Perm.swap x y ys)

theorem sortStrings_perm (l : List String) : (sortStrings l).Perm l := by
  induction l with
  | nil => exact List.Perm.refl _
  | cons x xs ih =>
    have : sortStrings (x :: xs) = insertSorted x (sortStrings xs) := rfl
    rw [this]
    exact (insertSorted_perm x _).trans (List.Perm.cons x ih)

theorem insertSorted_sorted (x : String) (l : List String) (hl : l.Pairwise keyLe) :
    (insertSorted x l).Pairwise keyLe := by
  induction l with
  | nil => simp [insertSorted]
  | cons y ys ih =>
    rw [List.pairwise_cons] at hl
    unfold insertSorted
    split
    · rename_i hle
      refine List.pairwise_cons.mpr ⟨fun z hz => ?_, List.pairwise_cons.mpr hl⟩
      rcases List.mem_cons.mp hz with rfl | hz
      · exact hle
      · exact bytesLe_trans _ _ _ hle (hl.1 z hz)
    · rename_i hle
      have hyx : keyLe y x := by
        rcases bytesLe_total x.data y.data with h | h
        · exact absurd h hle
        · exact h
      refine List.pairwise_cons.mpr ⟨fun z hz => ?_, ih hl.2⟩
      rcases (mem_insertSorted x z ys).mp hz with rfl | hz
      · exact hyx
      · exact hl.1 z hz

theorem sortStrings_sorted (l : List String) : (sortStrings l).Pairwise keyLe := by
  induction l with
  | nil => simp [sortStrings]
  | cons x xs ih =>
    have : sortStrings (x :: xs) = insertSorted x (sortStrings xs) := rfl
    rw [this]
    exact insertSorted_sorted x _ ih

theorem sortStrings_of_perm (l1 l2 : List String) (hp : l1.Perm l2) :
    sortStrings l1 = sortStrings l2 := by
  haveI : IsAntisymm String keyLe :=
    ⟨fun a b h1 h2 => String.ext (bytesLe_antisymm _ _ h1 h2)⟩
  exact List.eq_of_perm_of_sorted
    (((sortStrings_perm l1).trans hp).trans (sortStrings_perm l2).symm)
    (sortStrings_sorted l1) (sortStrings_sorted l2)

theorem mapGet_of_mem (p : Properties) (hk : (p.map Prod.fst).Nodup) (e : String × String)
    (he : e ∈ p) : mapGet p e.1 = e.2 := by
  induction p with
  | nil => simp at he
  | cons x xs ih =>
    rw [List.map_cons, List.nodup_cons] at hk
    unfold mapGet
    rcases List.mem_cons.mp he with rfl | hm
    · simp [List.find?]
    · have hne : x.1 ≠ e.1 := fun h => hk.1 (h ▸ List.mem_map_of_mem Prod.fst hm)
      have := ih hk.2 hm
      unfold mapGet at this
      simp [List.find?, hne, this]

theorem serialize_fold (f : String → String) (ks : List String) (acc : String) :
    (ks.foldl (fun content key => content ++ f key) acc).data =
      acc.data ++ (ks.map fun k => (f k).data).flatten := by
  induction ks generalizing acc with
  | nil => simp
  | cons k ks ih => simp [ih, String.data_append]

theorem SerializeProperties_data (p : Properties) :
    (SerializeProperties p).data =
      ((sortStrings (p.map Prod.fst)).map fun k => lineOf (k, mapGet p k) ++ ['\n']).flatten := by
  unfold SerializeProperties
  rw [serialize_fold]
  simp [lineOf, String.data_append]

theorem splitBytes_lines (lines : List (List Char)) (hl : ∀ l ∈ lines, '\n' ∉ l) :
    splitBytes '\n' (lines.map fun l => l ++ ['\n']).flatten = lines ++ [[]] := by
  induction lines with
  | nil => simp [splitBytes]
  | cons l ls ih =>
    have h1 := hl l (by simp)
    have h2 := ih (fun x hx => hl x (by simp [hx]))
    simp only [List.map_cons, List.flatten_cons, List.append_assoc, List.singleton_append,
      List.cons_append]
    rw [splitBytes_append_sep '\n' _ _ h1, List.nil_append, h2]

theorem getLast?_mem {α : Type} (l : List α) (c : α) (h : l.getLast? = some c) : c ∈ l := by
  exact List.mem_of_getLast?_eq_some h

theorem dropWhile_head {α : Type} (p : α → Bool) (l : List α)
    (h : ∀ c, l.head? = some c → p c = false) : l.dropWhile p = l := by
  cases l with
  | nil => rfl
  | cons c cs => simp [List.dropWhile, h c rfl]

theorem trimSpaces_plain (l : List Char) (h1 : l.head? ≠ some ' ') (h2 : l.getLast? ≠ some ' ') :
    trimSpaces l = l := by
  unfold trimSpaces
  have a1 : ∀ c, l.head? = some c → (decide (c = ' ')) = false := by
    intro c hc
    have : c ≠ ' ' := fun e => h1 (e ▸ hc)
    simpa using this
  have a2 : ∀ c, l.reverse.head? = some c → (decide (c = ' ')) = false := by
    intro c hc
    rw [List.head?_reverse] at hc
    have : c ≠ ' ' := fun e => h2 (e ▸ hc)
    simpa using this
  rw [dropWhile_head _ l a1, dropWhile_head _ l.reverse a2]
  simp

theorem lineOf_facts (e : String × String) (he : PlainEntry e) :
    '\n' ∉ lineOf e ∧ dropCR (lineOf e) = lineOf e ∧ trimSpaces (lineOf e) = lineOf e ∧
    (lineOf e).head? ≠ some '#' ∧ (lineOf e).length ≠ 0 ∧
    splitBytes '=' (lineOf e) = [e.1.data, e.2.data] := by
  obtain ⟨⟨k1, k2, k3, k4, k5⟩, ⟨v1, v2, v3, v4, v5⟩, hh, hlen⟩ := he
  have hhead : ∀ c, (lineOf e).head? = some c → c = '=' ∨ e.1.data.head? = some c := by
    intro c hc
    unfold lineOf at hc
    cases hd : e.1.data with
    | nil =>
      rw [hd] at hc
      simp at hc
      exact Or.inl hc.symm
    | cons a as =>
      rw [hd] at hc
      simp at hc
      exact Or.inr (by simp [hc])
  have hlast : ∀ c, (lineOf e).getLast? = some c → c = '=' ∨ e.2.data.getLast? = some c := by
    intro c hc
    unfold lineOf at hc
    rw [List.getLast?_append, List.getLast?_cons] at hc
    cases hd : e.2.data.getLast? with
    | none =>
      rw [hd] at hc
      simp at hc
      exact Or.inl hc.symm
    | some a =>
      rw [hd] at hc
      simp at hc
      exact Or.inr (by rw [hc])
  refine ⟨?_, ?_, ?_, ?_, ?_, ?_⟩
  · simp [lineOf, k2, v2]
  · unfold dropCR
    rw [if_neg]
    intro hc
    rcases hlast _ hc with h | h
    · exact absurd h (by decide)
    · exact v3 (getLast?_mem _ _ h)
  · apply trimSpaces_plain
    · intro hc
      rcases hhead _ hc with h | h
      · exact absurd h (by decide)
      · exact k4 h
    · intro hc
      rcases hlast _ hc with h | h
      · exact absurd h (by decide)
      · exact v5 h
  · intro hc
    rcases hhead _ hc with h | h
    · exact absurd h (by decide)
    · exact hh h
  · simp [lineOf]
  · unfold lineOf
    rw [splitBytes_append_sep '=' _ _ k1, splitBytes_no_sep '=' _ v1]

theorem loadLines_entries (es : List (String × String)) (hes : ∀ e ∈ es, PlainEntry e)
    (acc : Properties) :
    loadLines (es.map lineOf ++ [[]]) acc = (es.foldl (fun a e => mapSet a e.1 e.2) acc, none) := by
  induction es generalizing acc with
  | nil => simp [loadLines, trimSpaces, dropCR]
  | cons e es ih =>
    have he := hes e (by simp)
    obtain ⟨_, f2, f3, f4, f5, f6⟩ := lineOf_facts e he
    have hlen : ¬ (lineOf e).length > 65535 := by
      have := he.2.2.2
      omega
    simp only [List.map_cons, List.cons_append, List.foldl_cons]
    unfold loadLines
    rw [if_neg hlen]
    simp only [f2, f3]
    rw [if_neg (by simp [f4, f5]), f6]
    exact ih (fun x hx => hes x (by simp [hx])) _

theorem foldl_mapSet (es : List (String × String)) (acc : Properties)
    (hk : ((acc ++ es).map Prod.fst).Nodup) :
    es.foldl (fun a e => mapSet a e.1 e.2) acc = acc ++ es := by
  induction es generalizing acc with
  | nil => simp
  | cons e es ih =>
    have hnot : ∀ x ∈ acc, x.1 ≠ e.1 := by
      intro x hx heq
      rw [List.map_append, List.nodup_append] at hk
      exact hk.2.2 (List.mem_map_of_mem Prod.fst hx) (by simp [heq])
    have hset : mapSet acc e.1 e.2 = acc ++ [e] := by
      unfold mapSet
      rw [List.filter_eq_self.mpr (fun x hx => by simpa using hnot x hx)]
    simp only [List.foldl_cons, hset]
    rw [ih (acc ++ [e]) (by simpa using hk)]
    simp

theorem sorted_entries_perm (p : Properties) (hk : (p.map Prod.fst).Nodup) :
    ((sortStrings (p.map Prod.fst)).map fun k => (k, mapGet p k)).Perm p := by
  have h1 : ((sortStrings (p.map Prod.fst)).map fun k => (k, mapGet p k)).Perm
      ((p.map Prod.fst).map fun k => (k, mapGet p k)) :=
    List.Perm.map _ (sortStrings_perm _)
  have h2 : ((p.map Prod.fst).map fun k => (k, mapGet p k)) = p := by
    rw [List.map_map]
    conv_rhs => rw [← List.map_id p]
    apply List.map_congr_left
    intro e he
    simp [mapGet_of_mem p hk e he]
  rw [h2] at h1
  exact h1

theorem loadProperties_serialized (p : Properties) (hk : (p.map Prod.fst).Nodup)
    (hp : ∀ e ∈ p, PlainEntry e) :
    loadProperties ⟨SerializeProperties p, none⟩ =
      ((sortStrings (p.map Prod.fst)).map fun k => (k, mapGet p k), none) := by
  have hperm := sorted_entries_perm p hk
  generalize hq : ((sortStrings (p.map Prod.fst)).map fun k => (k, mapGet p k)) = q at hperm
  have hqe : ∀ e ∈ q, PlainEntry e := fun e he => hp e (hperm.subset he)
  have hqk : (q.map Prod.fst).Nodup := (hperm.map Prod.fst).nodup_iff.mpr hk
  have hdata : (SerializeProperties p).data = (q.map fun e => lineOf e ++ ['\n']).flatten := by
    rw [SerializeProperties_data, ← hq, List.map_map]
    rfl
  have hlines : (q.map fun e => lineOf e ++ ['\n']) =
      (q.map lineOf).map fun l => l ++ ['\n'] := by
    rw [List.map_map]
    rfl
  unfold loadProperties
  dsimp only
  rw [hdata, hlines, splitBytes_lines _ (by
    intro l hl
    obtain ⟨e, he, rfl⟩ := List.mem_map.mp hl
    exact (lineOf_facts e (hqe e he)).1),
    loadLines_entries q hqe, foldl_mapSet q [] (by simpa using hqk)]
  simp

theorem SerializeProperties_perm (p p2 : Properties) (hk : (p.map Prod.fst).Nodup)
    (hperm : p2.Perm p) : SerializeProperties p2 = SerializeProperties p := by
  have hk2 : (p2.map Prod.fst).Nodup := (hperm.map Prod.fst).nodup_iff.mpr hk
  apply String.ext
  rw [SerializeProperties_data, SerializeProperties_data,
    sortStrings_of_perm _ _ (hperm.map Prod.fst)]
  congr 1
  apply List.map_congr_left
  intro k hkm
  rw [mem_sortStrings] at hkm
  obtain ⟨e, he, rfl⟩ := List.mem_map.mp hkm
  rw [mapGet_of_mem p hk e he, mapGet_of_mem p2 hk2 e (hperm.symm.subset he)]

theorem mapGet_not_mem (p : Properties) (key : String) (hn : key ∉ p.map Prod.fst) :
    mapGet p key = "" := by
  unfold mapGet
  have : p.find? (fun e => decide (e.1 = key)) = none := by
    rw [List.find?_eq_none]
    intro e he
    have hne : e.1 ≠ key := fun h => hn (h ▸ List.mem_map_of_mem Prod.fst he)
    simpa using hne
  rw [this]

theorem mapGet_perm (p p2 : Properties) (hk : (p.map Prod.fst).Nodup) (hperm : p2.Perm p)
    (key : String) : mapGet p2 key = mapGet p key := by
  have hk2 : (p2.map Prod.fst).Nodup := (hperm.map Prod.fst).nodup_iff.mpr hk
  by_cases hm : key ∈ p.map Prod.fst
  · obtain ⟨e, he, rfl⟩ := List.mem_map.mp hm
    rw [mapGet_of_mem p hk e he, mapGet_of_mem p2 hk2 e (hperm.symm.subset he)]
  · rw [mapGet_not_mem p key hm,
      mapGet_not_mem p2 key (fun h => hm ((hperm.map Prod.fst).subset h))]

/-- C28: for a property map `p` (its entries, with distinct keys) whose
keys and values contain no `=`, newline or carriage return and have no
leading or trailing space, whose keys do not begin with `#` and whose lines
`key=value` have at most 65535 bytes, `loadProperties` on the text of
`SerializeProperties(p)` returns a nil error and a map with exactly the
entries of `p`.  The text consists of one line `key=value` followed by a
newline per entry, the keys in ascending byte order, and is the same for
every order in which the entries of the map are enumerated. -/
theorem properties_round_trip (p : Properties) (hk : (p.map Prod.fst).Nodup)
    (hp : ∀ e ∈ p, PlainEntry e) :
    (∃ q, loadProperties ⟨SerializeProperties p, none⟩ = (q, none) ∧ q.Perm p ∧
      (∀ key, mapGet q key = mapGet p key)) ∧
    (SerializeProperties p).data =
      ((sortStrings (p.map Prod.fst)).map fun k =>
        k.data ++ '=' :: (mapGet p k).data ++ ['\n']).flatten ∧
    (sortStrings (p.map Prod.fst)).Pairwise keyLe ∧
    (sortStrings (p.map Prod.fst)).Perm (p.map Prod.fst) ∧
    ∀ p2 : Properties, p2.Perm p → SerializeProperties p2 = SerializeProperties p := by
  refine ⟨⟨_, loadProperties_serialized p hk hp, sorted_entries_perm p hk, fun key => ?_⟩, ?_,
    sortStrings_sorted _, sortStrings_perm _, fun p2 h2 => SerializeProperties_perm p p2 hk h2⟩
  · exact mapGet_perm p _ hk (sorted_entries_perm p hk) key
  · rw [SerializeProperties_data]
    simp [lineOf]

/-- C28 on the settings of a generation: two entries, given out of key
order. -/
theorem properties_round_trip_witness :
    ∃ q, loadProperties
        ⟨SerializeProperties [("compression_method", "zst"), ("checksum_extension", "xxh3")],
          none⟩ = (q, none) ∧
      q.Perm [("compression_method", "zst"), ("checksum_extension", "xxh3")] ∧
      (∀ key, mapGet q key =
        mapGet [("compression_method", "zst"), ("checksum_extension", "xxh3")] key) :=
  (properties_round_trip [("compression_method", "zst"), ("checksum_extension", "xxh3")]
    (by decide)
    (by
      intro e he
      simp only [List.mem_cons, List.mem_singleton, List.not_mem_nil, or_false] at he
      rcases he with rfl | rfl <;> simp [PlainEntry, Plain, lineOf])).1

/-! ## `ForEach` over a key-value file -/

theorem indexByte_append (c : Char) (a b : List Char) (ha : c ∉ a) :
    indexByte c (a ++ c :: b) = some a.length := by
  induction a with
  | nil => simp [indexByte]
  | cons x xs ih =>
    have hx : x ≠ c := fun e => ha (by simp [e])
    have := ih (fun e => ha (by simp [e]))
    simp [indexByte, hx, this]

theorem indexByte_none (c : Char) (a : List Char) (ha : c ∉ a) : indexByte c a = none := by
  induction a with
  | nil => rfl
  | cons x xs ih =>
    have hx : x ≠ c := fun e => ha (by simp [e])
    have := ih (fun e => ha (by simp [e]))
    simp [indexByte, hx, this]

theorem sliceBytes_mid (pre line rest : List Char) :
    sliceBytes (pre ++ (line ++ rest)) pre.length (pre.length + line.length) = line := by
  simp [sliceBytes]

theorem forEachFrom_pass {σ : Type} (fn : σ → String → String → Int → Outcome σ)
    (all : List Char) (last : Int) (char : Char) (rest : List Char) (i start : Nat)
    (k : KeyValueFileScanner) (s : σ) (h : ¬ (char = recordSeparator ∨ (i : Int) = last)) :
    KeyValueFileScanner.forEachFrom fn all last (char :: rest) i start k s =
      KeyValueFileScanner.forEachFrom fn all last rest (i + 1) start k s := by
  rw [KeyValueFileScanner.forEachFrom, if_neg h]

theorem forEachFrom_line {σ : Type} (fn : σ → String → String → Int → Outcome σ)
    (all : List Char) (last : Int) (char : Char) (rest : List Char) (i start : Nat)
    (k : KeyValueFileScanner) (s : σ) (h : char = recordSeparator ∨ (i : Int) = last) :
    (KeyValueFileScanner.scanLine fn k (sliceBytes all start (if char ≠ recordSeparator then i + 1 else i)) s =
        .panic → KeyValueFileScanner.forEachFrom fn all last (char :: rest) i start k s = .panic) ∧
    (∀ out err,
      KeyValueFileScanner.scanLine fn k (sliceBytes all start (if char ≠ recordSeparator then i + 1 else i)) s =
        .ret out (some err) →
      KeyValueFileScanner.forEachFrom fn all last (char :: rest) i start k s = .ret out (some err)) ∧
    (∀ out,
      KeyValueFileScanner.scanLine fn k (sliceBytes all start (if char ≠ recordSeparator then i + 1 else i)) s =
        .ret out none →
      KeyValueFileScanner.forEachFrom fn all last (char :: rest) i start k s =
        KeyValueFileScanner.forEachFrom fn all last rest (i + 1) (i + 1) out.1 out.2) := by
  rw [KeyValueFileScanner.forEachFrom, if_pos h]
  dsimp only
  refine ⟨fun hs => ?_, fun out err hs => ?_, fun out hs => ?_⟩ <;> rw [hs]

/-- Bytes that are not the separator and are not the last byte are passed
over. -/
theorem forEachFrom_skip {σ : Type} (fn : σ → String → String → Int → Outcome σ)
    (all : List Char) (a rem : List Char) (i start : Nat) (k : KeyValueFileScanner) (s : σ)
    (ha : recordSeparator ∉ a) (hrem : rem ≠ []) (hlen : all.length = i + a.length + rem.length) :
    KeyValueFileScanner.forEachFrom fn all ((all.length : Int) - 1) (a ++ rem) i start k s =
      KeyValueFileScanner.forEachFrom fn all ((all.length : Int) - 1) rem (i + a.length) start k s := by
  induction a generalizing i with
  | nil => simp
  | cons c cs ih =>
    have hc : c ≠ recordSeparator := fun e => ha (by simp [e])
    have hcs : recordSeparator ∉ cs := fun e => ha (by simp [e])
    have hr : 0 < rem.length := List.length_pos.mpr hrem
    have hi : ¬ ((i : Int) = (all.length : Int) - 1) := by
      simp only [List.length_cons] at hlen
      omega
    simp only [List.cons_append]
    rw [forEachFrom_pass _ _ _ _ _ _ _ _ _ (by simp [hc, hi])]
    have := ih (i + 1) hcs (by simp only [List.length_cons] at hlen; omega)
    have e : i + 1 + cs.length = i + (c :: cs).length := by
      simp only [List.length_cons]
      omega
    rw [this, e]

/-- A well-formed line: the scanner calls `fn` with the key, the value and
the query id of the key. -/
theorem scanLine_good {σ : Type} (fn : σ → String → String → Int → Outcome σ)
    (k : KeyValueFileScanner) (r : String × String) (s : σ) (hr : GoodRecord r)
    (hk : k.DeduplicateKeys = false) :
    match fn s r.1 r.2 (queryIdOf r.1) with
    | .panic => KeyValueFileScanner.scanLine fn k (lineOf r) s = .panic
    | .ret s1 (some err) => ∃ k1, KeyValueFileScanner.scanLine fn k (lineOf r) s = .ret (k1, s1) (some err)
    | .ret s1 none => ∃ k1, k1.DeduplicateKeys = false ∧
        KeyValueFileScanner.scanLine fn k (lineOf r) s = .ret (k1, s1) none := by
  obtain ⟨h1, h2, _, _⟩ := hr
  have hidx : indexByte '=' (lineOf r) = some r.1.data.length := indexByte_append _ _ _ h2
  have hkey : String.mk ((lineOf r).take r.1.data.length) = r.1 := by
    simp [lineOf]
  have hval : String.mk ((lineOf r).drop (r.1.data.length + 1)) = r.2 := by
    have e : lineOf r = (r.1.data ++ ['=']) ++ r.2.data := by simp [lineOf]
    rw [e, List.drop_left' (by simp)]
  obtain ⟨q, hq⟩ : ∃ q, KeyValueFileScanner.ExtractQueryId r.1 = .ret q none := by
    unfold KeyValueFileScanner.ExtractQueryId
    cases hd : r.1.data with
    | nil => exact absurd hd h1
    | cons c rest =>
      dsimp only
      split
      · exact ⟨_, rfl⟩
      · split <;> exact ⟨_, rfl⟩
  have hqid : queryIdOf r.1 = q := by simp [queryIdOf, hq]
  unfold KeyValueFileScanner.scanLine
  rw [hidx]
  simp only [hkey, hval, hq, hk, hqid]
  cases hf : fn s r.1 r.2 q with
  | panic => simp
  | ret s1 e =>
    cases e with
    | some err => simp
    | none =>
      simp only [Bool.false_eq_true, if_false]
      refine ⟨_, ?_, rfl⟩
      simp only [KeyValueFileScanner.UpdateStats]
      repeat' split
      all_goals simp [hk]

theorem lineOf_no_separator (r : String × String) (hr : GoodRecord r) :
    recordSeparator ∉ lineOf r := by
  obtain ⟨_, _, h3, h4⟩ := hr
  have : recordSeparator ≠ '=' := by decide
  simp [lineOf, h3, h4, this]

theorem scanLine_cases {σ : Type} (fn : σ → String → String → Int → Outcome σ)
    (k : KeyValueFileScanner) (r : String × String) (s : σ) (hr : GoodRecord r)
    (hk : k.DeduplicateKeys = false) :
    (fn s r.1 r.2 (queryIdOf r.1) = .panic → KeyValueFileScanner.scanLine fn k (lineOf r) s = .panic) ∧
    (∀ s1 err, fn s r.1 r.2 (queryIdOf r.1) = .ret s1 (some err) →
      ∃ k1, KeyValueFileScanner.scanLine fn k (lineOf r) s = .ret (k1, s1) (some err)) ∧
    (∀ s1, fn s r.1 r.2 (queryIdOf r.1) = .ret s1 none →
      ∃ k1, k1.DeduplicateKeys = false ∧ KeyValueFileScanner.scanLine fn k (lineOf r) s = .ret (k1, s1) none) := by
  have h := scanLine_good fn k r s hr hk
  refine ⟨fun hf => ?_, fun s1 err hf => ?_, fun s1 hf => ?_⟩ <;> rw [hf] at h <;> exact h

/-- The loop over records that are each followed by the separator. -/
theorem forEachFrom_terminated {σ : Type} (fn : σ → String → String → Int → Outcome σ)
    (all : List Char) (rs : List (String × String)) (hgood : ∀ r ∈ rs, GoodRecord r) :
    ∀ (pre rest : List Char) (k : KeyValueFileScanner) (s : σ),
      all = pre ++ (terminated rs ++ rest) → k.DeduplicateKeys = false →
      (feed fn rs s = .panic →
        KeyValueFileScanner.forEachFrom fn all ((all.length : Int) - 1) (terminated rs ++ rest) pre.length pre.length
          k s = .panic) ∧
      (∀ s1 err, feed fn rs s = .ret s1 (some err) →
        ∃ k1, KeyValueFileScanner.forEachFrom fn all ((all.length : Int) - 1) (terminated rs ++ rest) pre.length
          pre.length k s = .ret (k1, s1) (some err)) ∧
      (∀ s1, feed fn rs s = .ret s1 none →
        ∃ k1, k1.DeduplicateKeys = false ∧
          KeyValueFileScanner.forEachFrom fn all ((all.length : Int) - 1) (terminated rs ++ rest) pre.length
            pre.length k s =
          KeyValueFileScanner.forEachFrom fn all ((all.length : Int) - 1) rest (pre.length + (terminated rs).length)
            (pre.length + (terminated rs).length) k1 s1) := by
  induction rs with
  | nil =>
    intro pre rest k s hall hk
    simp only [terminated, List.map_nil, List.flatten_nil, List.nil_append, List.length_nil,
      Nat.add_zero, feed]
    refine ⟨?_, ?_, ?_⟩
    · intro h
      cases h
    · intro s1 err h
      cases h
    · intro s1 h
      cases h
      exact ⟨k, hk, rfl⟩
  | cons r rs ih =>
    intro pre rest k s hall hk
    have hr := hgood r (by simp)
    have hrs : ∀ x ∈ rs, GoodRecord x := fun x hx => hgood x (by simp [hx])
    have hterm : terminated (r :: rs) = lineOf r ++ (recordSeparator :: terminated rs) := by
      simp [terminated]
    have hsplit : terminated (r :: rs) ++ rest =
        lineOf r ++ (recordSeparator :: (terminated rs ++ rest)) := by
      rw [hterm]
      simp
    have hall2 : all = pre ++ (lineOf r ++ (recordSeparator :: (terminated rs ++ rest))) := by
      rw [hall, hsplit]
    have hlen : all.length =
        pre.length + (lineOf r).length + (recordSeparator :: (terminated rs ++ rest)).length := by
      rw [hall2]
      simp only [List.length_append]
      omega
    have hskip := forEachFrom_skip fn all (lineOf r) (recordSeparator :: (terminated rs ++ rest))
      pre.length pre.length k s (lineOf_no_separator r hr) (by simp) hlen
    have hline := forEachFrom_line fn all ((all.length : Int) - 1) recordSeparator
      (terminated rs ++ rest) (pre.length + (lineOf r).length) pre.length k s (Or.inl rfl)
    have hslice : sliceBytes all pre.length
        (if recordSeparator ≠ recordSeparator then pre.length + (lineOf r).length + 1
          else pre.length + (lineOf r).length) = lineOf r := by
      rw [if_neg (by simp), hall2, sliceBytes_mid]
    rw [hslice] at hline
    obtain ⟨c1, c2, c3⟩ := scanLine_cases fn k r s hr hk
    have hpre : (pre ++ (lineOf r ++ [recordSeparator])).length =
        pre.length + (lineOf r).length + 1 := by
      simp only [List.length_append, List.length_singleton]
      omega
    have hlen2 : pre.length + (terminated (r :: rs)).length =
        (pre ++ (lineOf r ++ [recordSeparator])).length + (terminated rs).length := by
      rw [hterm, hpre]
      simp only [List.length_append, List.length_cons]
      omega
    rw [hsplit, hskip, hlen2]
    cases hf : fn s r.1 r.2 (queryIdOf r.1) with
    | panic =>
      have hfeed : feed fn (r :: rs) s = .panic := by simp [feed, hf]
      rw [hfeed]
      refine ⟨fun _ => hline.1 (c1 hf), ?_, ?_⟩
      · intro s1 err h
        cases h
      · intro s1 h
        cases h
    | ret s2 e =>
      cases e with
      | some err2 =>
        have hfeed : feed fn (r :: rs) s = .ret s2 (some err2) := by simp [feed, hf]
        rw [hfeed]
        obtain ⟨k1, hk1⟩ := c2 s2 err2 hf
        refine ⟨?_, ?_, ?_⟩
        · intro h
          cases h
        · intro s1 err h
          cases h
          exact ⟨k1, hline.2.1 _ _ hk1⟩
        · intro s1 h
          cases h
      | none =>
        have hfeed : feed fn (r :: rs) s = feed fn rs s2 := by simp [feed, hf]
        rw [hfeed]
        obtain ⟨k1, hd1, hk1⟩ := c3 s2 hf
        have hgo := hline.2.2 _ hk1
        dsimp only at hgo
        rw [hgo, ← hpre]
        exact ih hrs (pre ++ (lineOf r ++ [recordSeparator])) rest k1 s2
          (by rw [hall2]; simp) hd1

theorem feed_append {σ : Type} (fn : σ → String → String → Int → Outcome σ)
    (a b : List (String × String)) (s : σ) :
    (feed fn a s = .panic → feed fn (a ++ b) s = .panic) ∧
    (∀ s1 err, feed fn a s = .ret s1 (some err) → feed fn (a ++ b) s = .ret s1 (some err)) ∧
    (∀ s1, feed fn a s = .ret s1 none → feed fn (a ++ b) s = feed fn b s1) := by
  induction a generalizing s with
  | nil =>
    simp only [feed, List.nil_append]
    refine ⟨?_, ?_, ?_⟩
    · intro h
      cases h
    · intro s1 err h
      cases h
    · intro s1 h
      cases h
      rfl
  | cons r rs ih =>
    simp only [List.cons_append, feed]
    cases hf : fn s r.1 r.2 (queryIdOf r.1) with
    | panic => simp
    | ret s2 e =>
      cases e with
      | some err2 => simp
      | none => exact ih s2

/-- The loop over the last record when no separator follows it. -/
theorem forEachFrom_last {σ : Type} (fn : σ → String → String → Int → Outcome σ)
    (all pre : List Char) (r : String × String) (hr : GoodRecord r) (k : KeyValueFileScanner)
    (s : σ) (hall : all = pre ++ lineOf r) (hk : k.DeduplicateKeys = false) :
    (fn s r.1 r.2 (queryIdOf r.1) = .panic →
      KeyValueFileScanner.forEachFrom fn all ((all.length : Int) - 1) (lineOf r) pre.length pre.length k s =
        .panic) ∧
    (∀ s1 err, fn s r.1 r.2 (queryIdOf r.1) = .ret s1 (some err) →
      ∃ k1, KeyValueFileScanner.forEachFrom fn all ((all.length : Int) - 1) (lineOf r) pre.length pre.length k s =
        .ret (k1, s1) (some err)) ∧
    (∀ s1, fn s r.1 r.2 (queryIdOf r.1) = .ret s1 none →
      ∃ k1, KeyValueFileScanner.forEachFrom fn all ((all.length : Int) - 1) (lineOf r) pre.length pre.length k s =
        .ret (k1, s1) none) := by
  have hne : lineOf r ≠ [] := by simp [lineOf]
  obtain ⟨a, c, hac⟩ : ∃ a c, lineOf r = a ++ [c] := by
    rcases List.eq_nil_or_concat (lineOf r) with e | ⟨a, c, e⟩
    · exact absurd e hne
    · exact ⟨a, c, by simpa using e⟩
  have hsep := lineOf_no_separator r hr
  have ha : recordSeparator ∉ a := fun e => hsep (by rw [hac]; simp [e])
  have hc : c ≠ recordSeparator := fun e => hsep (by rw [hac]; simp [e])
  have hlen : all.length = pre.length + a.length + [c].length := by
    rw [hall, hac]
    simp only [List.length_append, List.length_singleton]
    omega
  have hskip := forEachFrom_skip fn all a [c] pre.length pre.length k s ha (by simp) hlen
  have hlast : ((pre.length + a.length : Nat) : Int) = (all.length : Int) - 1 := by
    simp only [List.length_singleton] at hlen
    omega
  have hline := forEachFrom_line fn all ((all.length : Int) - 1) c [] (pre.length + a.length)
    pre.length k s (Or.inr hlast)
  have hslice : sliceBytes all pre.length
      (if c ≠ recordSeparator then pre.length + a.length + 1 else pre.length + a.length) =
      lineOf r := by
    rw [if_pos hc]
    have e1 : all = pre ++ (lineOf r ++ []) := by simp [hall]
    have e2 : pre.length + a.length + 1 = pre.length + (lineOf r).length := by
      rw [hac]
      simp only [List.length_append, List.length_singleton]
      omega
    rw [e2, e1, sliceBytes_mid]
  rw [hslice] at hline
  obtain ⟨c1, c2, c3⟩ := scanLine_cases fn k r s hr hk
  rw [hac, hskip]
  refine ⟨fun hf => hline.1 (c1 hf), fun s1 err hf => ?_, fun s1 hf => ?_⟩
  · obtain ⟨k1, hk1⟩ := c2 s1 err hf
    exact ⟨k1, hline.2.1 _ _ hk1⟩
  · obtain ⟨k1, _, hk1⟩ := c3 s1 hf
    refine ⟨k1, ?_⟩
    rw [hline.2.2 _ hk1]
    rfl

theorem terminated_concat (rs : List (String × String)) (r : String × String) :
    terminated (rs ++ [r]) = terminated rs ++ (lineOf r ++ [recordSeparator]) := by
  simp [terminated]

theorem kvBytes_concat (rs : List (String × String)) (r : String × String) :
    kvBytes (rs ++ [r]) false = terminated rs ++ lineOf r := by
  have : terminated rs ++ (lineOf r ++ [recordSeparator]) =
      (terminated rs ++ lineOf r) ++ [recordSeparator] := by simp
  rw [kvBytes, if_neg (by simp), terminated_concat, this, List.dropLast_concat]

/-- What `ForEach` does on the bytes of well-formed records, with
deduplication off: it calls `fn` on each record in turn, with the query id
of its key, until `fn` fails. -/
theorem ForEach_feed {σ : Type} (fn : σ → String → String → Int → Outcome σ)
    (rs : List (String × String)) (hne : rs ≠ []) (hgood : ∀ r ∈ rs, GoodRecord r)
    (trailing : Bool) (k : KeyValueFileScanner) (hk : k.DeduplicateKeys = false)
    (hb : k.MappedBytes = some (String.mk (kvBytes rs trailing))) (s : σ) :
    (feed fn rs s = .panic → k.ForEach fn s = .panic) ∧
    (∀ s1 err, feed fn rs s = .ret s1 (some err) →
      ∃ k1, k.ForEach fn s = .ret (k1, s1) (some err)) ∧
    (∀ s1, feed fn rs s = .ret s1 none → ∃ k1, k.ForEach fn s = .ret (k1, s1) none) := by
  unfold KeyValueFileScanner.ForEach
  simp only [hb, hk, Bool.false_eq_true, if_false]
  cases trailing with
  | true =>
    have hall : kvBytes rs true = [] ++ (terminated rs ++ []) := by simp [kvBytes]
    obtain ⟨p1, p2, p3⟩ := forEachFrom_terminated fn (kvBytes rs true) rs hgood [] [] k s hall hk
    have e : terminated rs ++ [] = kvBytes rs true := by simp [kvBytes]
    rw [e] at p1 p2 p3
    refine ⟨p1, p2, fun s1 hf => ?_⟩
    obtain ⟨k1, _, h1⟩ := p3 s1 hf
    exact ⟨k1, by rw [List.length_nil] at h1; rw [h1]; rfl⟩
  | false =>
    obtain ⟨init, last, hrs⟩ : ∃ init last, rs = init ++ [last] := by
      rcases List.eq_nil_or_concat rs with e | ⟨a, c, e⟩
      · exact absurd e hne
      · exact ⟨a, c, by simpa using e⟩
    subst hrs
    have hinit : ∀ r ∈ init, GoodRecord r := fun r hr => hgood r (by simp [hr])
    have hlast : GoodRecord last := hgood last (by simp)
    have hall : kvBytes (init ++ [last]) false = [] ++ (terminated init ++ lineOf last) := by
      rw [kvBytes_concat]
      rfl
    obtain ⟨p1, p2, p3⟩ := forEachFrom_terminated fn (kvBytes (init ++ [last]) false) init hinit
      [] (lineOf last) k s hall hk
    have e : terminated init ++ lineOf last = kvBytes (init ++ [last]) false := by
      rw [kvBytes_concat]
    rw [e] at p1 p2 p3
    simp only [List.length_nil, Nat.zero_add] at p1 p2 p3
    obtain ⟨f1, f2, f3⟩ := feed_append fn init [last] s
    cases hfi : feed fn init s with
    | panic =>
      rw [f1 hfi]
      refine ⟨fun _ => p1 hfi, ?_, ?_⟩
      · intro s1 err h
        cases h
      · intro s1 h
        cases h
    | ret s2 e2 =>
      cases e2 with
      | some err2 =>
        rw [f2 _ _ hfi]
        refine ⟨?_, ?_, ?_⟩
        · intro h
          cases h
        · intro s1 err h
          cases h
          exact p2 _ _ hfi
        · intro s1 h
          cases h
      | none =>
        rw [f3 _ hfi]
        obtain ⟨k1, hd1, h1⟩ := p3 s2 hfi
        rw [h1]
        have hall2 : kvBytes (init ++ [last]) false = terminated init ++ lineOf last := by
          rw [kvBytes_concat]
        have hl := forEachFrom_last fn (kvBytes (init ++ [last]) false) (terminated init) last
          hlast k1 s2 hall2 hd1
        simp only [feed]
        cases hf : fn s2 last.1 last.2 (queryIdOf last.1) with
        | panic =>
          refine ⟨fun _ => hl.1 hf, ?_, ?_⟩
          · intro s1 err h
            cases h
          · intro s1 h
            cases h
        | ret s3 e3 =>
          cases e3 with
          | some err3 =>
            refine ⟨?_, ?_, ?_⟩
            · intro h
              cases h
            · intro s1 err h
              cases h
              exact hl.2.1 _ _ hf
            · intro s1 h
              cases h
          | none =>
            refine ⟨?_, ?_, ?_⟩
            · intro h
              cases h
            · intro s1 err h
              cases h
            · intro s1 h
              cases h
              exact hl.2.2 _ hf

theorem scanLine_bad {σ : Type} (fn : σ → String → String → Int → Outcome σ)
    (k : KeyValueFileScanner) (line : List Char) (s : σ) (hl : '=' ∉ line) :
    KeyValueFileScanner.scanLine fn k line s =
      .ret (k, s) (some (.plain ("Invalid line \x27" ++ String.mk line ++
        "\x27 missing = separator, format should be key=value"))) := by
  unfold KeyValueFileScanner.scanLine
  rw [indexByte_none _ _ hl]

/-- The loop at a line without `=`. -/
theorem forEachFrom_bad {σ : Type} (fn : σ → String → String → Int → Outcome σ)
    (all pre bad tail : List Char) (k : KeyValueFileScanner) (s : σ)
    (hall : all = pre ++ (bad ++ tail)) (heq : '=' ∉ bad) (hsep : recordSeparator ∉ bad)
    (htail : (tail = [] ∧ bad ≠ []) ∨ ∃ t, tail = recordSeparator :: t) :
    KeyValueFileScanner.forEachFrom fn all ((all.length : Int) - 1) (bad ++ tail) pre.length pre.length k s =
      .ret (k, s) (some (.plain ("Invalid line \x27" ++ String.mk bad ++
        "\x27 missing = separator, format should be key=value"))) := by
  rcases htail with ⟨ht, hb⟩ | ⟨t, ht⟩
  · subst ht
    obtain ⟨a, c, hac⟩ : ∃ a c, bad = a ++ [c] := by
      rcases List.eq_nil_or_concat bad with e | ⟨a, c, e⟩
      · exact absurd e hb
      · exact ⟨a, c, by simpa using e⟩
    have ha : recordSeparator ∉ a := fun e => hsep (by rw [hac]; simp [e])
    have hc : c ≠ recordSeparator := fun e => hsep (by rw [hac]; simp [e])
    have hlen : all.length = pre.length + a.length + [c].length := by
      rw [hall, hac]
      simp only [List.length_append, List.length_singleton, List.length_nil]
      omega
    have hskip := forEachFrom_skip fn all a [c] pre.length pre.length k s ha (by simp) hlen
    have hlast : ((pre.length + a.length : Nat) : Int) = (all.length : Int) - 1 := by
      simp only [List.length_singleton] at hlen
      omega
    have hline := forEachFrom_line fn all ((all.length : Int) - 1) c [] (pre.length + a.length)
      pre.length k s (Or.inr hlast)
    have hslice : sliceBytes all pre.length
        (if c ≠ recordSeparator then pre.length + a.length + 1 else pre.length + a.length) =
        bad := by
      rw [if_pos hc]
      have e2 : pre.length + a.length + 1 = pre.length + bad.length := by
        rw [hac]
        simp only [List.length_append, List.length_singleton]
        omega
      rw [e2, hall, sliceBytes_mid]
    rw [hslice] at hline
    rw [List.append_nil, hac, hskip, ← hac]
    rw [hac] at hline ⊢
    exact hline.2.1 _ _ (scanLine_bad fn k _ s (by rw [← hac]; exact heq))
  · subst ht
    have hlen : all.length = pre.length + bad.length + (recordSeparator :: t).length := by
      rw [hall]
      simp only [List.length_append]
      omega
    have hskip := forEachFrom_skip fn all bad (recordSeparator :: t) pre.length pre.length k s
      hsep (by simp) hlen
    have hline := forEachFrom_line fn all ((all.length : Int) - 1) recordSeparator t
      (pre.length + bad.length) pre.length k s (Or.inl rfl)
    have hslice : sliceBytes all pre.length
        (if recordSeparator ≠ recordSeparator then pre.length + bad.length + 1
          else pre.length + bad.length) = bad := by
      rw [if_neg (by simp), hall, sliceBytes_mid]
    rw [hslice] at hline
    rw [hskip]
    exact hline.2.1 _ _ (scanLine_bad fn k _ s heq)

theorem feed_total {σ : Type} (g : σ → String → String → Int → σ)
    (rs : List (String × String)) (s : σ) :
    feed (fun s key value queryId => .ret (g s key value queryId) none) rs s =
      .ret (rs.foldl (fun s r => g s r.1 r.2 (queryIdOf r.1)) s) none := by
  induction rs generalizing s with
  | nil => rfl
  | cons r rs ih => simp [feed, ih]

theorem ExtractQueryId_returns (key : String) (hk : key.data ≠ []) :
    KeyValueFileScanner.ExtractQueryId key = .ret (queryIdOf key) none := by
  unfold queryIdOf KeyValueFileScanner.ExtractQueryId
  cases hd : key.data with
  | nil => exact absurd hd hk
  | cons c rest =>
    dsimp only
    split
    · rfl
    · split <;> rfl

/-- C29: for a non-empty list of records whose keys are non-empty and hold
neither `=` nor byte 30 and whose values do not hold byte 30, `ForEach` with
deduplication off over the bytes `k_1=v_1 0x1E k_2=v_2 ...`, with or without
a trailing 0x1E, returns nil for a callback that never fails, and the state
of the callback afterwards is the one reached by calling it once per record,
in input order, with the key, the value and the query id that
`ExtractQueryId` returns for the key.  When the bytes are well-formed
records (any number, each followed by byte 30) followed by a line without
`=` (not empty, or followed by byte 30), `ForEach` returns a non-nil error
after the calls for these records. -/
theorem ForEach_calls_fn_once_per_record {σ : Type} (g : σ → String → String → Int → σ)
    (rs : List (String × String)) (hne : rs ≠ []) (hgood : ∀ r ∈ rs, GoodRecord r)
    (trailing : Bool) (k : KeyValueFileScanner) (hk : k.DeduplicateKeys = false) (s : σ) :
    (k.MappedBytes = some (String.mk (kvBytes rs trailing)) →
      ∃ k1, k.ForEach (fun s key value queryId => .ret (g s key value queryId) none) s =
        .ret (k1, rs.foldl (fun s r => g s r.1 r.2 (queryIdOf r.1)) s) none) ∧
    (∀ r ∈ rs, KeyValueFileScanner.ExtractQueryId r.1 = .ret (queryIdOf r.1) none) ∧
    (∀ (pre : List (String × String)) (bad tail : List Char), (∀ r ∈ pre, GoodRecord r) →
      '=' ∉ bad → recordSeparator ∉ bad →
      ((tail = [] ∧ bad ≠ []) ∨ ∃ t, tail = recordSeparator :: t) →
      k.MappedBytes = some (String.mk (terminated pre ++ (bad ++ tail))) →
      ∃ k1 err, k.ForEach (fun s key value queryId => .ret (g s key value queryId) none) s =
        .ret (k1, pre.foldl (fun s r => g s r.1 r.2 (queryIdOf r.1)) s) (some err)) := by
  refine ⟨fun hb => ?_, fun r hr => ExtractQueryId_returns r.1 (hgood r hr).1, ?_⟩
  · exact (ForEach_feed _ rs hne hgood trailing k hk hb s).2.2 _ (feed_total g rs s)
  · intro pre bad tail hpre heq hsep htail hb
    unfold KeyValueFileScanner.ForEach
    simp only [hb, hk, Bool.false_eq_true, if_false]
    have hall : terminated pre ++ (bad ++ tail) = [] ++ (terminated pre ++ (bad ++ tail)) := rfl
    obtain ⟨k1, hd1, h1⟩ := (forEachFrom_terminated _ (terminated pre ++ (bad ++ tail)) pre hpre
      [] (bad ++ tail) k s hall hk).2.2 _ (feed_total g pre s)
    simp only [List.length_nil, Nat.zero_add] at h1
    rw [h1]
    have hbad := forEachFrom_bad (fun s key value queryId => .ret (g s key value queryId) none)
      (terminated pre ++ (bad ++ tail)) (terminated pre) bad tail k1
      (pre.foldl (fun s r => g s r.1 r.2 (queryIdOf r.1)) s) rfl heq hsep htail
    exact ⟨k1, _, hbad⟩

/-- C29 on four records, with the separator after the last one: the
callback that collects its arguments has been called with them in order. -/
theorem ForEach_calls_fn_once_per_record_witness :
    (∃ k1, (scannerOn (kvBytes sampleRecords true)).ForEach
        (fun s key value queryId => .ret (s ++ [(key, value, queryId)]) none) [] =
      .ret (k1, sampleRecords.foldl (fun s r => s ++ [(r.1, r.2, queryIdOf r.1)]) []) none) ∧
    sampleRecords.foldl (fun s r => s ++ [(r.1, r.2, queryIdOf r.1)]) [] =
      [("12.a", "x", 12), ("12.a", "y", 12), ("13.b", "", 13), ("LAST_POPULATE", "1", 0)] :=
  ⟨(ForEach_calls_fn_once_per_record (fun s key value queryId => s ++ [(key, value, queryId)])
      sampleRecords (by decide) (by decide) true (scannerOn (kvBytes sampleRecords true)) rfl
      []).1 rfl,
   by decide⟩

/-! ## `InsertAllKeysAndValues` -/

/-- One call of the callback, by case. -/
theorem insertRecord_cases {W : Type} (api : WriterCApi W) (st : InsertState W)
    (key value : String) (queryId : Int) :
    (key = st.previousKey →
      ∃ st1, insertRecord api st key value queryId = .ret st1 none ∧
        st1.previousKey = key ∧ st1.reached = st.reached ∧ st1.inserted = st.inserted ∧
        st1.cacheWriter = st.cacheWriter ∧ st1.creator.KeyTypes = st.creator.KeyTypes) ∧
    (key ≠ st.previousKey →
      keyTypeOf st.creator.KeyTypes queryId ≠ StringValueType ∧ value.length = 0 →
      ∃ st1, insertRecord api st key value queryId = .ret st1 none ∧
        st1.previousKey = key ∧ st1.reached = st.reached ++ [(key, value)] ∧
        st1.inserted = st.inserted ∧ st1.cacheWriter = st.cacheWriter ∧
        st1.creator.KeyTypes = st.creator.KeyTypes) ∧
    (key ≠ st.previousKey →
      ¬ (keyTypeOf st.creator.KeyTypes queryId ≠ StringValueType ∧ value.length = 0) →
      (st.cacheWriter.InsertKey api key value (keyTypeOf st.creator.KeyTypes queryId) = .panic →
        insertRecord api st key value queryId = .panic) ∧
      (∀ w err,
        st.cacheWriter.InsertKey api key value (keyTypeOf st.creator.KeyTypes queryId) =
          .ret w err →
        ∃ st1, insertRecord api st key value queryId = .ret st1 err ∧
          st1.previousKey = key ∧ st1.reached = st.reached ++ [(key, value)] ∧
          st1.inserted =
            st.inserted ++ [(key, value, keyTypeOf st.creator.KeyTypes queryId)] ∧
          st1.cacheWriter = w ∧ st1.creator.KeyTypes = st.creator.KeyTypes)) := by
  by_cases hl : hasPrefix key "LAST_POPULATE" = true
  · unfold insertRecord
    simp only [hl, if_true]
    refine ⟨fun hk => ?_, fun hk hskip => ?_, fun hk hskip => ⟨fun hp => ?_, fun w err hi => ?_⟩⟩
    · rw [if_neg (not_not.mpr hk)]
      exact ⟨_, rfl, hk.symm, rfl, rfl, rfl, rfl⟩
    · rw [if_pos hk, if_pos hskip]
      exact ⟨_, rfl, rfl, rfl, rfl, rfl, rfl⟩
    · rw [if_pos hk, if_neg hskip, hp]
    · rw [if_pos hk, if_neg hskip, hi]
      exact ⟨_, rfl, rfl, rfl, rfl, rfl, rfl⟩
  · unfold insertRecord
    simp only [hl, if_false, Bool.false_eq_true]
    refine ⟨fun hk => ?_, fun hk hskip => ?_, fun hk hskip => ⟨fun hp => ?_, fun w err hi => ?_⟩⟩
    · rw [if_neg (not_not.mpr hk)]
      exact ⟨_, rfl, hk.symm, rfl, rfl, rfl, rfl⟩
    · rw [if_pos hk, if_pos hskip]
      exact ⟨_, rfl, rfl, rfl, rfl, rfl, rfl⟩
    · rw [if_pos hk, if_neg hskip, hp]
    · rw [if_pos hk, if_neg hskip, hi]
      exact ⟨_, rfl, rfl, rfl, rfl, rfl, rfl⟩

theorem InsertKey_handle {W : Type} (api : WriterCApi W) (c : CacheWriter W) (k v : String)
    (keyType : Int) (hh : c.Handle ≠ none) :
    c.InsertKey api k v keyType ≠ .panic ∧
    ∀ w e, c.InsertKey api k v keyType = .ret w e → w.Handle ≠ none := by
  unfold CacheWriter.InsertKey
  cases hc : c.Handle with
  | none => exact absurd hc hh
  | some h =>
    constructor
    · simp only []
      repeat' (first | (simp; done) | split)
    · intro w e
      simp only []
      repeat' split
      all_goals
        intro heq
        cases heq
        first | exact hh | simp

theorem insertedOf_cons_skip (keyTypes : List (Int × Int)) (r : String × String)
    (R : List (String × String))
    (hs : keyTypeOf keyTypes (queryIdOf r.1) ≠ StringValueType ∧ r.2.length = 0) :
    insertedOf keyTypes (r :: R) = insertedOf keyTypes R := by
  simp [insertedOf, List.filter, hs.1, hs.2]

theorem insertedOf_cons_keep (keyTypes : List (Int × Int)) (r : String × String)
    (R : List (String × String))
    (hs : ¬ (keyTypeOf keyTypes (queryIdOf r.1) ≠ StringValueType ∧ r.2.length = 0)) :
    insertedOf keyTypes (r :: R) =
      (r.1, r.2, keyTypeOf keyTypes (queryIdOf r.1)) :: insertedOf keyTypes R := by
  have : (keyTypeOf keyTypes (queryIdOf r.1) = StringValueType ∨ r.2.length ≠ 0) := by
    by_cases h : keyTypeOf keyTypes (queryIdOf r.1) = StringValueType
    · exact Or.inl h
    · exact Or.inr (fun h2 => hs ⟨h, h2⟩)
  simp [insertedOf, List.filter, this]

/-- The callback over a list of records with non-empty keys. -/
theorem feed_insertRecord {W : Type} (api : WriterCApi W) (rs : List (String × String))
    (hkeys : ∀ r ∈ rs, r.1.data ≠ []) :
    ∀ (st : InsertState W) (prev : Option String), st.previousKey = prev.getD "" →
      (st.cacheWriter.Handle ≠ none → feed (insertRecord api) rs st ≠ .panic) ∧
      ∀ st1 e, feed (insertRecord api) rs st = .ret st1 e →
        st1.creator.KeyTypes = st.creator.KeyTypes ∧
        ∃ R, st1.reached = st.reached ++ R ∧
          st1.inserted = st.inserted ++ insertedOf st.creator.KeyTypes R ∧
          R <+: firstOfRuns prev rs ∧ (e = none → R = firstOfRuns prev rs) := by
  induction rs with
  | nil =>
    intro st prev _
    refine ⟨fun _ => by simp [feed], fun st1 e h => ?_⟩
    simp only [feed] at h
    cases h
    exact ⟨rfl, [], by simp, by simp [insertedOf], by simp [firstOfRuns], fun _ => rfl⟩
  | cons r rs ih =>
    intro st prev hprev
    have hr : r.1.data ≠ [] := hkeys r (by simp)
    have hrs : ∀ x ∈ rs, x.1.data ≠ [] := fun x hx => hkeys x (by simp [hx])
    have hne : r.1 ≠ "" := fun e => hr (by rw [e])
    have hiff : r.1 ≠ st.previousKey ↔ prev ≠ some r.1 := by
      rw [hprev]
      cases prev with
      | none => simp [hne]
      | some p =>
        simp only [Option.getD_some, ne_eq, Option.some.injEq]
        exact ⟨fun h e => h e.symm, fun h e => h e.symm⟩
    obtain ⟨c1, c2, c3⟩ := insertRecord_cases api st r.1 r.2 (queryIdOf r.1)
    by_cases hk : r.1 = st.previousKey
    · obtain ⟨st2, h2, hp2, hr2, hi2, hw2, hkt2⟩ := c1 hk
      have hfeed : feed (insertRecord api) (r :: rs) st = feed (insertRecord api) rs st2 := by
        simp [feed, h2]
      have hfirst : firstOfRuns prev (r :: rs) = firstOfRuns (some r.1) rs := by
        have : ¬ prev ≠ some r.1 := fun h => (hiff.mpr h) hk
        simp [firstOfRuns, this]
      obtain ⟨i1, i2⟩ := ih hrs st2 (some r.1) (by simp [hp2])
      rw [hfeed, hfirst]
      refine ⟨fun hh => i1 (by rw [hw2]; exact hh), fun st1 e h => ?_⟩
      obtain ⟨j1, R, j2, j3, j4, j5⟩ := i2 st1 e h
      exact ⟨j1.trans hkt2, R, by rw [j2, hr2], by rw [j3, hi2, hkt2], j4, j5⟩
    · have hfirst : firstOfRuns prev (r :: rs) = r :: firstOfRuns (some r.1) rs := by
        simp [firstOfRuns, hiff.mp hk]
      rw [hfirst]
      by_cases hs : keyTypeOf st.creator.KeyTypes (queryIdOf r.1) ≠ StringValueType ∧
          r.2.length = 0
      · obtain ⟨st2, h2, hp2, hr2, hi2, hw2, hkt2⟩ := c2 hk hs
        have hfeed : feed (insertRecord api) (r :: rs) st = feed (insertRecord api) rs st2 := by
          simp [feed, h2]
        obtain ⟨i1, i2⟩ := ih hrs st2 (some r.1) (by simp [hp2])
        rw [hfeed]
        refine ⟨fun hh => i1 (by rw [hw2]; exact hh), fun st1 e h => ?_⟩
        obtain ⟨j1, R, j2, j3, j4, j5⟩ := i2 st1 e h
        refine ⟨j1.trans hkt2, r :: R, by rw [j2, hr2]; simp, ?_,
          List.prefix_cons_inj r |>.mpr j4, fun he => by rw [j5 he]⟩
        rw [j3, hi2, hkt2, insertedOf_cons_skip _ _ _ hs]
      · obtain ⟨d1, d2⟩ := c3 hk hs
        cases hins : st.cacheWriter.InsertKey api r.1 r.2
            (keyTypeOf st.creator.KeyTypes (queryIdOf r.1)) with
        | panic =>
          have hfeed : feed (insertRecord api) (r :: rs) st = .panic := by
            simp [feed, d1 hins]
          rw [hfeed]
          refine ⟨fun hh => absurd hins (InsertKey_handle api _ _ _ _ hh).1, fun st1 e h => ?_⟩
          cases h
        | ret w err =>
          obtain ⟨st2, h2, hp2, hr2, hi2, hw2, hkt2⟩ := d2 w err hins
          cases err with
          | some x =>
            have hfeed : feed (insertRecord api) (r :: rs) st = .ret st2 (some x) := by
              simp [feed, h2]
            rw [hfeed]
            refine ⟨fun _ => by simp, fun st1 e h => ?_⟩
            cases h
            refine ⟨hkt2, [r], by rw [hr2], ?_, by simp, fun he => by cases he⟩
            rw [hi2, insertedOf_cons_keep _ _ _ hs]
            simp [insertedOf]
          | none =>
            have hfeed : feed (insertRecord api) (r :: rs) st =
                feed (insertRecord api) rs st2 := by
              simp [feed, h2]
            obtain ⟨i1, i2⟩ := ih hrs st2 (some r.1) (by simp [hp2])
            rw [hfeed]
            refine ⟨fun hh => i1 (by
              rw [hw2]
              exact (InsertKey_handle api _ _ _ _ hh).2 _ _ hins), fun st1 e h => ?_⟩
            obtain ⟨j1, R, j2, j3, j4, j5⟩ := i2 st1 e h
            refine ⟨j1.trans hkt2, r :: R, by rw [j2, hr2]; simp, ?_,
              List.prefix_cons_inj r |>.mpr j4, fun he => by rw [j5 he]⟩
            rw [j3, hi2, hkt2, insertedOf_cons_keep _ _ _ hs]
            simp

/-- What `InsertAllKeysAndValues` does on a file of well-formed records with a
scanner that does not deduplicate and a writer with a native handle: it
returns; the state it leaves is the one the callback reaches over the
records; the records that entered the guarded block are a prefix of those
whose key differs from the key before, all of them when the callback
reported no error; and `InsertKey` was called for those of them that have a
non-empty value or the key type `StringValueType`. -/
theorem InsertAll_run {W : Type} (api : WriterCApi W) (mapFile : String → Mapped)
    (c : CacheCreator) (w : CacheWriter W) (scanner : KeyValueFileScanner)
    (path dataFile : String) (rs : List (String × String)) (hne : rs ≠ [])
    (hgood : ∀ r ∈ rs, GoodRecord r) (trailing : Bool)
    (hd : scanner.DeduplicateKeys = false)
    (hmap : mapFile path = .bytes (String.mk (kvBytes rs trailing))) (hh : w.Handle ≠ none) :
    ∃ st k1 loopErr,
      feed (insertRecord api) rs ⟨c, "", w, [], []⟩ = .ret st loopErr ∧
      c.InsertAllKeysAndValues api mapFile w scanner path dataFile =
        .ret (st, k1)
          (if loopErr ≠ none then loopErr
           else if st.creator.HasLastPopulateKey then none
           else some (.plain ("Invalid key value file \x27" ++ dataFile ++
             "\x27 : missing LAST_POPULATE key"))) ∧
      st.reached <+: firstOfRuns none rs ∧
      st.inserted = insertedOf c.KeyTypes st.reached ∧
      (loopErr = none → st.reached = firstOfRuns none rs) := by
  have hkeys : ∀ r ∈ rs, r.1.data ≠ [] := fun r hr => (hgood r hr).1
  obtain ⟨np, hf⟩ := feed_insertRecord api rs hkeys ⟨c, "", w, [], []⟩ none rfl
  have hopen : scanner.SetPath mapFile path =
      (none, scanner.mapped path (String.mk (kvBytes rs trailing))) := by
    simp [KeyValueFileScanner.SetPath, hmap, KeyValueFileScanner.mapped]
  obtain ⟨e1, e2, e3⟩ := ForEach_feed (insertRecord api) rs hne hgood trailing
    (scanner.mapped path (String.mk (kvBytes rs trailing))) hd rfl ⟨c, "", w, [], []⟩
  unfold CacheCreator.InsertAllKeysAndValues
  simp only [hopen]
  cases hfeed : feed (insertRecord api) rs ⟨c, "", w, [], []⟩ with
  | panic => exact absurd hfeed (np hh)
  | ret st loopErr =>
    obtain ⟨_, R, r1, r2, r3, r4⟩ := hf st loopErr hfeed
    simp only [List.nil_append] at r1 r2
    cases loopErr with
    | some err =>
      obtain ⟨k1, hk1⟩ := e2 st err hfeed
      refine ⟨st, k1, some err, rfl, ?_, by rw [r1]; exact r3, by rw [r2, r1],
        fun h => by cases h⟩
      rw [hk1]
      simp
    | none =>
      obtain ⟨k1, hk1⟩ := e3 st hfeed
      refine ⟨st, k1, none, rfl, ?_, by rw [r1]; exact r3, by rw [r2, r1],
        fun h => by rw [r1]; exact r4 h⟩
      rw [hk1]
      by_cases hl : st.creator.HasLastPopulateKey = true
      · simp [hl]
      · simp [hl]

/-- A call of `InsertKey` on an initialised writer with a native handle, for
a non-empty key, when the native insert answers 0. -/
theorem InsertKey_ok_of_code {W : Type} (api : WriterCApi W)
    (hcode : ∀ h k v t, (api.InsertKey h k v t).1 = 0) (c : CacheWriter W) (k v : String)
    (keyType : Int) (hi : c.IsInitialized = true) (hh : c.Handle ≠ none) (hk : k.data ≠ []) :
    ∃ w, c.InsertKey api k v keyType = .ret w none ∧ w.IsInitialized = true ∧
      w.Handle ≠ none := by
  unfold CacheWriter.InsertKey
  have hlen : ¬ k.length = 0 := by
    intro h0
    apply hk
    have : k.data.length = 0 := h0
    exact List.length_eq_zero.mp this
  cases hc : c.Handle with
  | none => exact absurd hc hh
  | some h =>
    simp only [CacheWriter.isInitialized, hi, not_true_eq_false, if_false, hlen]
    by_cases hv : v.length = 0
    · simp only [hv, if_true, hcode, ne_eq, not_true_eq_false, if_false]
      exact ⟨_, rfl, rfl, by simp⟩
    · simp only [hv, if_false, hcode, ne_eq, not_true_eq_false]
      exact ⟨_, rfl, rfl, by simp⟩

/-- The callback reports an error only from a call of `InsertKey`, made for
the last record that entered the guarded block. -/
theorem feed_insertRecord_stop {W : Type} (api : WriterCApi W) (rs : List (String × String)) :
    ∀ (st st1 : InsertState W) (e : GoError),
      feed (insertRecord api) rs st = .ret st1 (some e) →
      ∃ key value w0, st1.reached.getLast? = some (key, value) ∧
        CacheWriter.InsertKey api w0 key value
            (keyTypeOf st.creator.KeyTypes (queryIdOf key)) =
          .ret st1.cacheWriter (some e) := by
  induction rs with
  | nil =>
    intro st st1 e h
    simp [feed] at h
  | cons r rs ih =>
    intro st st1 e h
    obtain ⟨c1, c2, c3⟩ := insertRecord_cases api st r.1 r.2 (queryIdOf r.1)
    by_cases hk : r.1 = st.previousKey
    · obtain ⟨st2, h2, _, _, _, _, hkt2⟩ := c1 hk
      have hfeed : feed (insertRecord api) (r :: rs) st = feed (insertRecord api) rs st2 := by
        simp [feed, h2]
      rw [hfeed] at h
      rw [← hkt2]
      exact ih st2 st1 e h
    · by_cases hs : keyTypeOf st.creator.KeyTypes (queryIdOf r.1) ≠ StringValueType ∧
          r.2.length = 0
      · obtain ⟨st2, h2, _, _, _, _, hkt2⟩ := c2 hk hs
        have hfeed : feed (insertRecord api) (r :: rs) st = feed (insertRecord api) rs st2 := by
          simp [feed, h2]
        rw [hfeed] at h
        rw [← hkt2]
        exact ih st2 st1 e h
      · obtain ⟨d1, d2⟩ := c3 hk hs
        cases hins : st.cacheWriter.InsertKey api r.1 r.2
            (keyTypeOf st.creator.KeyTypes (queryIdOf r.1)) with
        | panic =>
          have hfeed : feed (insertRecord api) (r :: rs) st = .panic := by
            simp [feed, d1 hins]
          rw [hfeed] at h
          cases h
        | ret w err =>
          obtain ⟨st2, h2, _, hr2, _, hw2, hkt2⟩ := d2 w err hins
          cases err with
          | some x =>
            have hfeed : feed (insertRecord api) (r :: rs) st = .ret st2 (some x) := by
              simp [feed, h2]
            rw [hfeed] at h
            cases h
            exact ⟨r.1, r.2, st.cacheWriter, by rw [hr2]; simp, by rw [hw2]; exact hins⟩
          | none =>
            have hfeed : feed (insertRecord api) (r :: rs) st =
                feed (insertRecord api) rs st2 := by
              simp [feed, h2]
            rw [hfeed] at h
            rw [← hkt2]
            exact ih st2 st1 e h

/-- The callback reports no error on an initialised writer with a native
handle whose native insert always answers 0. -/
theorem feed_insertRecord_ok {W : Type} (api : WriterCApi W)
    (hcode : ∀ h k v t, (api.InsertKey h k v t).1 = 0) (rs : List (String × String))
    (hkeys : ∀ r ∈ rs, r.1.data ≠ []) :
    ∀ (st st1 : InsertState W) (e : Option GoError), st.cacheWriter.IsInitialized = true →
      st.cacheWriter.Handle ≠ none → feed (insertRecord api) rs st = .ret st1 e → e = none := by
  induction rs with
  | nil =>
    intro st st1 e _ _ h
    simp only [feed] at h
    cases h
    rfl
  | cons r rs ih =>
    intro st st1 e hi hh h
    have hr : r.1.data ≠ [] := hkeys r (by simp)
    have hrs : ∀ x ∈ rs, x.1.data ≠ [] := fun x hx => hkeys x (by simp [hx])
    obtain ⟨c1, c2, c3⟩ := insertRecord_cases api st r.1 r.2 (queryIdOf r.1)
    by_cases hk : r.1 = st.previousKey
    · obtain ⟨st2, h2, _, _, _, hw2, _⟩ := c1 hk
      have hfeed : feed (insertRecord api) (r :: rs) st = feed (insertRecord api) rs st2 := by
        simp [feed, h2]
      rw [hfeed] at h
      exact ih hrs st2 st1 e (by rw [hw2]; exact hi) (by rw [hw2]; exact hh) h
    · by_cases hs : keyTypeOf st.creator.KeyTypes (queryIdOf r.1) ≠ StringValueType ∧
          r.2.length = 0
      · obtain ⟨st2, h2, _, _, _, hw2, _⟩ := c2 hk hs
        have hfeed : feed (insertRecord api) (r :: rs) st = feed (insertRecord api) rs st2 := by
          simp [feed, h2]
        rw [hfeed] at h
        exact ih hrs st2 st1 e (by rw [hw2]; exact hi) (by rw [hw2]; exact hh) h
      · obtain ⟨_, d2⟩ := c3 hk hs
        obtain ⟨w, hins, hwi, hwh⟩ := InsertKey_ok_of_code api hcode st.cacheWriter r.1 r.2
          (keyTypeOf st.creator.KeyTypes (queryIdOf r.1)) hi hh hr
        obtain ⟨st2, h2, _, _, _, hw2, _⟩ := d2 w none hins
        have hfeed : feed (insertRecord api) (r :: rs) st = feed (insertRecord api) rs st2 := by
          simp [feed, h2]
        rw [hfeed] at h
        exact ih hrs st2 st1 e (by rw [hw2]; exact hwi) (by rw [hw2]; exact hwh) h

set_option maxRecDepth 8000

/-- C22, counterexample: with a scanner that deduplicates keys, the third of
the records `12.a=x`, `12.b=y`, `12.a=z`, `LAST_POPULATE=1` does not reach the
insertion step although its key differs from the key of the record before
it; and when `InsertKey` fails on the first record (native code 3), the loop
ends there and no later record reaches the insertion step, whatever its
key. -/
theorem later_record_with_new_key_is_not_offered :
    offeredIn (sampleCreator.InsertAllKeysAndValues (constWriterApi 0 0 "")
        (mapTo (kvBytes returningRecords false)) sampleWriter
        NewKeyValueFileScanner.EnableKeysDeduplication "kv" "kv") =
      some ([("12.a", "x"), ("12.b", "y"), ("LAST_POPULATE", "1")],
        [("12.a", "x", 0), ("12.b", "y", 0), ("LAST_POPULATE", "1", 0)], none) ∧
    offeredIn (sampleCreator.InsertAllKeysAndValues (constWriterApi 0 3 "")
        (mapTo (kvBytes returningRecords false)) sampleWriter
        NewKeyValueFileScanner "kv" "kv") =
      some ([("12.a", "x")], [("12.a", "x", 0)],
        some (.KeySpaceIsFullError "Error inserting key \x2712.a\x27 : error code 3")) :=
  ⟨by decide, by decide⟩

/-- C22, amended: on a file of well-formed records, with a scanner that does
not deduplicate and a writer with a native handle, `InsertAllKeysAndValues`
returns, and the records that reach the insertion step (the block guarded by
the comparison with `previousKey`) are, in input order and with their own
value, the records whose key differs from the key of the record immediately
before them (the first record included), up to and including the first
record on which `InsertKey` returns an error: they are all of these records
unless the call returns the error of an `InsertKey` made for the last record
that reached the step, and they are all of them whenever the writer is
initialised and the native insert answers 0.  `InsertKey` is called, in that
order, with the key, the value and the key type of those of them that the
empty-value rule lets pass. -/
theorem only_first_record_of_run_is_offered {W : Type} (api : WriterCApi W)
    (mapFile : String → Mapped) (c : CacheCreator) (w : CacheWriter W)
    (scanner : KeyValueFileScanner) (path dataFile : String) (rs : List (String × String))
    (hgood : ∀ r ∈ rs, GoodRecord r) (trailing : Bool)
    (hd : scanner.DeduplicateKeys = false)
    (hmap : mapFile path = .bytes (String.mk (kvBytes rs trailing))) (hh : w.Handle ≠ none) :
    ∃ st k1 err,
      c.InsertAllKeysAndValues api mapFile w scanner path dataFile = .ret (st, k1) err ∧
      st.reached <+: firstOfRuns none rs ∧
      (st.reached ≠ firstOfRuns none rs →
        ∃ key value w0 e, st.reached.getLast? = some (key, value) ∧
          CacheWriter.InsertKey api w0 key value (keyTypeOf c.KeyTypes (queryIdOf key)) =
            .ret st.cacheWriter (some e) ∧
          err = some e) ∧
      st.inserted = insertedOf c.KeyTypes st.reached ∧
      (w.IsInitialized = true → (∀ h k v t, (api.InsertKey h k v t).1 = 0) →
        st.reached = firstOfRuns none rs ∧
        st.inserted = insertedOf c.KeyTypes (firstOfRuns none rs)) := by
  by_cases hne : rs = []
  · subst hne
    have hb : kvBytes [] trailing = [] := by cases trailing <;> rfl
    rw [hb] at hmap
    have hrun : ∃ k1 err, c.InsertAllKeysAndValues api mapFile w scanner path dataFile =
        .ret (⟨c, "", w, [], []⟩, k1) err := by
      unfold CacheCreator.InsertAllKeysAndValues
      simp only [KeyValueFileScanner.SetPath, hmap, KeyValueFileScanner.ForEach, hd,
        KeyValueFileScanner.forEachFrom]
      by_cases hl : c.HasLastPopulateKey = true
      · simp [hl]
      · simp [hl]
    obtain ⟨k1, err, hrun⟩ := hrun
    exact ⟨_, k1, err, hrun, by simp [firstOfRuns], fun hneq => absurd rfl hneq, rfl,
      fun _ _ => ⟨rfl, rfl⟩⟩
  obtain ⟨st, k1, loopErr, hfeed, hrun, hpre, hins, hall⟩ :=
    InsertAll_run api mapFile c w scanner path dataFile rs hne hgood trailing hd hmap hh
  refine ⟨st, k1, _, hrun, hpre, fun hneq => ?_, hins, fun hi hcode => ?_⟩
  · cases loopErr with
    | none => exact absurd (hall rfl) hneq
    | some e =>
      obtain ⟨key, value, w0, h1, h2⟩ := feed_insertRecord_stop api rs _ st e hfeed
      exact ⟨key, value, w0, e, h1, h2, by simp⟩
  · have hnone := feed_insertRecord_ok api hcode rs (fun r hr => (hgood r hr).1) _ st loopErr
      hi hh hfeed
    have := hall hnone
    exact ⟨this, by rw [hins, this]⟩

/-- C22 on the four sample records `12.a=x`, `12.a=y`, `13.b=` (a boolean
key) and `LAST_POPULATE=1`: the second record, whose key is the key of the
first, does not reach the insertion step; the other three do, in order. -/
theorem only_first_record_of_run_is_offered_witness :
    ∃ st k1 err,
      sampleCreator.InsertAllKeysAndValues (constWriterApi 0 0 "")
          (mapTo (kvBytes sampleRecords false)) sampleWriter NewKeyValueFileScanner "kv" "kv" =
        .ret (st, k1) err ∧
      st.reached = [("12.a", "x"), ("13.b", ""), ("LAST_POPULATE", "1")] ∧
      st.inserted = [("12.a", "x", 0), ("LAST_POPULATE", "1", 0)] := by
  obtain ⟨st, k1, err, h1, _, _, _, h5⟩ :=
    only_first_record_of_run_is_offered (constWriterApi 0 0 "")
      (mapTo (kvBytes sampleRecords false)) sampleCreator sampleWriter NewKeyValueFileScanner
      "kv" "kv" sampleRecords (by decide) false rfl rfl (by decide)
  obtain ⟨h6, h7⟩ := h5 rfl (fun _ _ _ _ => rfl)
  refine ⟨st, k1, err, h1, ?_, ?_⟩
  · rw [h6]; decide
  · rw [h7]; decide

/-- C25: in the callback of `InsertAllKeysAndValues`, a record with an empty
value whose key type is not `StringValueType` is not passed to `InsertKey`
(the calls made and the writer are unchanged) and the callback returns nil;
a record whose key type is `StringValueType` and which reaches the
insertion step (its key differs from `previousKey`) is passed to `InsertKey`
with its key, its value and type 0, whether the value is empty or not, and
the callback returns what `InsertKey` returns.  In a run of
`InsertAllKeysAndValues` over well-formed records (scanner without
deduplication, writer with a native handle) no call of `InsertKey` has an
empty value with a key type other than 0, and every record of key type 0
that reached the insertion step was passed to `InsertKey`. -/
theorem empty_value_skipped_unless_string {W : Type} (api : WriterCApi W)
    (st : InsertState W) (key value : String) (queryId : Int) :
    (keyTypeOf st.creator.KeyTypes queryId ≠ StringValueType → value.length = 0 →
      ∃ st1, insertRecord api st key value queryId = .ret st1 none ∧
        st1.inserted = st.inserted ∧ st1.cacheWriter = st.cacheWriter) ∧
    (keyTypeOf st.creator.KeyTypes queryId = StringValueType → key ≠ st.previousKey →
      (st.cacheWriter.InsertKey api key value StringValueType = .panic →
        insertRecord api st key value queryId = .panic) ∧
      ∀ w err, st.cacheWriter.InsertKey api key value StringValueType = .ret w err →
        ∃ st1, insertRecord api st key value queryId = .ret st1 err ∧
          st1.inserted = st.inserted ++ [(key, value, StringValueType)] ∧
          st1.cacheWriter = w) ∧
    (∀ (mapFile : String → Mapped) (c : CacheCreator) (w : CacheWriter W)
      (scanner : KeyValueFileScanner) (path dataFile : String) (rs : List (String × String))
      (trailing : Bool), rs ≠ [] → (∀ r ∈ rs, GoodRecord r) →
      scanner.DeduplicateKeys = false →
      mapFile path = .bytes (String.mk (kvBytes rs trailing)) → w.Handle ≠ none →
      ∃ out err, c.InsertAllKeysAndValues api mapFile w scanner path dataFile = .ret out err ∧
        (∀ x ∈ out.1.inserted, x.2.2 = StringValueType ∨ x.2.1.length ≠ 0) ∧
        (∀ r ∈ out.1.reached, keyTypeOf c.KeyTypes (queryIdOf r.1) = StringValueType →
          (r.1, r.2, StringValueType) ∈ out.1.inserted)) := by
  obtain ⟨c1, c2, c3⟩ := insertRecord_cases api st key value queryId
  refine ⟨fun ht hv => ?_, fun ht hk => ?_, ?_⟩
  · by_cases hk : key = st.previousKey
    · obtain ⟨st1, h1, _, _, h3, h4, _⟩ := c1 hk
      exact ⟨st1, h1, h3, h4⟩
    · obtain ⟨st1, h1, _, _, h3, h4, _⟩ := c2 hk ⟨ht, hv⟩
      exact ⟨st1, h1, h3, h4⟩
  · obtain ⟨d1, d2⟩ := c3 hk (fun h => h.1 ht)
    rw [ht] at d1 d2
    refine ⟨d1, fun w err hi => ?_⟩
    obtain ⟨st1, h1, _, _, h3, h4, _⟩ := d2 w err hi
    exact ⟨st1, h1, h3, h4⟩
  · intro mapFile c w scanner path dataFile rs trailing hne hgood hd hmap hh
    obtain ⟨st2, k1, loopErr, _, hrun, _, hins, _⟩ :=
      InsertAll_run api mapFile c w scanner path dataFile rs hne hgood trailing hd hmap hh
    refine ⟨_, _, hrun, fun x hx => ?_, fun r hr ht => ?_⟩
    · simp only [hins, insertedOf, List.mem_map, List.mem_filter, decide_eq_true_eq] at hx
      obtain ⟨r, ⟨_, hr⟩, rfl⟩ := hx
      exact hr
    · simp only [hins, insertedOf, List.mem_map, List.mem_filter, decide_eq_true_eq]
      exact ⟨r, ⟨hr, Or.inl ht⟩, by rw [ht]⟩

/-- C25 on the sample records: the boolean record with the empty value is
not among the calls of `InsertKey`, and a string record with an empty value
is passed on. -/
theorem empty_value_skipped_unless_string_witness :
    (∃ st1, insertRecord (constWriterApi 0 0 "") ⟨sampleCreator, "12.a", sampleWriter, [], []⟩
        "13.b" "" 13 = .ret st1 none ∧
      st1.inserted = [] ∧ st1.cacheWriter = sampleWriter) ∧
    (∃ st1, insertRecord (constWriterApi 0 0 "") ⟨sampleCreator, "12.a", sampleWriter, [], []⟩
        "14.c" "" 14 = .ret st1 none ∧
      st1.inserted = [] ++ [("14.c", "", StringValueType)] ∧
      st1.cacheWriter = sampleWriter) :=
  ⟨(empty_value_skipped_unless_string (constWriterApi 0 0 "")
      ⟨sampleCreator, "12.a", sampleWriter, [], []⟩ "13.b" "" 13).1 (by decide) (by decide),
   ((empty_value_skipped_unless_string (constWriterApi 0 0 "")
      ⟨sampleCreator, "12.a", sampleWriter, [], []⟩ "14.c" "" 14).2.1 (by decide) (by decide)).2
      sampleWriter none rfl⟩

end AxonCache
